import Mathlib

/-!
# cont::tree — shallow embedding of `include/k_tree/k_tree.hpp`

Nodes live in a heap indexed by address; a `nodeptr` is a nullable address and
a `tree` is the pair of its `root` and `foot` pointers. Every operation of the
source is a function on the heap (and the tree object) returning
`Except Fault`: undefined behaviour of the C++ source (null or dangling
dereference, `back()` or `front()` of an empty container, reading an
uninitialised member) and a failed `assert` are explicit faults.

Every loop of the source is a structurally recursive function. Loops whose
termination depends on the shape of the pointer graph carry a step budget
`fuel`; running out of it is the fault `out_of_fuel`, and the theorems state
how much budget suffices.

The second part describes a node graph abstractly as a `Forest` and relates it
to the heap (`owns`, `well_formed`); the theorems follow.
-/

namespace cont

/-- Ways in which an operation of the source can fail to produce a result. -/
inductive Fault where
  | null_deref
  | dangling
  | empty_container
  | uninit_read
  | assert_fail
  | out_of_fuel
deriving DecidableEq

/-- Nullable node address (`node*`), `none` is `nullptr`. -/
abbrev nodeptr := Option Nat

/-- Node record of the source: `struct node`. -/
structure node (α : Type) where
  parent : nodeptr
  left : nodeptr
  right : nodeptr
  child_begin : nodeptr
  child_end : nodeptr
  value : Option α
deriving DecidableEq

/-- Memory: cell `a` holds the node at address `a`, or `none` once deleted. -/
abbrev Heap (α : Type) := List (Option (node α))

/-- The data members `root` and `foot` of `class tree`. -/
structure tree where
  root : nodeptr
  foot : nodeptr
deriving DecidableEq

variable {α : Type}

/-- Dereference of a node pointer (`n->...`). -/
def rd (h : Heap α) (p : nodeptr) : Except Fault (node α) :=
  match p with
  | none => .error .null_deref
  | some a =>
    match h[a]? with
    | some (some nd) => .ok nd
    | _ => .error .dangling

/-- Store through a node pointer (`n->field = ...`). -/
def wr (h : Heap α) (p : nodeptr) (f : node α → node α) : Except Fault (Heap α) :=
  match rd h p with
  | .error e => .error e
  | .ok nd =>
    match p with
    | none => .error .null_deref
    | some a => .ok (h.set a (some (f nd)))

/-- Source `p_node_allocate`: a fresh node with all links null; the value slot
is filled when `allocate` is true. Returns the new heap and the address. -/
def p_node_allocate (h : Heap α) (v : Option α) : Heap α × Nat :=
  (h ++ [some ⟨none, none, none, none, none, v⟩], h.length)

/-- Source `p_node_deallocate`: no effect on `nullptr`, otherwise the value
and the node are destroyed. -/
def p_node_deallocate (h : Heap α) (p : nodeptr) : Except Fault (Heap α) :=
  match p with
  | none => .ok h
  | some a =>
    match h[a]? with
    | some (some _) => .ok (h.set a none)
    | _ => .error .dangling

/-- Source `p_init`: `root = p_node_allocate(false); foot = root`. -/
def p_init (h : Heap α) : Heap α × tree :=
  let r := p_node_allocate h none
  (r.1, ⟨some r.2, some r.2⟩)

/-- Source `tree::empty`. -/
def tree.empty (t : tree) : Bool := t.root == t.foot

/-- Source `tree::begin`. -/
def tree.begin (t : tree) : nodeptr := t.root

/-- Source `tree::end`. -/
def tree.end_ (t : tree) : nodeptr := t.foot

/-- Source `iterator_base::operator*`: `*n->value`. -/
def deref (h : Heap α) (n : nodeptr) : Except Fault α :=
  match rd h n with
  | .error e => .error e
  | .ok nd =>
    match nd.value with
    | none => .error .null_deref
    | some v => .ok v

/-- The `while (!n->right)` loop of `df_iterator::operator++`. -/
def df_inc_climb : Nat → Heap α → nodeptr → Except Fault nodeptr
  | 0, _, _ => .error .out_of_fuel
  | fuel + 1, h, n =>
    match rd h n with
    | .error e => .error e
    | .ok nd =>
      match nd.right with
      | some r => .ok (some r)
      | none =>
        match nd.parent with
        | none => .ok none
        | some p => df_inc_climb fuel h (some p)

/-- Source `df_iterator::operator++`. -/
def df_inc (fuel : Nat) (h : Heap α) (n : nodeptr) : Except Fault nodeptr :=
  match rd h n with
  | .error e => .error e
  | .ok nd =>
    match nd.child_begin with
    | some c => .ok (some c)
    | none => df_inc_climb fuel h n

/-- The `while (n->child_end)` loop of `df_iterator::operator--`. -/
def df_dec_descend : Nat → Heap α → nodeptr → Except Fault nodeptr
  | 0, _, _ => .error .out_of_fuel
  | fuel + 1, h, n =>
    match rd h n with
    | .error e => .error e
    | .ok nd =>
      match nd.child_end with
      | none => .ok n
      | some c => df_dec_descend fuel h (some c)

/-- Source `df_iterator::operator--`. -/
def df_dec (fuel : Nat) (h : Heap α) (n : nodeptr) : Except Fault nodeptr :=
  match rd h n with
  | .error e => .error e
  | .ok nd =>
    match nd.left with
    | some l => df_dec_descend fuel h (some l)
    | none => .ok nd.parent

/-- State of a `bf_iterator`: the current node, the member `end` (`none` while
it is still uninitialised) and the queue `q` (front first). -/
structure bf_iterator where
  n : nodeptr
  end_ : Option nodeptr
  q : List nodeptr
deriving DecidableEq

/-- Source `bf_iterator::bf_iterator(nodeptr n)`: `q.emplace(n)`; the member
`end` is not initialised. -/
def bf_iterator.ctor (n : nodeptr) : bf_iterator := ⟨n, none, [n]⟩

/-- The `do { top = q.front(); q.pop(); } while (!top->child_begin && !q.empty())`
loop of `bf_iterator::operator++`; returns `top` and the remaining queue. -/
def bf_pop (h : Heap α) : List nodeptr → Except Fault (node α × List nodeptr)
  | [] => .error .empty_container
  | top :: q =>
    match rd h top with
    | .error e => .error e
    | .ok nd =>
      if nd.child_begin = none ∧ q ≠ [] then bf_pop h q else .ok (nd, q)

/-- Source `bf_iterator::operator++`. -/
def bf_inc (h : Heap α) (it : bf_iterator) : Except Fault bf_iterator :=
  match rd h it.n with
  | .error e => .error e
  | .ok nd =>
    match nd.right, nd.parent with
    | some r, some _ => .ok ⟨some r, it.end_, it.q ++ [some r]⟩
    | right, _ =>
      let end1 : Option nodeptr := if right = none then it.end_ else some right
      match bf_pop h it.q with
      | .error e => .error e
      | .ok (top, q1) =>
        match top.child_begin with
        | none =>
          match end1 with
          | none => .error .uninit_read
          | some e => .ok ⟨e, end1, q1⟩
        | some c => .ok ⟨some c, end1, q1 ++ [some c]⟩

/-- Source `tree::set_root`; returns the heap, the tree and the iterator to
the root. -/
def set_root (h : Heap α) (t : tree) (v : α) : Except Fault (Heap α × tree × nodeptr) := do
  let (h1, t1) ←
    (if t.root = t.foot then do
      let r := p_node_allocate h none
      let foot : nodeptr := some r.2
      let h1 ← wr r.1 t.root (fun nd => { nd with right := foot })
      let h2 ← wr h1 foot (fun nd => { nd with left := t.root })
      pure (h2, (⟨t.root, foot⟩ : tree))
    else pure (h, t) : Except Fault (Heap α × tree))
  let h2 ← wr h1 t1.root (fun nd => { nd with value := some v })
  pure (h2, t1, t1.root)

/-- Source `tree::tree(const Allocator&, Args&&...)`: `p_init(); set_root(args...)`.
`v` is the value the arguments construct (`T()` for no arguments). -/
def tree.ctor (h : Heap α) (v : α) : Except Fault (Heap α × tree) := do
  let (h1, t) := p_init h
  let (h2, t2, _) ← set_root h1 t v
  pure (h2, t2)

/-- Source `tree::prepend_child`. -/
def prepend_child (h : Heap α) (t : tree) (it : nodeptr) (v : α) :
    Except Fault (Heap α × nodeptr) := do
  if it = t.end_ then throw .assert_fail
  let (h1, a) := p_node_allocate h (some v)
  let tmp : nodeptr := some a
  let h2 ← wr h1 tmp (fun nd => { nd with parent := it })
  let nd ← rd h2 it
  match nd.child_begin with
  | none =>
    let h3 ← wr h2 it (fun nd => { nd with child_begin := tmp })
    let h4 ← wr h3 it (fun nd => { nd with child_end := tmp })
    pure (h4, tmp)
  | some c =>
    let h3 ← wr h2 (some c) (fun nd => { nd with left := tmp })
    let h4 ← wr h3 tmp (fun nd => { nd with right := some c })
    let h5 ← wr h4 it (fun nd => { nd with child_begin := tmp })
    pure (h5, tmp)

/-- Source `tree::append_child`. -/
def append_child (h : Heap α) (t : tree) (it : nodeptr) (v : α) :
    Except Fault (Heap α × nodeptr) := do
  if it = t.end_ then throw .assert_fail
  let nd ← rd h it
  match nd.child_end with
  | none => prepend_child h t it v
  | some e =>
    let (h1, a) := p_node_allocate h (some v)
    let tmp : nodeptr := some a
    let h2 ← wr h1 tmp (fun nd => { nd with parent := it })
    let h3 ← wr h2 tmp (fun nd => { nd with left := some e })
    let h4 ← wr h3 (some e) (fun nd => { nd with right := tmp })
    let h5 ← wr h4 it (fun nd => { nd with child_end := tmp })
    pure (h5, tmp)

/-- Source `tree::insert_left`. -/
def insert_left (h : Heap α) (t : tree) (it : nodeptr) (v : α) :
    Except Fault (Heap α × nodeptr) := do
  if it = t.begin then throw .assert_fail
  if it = t.end_ then throw .assert_fail
  let (h1, a) := p_node_allocate h (some v)
  let tmp : nodeptr := some a
  let nd ← rd h1 it
  let h2 ←
    (match nd.left with
    | some l => do
      let h2 ← wr h1 tmp (fun x => { x with left := some l })
      wr h2 (some l) (fun x => { x with right := tmp })
    | none => do
      let pn ← rd h1 nd.parent
      if it = pn.child_begin then wr h1 nd.parent (fun x => { x with child_begin := tmp })
      else pure h1 : Except Fault (Heap α))
  let h3 ← wr h2 tmp (fun x => { x with right := it })
  let h4 ← wr h3 it (fun x => { x with left := tmp })
  let h5 ← wr h4 tmp (fun x => { x with parent := nd.parent })
  pure (h5, tmp)

/-- Source `tree::insert_right`. -/
def insert_right (h : Heap α) (t : tree) (it : nodeptr) (v : α) :
    Except Fault (Heap α × nodeptr) := do
  if it = t.begin then throw .assert_fail
  if it = t.end_ then throw .assert_fail
  let (h1, a) := p_node_allocate h (some v)
  let tmp : nodeptr := some a
  let nd ← rd h1 it
  let h2 ←
    (match nd.right with
    | some r => do
      let h2 ← wr h1 tmp (fun x => { x with right := some r })
      wr h2 (some r) (fun x => { x with left := tmp })
    | none => do
      let pn ← rd h1 nd.parent
      if it = pn.child_end then wr h1 nd.parent (fun x => { x with child_end := tmp })
      else pure h1 : Except Fault (Heap α))
  let h3 ← wr h2 it (fun x => { x with right := tmp })
  let h4 ← wr h3 tmp (fun x => { x with left := it })
  let h5 ← wr h4 tmp (fun x => { x with parent := nd.parent })
  pure (h5, tmp)

/-- Source `p_erase_children(beg, end)`. The `for` loop is unrolled into the
recursion: one iteration, then the same function from `bak`; once
`n == end` the statements after the loop run. -/
def p_erase_children : Nat → Heap α → nodeptr → nodeptr → Except Fault (Heap α)
  | 0, _, _, _ => .error .out_of_fuel
  | fuel + 1, h, n, end_ =>
    if n ≠ end_ then
      match rd h n with
      | .error e => .error e
      | .ok nd =>
        match (match nd.child_begin with
               | some c => p_erase_children fuel h (some c) nd.child_end
               | none => .ok h) with
        | .error e => .error e
        | .ok h1 =>
          match rd h1 n with
          | .error e => .error e
          | .ok nd1 =>
            match p_node_deallocate h1 n with
            | .error e => .error e
            | .ok h2 => p_erase_children fuel h2 nd1.right end_
    else
      match end_ with
      | none => .ok h
      | some e =>
        match rd h (some e) with
        | .error er => .error er
        | .ok nd =>
          match (match nd.child_begin with
                 | some c => p_erase_children fuel h (some c) nd.child_end
                 | none => .ok h) with
          | .error er => .error er
          | .ok h1 => p_node_deallocate h1 (some e)

/-- Source `tree::erase`; returns the heap, the tree and the returned
iterator `bak`. -/
def erase (fuel : Nat) (h : Heap α) (t : tree) (it : nodeptr) :
    Except Fault (Heap α × tree × nodeptr) := do
  if it = t.foot then throw .assert_fail
  let nd ← rd h it
  let h1 ←
    (match nd.child_begin with
    | some c => p_erase_children fuel h (some c) nd.child_end
    | none => pure h : Except Fault (Heap α))
  let nd ← rd h1 it
  let bak : nodeptr := if nd.right ≠ none then nd.right else nd.parent
  let h2 ←
    (match nd.left with
    | some l => wr h1 (some l) (fun x => { x with right := nd.right })
    | none => pure h1 : Except Fault (Heap α))
  let h3 ←
    (match nd.right with
    | some r => wr h2 (some r) (fun x => { x with left := nd.left })
    | none => pure h2 : Except Fault (Heap α))
  let h5 ←
    (match nd.parent with
    | some p => do
      let pn ← rd h3 (some p)
      let h4 ←
        (if pn.child_begin = it then wr h3 (some p) (fun x => { x with child_begin := nd.right })
        else pure h3 : Except Fault (Heap α))
      let pn ← rd h4 (some p)
      if pn.child_end = it then wr h4 (some p) (fun x => { x with child_end := nd.left })
      else pure h4
    | none => pure h3 : Except Fault (Heap α))
  let t1 : tree := if it = t.root then ⟨t.foot, t.foot⟩ else t
  let h6 ← p_node_deallocate h5 it
  pure (h6, t1, bak)

/-- Source `tree::clear`. -/
def clear (fuel : Nat) (h : Heap α) (t : tree) : Except Fault (Heap α × tree) :=
  if t.root = t.foot then .ok (h, t)
  else
    match erase fuel h t t.root with
    | .error e => .error e
    | .ok (h1, t1, _) => .ok (h1, t1)

/-- The loop of `tree::size`. -/
def size_loop (F : Nat) (h : Heap α) (t : tree) : Nat → nodeptr → Nat → Except Fault Nat
  | 0, _, _ => .error .out_of_fuel
  | fuel + 1, it, result =>
    if it ≠ t.end_ then
      match df_inc F h it with
      | .error e => .error e
      | .ok it1 => size_loop F h t fuel it1 (result + 1)
    else .ok result

/-- Source `tree::size`. -/
def size (fuel : Nat) (h : Heap α) (t : tree) : Except Fault Nat :=
  size_loop fuel h t fuel t.begin 0

/-- The `while (tmp->parent)` loop of `tree_algo::depth_between`. -/
def depth_between_loop : Nat → Heap α → nodeptr → Nat → Except Fault (nodeptr × Nat)
  | 0, _, _, _ => .error .out_of_fuel
  | fuel + 1, h, tmp, i =>
    match rd h tmp with
    | .error e => .error e
    | .ok nd =>
      match nd.parent with
      | none => .ok (tmp, i)
      | some p => depth_between_loop fuel h (some p) (i + 1)

/-- Source `tree_algo::depth_between`. -/
def depth_between (fuel : Nat) (h : Heap α) (lhs rhs : nodeptr) : Except Fault Nat :=
  match depth_between_loop fuel h lhs 0 with
  | .error e => .error e
  | .ok (tmp, i) => .ok (if tmp ≠ rhs then 0 else i)

/-- The `while (tmp->right)` loop of `tree_algo::breadth_between`. -/
def breadth_between_loop : Nat → Heap α → nodeptr → Nat → Except Fault (nodeptr × Nat)
  | 0, _, _, _ => .error .out_of_fuel
  | fuel + 1, h, tmp, i =>
    match rd h tmp with
    | .error e => .error e
    | .ok nd =>
      match nd.right with
      | none => .ok (tmp, i)
      | some r => breadth_between_loop fuel h (some r) (i + 1)

/-- Source `tree_algo::breadth_between`. -/
def breadth_between (fuel : Nat) (h : Heap α) (lhs rhs : nodeptr) : Except Fault Nat :=
  match breadth_between_loop fuel h lhs 0 with
  | .error e => .error e
  | .ok (tmp, i) => .ok (if tmp ≠ rhs then 0 else i)

/-- Source `tree_algo::is_parent_to`. -/
def is_parent_to (fuel : Nat) (h : Heap α) (lhs rhs : nodeptr) : Except Fault Bool :=
  match depth_between fuel h lhs rhs with
  | .error e => .error e
  | .ok d => .ok (d != 0)

/-- Source `tree_algo::is_left_to`. -/
def is_left_to (fuel : Nat) (h : Heap α) (lhs rhs : nodeptr) : Except Fault Bool :=
  match breadth_between fuel h rhs lhs with
  | .error e => .error e
  | .ok d => .ok (d != 0)

/-- Source `tree_algo::is_right_to`. -/
def is_right_to (fuel : Nat) (h : Heap α) (lhs rhs : nodeptr) : Except Fault Bool :=
  match breadth_between fuel h lhs rhs with
  | .error e => .error e
  | .ok d => .ok (d != 0)

/-- The condition of the third `if` in the loop of `tree::operator==`: the
three relational predicates are compared in turn, `||` stopping at the first
that differs. -/
def rel_differs (F : Nat) (h : Heap α) (it it_bak this_it this_it_bak : nodeptr) :
    Except Fault Bool := do
  let p1 ← is_parent_to F h it it_bak
  let p2 ← is_parent_to F h this_it this_it_bak
  if p1 ≠ p2 then pure true
  else do
    let l1 ← is_left_to F h it it_bak
    let l2 ← is_left_to F h this_it this_it_bak
    if l1 ≠ l2 then pure true
    else do
      let r1 ← is_right_to F h it it_bak
      let r2 ← is_right_to F h this_it this_it_bak
      pure (r1 != r2)

/-- The loop of `tree::operator==` together with the test after it. `F` is
the step budget of the inner loops. -/
def eq_loop [DecidableEq α] (F : Nat) (h : Heap α) (this rhs : tree) :
    Nat → nodeptr → nodeptr → nodeptr → nodeptr → Except Fault Bool
  | 0, _, _, _, _ => .error .out_of_fuel
  | fuel + 1, this_it, this_it_bak, it, it_bak =>
    if it ≠ rhs.end_ then
      if this_it = this.end_ then .ok false
      else do
        let a ← deref h it
        let b ← deref h this_it
        if a ≠ b then pure false
        else do
          let d ← rel_differs F h it it_bak this_it this_it_bak
          if d then pure false
          else do
            let it1 ← df_inc F h it
            let this_it1 ← df_inc F h this_it
            eq_loop F h this rhs fuel this_it1 this_it it1 it
    else .ok (if this_it ≠ this.end_ then false else true)

/-- Source `tree::operator==`. -/
def op_eq [DecidableEq α] (fuel : Nat) (h : Heap α) (this rhs : tree) : Except Fault Bool :=
  eq_loop fuel h this rhs fuel this.begin this.begin rhs.begin rhs.begin

/-- Source `tree::operator!=`. -/
def op_ne [DecidableEq α] (fuel : Nat) (h : Heap α) (this rhs : tree) : Except Fault Bool :=
  match op_eq fuel h this rhs with
  | .error e => .error e
  | .ok b => .ok (!b)

/-- Source `queue.back()` of the `std::deque` in `p_transfer`; the list keeps
the back of the deque at its head. -/
def back (queue : List (nodeptr × Nat)) : Except Fault (nodeptr × Nat) :=
  match queue with
  | [] => .error .empty_container
  | x :: _ => .ok x

/-- The two pop loops of `p_transfer`:
`while (!queue.empty() && queue.back().second != it_dist)` for `stop = some it_dist`
and `while (!queue.empty())` for `stop = none`, both with the body
`n = queue.back().first; bak = n; n->parent = tmp; queue.pop_back()`. -/
def p_transfer_pop (tmp : nodeptr) (stop : Option Nat) :
    List (nodeptr × Nat) → Heap α → nodeptr → Except Fault (Heap α × List (nodeptr × Nat) × nodeptr)
  | [], h, bak => .ok (h, [], bak)
  | (n, d) :: queue, h, bak =>
    if stop = some d then .ok (h, (n, d) :: queue, bak)
    else
      match wr h n (fun x => { x with parent := tmp }) with
      | .error e => .error e
      | .ok h1 => p_transfer_pop tmp stop queue h1 n

/-- The `while (it != rhs.begin())` loop of `p_transfer`. -/
def p_transfer_loop (F : Nat) (rhs : tree) :
    Nat → Heap α → nodeptr → Nat → List (nodeptr × Nat) →
      Except Fault (Heap α × nodeptr × List (nodeptr × Nat))
  | 0, _, _, _, _ => .error .out_of_fuel
  | fuel + 1, h, it, prev_dist, queue =>
    if it ≠ rhs.begin then do
      let v ← deref h it
      let (h1, a) := p_node_allocate h (some v)
      let tmp : nodeptr := some a
      let it_dist ← depth_between F h1 it rhs.begin
      let (h2, queue2) ←
        (if it_dist < prev_dist then do
          let b ← back queue
          let h2 ← wr h1 tmp (fun x => { x with child_begin := b.1 })
          let (h3, queue3, bak) ← p_transfer_pop tmp (some it_dist) queue h2 b.1
          let h4 ← wr h3 tmp (fun x => { x with child_end := bak })
          let b2 ← back queue3
          let h5 ← wr h4 tmp (fun x => { x with right := b2.1 })
          let h6 ← wr h5 b2.1 (fun x => { x with left := tmp })
          pure (h6, queue3)
        else if it_dist = prev_dist ∧ queue ≠ [] then do
          let b ← back queue
          let h2 ← wr h1 tmp (fun x => { x with right := b.1 })
          let h3 ← wr h2 b.1 (fun x => { x with left := tmp })
          pure (h3, queue)
        else pure (h1, queue) : Except Fault (Heap α × List (nodeptr × Nat)))
      let it1 ← df_dec F h2 it
      p_transfer_loop F rhs fuel h2 it1 it_dist ((tmp, it_dist) :: queue2)
    else .ok (h, it, queue)

/-- Source `tree::p_transfer`; returns the heap and the destination tree. -/
def p_transfer (fuel : Nat) (h : Heap α) (this rhs : tree) : Except Fault (Heap α × tree) := do
  if rhs.empty then pure (h, this)
  else do
    let it ← df_dec fuel h rhs.end_
    let prev_dist ← depth_between fuel h it rhs.begin
    let (h1, it1, queue) ← p_transfer_loop fuel rhs fuel h it prev_dist []
    let v ← deref h1 it1
    let (h2, t2, _) ← set_root h1 this v
    let b ← back queue
    let h3 ← wr h2 t2.root (fun x => { x with child_begin := b.1 })
    let (h4, _, bak) ← p_transfer_pop t2.root none queue h3 b.1
    let h5 ← wr h4 t2.root (fun x => { x with child_end := bak })
    pure (h5, t2)

/-- Source `tree::tree(const tree&)`: the allocator constructor with no
arguments (its root holds `dflt = T()`), then `p_transfer(rhs)`. -/
def tree.copy_ctor (fuel : Nat) (h : Heap α) (dflt : α) (rhs : tree) :
    Except Fault (Heap α × tree) := do
  let (h1, t) ← tree.ctor h dflt
  p_transfer fuel h1 t rhs

/-- Source `tree::operator=(const tree&)`: `clear(); p_transfer(rhs)`, for
`rhs` a different object from `this`. -/
def tree.copy_assign (fuel : Nat) (h : Heap α) (this rhs : tree) :
    Except Fault (Heap α × tree) := do
  let (h1, t1) ← clear fuel h this
  p_transfer fuel h1 t1 rhs

/-- Source `tree::tree(tree&&)`; returns the new tree and the moved-from
`rhs`. The heap is not touched. -/
def tree.move_ctor (rhs : tree) : tree × tree :=
  (⟨rhs.root, rhs.foot⟩, ⟨none, none⟩)

/-- Source `tree::operator=(tree&&)`; returns the heap, the assigned tree and
the moved-from `rhs` (a different object from `this`). -/
def tree.move_assign (fuel : Nat) (h : Heap α) (this rhs : tree) :
    Except Fault (Heap α × tree × tree) :=
  match p_erase_children fuel h this.root this.foot with
  | .error e => .error e
  | .ok h1 => .ok (h1, ⟨rhs.root, rhs.foot⟩, ⟨none, none⟩)

/-- Prefix `operator++` applied `k` times, recording every position passed:
the result lists the start and the `k` positions after it. -/
def run (step : nodeptr → Except Fault nodeptr) : Nat → nodeptr → Except Fault (List nodeptr)
  | 0, n => .ok [n]
  | k + 1, n =>
    match step n with
    | .error e => .error e
    | .ok n1 =>
      match run step k n1 with
      | .error e => .error e
      | .ok l => .ok (n :: l)

/-- The positions `it.n` of a `bf_iterator` incremented `k` times. -/
def bf_run (h : Heap α) : Nat → bf_iterator → Except Fault (List nodeptr)
  | 0, it => .ok [it.n]
  | k + 1, it =>
    match bf_inc h it with
    | .error e => .error e
    | .ok it1 =>
      match bf_run h k it1 with
      | .error e => .error e
      | .ok l => .ok (it.n :: l)

/-! ## Abstract shape of a node graph -/

/-- An ordered forest of nodes: `cons a v kids rest` is the node at address
`a` holding `v`, its children `kids` from left to right, and its right
siblings `rest`. -/
inductive Forest (α : Type) where
  | nil : Forest α
  | cons (a : Nat) (v : α) (kids : Forest α) (rest : Forest α) : Forest α
deriving DecidableEq

namespace Forest

/-- Address of the leftmost node of the top level. -/
def first : Forest α → nodeptr
  | nil => none
  | cons a _ _ _ => some a

/-- Address of the leftmost node of the top level, `stop` for no node. -/
def firstOr (stop : nodeptr) : Forest α → nodeptr
  | nil => stop
  | cons a _ _ _ => some a

/-- Address of the rightmost node of the top level. -/
def last : Forest α → nodeptr
  | nil => none
  | cons a _ _ nil => some a
  | cons _ _ _ (cons b w k r) => last (cons b w k r)

/-- Addresses in depth-first pre-order: a node, then its children from left to
right each with its whole subtree, then its right siblings. -/
def pre : Forest α → List Nat
  | nil => []
  | cons a _ kids rest => a :: (pre kids ++ pre rest)

/-- Values in depth-first pre-order. -/
def vals : Forest α → List α
  | nil => []
  | cons _ v kids rest => v :: (vals kids ++ vals rest)

/-- Number of nodes. -/
def size : Forest α → Nat
  | nil => 0
  | cons _ _ kids rest => 1 + size kids + size rest

/-- The shape and values without the addresses. -/
def shape : Forest α → Forest α
  | nil => nil
  | cons _ v kids rest => cons 0 v (shape kids) (shape rest)

/-- Addresses of the nodes at depth `d`, from left to right. -/
def level : Nat → Forest α → List Nat
  | _, nil => []
  | 0, cons a _ _ rest => a :: level 0 rest
  | d + 1, cons _ _ kids rest => level d kids ++ level (d + 1) rest

/-- Number of levels. -/
def height : Forest α → Nat
  | nil => 0
  | cons _ _ kids rest => max (height kids + 1) (height rest)

/-- Addresses in level order: depth 0 from left to right, then depth 1, ... -/
def level_order (f : Forest α) : List Nat :=
  (List.range f.height).flatMap (fun d => level d f)

/-- The deepest rightmost descendant of the node `a` with children `kids`
(`a` itself without children). -/
def deepest_last : Nat → Forest α → Nat
  | a, nil => a
  | _, cons b _ kids nil => deepest_last b kids
  | a, cons _ _ _ (cons b w k r) => deepest_last a (cons b w k r)

end Forest

/-- The heap holds the sibling chain `f` with all its subtrees: every node
has parent `p`, the leftmost has left neighbour `l`, the rightmost has right
neighbour `stop`, neighbours are linked both ways, `child_begin` and
`child_end` are the first and last child, and every node holds its value. -/
def owns (h : Heap α) : nodeptr → nodeptr → Forest α → nodeptr → Prop
  | _, _, .nil, _ => True
  | p, l, .cons a v kids rest, stop =>
    h[a]? = some (some ⟨p, l, rest.firstOr stop, kids.first, kids.last, some v⟩)
      ∧ owns h (some a) none kids none
      ∧ owns h p (some a) rest stop

/-- The tree object `t` is in a state described by the forest `f`.
For `f = nil` the tree is empty: `root == foot`, and the sentinel (when the
tree has not been moved from) is a bare node. For `f = cons r v kids nil` the
root `r` holds a value, `root->right == foot`, `foot->left == root`, the
sentinel has neither value, parent nor children, and all nodes are distinct. -/
def well_formed (h : Heap α) (t : tree) : Forest α → Prop
  | .nil =>
    t.root = t.foot ∧
      match t.foot with
      | none => True
      | some e => h[e]? = some (some ⟨none, none, none, none, none, none⟩)
  | .cons r v kids .nil =>
    t.root = some r ∧
      match t.foot with
      | none => False
      | some e =>
        owns h none none (.cons r v kids .nil) (some e) ∧
          h[e]? = some (some ⟨none, some r, none, none, none, none⟩) ∧
          (e :: (Forest.cons r v kids .nil).pre).Nodup
  | .cons _ _ _ (.cons _ _ _ _) => False


/-! ## Stepping relations -/

/-- The node `x` steps to `y` under `df_iterator::operator++` for every step
budget of at least `k`. -/
def inc_to (h : Heap α) (k : Nat) (x y : nodeptr) : Prop :=
  ∀ fuel, k ≤ fuel → df_inc fuel h x = .ok y

/-- The node `y` steps back to `x` under `df_iterator::operator--` for every
step budget of at least `k`. -/
def dec_to (h : Heap α) (k : Nat) (x y : nodeptr) : Prop :=
  ∀ fuel, k ≤ fuel → df_dec fuel h y = .ok x

/-- Both stepping directions between neighbours of the traversal. -/
def step_both (h : Heap α) (k : Nat) (x y : nodeptr) : Prop :=
  inc_to h k x y ∧ dec_to h k x y

/-- Decision procedure for `owns`, by recursion on the forest. -/
instance owns_decidable [DecidableEq α] (h : Heap α) :
    ∀ (f : Forest α) (p l stop : nodeptr), Decidable (owns h p l f stop)
  | .nil, _, _, _ => isTrue trivial
  | .cons a v kids rest, p, l, stop =>
    match decEq (h[a]?) (some (some ⟨p, l, rest.firstOr stop, kids.first, kids.last, some v⟩)),
      owns_decidable h kids (some a) none none, owns_decidable h rest p (some a) stop with
    | isTrue h1, isTrue h2, isTrue h3 => isTrue ⟨h1, h2, h3⟩
    | isFalse h1, _, _ => isFalse (fun x => h1 x.1)
    | _, isFalse h2, _ => isFalse (fun x => h2 x.2.1)
    | _, _, isFalse h3 => isFalse (fun x => h3 x.2.2)

/-- Decision procedure for `well_formed`. -/
instance well_formed_decidable [DecidableEq α] (h : Heap α) (t : tree) :
    ∀ f : Forest α, Decidable (well_formed h t f)
  | .nil =>
    match ht : t.foot with
    | none => decidable_of_iff (t.root = t.foot) (by simp [well_formed, ht])
    | some e =>
      decidable_of_iff
        (t.root = t.foot ∧ h[e]? = some (some ⟨none, none, none, none, none, none⟩))
        (by simp [well_formed, ht])
  | .cons r v kids .nil =>
    match ht : t.foot with
    | none => isFalse (by simp [well_formed, ht])
    | some e =>
      decidable_of_iff
        (t.root = some r ∧ owns h none none (.cons r v kids .nil) (some e) ∧
          h[e]? = some (some ⟨none, some r, none, none, none, none⟩) ∧
          (e :: (Forest.cons r v kids .nil).pre).Nodup)
        (by simp [well_formed, ht])
  | .cons _ _ _ (.cons _ _ _ _) => isFalse (by simp [well_formed])

/-- The tree of the repository's tests: root 0 with children 1, 2, 5, 7, where
2 has the children 6, 3, 4, built by the calls of `copy_move_test.cpp`. -/
def scenario : Except Fault (Heap Int × tree) := do
  let (h, t) ← tree.ctor [] (-1)
  let (h, t, it0) ← set_root h t 0
  let (h, _) ← append_child h t it0 1
  let (h, it2) ← append_child h t it0 2
  let (h, it3) ← append_child h t it2 3
  let (h, _) ← append_child h t it2 4
  let (h, it5) ← append_child h t it0 5
  let (h, _) ← insert_left h t it3 6
  let (h, _) ← insert_right h t it5 7
  pure (h, t)

/-- The heap that `scenario` builds. -/
def scenario_heap : Heap Int :=
  [some ⟨none, none, some 1, some 2, some 8, some 0⟩,
   some ⟨none, some 0, none, none, none, none⟩,
   some ⟨some 0, none, some 3, none, none, some 1⟩,
   some ⟨some 0, some 2, some 6, some 7, some 5, some 2⟩,
   some ⟨some 3, some 7, some 5, none, none, some 3⟩,
   some ⟨some 3, some 4, none, none, none, some 4⟩,
   some ⟨some 0, some 3, some 8, none, none, some 5⟩,
   some ⟨some 3, none, some 4, none, none, some 6⟩,
   some ⟨some 0, some 6, none, none, none, some 7⟩]

/-- The tree object that `scenario` builds. -/
def scenario_tree : tree := ⟨some 0, some 1⟩

/-- The children of the root of `scenario` with their subtrees. -/
def scenario_kids : Forest Int :=
  .cons 2 1 .nil (.cons 3 2 (.cons 7 6 .nil (.cons 4 3 .nil (.cons 5 4 .nil .nil)))
    (.cons 6 5 .nil (.cons 8 7 .nil .nil)))

/-- A tree with only a root holding 0, as the constructor `tree(0)` builds it. -/
def root_only_heap : Heap Int :=
  [some ⟨none, none, some 1, none, none, some 0⟩,
   some ⟨none, some 0, none, none, none, none⟩]

/-- The tree object of `root_only_heap`. -/
def root_only_tree : tree := ⟨some 0, some 1⟩

/-- Two trees with the depth-first values 0, 1, 2, 3, 4: in the first 2 is the
child of 1, in the second all of 1, 2, 3, 4 are children of the root. -/
def twin : Except Fault (Heap Int × tree × tree) := do
  let (h, a) ← tree.ctor [] 0
  let (h, a1) ← append_child h a a.begin 1
  let (h, _) ← append_child h a a1 2
  let (h, _) ← append_child h a a.begin 3
  let (h, _) ← append_child h a a.begin 4
  let (h, b) ← tree.ctor h 0
  let (h, _) ← append_child h b b.begin 1
  let (h, _) ← append_child h b b.begin 2
  let (h, _) ← append_child h b b.begin 3
  let (h, _) ← append_child h b b.begin 4
  pure (h, a, b)

/-- The heap that `twin` builds. -/
def twin_heap : Heap Int :=
  [some ⟨none, none, some 1, some 2, some 5, some 0⟩,
   some ⟨none, some 0, none, none, none, none⟩,
   some ⟨some 0, none, some 4, some 3, some 3, some 1⟩,
   some ⟨some 2, none, none, none, none, some 2⟩,
   some ⟨some 0, some 2, some 5, none, none, some 3⟩,
   some ⟨some 0, some 4, none, none, none, some 4⟩,
   some ⟨none, none, some 7, some 8, some 11, some 0⟩,
   some ⟨none, some 6, none, none, none, none⟩,
   some ⟨some 6, none, some 9, none, none, some 1⟩,
   some ⟨some 6, some 8, some 10, none, none, some 2⟩,
   some ⟨some 6, some 9, some 11, none, none, some 3⟩,
   some ⟨some 6, some 10, none, none, none, some 4⟩]

/-- The first tree object of `twin`. -/
def twin_a : tree := ⟨some 0, some 1⟩

/-- The second tree object of `twin`. -/
def twin_b : tree := ⟨some 6, some 7⟩

/-- Shape of the first tree of `twin`. -/
def twin_a_forest : Forest Int :=
  .cons 0 0 (.cons 2 1 (.cons 3 2 .nil .nil) (.cons 4 3 .nil (.cons 5 4 .nil .nil))) .nil

/-- Shape of the second tree of `twin`. -/
def twin_b_forest : Forest Int :=
  .cons 6 0 (.cons 8 1 .nil (.cons 9 2 .nil (.cons 10 3 .nil (.cons 11 4 .nil .nil)))) .nil

/-- The empty tree left by `clear()` on `root_only_tree`: the root node is
deleted and `root == foot`. -/
def cleared_heap : Heap Int :=
  [none, some ⟨none, none, none, none, none, none⟩]

/-- The tree object of `cleared_heap`. -/
def cleared_tree : tree := ⟨some 1, some 1⟩

/-- The heap `root_only_heap` after a second tree has been default-constructed
in it (its root holds `T() = -1`). -/
def pair_heap : Heap Int :=
  [some ⟨none, none, some 1, none, none, some 0⟩,
   some ⟨none, some 0, none, none, none, none⟩,
   some ⟨none, none, some 3, none, none, some (-1)⟩,
   some ⟨none, some 2, none, none, none, none⟩]

/-- The second tree object of `pair_heap`. -/
def pair_tree : tree := ⟨some 2, some 3⟩

/-- The heap `h1` is `h` with exactly the cells of `S` deleted. -/
def freed (h h1 : Heap α) (S : List Nat) : Prop :=
  h1.length = h.length ∧ (∀ a ∈ S, h1[a]? = some none) ∧ (∀ a, a ∉ S → h1[a]? = h[a]?)

/-- Addresses of all nodes of a tree in state `f`: the sentinel and the
value-holding nodes. -/
def tree.nodes (t : tree) (f : Forest α) : List Nat :=
  t.foot.toList ++ f.pre

/-! ## Breadth-first order -/

/-- Termination measure of `bfs`. -/
def forests_weight (Q : List (Forest α)) : Nat :=
  (Q.map (fun f => 2 * f.size + 1)).sum

/-- Queue-driven breadth-first order of a list of sibling chains: the chain at
the front is walked from left to right, the children of each walked node are
put at the back. -/
def bfs : List (Forest α) → List Nat
  | [] => []
  | .nil :: Q => bfs Q
  | .cons a _ k r :: Q => a :: bfs (r :: (Q ++ [k]))
termination_by Q => forests_weight Q
decreasing_by
  · simp [forests_weight]
  · simp [forests_weight, Forest.size]; omega

/-- The child chains of the nodes of the top level, from left to right. -/
def Forest.kid_chains : Forest α → List (Forest α)
  | .nil => []
  | .cons _ _ k r => k :: Forest.kid_chains r

/-- The queue entry `q` is a live node whose children are the chain `K`. -/
def holds_kids (h : Heap α) (q : nodeptr) (K : Forest α) : Prop :=
  ∃ a nd, q = some a ∧ rd h (some a) = .ok nd ∧ nd.child_begin = K.first ∧
    owns h (some a) none K none

/-! ## Paths into a forest -/

/-- One step of the path from a sibling chain to a place inside it: past the
node `a` to its right siblings, or from the node `a` down to its children. -/
inductive Frame (α : Type) where
  | right (a : Nat) (v : α) (kids : Forest α) : Frame α
  | down (a : Nat) (v : α) (rest : Forest α) : Frame α

/-- The chain a frame makes of the chain put at its open place. -/
def Frame.fill : Frame α → Forest α → Forest α
  | .right a v kids, g => .cons a v kids g
  | .down a v rest, g => .cons a v g rest

/-- The forest with the chain `g` at the end of the path `C` (outermost step
first). -/
def plug : List (Frame α) → Forest α → Forest α
  | [], g => g
  | F :: C, g => F.fill (plug C g)

/-- Parent, left neighbour and right end of the chain at the end of the path
`C`, which starts in a chain with parent `p`, left neighbour `l` and right end
`stop`. -/
def hole : nodeptr → nodeptr → nodeptr → List (Frame α) → nodeptr × nodeptr × nodeptr
  | p, l, stop, [] => (p, l, stop)
  | p, _, stop, .right a _ _ :: C => hole p (some a) stop C
  | _, _, _, .down a _ _ :: C => hole (some a) none none C

/-- Addresses of the nodes along a path and in the subtrees beside it. -/
def path_addrs : List (Frame α) → List Nat
  | [] => []
  | .right a _ kids :: C => a :: (kids.pre ++ path_addrs C)
  | .down a _ rest :: C => a :: (rest.pre ++ path_addrs C)

/-- Pre-order addresses before the place at the end of the path. -/
def path_before : List (Frame α) → List Nat
  | [] => []
  | .right a _ kids :: C => a :: (kids.pre ++ path_before C)
  | .down a _ _ :: C => a :: path_before C

/-- Pre-order addresses after the chain at the end of the path. -/
def path_after : List (Frame α) → List Nat
  | [] => []
  | .right _ _ _ :: C => path_after C
  | .down _ _ rest :: C => path_after C ++ rest.pre

/-- The path leaves some node downwards. -/
def has_down : List (Frame α) → Prop
  | [] => False
  | .right _ _ _ :: C => has_down C
  | .down _ _ _ :: _ => True

/-- The forest with the chain that starts at the node `x` (the node with value
`v`, children `k` and right siblings `r`) replaced by `g v k r`. -/
def Forest.modify (x : Nat) (g : α → Forest α → Forest α → Forest α) : Forest α → Forest α
  | .nil => .nil
  | .cons a v k r =>
    if a = x then g v k r else .cons a v (Forest.modify x g k) (Forest.modify x g r)

/-- The sibling chain with a childless node added at its right end. -/
def Forest.snoc (n : Nat) (w : α) : Forest α → Forest α
  | .nil => .cons n w .nil .nil
  | .cons a v k r => .cons a v k (Forest.snoc n w r)


/-! ## The random test -/

/-- The call `std::next(it, k)` on a `df_iterator`: a copy of `it` advanced by
`k` applications of `operator++`. -/
def next_it (fuel : Nat) (h : Heap α) : Nat → nodeptr → Except Fault nodeptr
  | 0, it => .ok it
  | k + 1, it =>
    match df_inc fuel h it with
    | .error e => .error e
    | .ok it1 => next_it fuel h k it1

/-- The statement `*it = v`: assignment to the value that
`iterator_base::operator*` refers to (`*n->value`). -/
def deref_assign (h : Heap α) (it : nodeptr) (v : α) : Except Fault (Heap α) :=
  match rd h it with
  | .error e => .error e
  | .ok nd =>
    match nd.value with
    | none => .error .null_deref
    | some _ => wr h it (fun x => { x with value := some v })

/-- The two random numbers one round of the loop of `random_test.cpp` draws:
`num` stands for `dist(gen)` and `pick` for `node_dist(gen)`. -/
structure Draw where
  num : Nat
  pick : Nat

/-- The body of the `for` loop of `main` in `random_test.cpp`, on the state
(heap, `resulting_size`). `dist(gen)` is `d.num % 5`, a number of `0..4`;
`node_dist(gen)` is `d.pick % t.size()`, a number of `0..t.size() - 1` (the
distribution has no value when `t.size()` is 0). -/
def random_step (fuel : Nat) (t : tree) (i : Int) (d : Draw) (s : Heap Int × Nat) :
    Except Fault (Heap Int × Nat) := do
  let num := d.num % 5
  let n ← size fuel s.1 t
  if n = 0 then throw .assert_fail
  let node_num := d.pick % n
  let it ← next_it fuel s.1 node_num t.begin
  if (num = 1 ∨ num = 2) ∧ it = t.begin then pure s
  else if num = 0 then do
    let h1 ← deref_assign s.1 it i
    pure (h1, s.2)
  else if num = 1 then do
    let (h1, _) ← insert_left s.1 t it i
    pure (h1, s.2 + 1)
  else if num = 2 then do
    let (h1, _) ← insert_right s.1 t it i
    pure (h1, s.2 + 1)
  else if num = 3 then do
    let (h1, _) ← append_child s.1 t it i
    pure (h1, s.2 + 1)
  else do
    let (h1, _) ← prepend_child s.1 t it i
    pure (h1, s.2 + 1)

/-- The `for` loop of `main` in `random_test.cpp` from round `i` on, one draw
per round. -/
def random_loop (fuel : Nat) (t : tree) : Int → List Draw → Heap Int × Nat →
    Except Fault (Heap Int × Nat)
  | _, [], s => .ok s
  | i, d :: ds, s =>
    match random_step fuel t i d s with
    | .error e => .error e
    | .ok s1 => random_loop fuel t (i + 1) ds s1

/-- Source `main` of `random_test.cpp` with the random numbers given: the tree
`t` with root 0, the loop, and the final `assert(t.size() == resulting_size)`
as the returned truth value. -/
def random_test (fuel : Nat) (draws : List Draw) : Except Fault Bool := do
  let (h, t) ← tree.ctor [] (-1)
  let (h, t, _) ← set_root h t 0
  let (h, rs) ← random_loop fuel t 0 draws (h, 1)
  let n ← size fuel h t
  pure (n == rs)

/-! ## Reachable trees and the link invariants -/

/-- The heaps and tree objects that calls of the mutators produce from a
constructed tree. An iterator passed to a mutator denotes a node of the tree:
it is found by `std::next(begin(), k)`. Every call is one that returns. -/
inductive reachable : Heap α → tree → Prop where
  | ctor (h0 h : Heap α) (t : tree) (v : α) :
      tree.ctor h0 v = .ok (h, t) → reachable h t
  | set_root (h h1 : Heap α) (t t1 : tree) (v : α) (it : nodeptr) :
      reachable h t → cont.set_root h t v = .ok (h1, t1, it) → reachable h1 t1
  | insert_left (h h1 : Heap α) (t : tree) (fuel k x : Nat) (v : α) (it : nodeptr) :
      reachable h t → next_it fuel h k t.begin = .ok (some x) →
      cont.insert_left h t (some x) v = .ok (h1, it) → reachable h1 t
  | insert_right (h h1 : Heap α) (t : tree) (fuel k x : Nat) (v : α) (it : nodeptr) :
      reachable h t → next_it fuel h k t.begin = .ok (some x) →
      cont.insert_right h t (some x) v = .ok (h1, it) → reachable h1 t
  | append_child (h h1 : Heap α) (t : tree) (fuel k x : Nat) (v : α) (it : nodeptr) :
      reachable h t → next_it fuel h k t.begin = .ok (some x) →
      cont.append_child h t (some x) v = .ok (h1, it) → reachable h1 t
  | prepend_child (h h1 : Heap α) (t : tree) (fuel k x : Nat) (v : α) (it : nodeptr) :
      reachable h t → next_it fuel h k t.begin = .ok (some x) →
      cont.prepend_child h t (some x) v = .ok (h1, it) → reachable h1 t
  | erase (h h1 : Heap α) (t t1 : tree) (fuel k x F : Nat) (bak : nodeptr) :
      reachable h t → next_it fuel h k t.begin = .ok (some x) →
      cont.erase F h t (some x) = .ok (h1, t1, bak) → reachable h1 t1
  | clear (h h1 : Heap α) (t t1 : tree) (F : Nat) :
      reachable h t → cont.clear F h t = .ok (h1, t1) → reachable h1 t1

/-- Addresses of the nodes of a sibling chain, without their descendants. -/
def Forest.tops : Forest α → List Nat
  | .nil => []
  | .cons a _ _ rest => a :: rest.tops

/-- Invariant I1 at the node `a`: a left or right neighbour of `a` is a live
node that links back to `a`. -/
def links_ok (h : Heap α) (a : Nat) : Prop :=
  ∀ nd, h[a]? = some (some nd) →
    (∀ l, nd.left = some l → ∃ ndl, h[l]? = some (some ndl) ∧ ndl.right = some a) ∧
    (∀ r, nd.right = some r → ∃ ndr, h[r]? = some (some ndr) ∧ ndr.left = some a)

/-- Invariant I2 at the node `a`: `child_begin` is null exactly when
`child_end` is, and otherwise the `right` links lead from `child_begin`
through live nodes with parent `a` to `child_end`, the first of them has no
`left` and the last no `right`. -/
def children_ok (h : Heap α) (a : Nat) : Prop :=
  ∀ nd, h[a]? = some (some nd) →
    (nd.child_begin = none ↔ nd.child_end = none) ∧
    (nd.child_begin ≠ none → ∃ cs : List Nat,
      cs.head? = nd.child_begin ∧ cs.getLast? = nd.child_end ∧
      List.Chain' (fun c d => ∃ ndc, h[c]? = some (some ndc) ∧ ndc.right = some d) cs ∧
      (∀ c ∈ cs, ∃ ndc, h[c]? = some (some ndc) ∧ ndc.parent = some a) ∧
      (∀ c ndc, cs.head? = some c → h[c]? = some (some ndc) → ndc.left = none) ∧
      (∀ c ndc, cs.getLast? = some c → h[c]? = some (some ndc) → ndc.right = none))

/-- The heap after `append_child(begin(), 1)` on the tree of `root_only_heap`. -/
def edit_heap1 : Heap Int :=
  [some ⟨none, none, some 1, some 2, some 2, some 0⟩,
   some ⟨none, some 0, none, none, none, none⟩,
   some ⟨some 0, none, none, none, none, some 1⟩]

/-- The heap after a following `insert_left` of 2 at the node holding 1. -/
def edit_heap2 : Heap Int :=
  [some ⟨none, none, some 1, some 3, some 2, some 0⟩,
   some ⟨none, some 0, none, none, none, none⟩,
   some ⟨some 0, some 3, none, none, none, some 1⟩,
   some ⟨some 0, none, some 2, none, none, some 2⟩]

/-- The heap after a following `erase` of the node holding 1. -/
def edit_heap3 : Heap Int :=
  [some ⟨none, none, some 1, some 3, some 3, some 0⟩,
   some ⟨none, some 0, none, none, none, none⟩,
   none,
   some ⟨some 0, none, none, none, none, some 2⟩]

/-! ## Counting live values -/

/-- Number of values alive in the heap: the nodes that own a value. With every
value constructed in `p_node_allocate` or `set_root` and destroyed in
`p_node_deallocate`, this is the number of constructions minus the number of
destructions. -/
def live_values (h : Heap α) : Nat :=
  (h.filter (fun c =>
    match c with
    | some nd => nd.value.isSome
    | none => false)).length

/-! ## Calls on one tree among others -/

/-- A call on the tree object `t` in state `f` led from the heap `h` to the
heap `h1` and the tree object `t1` in state `f1`: the result is well-formed, a
sentinel is not lost, the nodes of the result are former nodes of the tree or
addresses that were not allocated, a former node that is no longer in the tree
is deleted, and a cell outside the tree has not changed, unless it was not
allocated before and is deleted now. -/
def local_step (h : Heap α) (t : tree) (f : Forest α) (h1 : Heap α) (t1 : tree)
    (f1 : Forest α) : Prop :=
  well_formed h1 t1 f1 ∧
  (t.foot ≠ none → t1.foot ≠ none) ∧
  (∀ a ∈ t1.nodes f1, a ∈ t.nodes f ∨ h[a]? = none) ∧
  (∀ a ∈ t.nodes f, a ∉ t1.nodes f1 → h1[a]? = some none) ∧
  (∀ a, a ∉ t.nodes f → a ∉ t1.nodes f1 →
    h1[a]? = h[a]? ∨ (h[a]? = none ∧ h1[a]? = some none))

/-- The heaps and tree objects that calls of the mutators `set_root`,
`insert_left`, `insert_right`, `append_child`, `prepend_child`, `erase` and
`clear` lead to from the heap `h0` and the tree object `t0`, for calls that
return; iterators are found from `begin()` by `operator++`. -/
inductive evolves (h0 : Heap α) (t0 : tree) : Heap α → tree → Prop where
  | refl : evolves h0 t0 h0 t0
  | set_root (h h1 : Heap α) (t t1 : tree) (v : α) (it : nodeptr) :
      evolves h0 t0 h t → cont.set_root h t v = .ok (h1, t1, it) → evolves h0 t0 h1 t1
  | insert_left (h h1 : Heap α) (t : tree) (fuel k x : Nat) (v : α) (it : nodeptr) :
      evolves h0 t0 h t → next_it fuel h k t.begin = .ok (some x) →
      cont.insert_left h t (some x) v = .ok (h1, it) → evolves h0 t0 h1 t
  | insert_right (h h1 : Heap α) (t : tree) (fuel k x : Nat) (v : α) (it : nodeptr) :
      evolves h0 t0 h t → next_it fuel h k t.begin = .ok (some x) →
      cont.insert_right h t (some x) v = .ok (h1, it) → evolves h0 t0 h1 t
  | append_child (h h1 : Heap α) (t : tree) (fuel k x : Nat) (v : α) (it : nodeptr) :
      evolves h0 t0 h t → next_it fuel h k t.begin = .ok (some x) →
      cont.append_child h t (some x) v = .ok (h1, it) → evolves h0 t0 h1 t
  | prepend_child (h h1 : Heap α) (t : tree) (fuel k x : Nat) (v : α) (it : nodeptr) :
      evolves h0 t0 h t → next_it fuel h k t.begin = .ok (some x) →
      cont.prepend_child h t (some x) v = .ok (h1, it) → evolves h0 t0 h1 t
  | erase (h h1 : Heap α) (t t1 : tree) (fuel k x F : Nat) (bak : nodeptr) :
      evolves h0 t0 h t → next_it fuel h k t.begin = .ok (some x) →
      cont.erase F h t (some x) = .ok (h1, t1, bak) → evolves h0 t0 h1 t1
  | clear (h h1 : Heap α) (t t1 : tree) (F : Nat) :
      evolves h0 t0 h t → cont.clear F h t = .ok (h1, t1) → evolves h0 t0 h1 t1

/-! ## The linked list of `list.hpp` -/

/-- The data members `head` and `tail` of `class list`. -/
structure list where
  head : nodeptr
  tail : nodeptr
deriving DecidableEq

/-- Node record of `class list`: `struct node`. -/
structure list.node (α : Type) where
  left : nodeptr
  right : nodeptr
  value : Option α
deriving DecidableEq

/-- Memory of list nodes: cell `a` holds the node at address `a`, or `none`
once deleted. -/
abbrev list.Heap (α : Type) := List (Option (list.node α))

/-- Dereference of a list node pointer (`n->...`). -/
def list.rd (h : list.Heap α) (p : nodeptr) : Except Fault (list.node α) :=
  match p with
  | none => .error .null_deref
  | some a =>
    match h[a]? with
    | some (some nd) => .ok nd
    | _ => .error .dangling

/-- Store through a list node pointer (`n->field = ...`). -/
def list.wr (h : list.Heap α) (p : nodeptr) (f : list.node α → list.node α) :
    Except Fault (list.Heap α) :=
  match list.rd h p with
  | .error e => .error e
  | .ok nd =>
    match p with
    | none => .error .null_deref
    | some a => .ok (h.set a (some (f nd)))

/-- Source `list::p_node_allocate`: a fresh node with null links; the value
slot is filled when `allocate` is true. -/
def list.p_node_allocate (h : list.Heap α) (v : Option α) : list.Heap α × Nat :=
  (h ++ [some ⟨none, none, v⟩], h.length)

/-- Source `list::p_node_deallocate`: no effect on `nullptr`, otherwise the
value and the node are destroyed. -/
def list.p_node_deallocate (h : list.Heap α) (p : nodeptr) : Except Fault (list.Heap α) :=
  match p with
  | none => .ok h
  | some a =>
    match h[a]? with
    | some (some _) => .ok (h.set a none)
    | _ => .error .dangling

/-- Source `list::p_init`: `head = p_node_allocate(false); tail = head`. -/
def list.p_init (h : list.Heap α) : list.Heap α × list :=
  let r := list.p_node_allocate h none
  (r.1, ⟨some r.2, some r.2⟩)

/-- The `for` loop of `list::p_erase`. -/
def list.p_erase_loop : Nat → list.Heap α → nodeptr → nodeptr → Except Fault (list.Heap α)
  | 0, _, _, _ => .error .out_of_fuel
  | fuel + 1, h, n, end_ =>
    if n ≠ end_ then
      match list.rd h n with
      | .error e => .error e
      | .ok nd =>
        match list.p_node_deallocate h n with
        | .error e => .error e
        | .ok h1 => list.p_erase_loop fuel h1 nd.right end_
    else .ok h

/-- Source `list::p_erase(beg, end)`. -/
def list.p_erase (fuel : Nat) (h : list.Heap α) (beg end_ : nodeptr) :
    Except Fault (list.Heap α) :=
  if beg = none ∨ end_ = none then .ok h
  else list.p_erase_loop fuel h beg end_

/-- Source `list::empty`. -/
def list.empty (l : list) : Bool := l.head == l.tail

/-- Source `list::begin`. -/
def list.begin (l : list) : nodeptr := l.head

/-- Source `list::end`. -/
def list.end_ (l : list) : nodeptr := l.tail

/-- Source `list::iterator_base::operator*`: `*n->value`. -/
def list.deref (h : list.Heap α) (n : nodeptr) : Except Fault α :=
  match list.rd h n with
  | .error e => .error e
  | .ok nd =>
    match nd.value with
    | none => .error .null_deref
    | some v => .ok v

/-- Source `list::iterator::operator++`: `n = n->right`. -/
def list.inc (h : list.Heap α) (n : nodeptr) : Except Fault nodeptr :=
  match list.rd h n with
  | .error e => .error e
  | .ok nd => .ok nd.right

/-- Source `list::iterator::operator--`: `n = n->left`. -/
def list.dec (h : list.Heap α) (n : nodeptr) : Except Fault nodeptr :=
  match list.rd h n with
  | .error e => .error e
  | .ok nd => .ok nd.left

/-- Source `list::insert`: the value goes after `it`; returns the heap, the
list object and the iterator to the new node. -/
def list.insert (h : list.Heap α) (l : list) (it : nodeptr) (v : α) :
    Except Fault (list.Heap α × list × nodeptr) := do
  let (h1, a) := list.p_node_allocate h (some v)
  let tmp : nodeptr := some a
  if l.head = l.tail then do
    let h2 ← list.wr h1 tmp (fun x => { x with right := l.tail })
    let h3 ← list.wr h2 l.tail (fun x => { x with left := tmp })
    pure (h3, ⟨tmp, l.tail⟩, tmp)
  else do
    if it = l.end_ then throw .assert_fail
    let nd ← list.rd h1 it
    let h2 ← list.wr h1 nd.right (fun x => { x with left := tmp })
    let nd ← list.rd h2 it
    let h3 ← list.wr h2 tmp (fun x => { x with right := nd.right })
    let h4 ← list.wr h3 it (fun x => { x with right := tmp })
    let h5 ← list.wr h4 tmp (fun x => { x with left := it })
    pure (h5, l, tmp)

/-- Source `list::insert_before`: the value goes before `it`; returns the
heap, the list object and the iterator to the new node. -/
def list.insert_before (h : list.Heap α) (l : list) (it : nodeptr) (v : α) :
    Except Fault (list.Heap α × list × nodeptr) := do
  let (h1, a) := list.p_node_allocate h (some v)
  let tmp : nodeptr := some a
  if l.head = l.tail then do
    let h2 ← list.wr h1 tmp (fun x => { x with right := l.tail })
    let h3 ← list.wr h2 l.tail (fun x => { x with left := tmp })
    pure (h3, ⟨tmp, l.tail⟩, tmp)
  else if it = l.begin then do
    let h2 ← list.wr h1 tmp (fun x => { x with right := it })
    let h3 ← list.wr h2 it (fun x => { x with left := tmp })
    pure (h3, ⟨tmp, l.tail⟩, tmp)
  else do
    let nd ← list.rd h1 it
    let h2 ← list.wr h1 tmp (fun x => { x with left := nd.left })
    let h3 ← list.wr h2 tmp (fun x => { x with right := it })
    let nd ← list.rd h3 it
    let h4 ← list.wr h3 nd.left (fun x => { x with right := tmp })
    let h5 ← list.wr h4 it (fun x => { x with left := tmp })
    pure (h5, l, tmp)

/-- Source `list::erase(it)`; returns the heap, the list object and the
returned iterator. -/
def list.erase (h : list.Heap α) (l : list) (it : nodeptr) :
    Except Fault (list.Heap α × list × nodeptr) := do
  if it = l.end_ then pure (h, l, l.end_)
  else do
    let nd ← list.rd h it
    let bak := nd.right
    if it = l.begin then do
      let nd ← list.rd h it
      let l1 : list := ⟨nd.right, l.tail⟩
      let nd ← list.rd h it
      let h1 ← list.wr h nd.right (fun x => { x with left := none })
      let h2 ← list.p_node_deallocate h1 it
      pure (h2, l1, bak)
    else do
      let nd ← list.rd h it
      let h1 ← list.wr h nd.right (fun x => { x with left := nd.left })
      let nd ← list.rd h1 it
      let h2 ← list.wr h1 nd.left (fun x => { x with right := nd.right })
      let h3 ← list.p_node_deallocate h2 it
      pure (h3, l, bak)

/-- The `while (it != it1)` loop of `list::erase(it0, it1)`. -/
def list.erase_range_loop (it1 : nodeptr) :
    Nat → list.Heap α → list → nodeptr → Except Fault (list.Heap α × list × nodeptr)
  | 0, _, _, _ => .error .out_of_fuel
  | fuel + 1, h, l, it =>
    if it ≠ it1 then
      match list.erase h l it with
      | .error e => .error e
      | .ok (h1, l1, it2) => list.erase_range_loop it1 fuel h1 l1 it2
    else .ok (h, l, it)

/-- Source `list::erase(it0, it1)`. -/
def list.erase_range (fuel : Nat) (h : list.Heap α) (l : list) (it0 it1 : nodeptr) :
    Except Fault (list.Heap α × list × nodeptr) :=
  if it0 = l.end_ then .ok (h, l, l.end_)
  else
    match list.erase_range_loop it1 fuel h l it0 with
    | .error e => .error e
    | .ok (h1, l1, it) => list.erase h1 l1 it

/-- Source `list::clear`: `p_erase(head, tail); head = tail`. -/
def list.clear (fuel : Nat) (h : list.Heap α) (l : list) : Except Fault (list.Heap α × list) :=
  match list.p_erase fuel h l.head l.tail with
  | .error e => .error e
  | .ok h1 => .ok (h1, ⟨l.tail, l.tail⟩)

/-- The `while (it != rhs.end())` loop of `list::p_transfer`. -/
def list.p_transfer_loop (rhs : list) :
    Nat → list.Heap α → list → nodeptr → Except Fault (list.Heap α × list)
  | 0, _, _, _ => .error .out_of_fuel
  | fuel + 1, h, this, it =>
    if it ≠ rhs.end_ then
      match list.deref h it with
      | .error e => .error e
      | .ok v =>
        match list.insert_before h this this.end_ v with
        | .error e => .error e
        | .ok (h1, this1, _) =>
          match list.inc h1 it with
          | .error e => .error e
          | .ok it1 => list.p_transfer_loop rhs fuel h1 this1 it1
    else .ok (h, this)

/-- Source `list::p_transfer`. -/
def list.p_transfer (fuel : Nat) (h : list.Heap α) (this rhs : list) :
    Except Fault (list.Heap α × list) :=
  if rhs.empty then .ok (h, this)
  else list.p_transfer_loop rhs fuel h this rhs.begin

/-- The `for` loop of the constructor `list(count, val, alloc)`. -/
def list.ctor_loop : Nat → list.Heap α → list → α → Except Fault (list.Heap α × list)
  | 0, h, l, _ => .ok (h, l)
  | n + 1, h, l, v =>
    match list.insert_before h l l.end_ v with
    | .error e => .error e
    | .ok (h1, l1, _) => list.ctor_loop n h1 l1 v

/-- Source `list::list(count, val, alloc)`. -/
def list.ctor (h : list.Heap α) (count : Nat) (val : α) : Except Fault (list.Heap α × list) :=
  let r := list.p_init h
  list.ctor_loop count r.1 r.2 val

/-- Source `list::operator=(const list&)`: `clear(); p_transfer(rhs)`, for
`rhs` a different object from `this`. -/
def list.copy_assign (fuel : Nat) (h : list.Heap α) (this rhs : list) :
    Except Fault (list.Heap α × list) :=
  match list.clear fuel h this with
  | .error e => .error e
  | .ok (h1, this1) => list.p_transfer fuel h1 this1 rhs

/-- Source `list::list(const list&)`: `p_init(); *this = rhs`. -/
def list.copy_ctor (fuel : Nat) (h : list.Heap α) (rhs : list) :
    Except Fault (list.Heap α × list) :=
  let r := list.p_init h
  list.copy_assign fuel r.1 r.2 rhs

/-- Source `list::list(list&&)`; returns the new list and the moved-from
`rhs`. The heap is not touched. -/
def list.move_ctor (rhs : list) : list × list :=
  (⟨rhs.head, rhs.tail⟩, ⟨none, none⟩)

/-- Source `list::operator=(list&&)`; returns the heap, the assigned list and
the moved-from `rhs` (a different object from `this`). -/
def list.move_assign (fuel : Nat) (h : list.Heap α) (this rhs : list) :
    Except Fault (list.Heap α × list × list) :=
  match list.p_erase fuel h this.head this.tail with
  | .error e => .error e
  | .ok h1 => .ok (h1, ⟨rhs.head, rhs.tail⟩, ⟨none, none⟩)

/-- Source `list::~list`: `clear(); p_node_deallocate(tail)`. -/
def list.dtor (fuel : Nat) (h : list.Heap α) (l : list) : Except Fault (list.Heap α) :=
  match list.clear fuel h l with
  | .error e => .error e
  | .ok (h1, l1) => list.p_node_deallocate h1 l1.tail

/-- The loop of `list::size`. -/
def list.size_loop (h : list.Heap α) (l : list) : Nat → nodeptr → Nat → Except Fault Nat
  | 0, _, _ => .error .out_of_fuel
  | fuel + 1, it, result =>
    if it ≠ l.end_ then
      match list.inc h it with
      | .error e => .error e
      | .ok it1 => list.size_loop h l fuel it1 (result + 1)
    else .ok result

/-- Source `list::size`. -/
def list.size (fuel : Nat) (h : list.Heap α) (l : list) : Except Fault Nat :=
  list.size_loop h l fuel l.begin 0

/-- The loop of `list::operator==` together with the test after it. -/
def list.eq_loop [DecidableEq α] (h : list.Heap α) (this rhs : list) :
    Nat → nodeptr → nodeptr → Except Fault Bool
  | 0, _, _ => .error .out_of_fuel
  | fuel + 1, lhs_it, rhs_it =>
    if rhs_it ≠ rhs.end_ then
      if lhs_it = this.end_ then .ok false
      else
        match list.deref h rhs_it with
        | .error e => .error e
        | .ok a =>
          match list.deref h lhs_it with
          | .error e => .error e
          | .ok b =>
            if a ≠ b then .ok false
            else
              match list.inc h lhs_it with
              | .error e => .error e
              | .ok l1 =>
                match list.inc h rhs_it with
                | .error e => .error e
                | .ok r1 => list.eq_loop h this rhs fuel l1 r1
    else .ok (if lhs_it ≠ this.end_ then false else true)

/-- Source `list::operator==`. -/
def list.op_eq [DecidableEq α] (fuel : Nat) (h : list.Heap α) (this rhs : list) :
    Except Fault Bool :=
  list.eq_loop h this rhs fuel this.begin rhs.begin

/-- Source `list::operator!=`. -/
def list.op_ne [DecidableEq α] (fuel : Nat) (h : list.Heap α) (this rhs : list) :
    Except Fault Bool :=
  match list.op_eq fuel h this rhs with
  | .error e => .error e
  | .ok b => .ok (!b)

/-! ### Lists as sequences of cells -/

/-- The iterator a chain of cells starts with: its first address, or `stop`
for the empty chain. -/
def list.first (stop : nodeptr) : List (Nat × α) → nodeptr
  | [] => stop
  | (a, _) :: _ => some a

/-- The heap holds the chain of cells `c` (address and value, in order): the
first cell has left neighbour `l`, the last has right neighbour `stop`,
neighbours are linked both ways and every cell holds its value. -/
def list.owns (h : list.Heap α) : nodeptr → List (Nat × α) → nodeptr → Prop
  | _, [], _ => True
  | l, (a, v) :: rest, stop =>
    h[a]? = some (some ⟨l, list.first stop rest, some v⟩) ∧ list.owns h (some a) rest stop

/-- The left neighbour of the end of a chain: its last address, or `l` for the
empty chain. -/
def list.last (l : nodeptr) : List (Nat × α) → nodeptr
  | [] => l
  | (a, _) :: rest => list.last (some a) rest

/-- The node at `e` is a tail node: it has neither a value nor a right
neighbour. Its `left` is not constrained, since `clear()` leaves it as it
was. -/
def list.bare_tail (h : list.Heap α) (e : Nat) : Prop :=
  match h[e]? with
  | some (some nd) => nd.right = none ∧ nd.value = none
  | _ => False

/-- The list object `l` holds the cells `c`. For `c = []` the list is empty:
`head == tail`, and the tail node (when the list has not been moved from) is
a bare tail node. Otherwise `head` is the first cell, the chain ends at the
tail node, `tail->left` is the last cell, and all nodes are distinct. -/
def list.well_formed (h : list.Heap α) (l : list) : List (Nat × α) → Prop
  | [] =>
    l.head = l.tail ∧
      match l.tail with
      | none => True
      | some e => list.bare_tail h e
  | (a, v) :: rest =>
    l.head = some a ∧
      match l.tail with
      | none => False
      | some e =>
        list.owns h none ((a, v) :: rest) (some e) ∧
          h[e]? = some (some ⟨list.last none ((a, v) :: rest), none, none⟩) ∧
          (e :: ((a, v) :: rest).map Prod.fst).Nodup

/-- Addresses of all nodes of a list holding the cells `c`: the tail node and
the cells. -/
def list.nodes (l : list) (c : List (Nat × α)) : List Nat :=
  l.tail.toList ++ c.map Prod.fst

/-- Decision procedure for `list.owns`, by recursion on the cells. -/
instance list.owns_decidable [DecidableEq α] (h : list.Heap α) :
    ∀ (c : List (Nat × α)) (l stop : nodeptr), Decidable (list.owns h l c stop)
  | [], _, _ => isTrue trivial
  | (a, v) :: rest, l, stop =>
    match decEq (h[a]?) (some (some ⟨l, list.first stop rest, some v⟩)),
      list.owns_decidable h rest (some a) stop with
    | isTrue h1, isTrue h2 => isTrue ⟨h1, h2⟩
    | isFalse h1, _ => isFalse (fun x => h1 x.1)
    | _, isFalse h2 => isFalse (fun x => h2 x.2)

/-- Decision procedure for `list.bare_tail`. -/
instance list.bare_tail_decidable [DecidableEq α] (h : list.Heap α) (e : Nat) :
    Decidable (list.bare_tail h e) :=
  match hc : h[e]? with
  | some (some nd) =>
    decidable_of_iff (nd.right = none ∧ nd.value = none) (by simp [list.bare_tail, hc])
  | some none => isFalse (by simp [list.bare_tail, hc])
  | none => isFalse (by simp [list.bare_tail, hc])

/-- Decision procedure for `list.well_formed`. -/
instance list.well_formed_decidable [DecidableEq α] (h : list.Heap α) (l : list) :
    ∀ c : List (Nat × α), Decidable (list.well_formed h l c)
  | [] =>
    match ht : l.tail with
    | none => decidable_of_iff (l.head = l.tail) (by simp [list.well_formed, ht])
    | some e =>
      decidable_of_iff (l.head = l.tail ∧ list.bare_tail h e) (by simp [list.well_formed, ht])
  | (a, v) :: rest =>
    match ht : l.tail with
    | none => isFalse (by simp [list.well_formed, ht])
    | some e =>
      decidable_of_iff
        (l.head = some a ∧ list.owns h none ((a, v) :: rest) (some e) ∧
          h[e]? = some (some ⟨list.last none ((a, v) :: rest), none, none⟩) ∧
          (e :: ((a, v) :: rest).map Prod.fst).Nodup)
        (by simp [list.well_formed, ht])

/-- The calls of `list/copy_move_test.cpp` that build the list 0, 1, 2, 3:
`list_ l; it0 = l.insert(l.begin(), 0); l.insert(l.begin(), 2);
it2 = l.insert(it0, 1); it3 = l.insert_before(l.end(), 3);
it4 = l.insert_before(it3, 4); it5 = l.erase(it4)`. Returns the heap, the
list object, `it3` and `it5`. -/
def list_scenario : Except Fault (list.Heap Int × list × nodeptr × nodeptr) := do
  let (h, l) ← list.ctor [] 0 0
  let (h, l, it0) ← list.insert h l l.begin 0
  let (h, l, _) ← list.insert h l l.begin 2
  let (h, l, _) ← list.insert h l it0 1
  let (h, l, it3) ← list.insert_before h l l.end_ 3
  let (h, l, it4) ← list.insert_before h l it3 4
  let (h, l, it5) ← list.erase h l it4
  pure (h, l, it3, it5)

/-- The same calls, followed by the construction of a second list
`list_ d(2, 7)`. Returns the heap and the two list objects. -/
def list_pair : Except Fault (list.Heap Int × list × list) := do
  let (h, l, _, _) ← list_scenario
  let (h, d) ← list.ctor h 2 7
  pure (h, l, d)

/-- The heap `list_pair` builds. -/
def list_pair_heap : list.Heap Int :=
  [some ⟨some 4, none, none⟩,
   some ⟨none, some 3, some 0⟩,
   some ⟨some 3, some 4, some 2⟩,
   some ⟨some 1, some 2, some 1⟩,
   some ⟨some 2, some 0, some 3⟩,
   none,
   some ⟨some 8, none, none⟩,
   some ⟨none, some 8, some 7⟩,
   some ⟨some 7, some 6, some 7⟩]

/-- The list object of the list 0, 1, 2, 3 in `list_pair_heap`. -/
def list_obj : list := ⟨some 1, some 0⟩

/-- The cells of `list_obj`. -/
def list_cells : List (Nat × Int) := [(1, 0), (3, 1), (2, 2), (4, 3)]

/-- The list object of the list 7, 7 in `list_pair_heap`. -/
def list_dest : list := ⟨some 7, some 6⟩

/-- The cells of `list_dest`. -/
def list_dest_cells : List (Nat × Int) := [(7, 7), (8, 7)]

/-! ## The transfer algorithm, round by round -/

/-- One round of the loop of `tree::p_transfer`, for a source node holding `v`
at depth `it_dist`: the statements from `p_node_allocate` to
`queue.emplace_back`. Returns the heap and the deque. -/
def transfer_step (h : Heap α) (prev_dist : Nat) (queue : List (nodeptr × Nat)) (v : α)
    (it_dist : Nat) : Except Fault (Heap α × List (nodeptr × Nat)) := do
  let (h1, a) := p_node_allocate h (some v)
  let tmp : nodeptr := some a
  let (h2, queue2) ←
    (if it_dist < prev_dist then do
      let b ← back queue
      let h2 ← wr h1 tmp (fun x => { x with child_begin := b.1 })
      let (h3, queue3, bak) ← p_transfer_pop tmp (some it_dist) queue h2 b.1
      let h4 ← wr h3 tmp (fun x => { x with child_end := bak })
      let b2 ← back queue3
      let h5 ← wr h4 tmp (fun x => { x with right := b2.1 })
      let h6 ← wr h5 b2.1 (fun x => { x with left := tmp })
      pure (h6, queue3)
    else if it_dist = prev_dist ∧ queue ≠ [] then do
      let b ← back queue
      let h2 ← wr h1 tmp (fun x => { x with right := b.1 })
      let h3 ← wr h2 b.1 (fun x => { x with left := tmp })
      pure (h3, queue)
    else pure (h1, queue) : Except Fault (Heap α × List (nodeptr × Nat)))
  pure (h2, (tmp, it_dist) :: queue2)

/-- The rounds of the loop of `tree::p_transfer` for source nodes with the
values and depths `items`, in the order given. Returns the heap, the last
depth (`prev_dist`) and the deque. -/
def transfer_steps : List (α × Nat) → Heap α → Nat → List (nodeptr × Nat) →
    Except Fault (Heap α × Nat × List (nodeptr × Nat))
  | [], h, prev_dist, queue => .ok (h, prev_dist, queue)
  | (v, d) :: items, h, prev_dist, queue =>
    match transfer_step h prev_dist queue v d with
    | .error e => .error e
    | .ok (h2, queue2) => transfer_steps items h2 d queue2

/-- Every entry of the deque is a node at an address from `base` on. -/
def qvalid (base : Nat) (Q : List (nodeptr × Nat)) : Prop :=
  ∀ q ∈ Q, ∃ a, q.1 = some a ∧ base ≤ a

namespace Forest

/-- Addresses, values and depths in depth-first pre-order, the top level at
depth `d`. -/
def items (d : Nat) : Forest α → List (Nat × α × Nat)
  | nil => []
  | cons a v kids rest => (a, v, d) :: (items (d + 1) kids ++ items d rest)

/-- Values and depths in reverse pre-order: the order in which the loop of
`p_transfer` walks the source. -/
def rev_items (d : Nat) : Forest α → List (α × Nat)
  | nil => []
  | cons _ v kids rest => rev_items d rest ++ (rev_items (d + 1) kids ++ [(v, d)])

/-- Depth of the last node of the pre-order below the top level. -/
def last_depth : Forest α → Nat
  | nil => 0
  | cons _ _ nil nil => 0
  | cons _ _ (cons b w k r) nil => last_depth (cons b w k r) + 1
  | cons _ _ _ (cons b w k r) => last_depth (cons b w k r)

/-- The value of `prev_dist` after the rounds of the loop of `p_transfer` for
a chain at depth `d`: unchanged for the empty chain. -/
def dist_after (pd d : Nat) : Forest α → Nat
  | nil => pd
  | cons _ _ _ _ => d

/-- Every node that has children also has a right sibling. -/
def transferable : Forest α → Prop
  | nil => True
  | cons _ _ kids rest => (kids = nil ∨ rest ≠ nil) ∧ transferable kids ∧ transferable rest

/-- Decision procedure for `transferable`, by recursion on the forest. -/
instance transferable_decidable [DecidableEq α] : ∀ f : Forest α, Decidable (transferable f)
  | nil => isTrue trivial
  | cons _ _ kids rest =>
    match decEq kids nil, decEq rest nil, transferable_decidable kids,
      transferable_decidable rest with
    | _, _, isFalse h3, _ => isFalse (fun x => h3 x.2.1)
    | _, _, _, isFalse h4 => isFalse (fun x => h4 x.2.2)
    | isTrue h1, _, isTrue h3, isTrue h4 => isTrue ⟨Or.inl h1, h3, h4⟩
    | isFalse _, isFalse h2, isTrue h3, isTrue h4 => isTrue ⟨Or.inr h2, h3, h4⟩
    | isFalse h1, isTrue h2, _, _ => isFalse (fun x => x.1.elim h1 (fun y => y h2))

/-- The forest with the addresses the loop of `p_transfer` gives the copies
when the first of them is allocated at `n`: the nodes are numbered in reverse
pre-order. -/
def copy (n : Nat) : Forest α → Forest α
  | nil => nil
  | cons _ v kids rest => cons (n + size rest + size kids) v (copy (n + size rest) kids) (copy n rest)

end Forest

/-! ## Programs over several trees -/

/-- Source `tree::~tree()`: `p_erase_children(root, foot)`. -/
def tree.dtor (fuel : Nat) (h : Heap α) (t : tree) : Except Fault (Heap α) :=
  p_erase_children fuel h t.root t.foot

/-- Whether cell `a` holds a node that owns a value. -/
def valued (h : Heap α) (a : Nat) : Bool :=
  match h[a]? with
  | some (some nd) => nd.value.isSome
  | _ => false

/-- The heaps and live tree objects that programs reach from the heap `h0`
with no tree object alive. The list holds the tree objects in scope, in any
order (`perm`); a call acts on the objects at the front. The calls are the
value constructor, the mutators (`evolves`), copy construction and
assignment from another object, move construction and assignment from
another object (the moved-from object stays in scope), and the destructor,
which takes the object out of scope. Every call is one that returns. -/
inductive worlds (h0 : Heap α) : Heap α → List tree → Prop where
  | start : worlds h0 h0 []
  | perm (h : Heap α) (ts ts1 : List tree) :
      worlds h0 h ts → ts.Perm ts1 → worlds h0 h ts1
  | ctor (h h1 : Heap α) (ts : List tree) (t : tree) (v : α) :
      worlds h0 h ts → tree.ctor h v = .ok (h1, t) → worlds h0 h1 (t :: ts)
  | mutate (h h1 : Heap α) (ts : List tree) (t t1 : tree) :
      worlds h0 h (t :: ts) → evolves h t h1 t1 → worlds h0 h1 (t1 :: ts)
  | copy_ctor (h h1 : Heap α) (ts : List tree) (s c : tree) (F : Nat) (dflt : α) :
      worlds h0 h (s :: ts) → tree.copy_ctor F h dflt s = .ok (h1, c) →
      worlds h0 h1 (c :: s :: ts)
  | copy_assign (h h1 : Heap α) (ts : List tree) (t s t1 : tree) (F : Nat) :
      worlds h0 h (t :: s :: ts) → tree.copy_assign F h t s = .ok (h1, t1) →
      worlds h0 h1 (t1 :: s :: ts)
  | move_ctor (h : Heap α) (ts : List tree) (s : tree) :
      worlds h0 h (s :: ts) →
      worlds h0 h ((tree.move_ctor s).1 :: (tree.move_ctor s).2 :: ts)
  | move_assign (h h1 : Heap α) (ts : List tree) (t s t1 s1 : tree) (F : Nat) :
      worlds h0 h (t :: s :: ts) → tree.move_assign F h t s = .ok (h1, t1, s1) →
      worlds h0 h1 (t1 :: s1 :: ts)
  | dtor (h h1 : Heap α) (ts : List tree) (t : tree) (F : Nat) :
      worlds h0 h (t :: ts) → tree.dtor F h t = .ok h1 → worlds h0 h1 ts

/-- The tree objects `ts` are in the states `W` (each paired with its
forest): every one is well-formed and no two share a node. -/
def states (h : Heap α) (ts : List tree) (W : List (tree × Forest α)) : Prop :=
  W.map Prod.fst = ts ∧ (∀ p ∈ W, well_formed h p.1 p.2) ∧
    W.Pairwise (fun p q => ∀ a ∈ p.1.nodes p.2, a ∉ q.1.nodes q.2)

/-- The heap after `tree_ copy = tree` on the scenario tree: the source in the
cells 0 to 8, the copy in the cells 9 to 17. -/
def copied_heap : Heap Int :=
  [some ⟨none, none, some 1, some 2, some 8, some 0⟩,
   some ⟨none, some 0, none, none, none, none⟩,
   some ⟨some 0, none, some 3, none, none, some 1⟩,
   some ⟨some 0, some 2, some 6, some 7, some 5, some 2⟩,
   some ⟨some 3, some 7, some 5, none, none, some 3⟩,
   some ⟨some 3, some 4, none, none, none, some 4⟩,
   some ⟨some 0, some 3, some 8, none, none, some 5⟩,
   some ⟨some 3, none, some 4, none, none, some 6⟩,
   some ⟨some 0, some 6, none, none, none, some 7⟩,
   some ⟨none, none, some 10, some 17, some 11, some 0⟩,
   some ⟨none, some 9, none, none, none, none⟩,
   some ⟨some 9, some 12, none, none, none, some 7⟩,
   some ⟨some 9, some 16, some 11, none, none, some 5⟩,
   some ⟨some 16, some 14, none, none, none, some 4⟩,
   some ⟨some 16, some 15, some 13, none, none, some 3⟩,
   some ⟨some 16, none, some 14, none, none, some 6⟩,
   some ⟨some 9, some 17, some 12, some 15, some 13, some 2⟩,
   some ⟨some 9, none, some 16, none, none, some 1⟩]

/-- The tree object of the copy in `copied_heap`. -/
def copied_tree : tree := ⟨some 9, some 10⟩

/-- The heap `copied_heap` after erasing the node holding 2 in the copy. -/
def copy_erased_heap : Heap Int :=
  [some ⟨none, none, some 1, some 2, some 8, some 0⟩,
   some ⟨none, some 0, none, none, none, none⟩,
   some ⟨some 0, none, some 3, none, none, some 1⟩,
   some ⟨some 0, some 2, some 6, some 7, some 5, some 2⟩,
   some ⟨some 3, some 7, some 5, none, none, some 3⟩,
   some ⟨some 3, some 4, none, none, none, some 4⟩,
   some ⟨some 0, some 3, some 8, none, none, some 5⟩,
   some ⟨some 3, none, some 4, none, none, some 6⟩,
   some ⟨some 0, some 6, none, none, none, some 7⟩,
   some ⟨none, none, some 10, some 17, some 11, some 0⟩,
   some ⟨none, some 9, none, none, none, none⟩,
   some ⟨some 9, some 12, none, none, none, some 7⟩,
   some ⟨some 9, some 17, some 11, none, none, some 5⟩,
   none,
   none,
   none,
   none,
   some ⟨some 9, none, some 12, none, none, some 1⟩]

/-! ## Sources on which the transfer fails -/

/-- The calls that build the chain 0 - 1 - 2: the root 0 has the one child 1,
which has the one child 2. -/
def chain3 : Except Fault (Heap Int × tree) := do
  let (h, t) ← tree.ctor [] 0
  let (h, it1) ← append_child h t t.begin 1
  let (h, _) ← append_child h t it1 2
  pure (h, t)

/-- The heap that `chain3` builds. -/
def chain3_heap : Heap Int :=
  [some ⟨none, none, some 1, some 2, some 2, some 0⟩,
   some ⟨none, some 0, none, none, none, none⟩,
   some ⟨some 0, none, none, some 3, some 3, some 1⟩,
   some ⟨some 2, none, none, none, none, some 2⟩]

/-- The tree object that `chain3` builds. -/
def chain3_tree : tree := ⟨some 0, some 1⟩

/-- The calls that build the tree in which the root 0 has the children 1 and
2, the node 1 has the one child 3 and the node 3 has the one child 4. -/
def deep5 : Except Fault (Heap Int × tree) := do
  let (h, t) ← tree.ctor [] 0
  let (h, it1) ← append_child h t t.begin 1
  let (h, _) ← append_child h t t.begin 2
  let (h, it3) ← append_child h t it1 3
  let (h, _) ← append_child h t it3 4
  pure (h, t)

/-- The heap that `deep5` builds. -/
def deep5_heap : Heap Int :=
  [some ⟨none, none, some 1, some 2, some 3, some 0⟩,
   some ⟨none, some 0, none, none, none, none⟩,
   some ⟨some 0, none, some 3, some 4, some 4, some 1⟩,
   some ⟨some 0, some 2, none, none, none, some 2⟩,
   some ⟨some 2, none, none, some 5, some 5, some 3⟩,
   some ⟨some 4, none, none, none, none, some 4⟩]

/-- The tree object that `deep5` builds. -/
def deep5_tree : tree := ⟨some 0, some 1⟩

/-- The loops of `depth_between` and `breadth_between` started at `x` end
within `F` steps: the parent links and the right links from `x` lead through
live nodes to a null link. -/
def climbs (F : Nat) (h : Heap α) (x : nodeptr) : Prop :=
  (∃ r, depth_between_loop F h x 0 = .ok r) ∧ (∃ r, breadth_between_loop F h x 0 = .ok r)

/-- The assignment `*it = v` through a list iterator: `operator*` returns
`*n->value`, the value slot is overwritten. -/
def list.deref_assign (h : list.Heap α) (it : nodeptr) (v : α) : Except Fault (list.Heap α) :=
  match list.rd h it with
  | .error e => .error e
  | .ok nd =>
    match nd.value with
    | none => .error .null_deref
    | some _ => list.wr h it (fun x => { x with value := some v })

/-- The heap of `list_scenario` before its last call: the list 0, 1, 2, 4, 3,
with the 4 inserted before `it3` in the cell 5. -/
def list_five_heap : list.Heap Int :=
  [some ⟨some 4, none, none⟩,
   some ⟨none, some 3, some 0⟩,
   some ⟨some 3, some 5, some 2⟩,
   some ⟨some 1, some 2, some 1⟩,
   some ⟨some 5, some 0, some 3⟩,
   some ⟨some 2, some 4, some 4⟩]

/-- The heap that `list_scenario` builds: the list 0, 1, 2, 3. -/
def list_four_heap : list.Heap Int :=
  [some ⟨some 4, none, none⟩,
   some ⟨none, some 3, some 0⟩,
   some ⟨some 3, some 4, some 2⟩,
   some ⟨some 1, some 2, some 1⟩,
   some ⟨some 2, some 0, some 3⟩,
   none]

/-! ## Depth-first stepping along the pre-order -/

theorem linked_both {β : Type} {R S : β → β → Prop} :
    ∀ l : List β, List.Chain' R l → List.Chain' S l →
      List.Chain' (fun x y => R x y ∧ S x y) l
  | [], _, _ => List.chain'_nil
  | [_], _, _ => List.chain'_singleton _
  | x :: y :: l, hR, hS => by
    rw [List.chain'_cons] at hR hS ⊢
    exact ⟨⟨hR.1, hS.1⟩, linked_both (y :: l) hR.2 hS.2⟩

theorem run_of_linked (step : nodeptr → Except Fault nodeptr) :
    ∀ (l : List nodeptr) (x : nodeptr),
      List.Chain' (fun a b => step a = .ok b) (x :: l) → run step l.length x = .ok (x :: l)
  | [], x, _ => rfl
  | y :: l, x, hc => by
    rw [List.chain'_cons] at hc
    simp [run, hc.1, run_of_linked step l y hc.2]

theorem linked_succ {β : Type} {R : β → β → Prop} :
    ∀ (l : List β) (e x : β), List.Chain' R (l ++ [e]) → x ∈ l → ∃ y, y ∈ l ++ [e] ∧ R x y
  | [], _, _, _, hx => by simp at hx
  | [a], e, x, hc, hx => by
    simp at hx; subst hx
    simp at hc
    exact ⟨e, by simp, hc⟩
  | a :: b :: l, e, x, hc, hx => by
    rw [List.cons_append, List.cons_append, List.chain'_cons] at hc
    rcases List.mem_cons.mp hx with rfl | hx
    · exact ⟨b, by simp, hc.1⟩
    · obtain ⟨y, hy, hR⟩ := linked_succ (b :: l) e x hc.2 hx
      exact ⟨y, List.mem_cons_of_mem _ hy, hR⟩

theorem linked_pred {β : Type} {R : β → β → Prop} :
    ∀ (l : List β) (a y : β), List.Chain' R (a :: l) → y ∈ l → ∃ x, x ∈ a :: l ∧ R x y
  | [], _, _, _, hy => by simp at hy
  | b :: l, a, y, hc, hy => by
    rw [List.chain'_cons] at hc
    rcases List.mem_cons.mp hy with rfl | hy
    · exact ⟨a, by simp, hc.1⟩
    · obtain ⟨x, hx, hR⟩ := linked_pred l b y hc.2 hy
      exact ⟨x, List.mem_cons_of_mem _ hx, hR⟩

theorem rd_cell {h : Heap α} {a : Nat} {nd : node α} (hc : h[a]? = some (some nd)) :
    rd h (some a) = .ok nd := by
  simp [rd, hc]


theorem firstOr_head (f : Forest α) (E : nodeptr) :
    ∃ tl, f.pre.map some ++ [E] = f.firstOr E :: tl := by
  cases f with
  | nil => exact ⟨[], rfl⟩
  | cons a v kids rest => exact ⟨_, rfl⟩

theorem inc_chain (h : Heap α) : ∀ (f : Forest α) (p l stop E : nodeptr) (k : Nat),
    owns h p l f stop → 1 ≤ k →
    (∀ fuel, k ≤ fuel → ∀ x nd, rd h (some x) = .ok nd → nd.parent = p → nd.right = stop →
      df_inc_climb fuel h (some x) = .ok E) →
    List.Chain' (inc_to h (k + f.size)) (f.pre.map some ++ [E]) := by
  intro f
  induction f with
  | nil => intro p l stop E k _ _ _; simp [Forest.pre]
  | cons a v kids rest ihk ihr =>
    intro p l stop E k hown hk1 hE
    obtain ⟨hc, hk, hr⟩ := hown
    have hrd := rd_cell hc
    -- climbing from `a`
    have hclimb : ∀ fuel, k ≤ fuel → df_inc_climb fuel h (some a) = .ok (rest.firstOr E) := by
      intro fuel hf
      cases rest with
      | nil => exact hE fuel hf a _ hrd rfl rfl
      | cons b w kb rb =>
        obtain ⟨f', rfl⟩ : ∃ f', fuel = f' + 1 := ⟨fuel - 1, by omega⟩
        simp [df_inc_climb, hrd, Forest.firstOr]
    have hEk : ∀ fuel, k + 1 ≤ fuel → ∀ x nd, rd h (some x) = .ok nd → nd.parent = some a →
        nd.right = none → df_inc_climb fuel h (some x) = .ok (rest.firstOr E) := by
      intro fuel hf x nd hx hp hr'
      obtain ⟨f', rfl⟩ : ∃ f', fuel = f' + 1 := ⟨fuel - 1, by omega⟩
      simp only [df_inc_climb, hx, hr', hp]
      exact hclimb f' (by omega)
    have A := ihk (some a) none none (rest.firstOr E) (k + 1) hk (by omega) hEk
    have B := ihr p (some a) stop E k hr hk1 hE
    obtain ⟨tl, htl⟩ := firstOr_head rest E
    have hlist : (Forest.cons a v kids rest).pre.map some ++ [E]
        = (some a :: kids.pre.map some) ++ rest.firstOr E :: tl := by
      simp [Forest.pre, ← htl]
    rw [hlist, List.chain'_split]
    constructor
    · rw [List.cons_append, List.chain'_cons']
      constructor
      · intro y hy fuel hf
        simp only [Forest.size] at hf
        cases kids with
        | nil =>
          simp [Forest.pre] at hy
          subst hy
          simp only [df_inc, hrd, Forest.first]
          exact hclimb fuel (by omega)
        | cons c u kc rc =>
          simp [Forest.pre] at hy
          subst hy
          simp [df_inc, hrd, Forest.first]
      · refine A.imp ?_
        intro x y hxy fuel hf
        simp only [Forest.size] at hf
        exact hxy fuel (by omega)
    · rw [← htl]
      refine B.imp ?_
      intro x y hxy fuel hf
      simp only [Forest.size] at hf
      exact hxy fuel (by omega)



theorem deepest_last_getLast? : ∀ (kids : Forest α) (a : Nat),
    (a :: kids.pre).getLast? = some (Forest.deepest_last a kids) := by
  intro kids
  induction kids with
  | nil => intro a; rfl
  | cons b w kb rb ihk ihr =>
    intro a
    cases rb with
    | nil =>
      have := ihk b
      simpa [Forest.pre, Forest.deepest_last] using this
    | cons c u kc rc =>
      have := ihr a
      simp only [Forest.deepest_last]
      rw [← this]
      simp only [Forest.pre]
      rw [← List.cons_append, ← List.cons_append,
        List.getLast?_append_of_ne_nil _ (List.cons_ne_nil _ _),
        List.getLast?_cons_cons]

theorem descend_last (h : Heap α) : ∀ (kids : Forest α) (a : Nat) (nd : node α) (l : nodeptr),
    rd h (some a) = .ok nd → nd.child_end = kids.last → owns h (some a) l kids none →
    ∀ fuel, kids.size + 1 ≤ fuel →
      df_dec_descend fuel h (some a) = .ok (some (Forest.deepest_last a kids)) := by
  intro kids
  induction kids with
  | nil =>
    intro a nd l hrd hce _ fuel hf
    obtain ⟨f', rfl⟩ : ∃ f', fuel = f' + 1 := ⟨fuel - 1, by omega⟩
    simp [df_dec_descend, hrd, hce, Forest.last, Forest.deepest_last]
  | cons b w kb rb ihk ihr =>
    intro a nd l hrd hce hown fuel hf
    obtain ⟨hc, hk, hr⟩ := hown
    cases rb with
    | nil =>
      obtain ⟨f', rfl⟩ : ∃ f', fuel = f' + 1 := ⟨fuel - 1, by omega⟩
      simp only [Forest.size] at hf
      simp only [df_dec_descend, hrd, hce, Forest.last, Forest.deepest_last]
      exact ihk b _ none (rd_cell hc) rfl hk f' (by omega)
    | cons c u kc rc =>
      simp only [Forest.size] at hf
      simp only [Forest.deepest_last]
      exact ihr a nd (some b) hrd (by simpa [Forest.last] using hce) hr fuel
        (by simp only [Forest.size]; omega)

theorem dec_chain (h : Heap α) : ∀ (f : Forest α) (p l stop P : nodeptr) (k : Nat),
    owns h p l f stop →
    (∀ fuel, k ≤ fuel → ∀ x nd, rd h (some x) = .ok nd → nd.parent = p → nd.left = l →
      df_dec fuel h (some x) = .ok P) →
    List.Chain' (dec_to h (k + f.size + 1)) (P :: f.pre.map some) := by
  intro f
  induction f with
  | nil => intro p l stop P k _ _; simp [Forest.pre]
  | cons a v kids rest ihk ihr =>
    intro p l stop P k hown hP
    obtain ⟨hc, hk, hr⟩ := hown
    have hrd := rd_cell hc
    have A := ihk (some a) none none (some a) 0 hk (by
      intro fuel _ x nd hx hp hl
      simp [df_dec, hx, hl, hp])
    have B := ihr p (some a) stop (some (Forest.deepest_last a kids)) (kids.size + 1) hr (by
      intro fuel hf x nd hx hp hl
      simp only [df_dec, hx, hl]
      exact descend_last h kids a _ none hrd rfl hk fuel hf)
    obtain ⟨init, hinit⟩ := List.getLast?_eq_some_iff.mp
      (show (some a :: kids.pre.map some).getLast? = some (some (Forest.deepest_last a kids)) by
        have := deepest_last_getLast? kids a
        rw [← List.map_cons, List.getLast?_map, this]; rfl)
    have hlist : P :: (Forest.cons a v kids rest).pre.map some
        = (P :: init) ++ some (Forest.deepest_last a kids) :: rest.pre.map some := by
      simp only [Forest.pre, List.map_cons, List.map_append, List.cons_append]
      rw [← List.cons_append, hinit]
      simp
    rw [hlist, List.chain'_split]
    constructor
    · rw [List.cons_append, ← hinit, List.chain'_cons]
      constructor
      · intro fuel hf
        exact hP fuel (by omega) a _ hrd rfl rfl
      · refine A.imp ?_
        intro x y hxy fuel hf
        simp only [Forest.size] at hf
        exact hxy fuel (by omega)
    · refine B.imp ?_
      intro x y hxy fuel hf
      simp only [Forest.size] at hf
      exact hxy fuel (by omega)


theorem well_formed_cons {h : Heap α} {t : tree} {r : Nat} {v : α} {kids : Forest α}
    (hwf : well_formed h t (.cons r v kids .nil)) :
    ∃ e, t.root = some r ∧ t.foot = some e ∧
      owns h none none (.cons r v kids .nil) (some e) ∧
      h[e]? = some (some ⟨none, some r, none, none, none, none⟩) ∧
      (e :: (Forest.cons r v kids .nil).pre).Nodup := by
  obtain ⟨hr, hrest⟩ := hwf
  cases hf : t.foot with
  | none => rw [hf] at hrest; exact hrest.elim
  | some e =>
    rw [hf] at hrest
    exact ⟨e, hr, rfl, hrest⟩

theorem tree_links {h : Heap α} {t : tree} {r : Nat} {v : α} {kids : Forest α}
    (hwf : well_formed h t (.cons r v kids .nil)) :
    List.Chain' (step_both h (kids.size + 2))
      ((Forest.cons r v kids .nil).pre.map some ++ [t.foot]) := by
  obtain ⟨e, hr, hf, hown, he, hnd⟩ := well_formed_cons hwf
  rw [hf]
  have hrd : rd h (some r) = .ok _ := rd_cell hown.1
  have hI := inc_chain h (.cons r v kids .nil) none none (some e) (some e) 1 hown (le_refl _) (by
    intro fuel hfu x nd hx _ hright
    obtain ⟨f', rfl⟩ : ∃ f', fuel = f' + 1 := ⟨fuel - 1, by omega⟩
    simp [df_inc_climb, hx, hright])
  have hD := dec_chain h (.cons r v kids .nil) none none (some e) none 0 hown (by
    intro fuel _ x nd hx hp hl
    simp [df_dec, hx, hl, hp])
  have hlast : ((Forest.cons r v kids .nil).pre.map some).getLast?
      = some (some (Forest.deepest_last r kids)) := by
    have := deepest_last_getLast? kids r
    simp only [Forest.pre, List.append_nil]
    rw [List.getLast?_map, this]; rfl
  obtain ⟨init, hinit⟩ := List.getLast?_eq_some_iff.mp hlast
  have hfoot : dec_to h (kids.size + 2) (some (Forest.deepest_last r kids)) (some e) := by
    intro fuel hfu
    simp only [df_dec, rd_cell he]
    exact descend_last h kids r _ none hrd rfl hown.2.1 fuel (by omega)
  have hD2 : List.Chain' (dec_to h (kids.size + 2))
      ((Forest.cons r v kids .nil).pre.map some ++ [some e]) := by
    have hD3 := (List.chain'_cons'.mp hD).2
    rw [hinit, List.append_assoc, List.singleton_append, List.chain'_split]
    refine ⟨?_, by simpa using hfoot⟩
    rw [← hinit]
    refine hD3.imp ?_
    intro x y hxy fuel hfu
    exact hxy fuel (by simp only [Forest.size]; omega)
  refine linked_both _ (hI.imp ?_) hD2
  intro x y hxy fuel hfu
  exact hxy fuel (by simp only [Forest.size]; omega)

/-! ## Traversal claims -/

theorem scenario_builds : scenario = .ok (scenario_heap, scenario_tree) := by rfl

theorem scenario_well_formed :
    well_formed scenario_heap scenario_tree (.cons 0 0 scenario_kids .nil) := by decide

theorem pre_length : ∀ f : Forest α, f.pre.length = f.size
  | .nil => rfl
  | .cons _ _ kids rest => by
    simp [Forest.pre, Forest.size, pre_length kids, pre_length rest]; omega

theorem vals_length : ∀ f : Forest α, f.vals.length = f.size
  | .nil => rfl
  | .cons _ _ kids rest => by
    simp [Forest.vals, Forest.size, vals_length kids, vals_length rest]; omega

theorem owns_deref (h : Heap α) : ∀ (f : Forest α) (p l stop : nodeptr),
    owns h p l f stop → f.pre.map (fun a => deref h (some a)) = f.vals.map .ok := by
  intro f
  induction f with
  | nil => intro p l stop _; rfl
  | cons a v kids rest ihk ihr =>
    intro p l stop hown
    obtain ⟨hc, hk, hr⟩ := hown
    have h1 := ihk _ _ _ hk
    have h2 := ihr _ _ _ hr
    simp only [Forest.pre, Forest.vals, List.map_cons, List.map_append, h1, h2]
    simp [deref, rd_cell hc]

/-- The forward run over a well-formed non-empty tree, with the facts about
the nodes it passes. -/
theorem preorder_run (h : Heap α) (t : tree) (r : Nat) (v : α) (kids : Forest α)
    (hwf : well_formed h t (.cons r v kids .nil)) (fuel : Nat) (hfuel : kids.size + 2 ≤ fuel) :
    run (df_inc fuel h) (kids.size + 1) t.begin
        = .ok ((Forest.cons r v kids .nil).pre.map some ++ [t.end_])
      ∧ (Forest.cons r v kids .nil).pre.length = kids.size + 1
      ∧ (Forest.cons r v kids .nil).pre.Nodup
      ∧ t.end_ ∉ (Forest.cons r v kids .nil).pre.map some
      ∧ t.end_ ≠ none
      ∧ (Forest.cons r v kids .nil).pre.map (fun a => deref h (some a))
          = (Forest.cons r v kids .nil).vals.map .ok := by
  have hl := tree_links hwf
  obtain ⟨e, hr, hf, hown, he, hnd⟩ := well_formed_cons hwf
  have hlen : (Forest.cons r v kids .nil).pre.length = kids.size + 1 := by
    rw [pre_length]; simp [Forest.size]; omega
  refine ⟨?_, hlen, (List.nodup_cons.mp hnd).2, ?_, ?_, owns_deref h _ _ _ _ hown⟩
  · have hc : List.Chain' (fun a b => df_inc fuel h a = .ok b)
        ((Forest.cons r v kids .nil).pre.map some ++ [t.foot]) :=
      hl.imp (fun a b hab => hab.1 fuel hfuel)
    have := run_of_linked (df_inc fuel h) (((kids.pre ++ []).map some) ++ [t.foot]) (some r)
      (by simpa [Forest.pre] using hc)
    simp only [tree.begin, tree.end_, hr]
    have hlen2 : (List.map some (kids.pre ++ []) ++ [t.foot]).length = kids.size + 1 := by
      simp [pre_length]
    rw [hlen2] at this
    rw [this]
    simp [Forest.pre]
  · simp only [tree.end_, hf]
    intro hmem
    rw [List.mem_map] at hmem
    obtain ⟨a, ha, hae⟩ := hmem
    cases hae
    exact (List.nodup_cons.mp hnd).1 ha
  · simp [tree.end_, hf]

/-- C5: in a well-formed non-empty tree, `kids.size + 1` applications of
`df_iterator::operator++` from `begin()` pass exactly the nodes of the tree in
depth-first pre-order and then stand on `end()`; the nodes passed are pairwise
distinct, none of them is the sentinel or null, and each holds its value. -/
theorem df_inc_visits_preorder (h : Heap α) (t : tree) (r : Nat) (v : α) (kids : Forest α)
    (hwf : well_formed h t (.cons r v kids .nil)) (fuel : Nat) (hfuel : kids.size + 2 ≤ fuel) :
    run (df_inc fuel h) (kids.size + 1) t.begin
        = .ok ((Forest.cons r v kids .nil).pre.map some ++ [t.end_])
      ∧ (Forest.cons r v kids .nil).pre.length = kids.size + 1
      ∧ (Forest.cons r v kids .nil).pre.Nodup
      ∧ t.end_ ∉ (Forest.cons r v kids .nil).pre.map some
      ∧ t.end_ ≠ none
      ∧ (Forest.cons r v kids .nil).pre.map (fun a => deref h (some a))
          = (Forest.cons r v kids .nil).vals.map .ok :=
  preorder_run h t r v kids hwf fuel hfuel

theorem df_inc_visits_preorder_witness :
    well_formed scenario_heap scenario_tree (.cons 0 0 scenario_kids .nil) ∧
      run (df_inc 9 scenario_heap) 8 scenario_tree.begin
        = .ok [some 0, some 2, some 3, some 7, some 4, some 5, some 6, some 8, some 1] :=
  ⟨scenario_well_formed,
    (df_inc_visits_preorder scenario_heap scenario_tree 0 0 scenario_kids
      scenario_well_formed 9 (by decide)).1⟩


/-- C7: in a well-formed non-empty tree `operator++` and `operator--` of
`df_iterator` undo each other: incrementing then decrementing returns to every
value-holding node, and decrementing then incrementing returns to every node
other than the root and to the sentinel. -/
theorem df_inc_dec_inverse (h : Heap α) (t : tree) (r : Nat) (v : α) (kids : Forest α)
    (hwf : well_formed h t (.cons r v kids .nil)) (fuel : Nat) (hfuel : kids.size + 2 ≤ fuel) :
    (∀ a ∈ (Forest.cons r v kids .nil).pre,
        (df_inc fuel h (some a) >>= df_dec fuel h) = .ok (some a))
      ∧ (∀ a ∈ (Forest.cons r v kids .nil).pre, a ≠ r →
        (df_dec fuel h (some a) >>= df_inc fuel h) = .ok (some a))
      ∧ (df_dec fuel h t.end_ >>= df_inc fuel h) = .ok t.end_ := by
  have hl := tree_links hwf
  have hpred : ∀ y, y ∈ (kids.pre.map some ++ [t.foot]) →
      (df_dec fuel h y >>= df_inc fuel h) = .ok y := by
    intro y hy
    have hl2 : List.Chain' (step_both h (kids.size + 2))
        (some r :: (kids.pre.map some ++ [t.foot])) := by
      simpa [Forest.pre] using hl
    obtain ⟨x, _, hx⟩ := linked_pred _ _ y hl2 hy
    rw [hx.2 fuel hfuel]
    exact hx.1 fuel hfuel
  refine ⟨?_, ?_, ?_⟩
  · intro a ha
    obtain ⟨y, _, hy⟩ := linked_succ _ _ (some a) hl (List.mem_map_of_mem _ ha)
    rw [hy.1 fuel hfuel]
    exact hy.2 fuel hfuel
  · intro a ha hne
    apply hpred
    simp only [Forest.pre, List.append_nil, List.mem_cons] at ha
    rcases ha with rfl | ha
    · exact (hne rfl).elim
    · exact List.mem_append_left _ (List.mem_map_of_mem _ ha)
  · exact hpred _ (by simp [tree.end_])

theorem df_inc_dec_inverse_witness :
    well_formed scenario_heap scenario_tree (.cons 0 0 scenario_kids .nil) ∧
      (df_inc 9 scenario_heap (some 5) >>= df_dec 9 scenario_heap) = .ok (some 5) ∧
      (df_dec 9 scenario_heap scenario_tree.end_ >>= df_inc 9 scenario_heap)
        = .ok scenario_tree.end_ :=
  ⟨scenario_well_formed,
    (df_inc_dec_inverse scenario_heap scenario_tree 0 0 scenario_kids
      scenario_well_formed 9 (by decide)).1 5 (by decide),
    (df_inc_dec_inverse scenario_heap scenario_tree 0 0 scenario_kids
      scenario_well_formed 9 (by decide)).2.2⟩

/-- The decrement of a `df_iterator` at `end()`: it lands on the deepest
rightmost descendant of the root, the last node of the pre-order. -/
theorem df_dec_from_end (h : Heap α) (t : tree) (r : Nat) (v : α) (kids : Forest α)
    (hwf : well_formed h t (.cons r v kids .nil)) (fuel : Nat) (hfuel : kids.size + 2 ≤ fuel) :
    df_dec fuel h t.end_ = .ok (some (Forest.deepest_last r kids))
      ∧ (Forest.cons r v kids .nil).pre.getLast? = some (Forest.deepest_last r kids)
      ∧ (kids = .nil → df_dec fuel h t.end_ = .ok t.begin) := by
  obtain ⟨e, hr, hf, hown, he, hnd⟩ := well_formed_cons hwf
  have h1 : df_dec fuel h t.end_ = .ok (some (Forest.deepest_last r kids)) := by
    simp only [tree.end_, hf, df_dec, rd_cell he]
    exact descend_last h kids r _ none (rd_cell hown.1) rfl hown.2.1 fuel (by omega)
  refine ⟨h1, ?_, ?_⟩
  · simpa [Forest.pre] using deepest_last_getLast? kids r
  · intro hk
    rw [h1, hk, tree.begin, hr]
    rfl

/-- C8: in a well-formed non-empty tree, `operator--` of a `df_iterator` at
`end()` yields the deepest rightmost descendant of the root (the root itself
when it has no children), which is the last node of the depth-first
pre-order. -/
theorem df_dec_end_is_last (h : Heap α) (t : tree) (r : Nat) (v : α) (kids : Forest α)
    (hwf : well_formed h t (.cons r v kids .nil)) (fuel : Nat) (hfuel : kids.size + 2 ≤ fuel) :
    df_dec fuel h t.end_ = .ok (some (Forest.deepest_last r kids))
      ∧ (Forest.cons r v kids .nil).pre.getLast? = some (Forest.deepest_last r kids)
      ∧ (kids = .nil → df_dec fuel h t.end_ = .ok t.begin) :=
  df_dec_from_end h t r v kids hwf fuel hfuel

theorem df_dec_end_is_last_witness :
    well_formed scenario_heap scenario_tree (.cons 0 0 scenario_kids .nil) ∧
      df_dec 9 scenario_heap scenario_tree.end_ = .ok (some 8) :=
  ⟨scenario_well_formed,
    (df_dec_end_is_last scenario_heap scenario_tree 0 0 scenario_kids
      scenario_well_formed 9 (by decide)).1⟩

/-- Repeated `df_iterator::operator--` from the last node of the pre-order: in
a well-formed non-empty tree, `kids.size` decrements pass the nodes in the
reverse of the depth-first pre-order and end on the root. This is the call the
body of `df_reverse_iterator::operator++` names; that operator itself has no
embedding, because its `return df_iterator::operator--();` binds a
`df_iterator&` to the declared return type `df_reverse_iterator&`, which is
ill-formed, and so is `df_reverse_iterator::operator--`. -/
theorem df_dec_visits_reverse (h : Heap α) (t : tree) (r : Nat) (v : α) (kids : Forest α)
    (hwf : well_formed h t (.cons r v kids .nil)) (fuel : Nat) (hfuel : kids.size + 2 ≤ fuel) :
    run (df_dec fuel h) kids.size (some (Forest.deepest_last r kids))
      = .ok ((Forest.cons r v kids .nil).pre.reverse.map some) := by
  have hl := tree_links hwf
  have hl1 : List.Chain' (fun a b => df_dec fuel h b = .ok a)
      ((Forest.cons r v kids .nil).pre.map some) :=
    (List.chain'_append.mp hl).1.imp (fun a b hab => hab.2 fuel hfuel)
  have hl2 : List.Chain' (fun a b => df_dec fuel h a = .ok b)
      (((Forest.cons r v kids .nil).pre.map some).reverse) :=
    List.chain'_reverse.mpr hl1
  have hlast : ((Forest.cons r v kids .nil).pre.map some).getLast?
      = some (some (Forest.deepest_last r kids)) := by
    have := deepest_last_getLast? kids r
    simp only [Forest.pre, List.append_nil]
    rw [List.getLast?_map, this]; rfl
  obtain ⟨init, hinit⟩ := List.getLast?_eq_some_iff.mp hlast
  have hlen : init.reverse.length = kids.size := by
    have := congrArg List.length hinit
    simp [pre_length, Forest.size] at this
    simp; omega
  rw [hinit, List.reverse_append, List.reverse_singleton, List.singleton_append] at hl2
  have := run_of_linked (df_dec fuel h) init.reverse _ hl2
  rw [hlen] at this
  rw [this, List.map_reverse, hinit]
  simp

theorem df_dec_visits_reverse_scenario :
    run (df_dec 9 scenario_heap) 7 (some 8)
      = .ok [some 8, some 6, some 5, some 4, some 7, some 3, some 2, some 0] :=
  df_dec_visits_reverse scenario_heap scenario_tree 0 0 scenario_kids
    scenario_well_formed 9 (by decide)

/-! ## Structural equality -/

theorem eq_loop_sound [DecidableEq α] (F : Nat) (h : Heap α) (A B : tree) :
    ∀ (n : Nat) (sa : List Nat) (va : List α) (sb : List Nat) (vb : List α)
      (this_bak it_bak : nodeptr),
      List.Chain' (fun x y => df_inc F h x = .ok y) (sa.map some ++ [A.end_]) →
      List.Chain' (fun x y => df_inc F h x = .ok y) (sb.map some ++ [B.end_]) →
      A.end_ ∉ sa.map some → B.end_ ∉ sb.map some →
      sa.map (fun a => deref h (some a)) = va.map .ok →
      sb.map (fun a => deref h (some a)) = vb.map .ok →
      eq_loop F h A B n ((sa.map some ++ [A.end_]).head (by simp)) this_bak
        ((sb.map some ++ [B.end_]).head (by simp)) it_bak = .ok true →
      va = vb := by
  intro n
  induction n with
  | zero => intro sa va sb vb tb ib _ _ _ _ _ _ heq; simp [eq_loop] at heq
  | succ n ih =>
    intro sa va sb vb tb ib hca hcb hea heb hva hvb heq
    cases sb with
    | nil =>
      cases sa with
      | nil =>
        cases va <;> cases vb <;> simp_all
      | cons a sa' =>
        simp [eq_loop] at heq
        exact (hea (by simp [← heq])).elim
    | cons b sb' =>
      have hb : some b ≠ B.end_ := by
        intro hbe; exact heb (by simp [← hbe])
      cases sa with
      | nil => simp [eq_loop, hb] at heq
      | cons a sa' =>
        have ha : some a ≠ A.end_ := by
          intro hae; exact hea (by simp [← hae])
        cases va with
        | nil => simp at hva
        | cons x va' =>
          cases vb with
          | nil => simp at hvb
          | cons y vb' =>
            simp only [List.map_cons, List.cons.injEq] at hva hvb
            simp only [List.map_cons, List.cons_append, List.head_cons, eq_loop, ne_eq, hb,
              not_false_eq_true, if_true, ha, if_false, hva.1, hvb.1, bind, Except.bind] at heq
            by_cases hxy : y = x
            · subst hxy
              simp only [not_true_eq_false, if_false] at heq
              cases hd : rel_differs F h (some b) ib (some a) tb with
              | error e => simp [hd] at heq
              | ok d =>
                cases d with
                | true => simp [hd, pure, Except.pure] at heq
                | false =>
                  rw [List.map_cons, List.cons_append] at hca hcb
                  have hca' := List.chain'_cons'.mp hca
                  have hcb' := List.chain'_cons'.mp hcb
                  have hia := hca'.1 ((sa'.map some ++ [A.end_]).head (by simp))
                    (by cases sa' <;> simp)
                  have hib := hcb'.1 ((sb'.map some ++ [B.end_]).head (by simp))
                    (by cases sb' <;> simp)
                  simp only [hd, hia, hib] at heq
                  have := ih sa' va' sb' vb' (some a) (some b) hca'.2 hcb'.2
                    (fun hm => hea (by simp at hm ⊢; exact Or.inr hm))
                    (fun hm => heb (by simp at hm ⊢; exact Or.inr hm))
                    hva.2 hvb.2 (by simpa using heq)
                  rw [this]
            · simp [hxy, pure, Except.pure] at heq


theorem twin_builds : twin = .ok (twin_heap, twin_a, twin_b) := by rfl
theorem twin_a_well_formed : well_formed twin_heap twin_a twin_a_forest := by decide
theorem twin_b_well_formed : well_formed twin_heap twin_b twin_b_forest := by decide

/-- What `operator==` relies on, for empty and non-empty trees alike: the
increments from `begin()` run through the pre-order and end on `end()`. -/
theorem traversal_of_well_formed {h : Heap α} {t : tree} {f : Forest α}
    (hwf : well_formed h t f) (fuel : Nat) (hfuel : f.size + 1 ≤ fuel) :
    t.begin = (f.pre.map some ++ [t.end_]).head (by simp)
      ∧ List.Chain' (fun x y => df_inc fuel h x = .ok y) (f.pre.map some ++ [t.end_])
      ∧ t.end_ ∉ f.pre.map some
      ∧ f.pre.map (fun a => deref h (some a)) = f.vals.map .ok := by
  cases f with
  | nil =>
    refine ⟨?_, by simp [Forest.pre], by simp [Forest.pre], rfl⟩
    simpa [Forest.pre, tree.begin, tree.end_] using hwf.1
  | cons r v kids rest =>
    cases rest with
    | cons _ _ _ _ => exact hwf.elim
    | nil =>
      have hsz : kids.size + 2 ≤ fuel := by simp only [Forest.size] at hfuel; omega
      have hv := preorder_run h t r v kids hwf fuel hsz
      obtain ⟨e, hr, hf, hown, he, hnd⟩ := well_formed_cons hwf
      refine ⟨by simp [Forest.pre, tree.begin, hr], ?_, hv.2.2.2.1, hv.2.2.2.2.2⟩
      exact (tree_links hwf).imp (fun a b hab => hab.1 fuel hsz)

/-- C4: when `operator==` returns true on two well-formed trees (empty or
not), their depth-first traversals hold the same values in the same order, in
particular equally many. -/
theorem op_eq_true_same_values [DecidableEq α] (h : Heap α) (A B : tree) (fa fb : Forest α)
    (hA : well_formed h A fa) (hB : well_formed h B fb) (fuel : Nat)
    (hfuel : fa.size + fb.size + 1 ≤ fuel) (heq : op_eq fuel h A B = .ok true) :
    fa.vals = fb.vals ∧ fa.pre.length = fb.pre.length := by
  obtain ⟨ha0, ha1, ha2, ha3⟩ := traversal_of_well_formed hA fuel (by omega)
  obtain ⟨hb0, hb1, hb2, hb3⟩ := traversal_of_well_formed hB fuel (by omega)
  have hv : fa.vals = fb.vals := by
    refine eq_loop_sound fuel h A B fuel fa.pre fa.vals fb.pre fb.vals A.begin B.begin
      ha1 hb1 ha2 hb2 ha3 hb3 ?_
    rw [← ha0, ← hb0]
    exact heq
  refine ⟨hv, ?_⟩
  rw [pre_length, pre_length, ← vals_length, ← vals_length, hv]

theorem op_eq_true_same_values_witness :
    well_formed twin_heap twin_a twin_a_forest ∧ well_formed twin_heap twin_b twin_b_forest ∧
      op_eq 11 twin_heap twin_a twin_b = .ok true ∧
      twin_a_forest.vals = twin_b_forest.vals :=
  ⟨twin_a_well_formed, twin_b_well_formed, by rfl,
    (op_eq_true_same_values twin_heap twin_a twin_b twin_a_forest twin_b_forest
      twin_a_well_formed twin_b_well_formed 11 (by decide) (by rfl)).1⟩

/-- C3: `operator==` returns true for two well-formed trees of different
shape: both have the depth-first values 0, 1, 2, 3, 4, but 2 is the child of
1 in the first and a child of the root in the second. -/
theorem op_eq_true_on_different_shapes :
    twin = .ok (twin_heap, twin_a, twin_b) ∧
      well_formed twin_heap twin_a twin_a_forest ∧
      well_formed twin_heap twin_b twin_b_forest ∧
      twin_a_forest.shape ≠ twin_b_forest.shape ∧
      (∀ n, op_eq (n + 6) twin_heap twin_a twin_b = .ok true) ∧
      (∀ n, op_ne (n + 6) twin_heap twin_a twin_b = .ok false) :=
  ⟨by rfl, by decide, by decide, by decide, fun _ => rfl, fun _ => rfl⟩


/-! ## Copy construction and assignment -/

/-- C1: copy construction does not reproduce every source. From the root-only
tree `tree(0)` the transfer reads `queue.back()` of an empty deque; from the
empty tree left by `clear()` the copy is a one-node tree holding `T()` and
`copy == source` is false. -/
theorem copy_ctor_fails_on_root_only_and_empty :
    tree.ctor ([] : Heap Int) 0 = .ok (root_only_heap, root_only_tree) ∧
      well_formed root_only_heap root_only_tree (.cons 0 0 .nil .nil) ∧
      (∀ n, tree.copy_ctor (n + 1) root_only_heap (-1) root_only_tree
        = .error .empty_container) ∧
      clear 1 root_only_heap root_only_tree = .ok (cleared_heap, cleared_tree) ∧
      well_formed cleared_heap cleared_tree .nil ∧
      (∀ n, (tree.copy_ctor (n + 2) cleared_heap (-1) cleared_tree >>= fun c =>
          size (n + 2) c.1 c.2) = .ok 1) ∧
      (∀ n, (tree.copy_ctor (n + 2) cleared_heap (-1) cleared_tree >>= fun c =>
          op_eq (n + 2) c.1 c.2 cleared_tree) = .ok false) :=
  ⟨by rfl, by decide, fun _ => rfl, by rfl, by decide, fun _ => rfl, fun _ => rfl⟩

/-- C2: copy assignment does not reproduce every source. Assigning the
root-only tree `tree(0)` to a default-constructed tree reads `queue.back()` of
an empty deque in `p_transfer`. -/
theorem copy_assign_fails_on_root_only :
    tree.ctor ([] : Heap Int) 0 = .ok (root_only_heap, root_only_tree) ∧
      tree.ctor root_only_heap (-1) = .ok (pair_heap, pair_tree) ∧
      well_formed pair_heap root_only_tree (.cons 0 0 .nil .nil) ∧
      well_formed pair_heap pair_tree (.cons 2 (-1) .nil .nil) ∧
      (∀ n, tree.copy_assign (n + 1) pair_heap pair_tree root_only_tree
        = .error .empty_container) :=
  ⟨by rfl, by rfl, by decide, by decide, fun _ => rfl⟩

/-! ## Destruction of a node graph and move -/

theorem owns_frame (h h1 : Heap α) : ∀ (f : Forest α) (p l stop : nodeptr),
    (∀ a ∈ f.pre, h1[a]? = h[a]?) → owns h p l f stop → owns h1 p l f stop := by
  intro f
  induction f with
  | nil => intro p l stop _ _; trivial
  | cons a v kids rest ihk ihr =>
    intro p l stop hsame hown
    obtain ⟨hc, hk, hr⟩ := hown
    refine ⟨?_, ihk _ _ _ ?_ hk, ihr _ _ _ ?_ hr⟩
    · rw [hsame a (by simp [Forest.pre])]; exact hc
    · intro x hx; exact hsame x (by simp [Forest.pre, hx])
    · intro x hx; exact hsame x (by simp [Forest.pre, hx])

theorem well_formed_frame (h h1 : Heap α) (t : tree) (f : Forest α)
    (hsame : ∀ a ∈ t.nodes f, h1[a]? = h[a]?) (hwf : well_formed h t f) :
    well_formed h1 t f := by
  cases f with
  | nil =>
    refine ⟨hwf.1, ?_⟩
    have h2 := hwf.2
    cases hf : t.foot with
    | none => trivial
    | some e =>
      rw [hf] at h2
      simp only
      rw [hsame e (by simp [tree.nodes, hf])]
      exact h2
  | cons r v kids rest =>
    cases rest with
    | cons _ _ _ _ => exact hwf.elim
    | nil =>
      obtain ⟨e, hr, hf, hown, he, hnd⟩ := well_formed_cons hwf
      refine ⟨hr, ?_⟩
      rw [hf]
      refine ⟨owns_frame h h1 _ _ _ _ ?_ hown, ?_, hnd⟩
      · intro a ha; exact hsame a (by simp only [tree.nodes]; exact List.mem_append_right _ ha)
      · rw [hsame e (by simp [tree.nodes, hf])]; exact he

theorem freed_refl (h : Heap α) : freed h h [] :=
  ⟨rfl, by simp, fun _ _ => rfl⟩

theorem freed_set (h : Heap α) (a : Nat) (nd : node α) (hc : h[a]? = some (some nd)) :
    freed h (h.set a none) [a] := by
  have hlt : a < h.length := by
    by_contra hge
    rw [List.getElem?_eq_none (by omega)] at hc
    cases hc
  refine ⟨by simp, ?_, ?_⟩
  · intro b hb
    simp only [List.mem_singleton] at hb
    subst hb
    simp [List.getElem?_set, hlt]
  · intro b hb
    simp only [List.mem_singleton] at hb
    rw [List.getElem?_set_ne (Ne.symm hb)]

theorem freed_trans {h h1 h2 : Heap α} {S1 S2 : List Nat}
    (h01 : freed h h1 S1) (h12 : freed h1 h2 S2) : freed h h2 (S1 ++ S2) := by
  obtain ⟨l1, a1, b1⟩ := h01
  obtain ⟨l2, a2, b2⟩ := h12
  refine ⟨l2.trans l1, ?_, ?_⟩
  · intro a ha
    by_cases h2m : a ∈ S2
    · exact a2 a h2m
    · rw [b2 a h2m]
      rcases List.mem_append.mp ha with h1m | h2m'
      · exact a1 a h1m
      · exact (h2m h2m').elim
  · intro a ha
    rw [List.mem_append, not_or] at ha
    rw [b2 a ha.2, b1 a ha.1]

theorem freed_congr {h h1 : Heap α} {S1 S2 : List Nat}
    (hf : freed h h1 S1) (hS : ∀ a, a ∈ S1 ↔ a ∈ S2) : freed h h1 S2 :=
  ⟨hf.1, fun a ha => hf.2.1 a ((hS a).mpr ha), fun a ha => hf.2.2 a (fun hm => ha ((hS a).mp hm))⟩

theorem last_mem : ∀ (f : Forest α) (x : Nat), f.last = some x → x ∈ f.pre := by
  intro f
  induction f with
  | nil => intro x hx; simp [Forest.last] at hx
  | cons a v kids rest _ ihr =>
    intro x hx
    cases rest with
    | nil =>
      simp only [Forest.last, Option.some.injEq] at hx
      simp [Forest.pre, hx]
    | cons b w kb rb =>
      simp only [Forest.last] at hx
      have := ihr x hx
      simp only [Forest.pre, List.mem_cons, List.mem_append] at this ⊢
      exact Or.inr (Or.inr this)

theorem dealloc_live (h : Heap α) (a : Nat) (nd : node α) (hc : h[a]? = some (some nd)) :
    p_node_deallocate h (some a) = .ok (h.set a none) := by
  simp [p_node_deallocate, hc]



/-- One iteration of the `for` loop of `p_erase_children`. -/
theorem p_erase_children_loop_step (n : Nat) (h h1 h2 : Heap α) (a : Nat) (end_ : nodeptr)
    (nd nd1 : node α) (hne : (some a : nodeptr) ≠ end_) (hrd : rd h (some a) = .ok nd)
    (hkids : (nd.child_begin = none ∧ h1 = h) ∨
      (∃ c, nd.child_begin = some c ∧ p_erase_children n h (some c) nd.child_end = .ok h1))
    (hrd1 : rd h1 (some a) = .ok nd1) (hd : p_node_deallocate h1 (some a) = .ok h2) :
    p_erase_children (n + 1) h (some a) end_ = p_erase_children n h2 nd1.right end_ := by
  rcases hkids with ⟨h0, rfl⟩ | ⟨c, hc, hk⟩
  · have : nd = nd1 := by rw [hrd] at hrd1; cases hrd1; rfl
    subst this
    simp only [p_erase_children, ne_eq, hne, not_false_eq_true, if_true, hrd, h0, hd]
  · simp only [p_erase_children, ne_eq, hne, not_false_eq_true, if_true, hrd, hc, hk, hrd1, hd]

/-- The statements of `p_erase_children` after its loop. -/
theorem p_erase_children_tail_step (n : Nat) (h h1 h2 : Heap α) (a : Nat)
    (nd : node α) (hrd : rd h (some a) = .ok nd)
    (hkids : (nd.child_begin = none ∧ h1 = h) ∨
      (∃ c, nd.child_begin = some c ∧ p_erase_children n h (some c) nd.child_end = .ok h1))
    (hd : p_node_deallocate h1 (some a) = .ok h2) :
    p_erase_children (n + 1) h (some a) (some a) = .ok h2 := by
  rcases hkids with ⟨h0, rfl⟩ | ⟨c, hc, hk⟩
  · simp only [p_erase_children, ne_eq, not_true_eq_false, if_false, hrd, h0, hd]
  · simp only [p_erase_children, ne_eq, not_true_eq_false, if_false, hrd, hc, hk, hd]

theorem p_erase_children_forest : ∀ (f : Forest α) (h : Heap α) (p l : nodeptr) (fuel : Nat),
    f ≠ .nil → owns h p l f none → f.pre.Nodup → f.size ≤ fuel →
    ∃ h1, p_erase_children fuel h f.first f.last = .ok h1 ∧ freed h h1 f.pre := by
  intro f
  induction f with
  | nil => intro h p l fuel hne; exact (hne rfl).elim
  | cons a v kids rest ihk ihr =>
    intro h p l fuel _ hown hnd hfuel
    obtain ⟨hc, hk, hr⟩ := hown
    have hrd := rd_cell hc
    simp only [Forest.size] at hfuel
    obtain ⟨n, rfl⟩ : ∃ n, fuel = n + 1 := ⟨fuel - 1, by omega⟩
    simp only [Forest.pre, List.nodup_cons, List.mem_append, not_or, List.nodup_append] at hnd
    obtain ⟨⟨hak, har⟩, hkn, hrn, hdis⟩ := hnd
    -- the children of `a`
    have hK : ∃ h1, freed h h1 kids.pre ∧ ((kids.first = none ∧ h1 = h) ∨
        (∃ c, kids.first = some c ∧ p_erase_children n h (some c) kids.last = .ok h1)) := by
      cases kids with
      | nil => exact ⟨h, freed_refl h, Or.inl ⟨rfl, rfl⟩⟩
      | cons c u kc rc =>
        obtain ⟨h1, e1, e2⟩ := ihk h (some a) none n (by simp) hk hkn (by omega)
        exact ⟨h1, e2, Or.inr ⟨c, rfl, e1⟩⟩
    obtain ⟨h1, hK2, hK1⟩ := hK
    have hc1 : h1[a]? = some (some _) := (hK2.2.2 a hak).trans hc
    have hD := dealloc_live h1 a _ hc1
    have hF1 : freed h (h1.set a none) (kids.pre ++ [a]) :=
      freed_trans hK2 (freed_set h1 a _ hc1)
    cases rest with
    | nil =>
      refine ⟨h1.set a none, ?_, freed_congr hF1 (by intro x; simp [Forest.pre]; tauto)⟩
      exact p_erase_children_tail_step n h h1 _ a _ hrd hK1 hD
    | cons b w kb rb =>
      have hne : (some a : nodeptr) ≠ Forest.last (Forest.cons b w kb rb) := by
        intro he
        exact har (last_mem _ a he.symm)
      have hown2 : owns (h1.set a none) p (some a) (Forest.cons b w kb rb) none := by
        refine owns_frame h _ _ _ _ _ ?_ hr
        intro x hx
        refine hF1.2.2 x ?_
        simp only [List.mem_append, List.mem_singleton, not_or]
        refine ⟨fun hxk => hdis hxk hx, ?_⟩
        rintro rfl
        exact har hx
      obtain ⟨h3, hR1, hR2⟩ := ihr (h1.set a none) p (some a) n (by simp) hown2 hrn (by omega)
      refine ⟨h3, ?_, freed_congr (freed_trans hF1 hR2)
        (by intro x; simp [Forest.pre]; tauto)⟩
      have := p_erase_children_loop_step n h h1 _ a (Forest.last (Forest.cons b w kb rb))
        _ _ hne hrd hK1 (rd_cell hc1) hD
      exact this.trans hR1


/-- Source `~tree()` and the first statement of the move assignment:
`p_erase_children(root, foot)` deletes exactly the nodes of the tree. -/
theorem p_erase_children_tree (h : Heap α) (D : tree) (fD : Forest α)
    (hD : well_formed h D fD) (fuel : Nat) (hfuel : fD.size + 1 ≤ fuel) :
    ∃ h1, p_erase_children fuel h D.root D.foot = .ok h1 ∧ freed h h1 (D.nodes fD) := by
  obtain ⟨n, rfl⟩ : ∃ n, fuel = n + 1 := ⟨fuel - 1, by omega⟩
  cases fD with
  | nil =>
    obtain ⟨hrf, hfoot⟩ := hD
    rw [hrf]
    cases hf : D.foot with
    | none =>
      refine ⟨h, by simp [p_erase_children], ?_⟩
      simpa [tree.nodes, hf, Forest.pre] using freed_refl h
    | some e =>
      rw [hf] at hfoot
      simp only at hfoot
      refine ⟨h.set e none, ?_, ?_⟩
      · exact p_erase_children_tail_step n h h _ e _ (rd_cell hfoot) (Or.inl ⟨rfl, rfl⟩)
          (dealloc_live h e _ hfoot)
      · simpa [tree.nodes, hf, Forest.pre] using freed_set h e _ hfoot
  | cons r v kids rest =>
    cases rest with
    | cons _ _ _ _ => exact hD.elim
    | nil =>
      obtain ⟨e, hr, hf, hown, he, hnd⟩ := well_formed_cons hD
      obtain ⟨hc, hk, _⟩ := hown
      simp only [Forest.size] at hfuel
      simp only [Forest.pre, List.append_nil, List.nodup_cons, List.mem_cons, not_or] at hnd
      obtain ⟨⟨her, hek⟩, hrk, hkn⟩ := hnd
      have hK : ∃ h1, freed h h1 kids.pre ∧ ((kids.first = none ∧ h1 = h) ∨
          (∃ c, kids.first = some c ∧ p_erase_children n h (some c) kids.last = .ok h1)) := by
        cases kids with
        | nil => exact ⟨h, freed_refl h, Or.inl ⟨rfl, rfl⟩⟩
        | cons c u kc rc =>
          obtain ⟨h1, e1, e2⟩ := p_erase_children_forest _ h (some r) none n (by simp) hk hkn
            (by omega)
          exact ⟨h1, e2, Or.inr ⟨c, rfl, e1⟩⟩
      obtain ⟨h1, hK2, hK1⟩ := hK
      have hc1 : h1[r]? = some (some _) := (hK2.2.2 r hrk).trans hc
      have hF1 : freed h (h1.set r none) (kids.pre ++ [r]) :=
        freed_trans hK2 (freed_set h1 r _ hc1)
      have he1 : (h1.set r none)[e]? = some (some _) :=
        (hF1.2.2 e (by simp [hek, her])).trans he
      obtain ⟨m, rfl⟩ : ∃ m, n = m + 1 := ⟨n - 1, by omega⟩
      refine ⟨(h1.set r none).set e none, ?_, ?_⟩
      · rw [hr, hf]
        have hne : (some r : nodeptr) ≠ some e := by
          intro hre; cases hre; exact her rfl
        rw [p_erase_children_loop_step (m + 1) h h1 _ r (some e) _ _ hne (rd_cell hc) hK1
          (rd_cell hc1) (dealloc_live h1 r _ hc1)]
        exact p_erase_children_tail_step m _ _ _ e _ (rd_cell he1) (Or.inl ⟨rfl, rfl⟩)
          (dealloc_live _ e _ he1)
      · refine freed_congr (freed_trans hF1 (freed_set _ e _ he1)) ?_
        intro x
        simp [tree.nodes, hf, Forest.pre]
        tauto

/-- C10: the move constructor and the move assignment hand the node graph of
`T` over unchanged: the new owner has the root and the sentinel of `T`, every
node of `T` is as before (the assignment only deletes the nodes the assigned
tree held, which are none of `T`), and the moved-from tree reports
`empty() == true`. -/
theorem move_keeps_graph (h : Heap α) (T : tree) (fT : Forest α) (hT : well_formed h T fT) :
    (tree.move_ctor T).1 = T ∧ (tree.move_ctor T).2.empty = true ∧
      ∀ (D : tree) (fD : Forest α) (fuel : Nat), well_formed h D fD →
        (∀ a ∈ D.nodes fD, a ∉ T.nodes fT) → fD.size + 1 ≤ fuel →
        ∃ h1 T1 R1, tree.move_assign fuel h D T = .ok (h1, T1, R1) ∧ T1 = T ∧
          R1.empty = true ∧ well_formed h1 T1 fT ∧ freed h h1 (D.nodes fD) := by
  refine ⟨rfl, rfl, ?_⟩
  intro D fD fuel hD hdis hfuel
  obtain ⟨h1, he, hfr⟩ := p_erase_children_tree h D fD hD fuel hfuel
  refine ⟨h1, T, ⟨none, none⟩, by simp [tree.move_assign, he], rfl, rfl, ?_, hfr⟩
  refine well_formed_frame h h1 T fT ?_ hT
  intro a ha
  exact hfr.2.2 a (fun hm => hdis a hm ha)

theorem move_keeps_graph_witness :
    well_formed twin_heap twin_a twin_a_forest ∧ well_formed twin_heap twin_b twin_b_forest ∧
      ∃ h1 T1 R1, tree.move_assign 6 twin_heap twin_b twin_a = .ok (h1, T1, R1) ∧ T1 = twin_a ∧
        R1.empty = true ∧ well_formed h1 T1 twin_a_forest ∧
        freed twin_heap h1 (twin_b.nodes twin_b_forest) :=
  ⟨twin_a_well_formed, twin_b_well_formed,
    (move_keeps_graph twin_heap twin_a twin_a_forest twin_a_well_formed).2.2
      twin_b twin_b_forest 6 twin_b_well_formed (by decide) (by decide)⟩

/-! ## Breadth-first traversal -/

theorem forests_weight_nil : forests_weight ([] : List (Forest α)) = 0 := rfl

theorem forests_weight_cons (f : Forest α) (Q : List (Forest α)) :
    forests_weight (f :: Q) = 2 * f.size + 1 + forests_weight Q := by
  simp [forests_weight]

theorem forests_weight_append (Q P : List (Forest α)) :
    forests_weight (Q ++ P) = forests_weight Q + forests_weight P := by
  simp [forests_weight]

theorem bfs_cons : ∀ (c : Forest α) (Q : List (Forest α)),
    bfs (c :: Q) = Forest.level 0 c ++ bfs (Q ++ c.kid_chains) := by
  intro c
  induction c with
  | nil => intro Q; simp [bfs, Forest.level, Forest.kid_chains]
  | cons a v k r _ ihr =>
    intro Q
    rw [bfs, ihr (Q ++ [k])]
    simp [Forest.level, Forest.kid_chains]

theorem bfs_append : ∀ (Q P : List (Forest α)),
    bfs (Q ++ P) = Q.flatMap (Forest.level 0) ++ bfs (P ++ Q.flatMap Forest.kid_chains) := by
  intro Q
  induction Q with
  | nil => intro P; simp
  | cons c Q ih =>
    intro P
    rw [List.cons_append, bfs_cons, List.append_assoc, ih]
    simp

theorem level_succ (d : Nat) : ∀ c : Forest α,
    Forest.level (d + 1) c = c.kid_chains.flatMap (Forest.level d) := by
  intro c
  induction c with
  | nil => simp [Forest.level, Forest.kid_chains]
  | cons a v k r _ ihr => simp [Forest.level, Forest.kid_chains, ihr]

theorem bfs_of_height_zero : ∀ Q : List (Forest α), (∀ f ∈ Q, f.height = 0) → bfs Q = [] := by
  intro Q
  induction Q with
  | nil => intro _; simp [bfs]
  | cons f Q ih =>
    intro hQ
    have hf := hQ f (by simp)
    cases f with
    | nil => rw [bfs]; exact ih (fun g hg => hQ g (by simp [hg]))
    | cons a v k r => simp [Forest.height] at hf

theorem kid_chains_height : ∀ (c : Forest α) (H : Nat), c.height ≤ H + 1 →
    ∀ k ∈ c.kid_chains, k.height ≤ H := by
  intro c
  induction c with
  | nil => intro H _ k hk; simp [Forest.kid_chains] at hk
  | cons a v kids r _ ihr =>
    intro H hH k hk
    simp only [Forest.height] at hH
    simp only [Forest.kid_chains, List.mem_cons] at hk
    rcases hk with rfl | hk
    · omega
    · exact ihr H (by omega) k hk

theorem bfs_levels : ∀ (H : Nat) (Q : List (Forest α)), (∀ f ∈ Q, f.height ≤ H) →
    bfs Q = (List.range H).flatMap (fun d => Q.flatMap (Forest.level d)) := by
  intro H
  induction H with
  | zero =>
    intro Q hQ
    simpa using bfs_of_height_zero Q (fun f hf => Nat.le_zero.mp (hQ f hf))
  | succ H ih =>
    intro Q hQ
    have h1 := bfs_append Q []
    simp only [List.append_nil, List.nil_append] at h1
    rw [h1, ih (Q.flatMap Forest.kid_chains)]
    · rw [List.range_succ_eq_map]
      simp only [List.flatMap_cons, List.flatMap_map]
      congr 1
      apply List.flatMap_congr
      intro d _
      rw [List.flatMap_assoc]
      apply List.flatMap_congr
      intro c _
      exact (level_succ d c).symm
    · intro k hk
      rw [List.mem_flatMap] at hk
      obtain ⟨c, hc, hkc⟩ := hk
      exact kid_chains_height c H (hQ c hc) k hkc

theorem bfs_single (f : Forest α) : bfs [f] = f.level_order := by
  rw [bfs_levels f.height [f] (by simp)]
  simp [Forest.level_order]

theorem bfs_perm : ∀ (n : Nat) (Q : List (Forest α)), forests_weight Q ≤ n →
    (bfs Q).Perm (Q.flatMap Forest.pre) := by
  intro n
  induction n with
  | zero =>
    intro Q hQ
    cases Q with
    | nil => simp [bfs]
    | cons f Q => rw [forests_weight_cons] at hQ; omega
  | succ n ih =>
    intro Q hQ
    cases Q with
    | nil => simp [bfs]
    | cons f Q =>
      rw [forests_weight_cons] at hQ
      cases f with
      | nil =>
        rw [bfs]
        simpa [Forest.pre] using ih Q (by omega)
      | cons a v k r =>
        rw [bfs]
        have := ih (r :: (Q ++ [k])) (by
          rw [forests_weight_cons, forests_weight_append, forests_weight_cons,
            forests_weight_nil]
          simp only [Forest.size] at hQ
          omega)
        simp only [List.flatMap_cons, List.flatMap_append, List.flatMap_nil, List.append_nil,
          Forest.pre, List.cons_append] at this ⊢
        refine List.Perm.cons a (this.trans ?_)
        rw [List.perm_iff_count]
        intro x
        simp only [List.count_append]
        omega

theorem bf_pop_spec (h : Heap α) : ∀ (Q : List (Forest α)) (qs : List nodeptr),
    List.Forall₂ (holds_kids h) qs Q → Q ≠ [] →
    (bfs Q = [] ∧ ∃ top q1, bf_pop h qs = .ok (top, q1) ∧ top.child_begin = none) ∨
    (∃ c w kc rc Q1 top q1 qa, bf_pop h qs = .ok (top, q1) ∧ top.child_begin = some c ∧
      List.Forall₂ (holds_kids h) q1 Q1 ∧ owns h (some qa) none (.cons c w kc rc) none ∧
      bfs Q = c :: bfs (rc :: (Q1 ++ [kc])) ∧
      forests_weight (rc :: (Q1 ++ [kc])) < forests_weight Q) := by
  intro Q
  induction Q with
  | nil => intro qs _ hne; exact (hne rfl).elim
  | cons K Q ih =>
    intro qs hrep _
    cases hrep with
    | cons hK hrest =>
      rename_i q qs1
      obtain ⟨a, nd, rfl, hrd, hcb, hown⟩ := hK
      cases K with
      | nil =>
        simp only [Forest.first] at hcb
        cases Q with
        | nil =>
          cases hrest
          left
          refine ⟨by simp [bfs], nd, [], ?_, hcb⟩
          simp [bf_pop, hrd, hcb]
        | cons K2 Q2 =>
          have hq : qs1 ≠ [] := by
            intro hq; subst hq; cases hrest
          have hstep : bf_pop h (some a :: qs1) = bf_pop h qs1 := by
            simp [bf_pop, hrd, hcb, hq]
          rcases ih qs1 hrest (by simp) with ⟨hb, top, q1, hp, ht⟩ |
            ⟨c, w, kc, rc, Q1, top, q1, qa, hp, ht, hq1, ho, hb, hw⟩
          · left
            exact ⟨by rw [bfs]; exact hb, top, q1, hstep.trans hp, ht⟩
          · right
            refine ⟨c, w, kc, rc, Q1, top, q1, qa, hstep.trans hp, ht, hq1, ho, ?_, ?_⟩
            · rw [bfs]; exact hb
            · rw [forests_weight_cons (Forest.nil)]; omega
      | cons c w kc rc =>
        simp only [Forest.first] at hcb
        right
        refine ⟨c, w, kc, rc, Q, nd, qs1, a, ?_, hcb, hrest, hown, by rw [bfs], ?_⟩
        · simp [bf_pop, hrd, hcb]
        · rw [forests_weight_cons, forests_weight_append, forests_weight_cons,
            forests_weight_cons, forests_weight_nil]
          simp only [Forest.size]
          omega

theorem firstOr_none (f : Forest α) : f.firstOr none = f.first := by
  cases f <;> rfl

theorem bf_inc_right (h : Heap α) (it : bf_iterator) (nd : node α) (r p : Nat)
    (hrd : rd h it.n = .ok nd) (hr : nd.right = some r) (hp : nd.parent = some p) :
    bf_inc h it = .ok ⟨some r, it.end_, it.q ++ [some r]⟩ := by
  simp [bf_inc, hrd, hr, hp]

theorem bf_inc_pop_done (h : Heap α) (it : bf_iterator) (nd top : node α) (q1 : List nodeptr)
    (E : nodeptr) (hrd : rd h it.n = .ok nd) (hrp : nd.right = none ∨ nd.parent = none)
    (hpop : bf_pop h it.q = .ok (top, q1)) (htop : top.child_begin = none)
    (hend : (if nd.right = none then it.end_ else some nd.right) = some E) :
    bf_inc h it = .ok ⟨E, some E, q1⟩ := by
  rcases hrp with hr | hp
  · simp only [hr, if_true] at hend
    cases hpar : nd.parent <;> simp [bf_inc, hrd, hr, hpar, hpop, htop, hend]
  · cases hr : nd.right with
    | none =>
      simp only [hr, if_true] at hend
      simp [bf_inc, hrd, hr, hp, hpop, htop, hend]
    | some r =>
      simp [hr] at hend
      subst hend
      simp [bf_inc, hrd, hr, hp, hpop, htop]

theorem bf_inc_pop_child (h : Heap α) (it : bf_iterator) (nd top : node α) (q1 : List nodeptr)
    (c : Nat) (hrd : rd h it.n = .ok nd) (hrp : nd.right = none ∨ nd.parent = none)
    (hpop : bf_pop h it.q = .ok (top, q1)) (htop : top.child_begin = some c) :
    bf_inc h it
      = .ok ⟨some c, if nd.right = none then it.end_ else some nd.right, q1 ++ [some c]⟩ := by
  rcases hrp with hr | hp
  · cases hpar : nd.parent <;> simp [bf_inc, hrd, hr, hpar, hpop, htop]
  · cases hr : nd.right <;> simp [bf_inc, hrd, hr, hp, hpop, htop]

theorem bf_run_succ (h : Heap α) (k : Nat) (it it1 : bf_iterator) (l : List nodeptr)
    (hinc : bf_inc h it = .ok it1) (hrun : bf_run h k it1 = .ok l) :
    bf_run h (k + 1) it = .ok (it.n :: l) := by
  simp only [bf_run, hinc, hrun]

theorem bf_run_spec (h : Heap α) (e : Nat) : ∀ (n : Nat) (rest : Forest α)
    (Q : List (Forest α)) (it : bf_iterator) (a : Nat) (nd : node α),
    forests_weight (rest :: Q) ≤ n →
    it.n = some a → rd h (some a) = .ok nd →
    owns h nd.parent (some a) rest none →
    (rest ≠ .nil → nd.right = rest.first ∧ nd.parent ≠ none ∧ it.end_ = some (some e)) →
    (rest = .nil →
      (nd.right = none ∧ it.end_ = some (some e)) ∨ (nd.right = some e ∧ nd.parent = none)) →
    List.Forall₂ (holds_kids h) it.q Q → Q ≠ [] →
    bf_run h ((bfs (rest :: Q)).length + 1) it
      = .ok (some a :: ((bfs (rest :: Q)).map some ++ [some e])) := by
  intro n
  induction n with
  | zero =>
    intro rest Q it a nd hw
    rw [forests_weight_cons] at hw
    omega
  | succ n ih =>
    intro rest Q it a nd hw hn hrd hown hne hnil hq hQ
    have hrdn : rd h it.n = .ok nd := by rw [hn]; exact hrd
    cases rest with
    | cons b w kb rb =>
      obtain ⟨hr, hp, hend⟩ := hne (by simp)
      obtain ⟨p, hp⟩ := Option.ne_none_iff_exists'.mp hp
      obtain ⟨hcb, hkb, hrb⟩ := hown
      simp only [Forest.first] at hr
      have hinc := bf_inc_right h it nd b p hrdn hr hp
      have hih := ih rb (Q ++ [kb]) ⟨some b, it.end_, it.q ++ [some b]⟩ b _
        (by
          rw [forests_weight_cons] at hw ⊢
          rw [forests_weight_append, forests_weight_cons, forests_weight_nil]
          simp only [Forest.size] at hw
          omega)
        rfl (rd_cell hcb) hrb
        (fun hne2 => ⟨firstOr_none rb, by rw [hp]; simp, hend⟩)
        (fun hnil2 => Or.inl ⟨by subst hnil2; rfl, hend⟩)
        (List.rel_append hq (List.Forall₂.cons ⟨b, _, rfl, rd_cell hcb, rfl, hkb⟩ List.Forall₂.nil))
        (by simp)
      rw [bfs]
      have := bf_run_succ h _ it _ _ hinc hih
      simpa [hn] using this
    | nil =>
      have hrp : nd.right = none ∨ nd.parent = none := by
        rcases hnil rfl with ⟨h1, _⟩ | ⟨_, h2⟩
        · exact Or.inl h1
        · exact Or.inr h2
      have hend : (if nd.right = none then it.end_ else some nd.right) = some (some e) := by
        rcases hnil rfl with ⟨h1, h2⟩ | ⟨h1, _⟩
        · simp [h1, h2]
        · simp [h1]
      rw [bfs]
      rcases bf_pop_spec h Q it.q hq hQ with ⟨hb, top, q1, hpop, htop⟩ |
        ⟨c, w, kc, rc, Q1, top, q1, qa, hpop, htop, hq1, ho, hb, hlt⟩
      · have hinc := bf_inc_pop_done h it nd top q1 (some e) hrdn hrp hpop htop hend
        simp [hb, bf_run, hinc, hn]
      · have hinc := bf_inc_pop_child h it nd top q1 c hrdn hrp hpop htop
        rw [hend] at hinc
        obtain ⟨hcc, hkc, hrc⟩ := ho
        have hih := ih rc (Q1 ++ [kc]) ⟨some c, some (some e), q1 ++ [some c]⟩ c _
          (by rw [forests_weight_cons] at hw; omega)
          rfl (rd_cell hcc) hrc
          (fun _ => ⟨firstOr_none rc, by simp, rfl⟩)
          (fun hnil2 => Or.inl ⟨by subst hnil2; rfl, rfl⟩)
          (List.rel_append hq1
            (List.Forall₂.cons ⟨c, _, rfl, rd_cell hcc, rfl, hkc⟩ List.Forall₂.nil))
          (by simp)
        rw [hb]
        have := bf_run_succ h _ it _ _ hinc hih
        simpa [hn] using this

theorem level_order_root (r : Nat) (v : α) (kids : Forest α) :
    (Forest.cons r v kids .nil).level_order = r :: kids.level_order := by
  rw [← bfs_single, ← bfs_single, bfs, bfs]
  rfl

theorem level_order_perm (f : Forest α) : f.level_order.Perm f.pre := by
  rw [← bfs_single]
  simpa using bfs_perm _ [f] (le_refl _)

/-- C6: in a well-formed non-empty tree, a `bf_iterator` built at `begin()`
and incremented `kids.size + 1` times passes the nodes in level order (depth
by depth, each depth from left to right) and then stands on `end()`; the level
order holds every node of the tree exactly once. The first increment leads
from the root to its first child, and in a root-only tree to `end()`. -/
theorem bf_inc_visits_level_order (h : Heap α) (t : tree) (r : Nat) (v : α) (kids : Forest α)
    (hwf : well_formed h t (.cons r v kids .nil)) :
    bf_run h (kids.size + 1) (bf_iterator.ctor t.begin)
        = .ok ((Forest.cons r v kids .nil).level_order.map some ++ [t.end_])
      ∧ (Forest.cons r v kids .nil).level_order.Perm (Forest.cons r v kids .nil).pre
      ∧ (Forest.cons r v kids .nil).level_order.Nodup
      ∧ t.end_ ∉ (Forest.cons r v kids .nil).level_order.map some
      ∧ (∀ c w kc rc, kids = .cons c w kc rc →
          bf_inc h (bf_iterator.ctor t.begin) = .ok ⟨some c, some t.end_, [some c]⟩)
      ∧ (kids = .nil → bf_run h 1 (bf_iterator.ctor t.begin) = .ok [t.begin, t.end_]) := by
  obtain ⟨e, hr, hf, hown, he, hnd⟩ := well_formed_cons hwf
  obtain ⟨hc, hk, _⟩ := hown
  have hperm := level_order_perm (Forest.cons r v kids .nil)
  have hrun : bf_run h (kids.size + 1) (bf_iterator.ctor t.begin)
      = .ok ((Forest.cons r v kids .nil).level_order.map some ++ [t.end_]) := by
    have hs := bf_run_spec h e _ .nil [kids] (bf_iterator.ctor (some r)) r _ (le_refl _) rfl
      (rd_cell hc) trivial (fun hne => (hne rfl).elim) (fun _ => Or.inr ⟨rfl, rfl⟩)
      (List.Forall₂.cons ⟨r, _, rfl, rd_cell hc, rfl, hk⟩ List.Forall₂.nil) (by simp)
    rw [bfs, bfs_single] at hs
    have hlen : kids.level_order.length = kids.size := by
      rw [(level_order_perm kids).length_eq, pre_length]
    rw [hlen] at hs
    rw [tree.begin, tree.end_, hr, hf, hs, level_order_root]
    rfl
  refine ⟨hrun, hperm, hperm.nodup_iff.mpr (List.nodup_cons.mp hnd).2, ?_, ?_, ?_⟩
  · simp only [tree.end_, hf]
    intro hmem
    rw [List.mem_map] at hmem
    obtain ⟨a, ha, hae⟩ := hmem
    cases hae
    exact (List.nodup_cons.mp hnd).1 (hperm.mem_iff.mp ha)
  · intro c w kc rc hkids
    subst hkids
    have := bf_inc_pop_child h (bf_iterator.ctor t.begin) _ _ [] c
      (by rw [tree.begin, hr]; exact rd_cell hc) (Or.inr rfl)
      (by
        simp only [bf_iterator.ctor, bf_pop, tree.begin, hr, rd_cell hc, ne_eq,
          not_true_eq_false, and_false, if_false]
        rfl) rfl
    simpa [tree.end_, hf, bf_iterator.ctor] using this
  · intro hkids
    subst hkids
    simpa [Forest.size, level_order_root, Forest.level_order, Forest.height, tree.begin, hr]
      using hrun

theorem bf_inc_visits_level_order_witness :
    well_formed scenario_heap scenario_tree (.cons 0 0 scenario_kids .nil) ∧
      bf_run scenario_heap 8 (bf_iterator.ctor scenario_tree.begin)
        = .ok [some 0, some 2, some 3, some 6, some 8, some 7, some 4, some 5, some 1] :=
  ⟨scenario_well_formed,
    (bf_inc_visits_level_order scenario_heap scenario_tree 0 0 scenario_kids
      scenario_well_formed).1⟩

/-! ## Replacing a part of a forest -/

theorem pre_plug : ∀ (C : List (Frame α)) (g : Forest α),
    (plug C g).pre = path_before C ++ g.pre ++ path_after C
  | [], g => by simp [plug, path_before, path_after]
  | .right a v kids :: C, g => by
    simp [plug, Frame.fill, Forest.pre, path_before, path_after, pre_plug C g]
  | .down a v rest :: C, g => by
    simp [plug, Frame.fill, Forest.pre, path_before, path_after, pre_plug C g]

theorem exists_path : ∀ (f : Forest α) (x : Nat), x ∈ f.pre →
    ∃ C v kx rx, f = plug C (.cons x v kx rx) := by
  intro f
  induction f with
  | nil => intro x hx; simp [Forest.pre] at hx
  | cons a w k r ihk ihr =>
    intro x hx
    simp only [Forest.pre, List.mem_cons, List.mem_append] at hx
    rcases hx with rfl | hx | hx
    · exact ⟨[], w, k, r, rfl⟩
    · obtain ⟨C, v, kx, rx, hC⟩ := ihk x hx
      exact ⟨.down a w r :: C, v, kx, rx, by simp [plug, Frame.fill, ← hC]⟩
    · obtain ⟨C, v, kx, rx, hC⟩ := ihr x hx
      exact ⟨.right a w k :: C, v, kx, rx, by simp [plug, Frame.fill, ← hC]⟩

theorem modify_of_not_mem (x : Nat) (g : α → Forest α → Forest α → Forest α) :
    ∀ f : Forest α, x ∉ f.pre → f.modify x g = f := by
  intro f
  induction f with
  | nil => intro _; rfl
  | cons a w k r ihk ihr =>
    intro hx
    simp only [Forest.pre, List.mem_cons, List.mem_append, not_or] at hx
    simp [Forest.modify, Ne.symm hx.1, ihk hx.2.1, ihr hx.2.2]

theorem modify_plug (x : Nat) (g : α → Forest α → Forest α → Forest α) :
    ∀ (C : List (Frame α)) (v : α) (kx rx : Forest α),
      (plug C (.cons x v kx rx)).pre.Nodup →
      (plug C (.cons x v kx rx)).modify x g = plug C (g v kx rx)
  | [], v, kx, rx, _ => by simp [plug, Forest.modify]
  | .right a w kids :: C, v, kx, rx, hnd => by
    have hp := pre_plug C (.cons x v kx rx)
    simp only [plug, Frame.fill, Forest.pre, List.nodup_cons, List.mem_append, not_or,
      List.nodup_append] at hnd
    obtain ⟨⟨_, har⟩, hkn, hrn, hdis⟩ := hnd
    have hxr : x ∈ (plug C (.cons x v kx rx)).pre := by rw [hp]; simp [Forest.pre]
    have hax : a ≠ x := by rintro rfl; exact har hxr
    have hxk : x ∉ kids.pre := fun hk => hdis hk hxr
    simp [plug, Frame.fill, Forest.modify, hax, modify_of_not_mem x g kids hxk,
      modify_plug x g C v kx rx hrn]
  | .down a w rest :: C, v, kx, rx, hnd => by
    have hp := pre_plug C (.cons x v kx rx)
    simp only [plug, Frame.fill, Forest.pre, List.nodup_cons, List.mem_append, not_or,
      List.nodup_append] at hnd
    obtain ⟨⟨hak, _⟩, hkn, hrn, hdis⟩ := hnd
    have hxk : x ∈ (plug C (.cons x v kx rx)).pre := by rw [hp]; simp [Forest.pre]
    have hax : a ≠ x := by rintro rfl; exact hak hxk
    have hxr : x ∉ rest.pre := fun hr => hdis hxk hr
    simp [plug, Frame.fill, Forest.modify, hax, modify_of_not_mem x g rest hxr,
      modify_plug x g C v kx rx hkn]

theorem last_cons_some : ∀ (r : Forest α) (a : Nat) (v : α) (k : Forest α),
    ∃ c, (Forest.cons a v k r).last = some c := by
  intro r
  induction r with
  | nil => intro a v k; exact ⟨a, rfl⟩
  | cons b w kb rb _ ihr =>
    intro a v k
    obtain ⟨c, hc⟩ := ihr b w kb
    exact ⟨c, by simpa [Forest.last] using hc⟩

theorem last_cons_eq (a : Nat) (v : α) (k X : Forest α) :
    (Forest.cons a v k X).last = (match X.last with | none => some a | some b => some b) := by
  cases X with
  | nil => rfl
  | cons b w kb rb =>
    obtain ⟨c, hc⟩ := last_cons_some rb b w kb
    simp only [Forest.last]
    rw [hc]

theorem first_eq_none {f : Forest α} : f.first = none ↔ f = .nil := by
  cases f <;> simp [Forest.first]

theorem last_eq_none {f : Forest α} : f.last = none ↔ f = .nil := by
  cases f with
  | nil => simp [Forest.last]
  | cons a v k r =>
    obtain ⟨c, hc⟩ := last_cons_some r a v k
    simp [hc]

theorem firstOr_eq (stop : nodeptr) (f : Forest α) :
    f.firstOr stop = (match f.first with | none => stop | some b => some b) := by
  cases f <;> rfl

theorem plug_first : ∀ (C : List (Frame α)) (g g1 : Forest α), g1.first = g.first →
    (plug C g1).first = (plug C g).first
  | [], _, _, h => h
  | .right _ _ _ :: _, _, _, _ => rfl
  | .down _ _ _ :: _, _, _, _ => rfl

theorem plug_firstOr (stop : nodeptr) (C : List (Frame α)) (g g1 : Forest α)
    (h : g1.first = g.first) : (plug C g1).firstOr stop = (plug C g).firstOr stop := by
  rw [firstOr_eq, firstOr_eq, plug_first C g g1 h]

theorem plug_last : ∀ (C : List (Frame α)) (g g1 : Forest α), g1.last = g.last →
    (plug C g1).last = (plug C g).last
  | [], _, _, h => h
  | .right a v kids :: C, g, g1, h => by
    simp only [plug, Frame.fill]
    rw [last_cons_eq, last_cons_eq, plug_last C g g1 h]
  | .down a v rest :: C, g, g1, _ => by
    simp only [plug, Frame.fill]
    cases rest <;> rfl

theorem owns_hole (h : Heap α) : ∀ (C : List (Frame α)) (p l stop : nodeptr) (g : Forest α),
    owns h p l (plug C g) stop →
    owns h (hole p l stop C).1 (hole p l stop C).2.1 g (hole p l stop C).2.2
  | [], _, _, _, _, ho => ho
  | .right a _ _ :: C, p, _, stop, g, ho => owns_hole h C p (some a) stop g ho.2.2
  | .down a _ _ :: C, _, _, _, g, ho => owns_hole h C (some a) none none g ho.2.1

theorem owns_replace (h h1 : Heap α) : ∀ (C : List (Frame α)) (p l stop : nodeptr)
    (g g1 : Forest α), owns h p l (plug C g) stop →
    owns h1 (hole p l stop C).1 (hole p l stop C).2.1 g1 (hole p l stop C).2.2 →
    g1.first = g.first → (has_down C → g1.last = g.last) →
    (∀ a ∈ path_addrs C, h1[a]? = h[a]?) →
    owns h1 p l (plug C g1) stop
  | [], _, _, _, _, _, _, ho1, _, _, _ => ho1
  | .right a v kids :: C, p, l, stop, g, g1, ho, ho1, hf, hl, hfr => by
    obtain ⟨hc, hk, hr⟩ := ho
    refine ⟨?_, owns_frame h h1 _ _ _ _ ?_ hk, ?_⟩
    · rw [hfr a (by simp [path_addrs]), plug_firstOr stop C g g1 hf]
      exact hc
    · intro b hb; exact hfr b (by simp [path_addrs, hb])
    · exact owns_replace h h1 C p (some a) stop g g1 hr ho1 hf hl
        (fun b hb => hfr b (by simp [path_addrs, hb]))
  | .down a v rest :: C, p, l, stop, g, g1, ho, ho1, hf, hl, hfr => by
    obtain ⟨hc, hk, hr⟩ := ho
    have hl1 := hl trivial
    refine ⟨?_, ?_, owns_frame h h1 _ _ _ _ ?_ hr⟩
    · rw [hfr a (by simp [path_addrs]), plug_first C g g1 hf, plug_last C g g1 hl1]
      exact hc
    · exact owns_replace h h1 C (some a) none none g g1 hk ho1 hf (fun _ => hl1)
        (fun b hb => hfr b (by simp [path_addrs, hb]))
    · intro b hb; exact hfr b (by simp [path_addrs, hb])

theorem plug_ne_nil : ∀ (C : List (Frame α)) (g : Forest α), g ≠ .nil → plug C g ≠ .nil
  | [], _, hg => hg
  | .right _ _ _ :: _, _, _ => by simp [plug, Frame.fill]
  | .down _ _ _ :: _, _, _ => by simp [plug, Frame.fill]

theorem plug_root_shape (C : List (Frame α)) (g : Forest α) (r : Nat) (v0 : α)
    (kids : Forest α) (hT : Forest.cons r v0 kids .nil = plug C g) (hg : g ≠ .nil)
    (hC : C ≠ []) : ∃ C1, C = .down r v0 .nil :: C1 ∧ kids = plug C1 g := by
  cases C with
  | nil => exact (hC rfl).elim
  | cons F C1 =>
    cases F with
    | right a v k =>
      simp only [plug, Frame.fill, Forest.cons.injEq] at hT
      exact (plug_ne_nil C1 g hg hT.2.2.2.symm).elim
    | down a v rest =>
      simp only [plug, Frame.fill, Forest.cons.injEq] at hT
      obtain ⟨rfl, rfl, rfl, rfl⟩ := hT
      exact ⟨C1, rfl, rfl⟩

theorem well_formed_mk (h : Heap α) (t : tree) (r e : Nat) (v : α) (kids : Forest α)
    (hr : t.root = some r) (hf : t.foot = some e)
    (ho : owns h none none (.cons r v kids .nil) (some e))
    (he : h[e]? = some (some ⟨none, some r, none, none, none, none⟩))
    (hnd : (e :: (Forest.cons r v kids .nil).pre).Nodup) :
    well_formed h t (.cons r v kids .nil) := by
  refine ⟨hr, ?_⟩
  rw [hf]
  exact ⟨ho, he, hnd⟩

/-- Replacing the chain at the end of a path in a well-formed tree, when the
first and last node of the chain stay the same. -/
theorem well_formed_replace (h h1 : Heap α) (t : tree) (r e : Nat) (v0 : α) (kids : Forest α)
    (C : List (Frame α)) (g g1 : Forest α)
    (hwf : well_formed h t (.cons r v0 kids .nil)) (hf : t.foot = some e)
    (hT : Forest.cons r v0 kids .nil = plug C g) (hg : g ≠ .nil)
    (ho1 : owns h1 (hole none none (some e) C).1 (hole none none (some e) C).2.1 g1
      (hole none none (some e) C).2.2)
    (hfirst : g1.first = g.first) (hlast : has_down C → g1.last = g.last)
    (hfr : ∀ a ∈ path_addrs C, h1[a]? = h[a]?) (hfoot : h1[e]? = h[e]?)
    (hnd : (e :: (plug C g1).pre).Nodup)
    (hshape : C = [] → ∃ v1 k1, g1 = .cons r v1 k1 .nil) :
    well_formed h1 t (plug C g1) := by
  obtain ⟨e1, hr, hf1, hown, he, _⟩ := well_formed_cons hwf
  rw [hf] at hf1; cases hf1
  rw [hT] at hown
  have ho := owns_replace h h1 C none none (some e) g g1 hown ho1 hfirst hlast hfr
  by_cases hC : C = []
  · obtain ⟨v1, k1, hg1⟩ := hshape hC
    subst hC
    simp only [plug] at ho hnd ⊢
    subst hg1
    exact well_formed_mk h1 t r e v1 k1 hr hf ho (hfoot.trans he) hnd
  · obtain ⟨C1, rfl, _⟩ := plug_root_shape C g r v0 kids hT hg hC
    simp only [plug, Frame.fill] at ho hnd ⊢
    exact well_formed_mk h1 t r e v0 _ hr hf ho (hfoot.trans he) hnd

theorem cell_lt {h : Heap α} {a : Nat} {c : Option (node α)} (hc : h[a]? = some c) :
    a < h.length := by
  by_contra hge
  rw [List.getElem?_eq_none (by omega)] at hc
  cases hc

theorem get_snoc (h : Heap α) (c : Option (node α)) (j : Nat) :
    (h ++ [c])[j]? = if j < h.length then h[j]? else if j = h.length then some c else none := by
  by_cases h1 : j < h.length
  · simp [h1, List.getElem?_append_left]
  · by_cases h2 : j = h.length
    · subst h2; simp
    · simp only [h1, h2, if_false]
      exact List.getElem?_eq_none (by simp; omega)

theorem get_none_of_ge (h : Heap α) (j : Nat) (hj : ¬ j < h.length) : h[j]? = none :=
  List.getElem?_eq_none (by omega)

theorem owns_lt (h : Heap α) : ∀ (f : Forest α) (p l stop : nodeptr),
    owns h p l f stop → ∀ a ∈ f.pre, a < h.length := by
  intro f
  induction f with
  | nil => intro p l stop _ a ha; simp [Forest.pre] at ha
  | cons b v k r ihk ihr =>
    intro p l stop ho a ha
    simp only [Forest.pre, List.mem_cons, List.mem_append] at ha
    rcases ha with rfl | ha | ha
    · exact cell_lt ho.1
    · exact ihk _ _ _ ho.2.1 a ha
    · exact ihr _ _ _ ho.2.2 a ha

theorem mem_path_addrs : ∀ (C : List (Frame α)) (a : Nat),
    a ∈ path_addrs C ↔ a ∈ path_before C ∨ a ∈ path_after C
  | [], a => by simp [path_addrs, path_before, path_after]
  | .right b v k :: C, a => by
    simp only [path_addrs, path_before, path_after, List.mem_cons, List.mem_append,
      mem_path_addrs C a]
    tauto
  | .down b v r :: C, a => by
    simp only [path_addrs, path_before, path_after, List.mem_cons, List.mem_append,
      mem_path_addrs C a]
    tauto

/-! ## Adding a child -/

theorem prepend_child_leaf (h : Heap α) (t : tree) (x : Nat) (w : α) (nd : node α)
    (hx : (some x : nodeptr) ≠ t.end_) (hc : h[x]? = some (some nd))
    (hcb : nd.child_begin = none) :
    ∃ h1, prepend_child h t (some x) w = .ok (h1, some h.length) ∧
      h1.length = h.length + 1 ∧
      h1[h.length]? = some (some ⟨some x, none, none, none, none, some w⟩) ∧
      h1[x]? = some (some { nd with child_begin := some h.length, child_end := some h.length }) ∧
      ∀ a, a ≠ x → a ≠ h.length → h1[a]? = h[a]? := by
  have hlt := cell_lt hc
  have hne : x ≠ h.length := Nat.ne_of_lt hlt
  have hne2 : h.length ≠ x := Ne.symm hne
  have hlt1 : x < h.length + 1 := by omega
  simp only [prepend_child, hx, p_node_allocate, wr, rd, bind, Except.bind, pure, Except.pure,
    List.getElem?_set, get_snoc, List.length_set, List.length_append, List.length_singleton,
    hlt, hlt1, hne, hne2, hc, hcb, if_true, if_false, lt_irrefl, Nat.lt_succ_self,
    Except.ok.injEq, Prod.mk.injEq, and_true, true_and, exists_eq_left']
  intro a ha1 ha2
  simp only [Ne.symm ha1, Ne.symm ha2, if_false]
  split_ifs with h1
  · rfl
  · exact (get_none_of_ge h a h1).symm

theorem prepend_child_inner (h : Heap α) (t : tree) (x c : Nat) (w : α) (nd ndc : node α)
    (hx : (some x : nodeptr) ≠ t.end_) (hc : h[x]? = some (some nd))
    (hcb : nd.child_begin = some c) (hcc : h[c]? = some (some ndc)) (hxc : x ≠ c) :
    ∃ h1, prepend_child h t (some x) w = .ok (h1, some h.length) ∧
      h1.length = h.length + 1 ∧
      h1[h.length]? = some (some ⟨some x, none, some c, none, none, some w⟩) ∧
      h1[x]? = some (some { nd with child_begin := some h.length }) ∧
      h1[c]? = some (some { ndc with left := some h.length }) ∧
      ∀ a, a ≠ x → a ≠ c → a ≠ h.length → h1[a]? = h[a]? := by
  have hlt := cell_lt hc
  have hltc := cell_lt hcc
  have hne : x ≠ h.length := Nat.ne_of_lt hlt
  have hne2 : h.length ≠ x := Ne.symm hne
  have hnec : c ≠ h.length := Nat.ne_of_lt hltc
  have hnec2 : h.length ≠ c := Ne.symm hnec
  have hcx : c ≠ x := Ne.symm hxc
  have hlt1 : x < h.length + 1 := by omega
  have hltc1 : c < h.length + 1 := by omega
  simp only [prepend_child, hx, p_node_allocate, wr, rd, bind, Except.bind, pure, Except.pure,
    List.getElem?_set, get_snoc, List.length_set, List.length_append, List.length_singleton,
    hlt, hlt1, hltc, hltc1, hne, hne2, hnec, hnec2, hxc, hcx, hc, hcb, hcc, if_true, if_false,
    lt_irrefl, Nat.lt_succ_self, Except.ok.injEq, Prod.mk.injEq, and_true, true_and, exists_eq_left']
  intro a ha1 ha2 ha3
  simp only [Ne.symm ha1, Ne.symm ha2, Ne.symm ha3, if_false]
  split_ifs with h1
  · rfl
  · exact (get_none_of_ge h a h1).symm

/-- The place of a value-holding node `x` in a well-formed tree: the path to
it, what the heap holds there, and the distinctness of all addresses. -/
theorem focus (h : Heap α) (t : tree) (r : Nat) (v0 : α) (kids : Forest α) (x : Nat)
    (hwf : well_formed h t (.cons r v0 kids .nil))
    (hx : x ∈ (Forest.cons r v0 kids .nil).pre) :
    ∃ e C v kx rx, t.foot = some e ∧ Forest.cons r v0 kids .nil = plug C (.cons x v kx rx) ∧
      owns h (hole none none (some e) C).1 (hole none none (some e) C).2.1 (.cons x v kx rx)
        (hole none none (some e) C).2.2 ∧
      h[e]? = some (some ⟨none, some r, none, none, none, none⟩) ∧
      (e :: (path_before C ++ (x :: (kx.pre ++ rx.pre)) ++ path_after C)).Nodup ∧
      e < h.length ∧
      (∀ a ∈ path_before C ++ (x :: (kx.pre ++ rx.pre)) ++ path_after C, a < h.length) := by
  obtain ⟨e, _, hf, hown, he, hnd⟩ := well_formed_cons hwf
  obtain ⟨C, v, kx, rx, hC⟩ := exists_path _ x hx
  have hpre := pre_plug C (.cons x v kx rx)
  simp only [Forest.pre] at hpre
  refine ⟨e, C, v, kx, rx, hf, hC, ?_, he, ?_, cell_lt he, ?_⟩
  · rw [hC] at hown
    exact owns_hole h C none none (some e) _ hown
  · rw [hC, show (plug C (Forest.cons x v kx rx)).pre = _ from hpre] at hnd
    exact hnd
  · intro a ha
    rw [← hpre, ← hC] at ha
    exact owns_lt h _ _ _ _ hown a ha

theorem prepend_child_spec (h : Heap α) (t : tree) (r : Nat) (v0 : α) (kids : Forest α)
    (x : Nat) (w : α) (hwf : well_formed h t (.cons r v0 kids .nil))
    (hx : x ∈ (Forest.cons r v0 kids .nil).pre) :
    ∃ h1 nd, prepend_child h t (some x) w = .ok (h1, some h.length) ∧
      well_formed h1 t ((Forest.cons r v0 kids .nil).modify x
        (fun v k rs => .cons x v (.cons h.length w .nil k) rs)) ∧
      h[x]? = some (some nd) ∧
      h1[h.length]? = some (some ⟨some x, none, nd.child_begin, none, none, some w⟩) ∧
      h1[x]? = some (some { nd with
        child_begin := some h.length
        child_end := (if nd.child_begin = none then some h.length else nd.child_end) }) ∧
      (∀ a, a ≠ x → some a ≠ nd.child_begin → a ≠ h.length → h1[a]? = h[a]?) := by
  obtain ⟨e, C, v, kx, rx, hf, hT, hown, he, hnd, helt, hlt⟩ := focus h t r v0 kids x hwf hx
  have hmod := modify_plug x (fun v k rs => Forest.cons x v (.cons h.length w .nil k) rs)
    C v kx rx (by
      have := pre_plug C (Forest.cons x v kx rx)
      simp only [Forest.pre] at this
      rw [this]
      exact (List.nodup_cons.mp hnd).2)
  rw [hT, hmod]
  simp only [List.nodup_cons, List.nodup_append, List.mem_append, List.mem_cons, not_or,
    List.disjoint_append_left, List.disjoint_append_right, List.disjoint_cons_left,
    List.disjoint_cons_right] at hnd
  obtain ⟨⟨⟨heB, hex, heK, heR⟩, heA⟩, ⟨hBn, ⟨⟨hxK, hxR⟩, hKn, hRn, hKR⟩, hxB, hBK, hBR⟩,
    hAn, hBA, hxA, hKA, hRA⟩ := hnd
  have hxe : (some x : nodeptr) ≠ t.end_ := by
    rw [tree.end_, hf]; intro hh; cases hh; exact hex rfl
  obtain ⟨hcx, hok, hor⟩ := hown
  have hltx : x < h.length := cell_lt hcx
  have hn : ∀ a, a < h.length → a ≠ h.length := fun a ha => Nat.ne_of_lt ha
  -- the nodes beside the path keep their cells
  have hpath : ∀ h1 : Heap α, (∀ a, a ≠ x → a ∉ kx.pre → a ≠ h.length → h1[a]? = h[a]?) →
      (∀ a ∈ path_addrs C, h1[a]? = h[a]?) ∧ h1[e]? = h[e]? := by
    intro h1 hfr
    refine ⟨?_, hfr e hex heK (hn e helt)⟩
    intro a ha
    rcases (mem_path_addrs C a).mp ha with hb | ha'
    · exact hfr a (by rintro rfl; exact hxB hb) (fun hk => hBK hb hk)
        (hn a (hlt a (by simp [hb])))
    · exact hfr a (by rintro rfl; exact hxA ha') (fun hk => hKA hk ha')
        (hn a (hlt a (by simp [ha'])))
  have hnew : ∀ a ∈ path_before C ++ (x :: (kx.pre ++ rx.pre)) ++ path_after C,
      a ≠ h.length := fun a ha => hn a (hlt a ha)
  have hndfinal : ∀ K1 : List Nat, K1 = h.length :: kx.pre →
      (e :: (path_before C ++ (x :: (K1 ++ rx.pre)) ++ path_after C)).Nodup := by
    intro K1 hK1
    subst hK1
    simp only [List.nodup_cons, List.nodup_append, List.mem_append, List.mem_cons, not_or,
      List.disjoint_append_left, List.disjoint_append_right, List.disjoint_cons_left,
      List.disjoint_cons_right]
    have h1 : h.length ∉ path_before C := fun hm => hnew _ (by simp [hm]) rfl
    have h2 : h.length ∉ kx.pre := fun hm => hnew _ (by simp [hm]) rfl
    have h3 : h.length ∉ rx.pre := fun hm => hnew _ (by simp [hm]) rfl
    have h4 : h.length ∉ path_after C := fun hm => hnew _ (by simp [hm]) rfl
    exact ⟨⟨⟨heB, hex, ⟨hn e helt, heK⟩, heR⟩, heA⟩,
      ⟨hBn, ⟨⟨⟨hn x hltx, hxK⟩, hxR⟩, ⟨h2, hKn⟩, hRn, h3, hKR⟩, hxB, ⟨h1, hBK⟩, hBR⟩,
      hAn, hBA, hxA, ⟨h4, hKA⟩, hRA⟩
  cases kx with
  | nil =>
    obtain ⟨h1, hev, _, hcn, hcx1, hfr⟩ := prepend_child_leaf h t x w _ hxe hcx rfl
    refine ⟨h1, _, hev, ?_, hcx, hcn, by simpa [Forest.first] using hcx1, ?_⟩
    · have hfr2 : ∀ a, a ≠ x → a ∉ (Forest.nil : Forest α).pre → a ≠ h.length →
          h1[a]? = h[a]? := fun a h1 _ h3 => hfr a h1 h3
      obtain ⟨hp1, hp2⟩ := hpath h1 hfr2
      refine well_formed_replace h h1 t r e v0 kids C _ _ hwf hf hT (by simp) ?_ rfl
        (fun _ => by cases rx <;> rfl) hp1 hp2 ?_ ?_
      · refine ⟨by simpa [Forest.first, Forest.last] using hcx1, ⟨?_, trivial, trivial⟩, ?_⟩
        · simpa [Forest.firstOr, Forest.first, Forest.last] using hcn
        · refine owns_frame h h1 _ _ _ _ ?_ hor
          intro a ha
          exact hfr a (by rintro rfl; exact hxR ha) (hn a (hlt a (by simp [ha])))
      · rw [pre_plug]
        simpa [Forest.pre] using hndfinal _ rfl
      · intro hC
        subst hC
        simp only [plug, Forest.cons.injEq] at hT
        obtain ⟨rfl, rfl, _, rfl⟩ := hT
        exact ⟨_, _, rfl⟩
    · intro a ha1 _ ha3
      exact hfr a ha1 ha3
  | cons c u kc rc =>
    obtain ⟨hcc, hokc, horc⟩ := hok
    have hxc : x ≠ c := by rintro rfl; exact hxK (by simp [Forest.pre])
    obtain ⟨h1, hev, _, hcn, hcx1, hcc1, hfr⟩ :=
      prepend_child_inner h t x c w _ _ hxe hcx rfl hcc hxc
    refine ⟨h1, _, hev, ?_, hcx, hcn, by simpa [Forest.first] using hcx1, ?_⟩
    · have hfr2 : ∀ a, a ≠ x → a ∉ (Forest.cons c u kc rc).pre → a ≠ h.length →
          h1[a]? = h[a]? := fun a h1 h2 h3 =>
        hfr a h1 (by rintro rfl; exact h2 (by simp [Forest.pre])) h3
      obtain ⟨hp1, hp2⟩ := hpath h1 hfr2
      have hKn2 := hKn
      simp only [Forest.pre, List.nodup_cons, List.mem_append, not_or, List.nodup_append] at hKn2
      obtain ⟨⟨hckc, hcrc⟩, _, _, _⟩ := hKn2
      refine well_formed_replace h h1 t r e v0 kids C _ _ hwf hf hT (by simp) ?_ rfl
        (fun _ => by cases rx <;> rfl) hp1 hp2 ?_ ?_
      · refine ⟨by simpa [Forest.first, Forest.last] using hcx1,
          ⟨by simpa [Forest.firstOr] using hcn, trivial, ?_, ?_, ?_⟩, ?_⟩
        · exact hcc1
        · refine owns_frame h h1 _ _ _ _ ?_ hokc
          intro a ha
          exact hfr a (by rintro rfl; exact hxK (by simp [Forest.pre, ha]))
            (by rintro rfl; exact hckc ha) (hn a (hlt a (by simp [Forest.pre, ha])))
        · refine owns_frame h h1 _ _ _ _ ?_ horc
          intro a ha
          exact hfr a (by rintro rfl; exact hxK (by simp [Forest.pre, ha]))
            (by rintro rfl; exact hcrc ha) (hn a (hlt a (by simp [Forest.pre, ha])))
        · refine owns_frame h h1 _ _ _ _ ?_ hor
          intro a ha
          exact hfr a (by rintro rfl; exact hxR ha)
            (by rintro rfl; exact hKR (by simp [Forest.pre]) ha)
            (hn a (hlt a (by simp [ha])))
      · rw [pre_plug]
        simpa [Forest.pre] using hndfinal _ rfl
      · intro hC
        subst hC
        simp only [plug, Forest.cons.injEq] at hT
        obtain ⟨rfl, rfl, _, rfl⟩ := hT
        exact ⟨_, _, rfl⟩
    · intro a ha1 ha2 ha3
      exact hfr a ha1 (by rintro rfl; exact ha2 rfl) ha3

theorem append_child_inner (h : Heap α) (t : tree) (x c : Nat) (w : α) (nd ndc : node α)
    (hx : (some x : nodeptr) ≠ t.end_) (hc : h[x]? = some (some nd))
    (hce : nd.child_end = some c) (hcc : h[c]? = some (some ndc)) (hxc : x ≠ c) :
    ∃ h1, append_child h t (some x) w = .ok (h1, some h.length) ∧
      h1.length = h.length + 1 ∧
      h1[h.length]? = some (some ⟨some x, some c, none, none, none, some w⟩) ∧
      h1[x]? = some (some { nd with child_end := some h.length }) ∧
      h1[c]? = some (some { ndc with right := some h.length }) ∧
      ∀ a, a ≠ x → a ≠ c → a ≠ h.length → h1[a]? = h[a]? := by
  have hlt := cell_lt hc
  have hltc := cell_lt hcc
  have hne : x ≠ h.length := Nat.ne_of_lt hlt
  have hne2 : h.length ≠ x := Ne.symm hne
  have hnec : c ≠ h.length := Nat.ne_of_lt hltc
  have hnec2 : h.length ≠ c := Ne.symm hnec
  have hcx : c ≠ x := Ne.symm hxc
  have hlt1 : x < h.length + 1 := by omega
  have hltc1 : c < h.length + 1 := by omega
  simp only [append_child, hx, p_node_allocate, wr, rd, bind, Except.bind, pure, Except.pure,
    List.getElem?_set, get_snoc, List.length_set, List.length_append, List.length_singleton,
    hlt, hlt1, hltc, hltc1, hne, hne2, hnec, hnec2, hxc, hcx, hc, hce, hcc, if_true, if_false,
    lt_irrefl, Nat.lt_succ_self, Except.ok.injEq, Prod.mk.injEq, and_true, true_and,
    exists_eq_left']
  intro a ha1 ha2 ha3
  simp only [Ne.symm ha1, Ne.symm ha2, Ne.symm ha3, if_false]
  split_ifs with h1
  · rfl
  · exact (get_none_of_ge h a h1).symm

theorem append_child_leaf (h : Heap α) (t : tree) (x : Nat) (w : α) (nd : node α)
    (hx : (some x : nodeptr) ≠ t.end_) (hc : h[x]? = some (some nd))
    (hce : nd.child_end = none) :
    append_child h t (some x) w = prepend_child h t (some x) w := by
  simp only [append_child, hx, rd, hc, hce, bind, Except.bind, pure, Except.pure, if_false]

theorem snoc_pre (n : Nat) (w : α) : ∀ f : Forest α, (f.snoc n w).pre = f.pre ++ [n]
  | .nil => rfl
  | .cons a v k r => by simp [Forest.snoc, Forest.pre, snoc_pre n w r]

theorem snoc_first (n : Nat) (w : α) (a : Nat) (v : α) (k r : Forest α) :
    ((Forest.cons a v k r).snoc n w).first = some a := rfl

theorem snoc_last (n : Nat) (w : α) : ∀ f : Forest α, (f.snoc n w).last = some n
  | .nil => rfl
  | .cons a v k r => by
    have := snoc_last n w r
    simp only [Forest.snoc]
    rw [last_cons_eq, this]

theorem owns_snoc (h h1 : Heap α) (n : Nat) (w : α) (p : nodeptr) :
    ∀ (f : Forest α) (l : nodeptr) (c : Nat) (ndc : node α),
      f.last = some c → owns h p l f none → f.pre.Nodup →
      h[c]? = some (some ndc) → h1[c]? = some (some { ndc with right := some n }) →
      h1[n]? = some (some ⟨p, some c, none, none, none, some w⟩) →
      (∀ a ∈ f.pre, a ≠ c → h1[a]? = h[a]?) →
      owns h1 p l (f.snoc n w) none := by
  intro f
  induction f with
  | nil => intro l c ndc hl; simp [Forest.last] at hl
  | cons a v k r _ ihr =>
    intro l c ndc hl ho hnd hc hc1 hn hfr
    obtain ⟨hca, hk, hr⟩ := ho
    simp only [Forest.pre, List.nodup_cons, List.mem_append, not_or, List.nodup_append] at hnd
    obtain ⟨⟨hak, har⟩, hkn, hrn, hdis⟩ := hnd
    cases r with
    | nil =>
      simp only [Forest.last, Option.some.injEq] at hl
      subst hl
      rw [hca] at hc
      cases hc
      refine ⟨by simpa [Forest.snoc, Forest.firstOr] using hc1, ?_, ?_⟩
      · refine owns_frame h h1 _ _ _ _ ?_ hk
        intro b hb
        exact hfr b (by simp [Forest.pre, hb]) (by rintro rfl; exact hak hb)
      · exact ⟨by simpa [Forest.firstOr, Forest.first, Forest.last] using hn, trivial, trivial⟩
    | cons b u kb rb =>
      have hl2 : (Forest.cons b u kb rb).last = some c := by simpa [Forest.last] using hl
      have hcm := last_mem _ c hl2
      have hac : a ≠ c := by rintro rfl; exact har hcm
      refine ⟨?_, ?_, ?_⟩
      · rw [hfr a (by simp [Forest.pre]) hac]
        simpa [Forest.snoc, Forest.firstOr] using hca
      · refine owns_frame h h1 _ _ _ _ ?_ hk
        intro d hd
        exact hfr d (by simp [Forest.pre, hd]) (by rintro rfl; exact hdis hd hcm)
      · exact ihr (some a) c ndc hl2 hr hrn hc hc1 hn
          (fun d hd hdc => hfr d
            (show d ∈ a :: (k.pre ++ (Forest.cons b u kb rb).pre) from
              List.mem_cons_of_mem _ (List.mem_append_right _ hd)) hdc)

theorem owns_cell (h : Heap α) : ∀ (f : Forest α) (p l stop : nodeptr),
    owns h p l f stop → ∀ a ∈ f.pre, ∃ nd, h[a]? = some (some nd) ∧ nd.value ≠ none := by
  intro f
  induction f with
  | nil => intro p l stop _ a ha; simp [Forest.pre] at ha
  | cons b v k r ihk ihr =>
    intro p l stop ho a ha
    simp only [Forest.pre, List.mem_cons, List.mem_append] at ha
    rcases ha with rfl | ha | ha
    · exact ⟨_, ho.1, by simp⟩
    · exact ihk _ _ _ ho.2.1 a ha
    · exact ihr _ _ _ ho.2.2 a ha

theorem nodup_insert (e n : Nat) (L1 L2 : List Nat) (h : (e :: (L1 ++ L2)).Nodup)
    (hn : n ∉ e :: (L1 ++ L2)) : (e :: (L1 ++ n :: L2)).Nodup := by
  have hp : (e :: (L1 ++ n :: L2)).Perm (n :: e :: (L1 ++ L2)) :=
    ((List.perm_middle).cons e).trans (List.Perm.swap n e _)
  exact hp.nodup_iff.mpr (List.nodup_cons.mpr ⟨hn, h⟩)

theorem append_child_spec (h : Heap α) (t : tree) (r : Nat) (v0 : α) (kids : Forest α)
    (x : Nat) (w : α) (hwf : well_formed h t (.cons r v0 kids .nil))
    (hx : x ∈ (Forest.cons r v0 kids .nil).pre) :
    ∃ h1 nd, append_child h t (some x) w = .ok (h1, some h.length) ∧
      well_formed h1 t ((Forest.cons r v0 kids .nil).modify x
        (fun v k rs => .cons x v (k.snoc h.length w) rs)) ∧
      h[x]? = some (some nd) ∧
      h1[h.length]? = some (some ⟨some x, nd.child_end, none, none, none, some w⟩) ∧
      h1[x]? = some (some { nd with
        child_begin := (if nd.child_end = none then some h.length else nd.child_begin)
        child_end := some h.length }) ∧
      (∀ a, a ≠ x → some a ≠ nd.child_end → a ≠ h.length → h1[a]? = h[a]?) ∧
      (nd.child_end = none →
        append_child h t (some x) w = prepend_child h t (some x) w) := by
  obtain ⟨e, C, v, kx, rx, hf, hT, hown, he, hnd, helt, hlt⟩ := focus h t r v0 kids x hwf hx
  have hndT : (plug C (Forest.cons x v kx rx)).pre.Nodup := by
    have := pre_plug C (Forest.cons x v kx rx)
    simp only [Forest.pre] at this
    rw [this]
    exact (List.nodup_cons.mp hnd).2
  have hmod := modify_plug x (fun v k rs => Forest.cons x v (k.snoc h.length w) rs)
    C v kx rx hndT
  have hnd0 := hnd
  simp only [List.nodup_cons, List.nodup_append, List.mem_append, List.mem_cons, not_or,
    List.disjoint_append_left, List.disjoint_append_right, List.disjoint_cons_left,
    List.disjoint_cons_right] at hnd
  obtain ⟨⟨⟨heB, hex, heK, heR⟩, heA⟩, ⟨hBn, ⟨⟨hxK, hxR⟩, hKn, hRn, hKR⟩, hxB, hBK, hBR⟩,
    hAn, hBA, hxA, hKA, hRA⟩ := hnd
  have hxe : (some x : nodeptr) ≠ t.end_ := by
    rw [tree.end_, hf]; intro hh; cases hh; exact hex rfl
  obtain ⟨hcx, hok, hor⟩ := hown
  have hltx : x < h.length := cell_lt hcx
  have hn : ∀ a, a < h.length → a ≠ h.length := fun a ha => Nat.ne_of_lt ha
  cases kx with
  | nil =>
    obtain ⟨h1, nd1, hev, hwf1, hcx0, hcn, hcx1, hfr⟩ :=
      prepend_child_spec h t r v0 kids x w hwf hx
    have hmodp := modify_plug x
      (fun v k rs => Forest.cons x v (.cons h.length w .nil k) rs) C v .nil rx hndT
    rw [hcx] at hcx0
    cases hcx0
    have hleaf := append_child_leaf h t x w _ hxe hcx rfl
    refine ⟨h1, _, hleaf.trans hev, ?_, hcx, by simpa [Forest.first, Forest.last] using hcn,
      by simpa [Forest.first, Forest.last] using hcx1, ?_, fun _ => hleaf⟩
    · rw [hT, hmod]
      rw [hT, hmodp] at hwf1
      exact hwf1
    · intro a ha1 _ ha3
      exact hfr a ha1 (by simp [Forest.first]) ha3
  | cons c0 u kc rc =>
    obtain ⟨c, hlast⟩ := last_cons_some rc c0 u kc
    have hcK := last_mem _ c hlast
    obtain ⟨ndc, hcc, _⟩ := owns_cell h _ _ _ _ hok c hcK
    have hxc : x ≠ c := by rintro rfl; exact hxK hcK
    obtain ⟨h1, hev, _, hcn, hcx1, hcc1, hfr⟩ :=
      append_child_inner h t x c w _ _ hxe hcx hlast hcc hxc
    have hce : (Forest.cons c0 u kc rc).last ≠ none := by rw [hlast]; simp
    refine ⟨h1, _, hev, ?_, hcx, by simpa [hlast] using hcn,
      by simpa [hlast] using hcx1, ?_, ?_⟩
    · rw [hT, hmod]
      refine well_formed_replace h h1 t r e v0 kids C _ _ hwf hf hT (by simp) ?_ rfl
        (fun _ => by cases rx <;> rfl) ?_ ?_ ?_ ?_
      · refine ⟨?_, ?_, ?_⟩
        · rw [snoc_last]
          simpa [Forest.snoc, Forest.first] using hcx1
        · exact owns_snoc h h1 h.length w (some x) _ none c ndc hlast hok hKn hcc hcc1
            (by simpa [hlast] using hcn)
            (fun a ha hac => hfr a (by rintro rfl; exact hxK ha) hac
              (hn a (hlt a (by simp [ha]))))
        · refine owns_frame h h1 _ _ _ _ ?_ hor
          intro a ha
          exact hfr a (by rintro rfl; exact hxR ha) (by rintro rfl; exact hKR hcK ha)
            (hn a (hlt a (by simp [ha])))
      · intro a ha
        rcases (mem_path_addrs C a).mp ha with hb | ha'
        · exact hfr a (by rintro rfl; exact hxB hb) (by rintro rfl; exact hBK hb hcK)
            (hn a (hlt a (by simp [hb])))
        · exact hfr a (by rintro rfl; exact hxA ha') (by rintro rfl; exact hKA hcK ha')
            (hn a (hlt a (by simp [ha'])))
      · exact hfr e hex (by rintro rfl; exact heK hcK) (hn e helt)
      · rw [pre_plug]
        simp only [Forest.pre, snoc_pre]
        have hins := nodup_insert e h.length
          (path_before C ++ x :: (Forest.cons c0 u kc rc).pre) (rx.pre ++ path_after C)
          (by simpa [Forest.pre, List.append_assoc] using hnd0)
          (by
            intro hm
            rcases List.mem_cons.mp hm with hm | hm
            · exact hn e helt hm.symm
            · exact hn _ (hlt _ (by simpa [Forest.pre, List.append_assoc] using hm)) rfl)
        simpa [Forest.pre, List.append_assoc] using hins
      · intro hC
        subst hC
        simp only [plug, Forest.cons.injEq] at hT
        obtain ⟨rfl, rfl, _, rfl⟩ := hT
        exact ⟨_, _, rfl⟩
    · intro a ha1 ha2 ha3
      exact hfr a ha1 (by rintro rfl; exact ha2 hlast.symm) ha3
    · intro hnone
      exact (hce hnone).elim

theorem owns_cell_kids (h : Heap α) : ∀ (f : Forest α) (p l stop : nodeptr),
    owns h p l f stop → ∀ a ∈ f.pre, ∀ nd, h[a]? = some (some nd) →
      (nd.child_begin = none ↔ nd.child_end = none) := by
  intro f
  induction f with
  | nil => intro p l stop _ a ha; simp [Forest.pre] at ha
  | cons b v k r ihk ihr =>
    intro p l stop ho a ha nd hnd
    simp only [Forest.pre, List.mem_cons, List.mem_append] at ha
    rcases ha with rfl | ha | ha
    · rw [ho.1] at hnd
      cases hnd
      simp only [first_eq_none, last_eq_none]
    · exact ihk _ _ _ ho.2.1 a ha nd hnd
    · exact ihr _ _ _ ho.2.2 a ha nd hnd

/-- C18: in a well-formed non-empty tree, `prepend_child` at a value-holding
node `x` succeeds and returns an iterator to a freshly allocated node that
holds the value, has no children and no left sibling, has `x` as parent and the
former `child_begin` of `x` as right sibling; the tree is well-formed again and
represents the old tree with the new node put in front of the children of `x`;
`x.child_begin` is the new node and `x.child_end` changes only when `x` had no
children. -/
theorem prepend_child_adds_leftmost (h : Heap α) (t : tree) (r : Nat) (v0 : α)
    (kids : Forest α) (x : Nat) (w : α) (hwf : well_formed h t (.cons r v0 kids .nil))
    (hx : x ∈ (Forest.cons r v0 kids .nil).pre) :
    ∃ h1 nd nd1, prepend_child h t (some x) w = .ok (h1, some h.length) ∧
      h[h.length]? = none ∧
      well_formed h1 t ((Forest.cons r v0 kids .nil).modify x
        (fun v k rs => .cons x v (.cons h.length w .nil k) rs)) ∧
      h[x]? = some (some nd) ∧ h1[x]? = some (some nd1) ∧
      h1[h.length]? = some (some ⟨some x, none, nd.child_begin, none, none, some w⟩) ∧
      nd1.child_begin = some h.length ∧
      (nd.child_begin = none → nd1.child_end = some h.length) ∧
      (nd.child_begin ≠ none → nd1.child_end = nd.child_end) ∧
      nd1.parent = nd.parent ∧ nd1.left = nd.left ∧ nd1.right = nd.right ∧
      nd1.value = nd.value := by
  obtain ⟨h1, nd, hev, hwf1, hcx, hcn, hcx1, _⟩ := prepend_child_spec h t r v0 kids x w hwf hx
  refine ⟨h1, nd, _, hev, get_none_of_ge h _ (lt_irrefl _), hwf1, hcx, hcx1, hcn, rfl, ?_, ?_,
    rfl, rfl, rfl, rfl⟩
  · intro hn; simp [hn]
  · intro hn; simp [hn]

theorem prepend_child_adds_leftmost_witness :
    well_formed scenario_heap scenario_tree (.cons 0 0 scenario_kids .nil) ∧
    3 ∈ (Forest.cons 0 0 scenario_kids .nil).pre ∧
    ∃ h1 nd nd1, prepend_child scenario_heap scenario_tree (some 3) 9
        = .ok (h1, some scenario_heap.length) ∧
      scenario_heap[scenario_heap.length]? = none ∧
      well_formed h1 scenario_tree ((Forest.cons 0 0 scenario_kids .nil).modify 3
        (fun v k rs => .cons 3 v (.cons scenario_heap.length 9 .nil k) rs)) ∧
      scenario_heap[3]? = some (some nd) ∧ h1[3]? = some (some nd1) ∧
      h1[scenario_heap.length]? = some (some ⟨some 3, none, nd.child_begin, none, none, some 9⟩) ∧
      nd1.child_begin = some scenario_heap.length ∧
      (nd.child_begin = none → nd1.child_end = some scenario_heap.length) ∧
      (nd.child_begin ≠ none → nd1.child_end = nd.child_end) ∧
      nd1.parent = nd.parent ∧ nd1.left = nd.left ∧ nd1.right = nd.right ∧
      nd1.value = nd.value :=
  ⟨scenario_well_formed, by decide,
    prepend_child_adds_leftmost scenario_heap scenario_tree 0 0 scenario_kids 3 9
      scenario_well_formed (by decide)⟩

/-- C17: in a well-formed non-empty tree, `append_child` at a value-holding
node `x` succeeds and returns an iterator to a freshly allocated node that
holds the value, has no children and no right sibling, has `x` as parent and
the former `child_end` of `x` as left sibling; the tree is well-formed again
and represents the old tree with the new node put behind the children of `x`;
`x.child_end` is the new node, `x.child_begin` changes only when `x` had no
children, and in that case the call is the call of `prepend_child`. -/
theorem append_child_adds_rightmost (h : Heap α) (t : tree) (r : Nat) (v0 : α)
    (kids : Forest α) (x : Nat) (w : α) (hwf : well_formed h t (.cons r v0 kids .nil))
    (hx : x ∈ (Forest.cons r v0 kids .nil).pre) :
    ∃ h1 nd nd1, append_child h t (some x) w = .ok (h1, some h.length) ∧
      h[h.length]? = none ∧
      well_formed h1 t ((Forest.cons r v0 kids .nil).modify x
        (fun v k rs => .cons x v (k.snoc h.length w) rs)) ∧
      h[x]? = some (some nd) ∧ h1[x]? = some (some nd1) ∧
      h1[h.length]? = some (some ⟨some x, nd.child_end, none, none, none, some w⟩) ∧
      nd1.child_end = some h.length ∧
      (nd.child_end = none → nd1.child_begin = some h.length) ∧
      (nd.child_end ≠ none → nd1.child_begin = nd.child_begin) ∧
      nd1.parent = nd.parent ∧ nd1.left = nd.left ∧ nd1.right = nd.right ∧
      nd1.value = nd.value ∧
      (nd.child_begin = none ↔ nd.child_end = none) ∧
      (nd.child_end = none →
        append_child h t (some x) w = prepend_child h t (some x) w) := by
  obtain ⟨h1, nd, hev, hwf1, hcx, hcn, hcx1, _, hleaf⟩ :=
    append_child_spec h t r v0 kids x w hwf hx
  obtain ⟨e, _, _, hown, _, _⟩ := well_formed_cons hwf
  refine ⟨h1, nd, _, hev, get_none_of_ge h _ (lt_irrefl _), hwf1, hcx, hcx1, hcn, rfl, ?_, ?_,
    rfl, rfl, rfl, rfl, owns_cell_kids h _ _ _ _ hown x hx nd hcx, hleaf⟩
  · intro hn; simp [hn]
  · intro hn; simp [hn]

theorem append_child_adds_rightmost_witness :
    well_formed scenario_heap scenario_tree (.cons 0 0 scenario_kids .nil) ∧
    3 ∈ (Forest.cons 0 0 scenario_kids .nil).pre ∧
    ∃ h1 nd nd1, append_child scenario_heap scenario_tree (some 3) 9
        = .ok (h1, some scenario_heap.length) ∧
      scenario_heap[scenario_heap.length]? = none ∧
      well_formed h1 scenario_tree ((Forest.cons 0 0 scenario_kids .nil).modify 3
        (fun v k rs => .cons 3 v (k.snoc scenario_heap.length 9) rs)) ∧
      scenario_heap[3]? = some (some nd) ∧ h1[3]? = some (some nd1) ∧
      h1[scenario_heap.length]? = some (some ⟨some 3, nd.child_end, none, none, none, some 9⟩) ∧
      nd1.child_end = some scenario_heap.length ∧
      (nd.child_end = none → nd1.child_begin = some scenario_heap.length) ∧
      (nd.child_end ≠ none → nd1.child_begin = nd.child_begin) ∧
      nd1.parent = nd.parent ∧ nd1.left = nd.left ∧ nd1.right = nd.right ∧
      nd1.value = nd.value ∧
      (nd.child_begin = none ↔ nd.child_end = none) ∧
      (nd.child_end = none →
        append_child scenario_heap scenario_tree (some 3) 9
          = prepend_child scenario_heap scenario_tree (some 3) 9) :=
  ⟨scenario_well_formed, by decide,
    append_child_adds_rightmost scenario_heap scenario_tree 0 0 scenario_kids 3 9
      scenario_well_formed (by decide)⟩

/-! ## Replacing a part of a chain of siblings -/

theorem plug_append : ∀ (C D : List (Frame α)) (g : Forest α),
    plug (C ++ D) g = plug C (plug D g)
  | [], _, _ => rfl
  | F :: C, D, g => by
    show F.fill (plug (C ++ D) g) = _
    rw [plug_append C D g]
    rfl

theorem path_after_right : ∀ R : List (Frame α), ¬ has_down R → path_after R = []
  | [], _ => rfl
  | .right _ _ _ :: R, hR => by
    simp only [path_after]
    exact path_after_right R hR
  | .down _ _ _ :: _, hR => (hR trivial).elim

theorem hole_right : ∀ (R : List (Frame α)) (p l stop : nodeptr), ¬ has_down R →
    (hole p l stop R).1 = p ∧ (hole p l stop R).2.2 = stop
  | [], _, _, _, _ => ⟨rfl, rfl⟩
  | .right a _ _ :: R, p, _, stop, hR => hole_right R p (some a) stop hR
  | .down _ _ _ :: _, _, _, _, hR => (hR trivial).elim

theorem hole_left_mem : ∀ (R : List (Frame α)) (p l stop : nodeptr), ¬ has_down R → R ≠ [] →
    ∃ L, (hole p l stop R).2.1 = some L ∧ L ∈ path_before R
  | [], _, _, _, _, hne => (hne rfl).elim
  | .right a v k :: R, p, l, stop, hR, _ => by
    by_cases hRe : R = []
    · subst hRe
      exact ⟨a, rfl, by simp [path_before]⟩
    · obtain ⟨L, hL, hm⟩ := hole_left_mem R p (some a) stop hR hRe
      exact ⟨L, hL, by simp [path_before, hm]⟩
  | .down _ _ _ :: _, _, _, _, hR, _ => (hR trivial).elim

theorem plug_cons_first : ∀ (R : List (Frame α)) (g g1 : Forest α), R ≠ [] →
    (plug R g1).first = (plug R g).first
  | [], _, _, hne => (hne rfl).elim
  | .right _ _ _ :: _, _, _, _ => rfl
  | .down _ _ _ :: _, _, _, _ => rfl

theorem plug_right_last : ∀ (R : List (Frame α)) (p l stop : nodeptr) (g : Forest α),
    ¬ has_down R →
    (match (plug R g).last with | none => l | some b => some b) =
      (match g.last with | none => (hole p l stop R).2.1 | some b => some b)
  | [], _, _, _, _, _ => rfl
  | .right a v k :: R, p, l, stop, g, hR => by
    have ih := plug_right_last R p (some a) stop g hR
    simp only [plug, Frame.fill, hole]
    rw [last_cons_eq]
    rw [← ih]
    cases (plug R g).last <;> rfl
  | .down _ _ _ :: _, _, _, _, _, hR => (hR trivial).elim

theorem plug_right_last_none (R : List (Frame α)) (p stop : nodeptr) (g : Forest α)
    (hR : ¬ has_down R) :
    (plug R g).last = (match g.last with | none => (hole p none stop R).2.1 | some b => some b) := by
  rw [← plug_right_last R p none stop g hR]
  cases (plug R g).last <;> rfl

theorem owns_siblings (h h1 : Heap α) (p : nodeptr) :
    ∀ (R : List (Frame α)) (l : nodeptr) (g g1 : Forest α),
      ¬ has_down R → owns h p l (plug R g) none →
      owns h1 p (hole p l none R).2.1 g1 none →
      (path_before R).Nodup →
      (∀ a ∈ path_before R, some a ≠ (hole p l none R).2.1 → h1[a]? = h[a]?) →
      (∀ L nd, R ≠ [] → (hole p l none R).2.1 = some L → h[L]? = some (some nd) →
        nd.right = g.first → h1[L]? = some (some { nd with right := g1.first })) →
      owns h1 p l (plug R g1) none
  | [], _, _, _, _, _, ho1, _, _, _ => ho1
  | .right a va ka :: R, l, g, g1, hR, ho, ho1, hnd, hfr, hL => by
    obtain ⟨hc, hk, hr⟩ := ho
    simp only [path_before, List.nodup_cons, List.mem_append, not_or, List.nodup_append] at hnd
    obtain ⟨⟨hak, haR⟩, hkn, hRn, hdis⟩ := hnd
    by_cases hRe : R = []
    · subst hRe
      have hcell := hL a _ (by simp) rfl hc (firstOr_none _)
      refine ⟨?_, owns_frame h h1 _ _ _ _ ?_ hk, ho1⟩
      · rw [hcell]
        simp [plug, firstOr_none]
      · intro b hb
        refine hfr b (by simp [path_before, hb]) ?_
        simp only [hole, ne_eq, Option.some.injEq]
        rintro rfl
        exact hak hb
    · obtain ⟨L, hLe, hLm⟩ := hole_left_mem R p (some a) none hR hRe
      have hLe1 : (hole p l none (.right a va ka :: R)).2.1 = some L := hLe
      refine ⟨?_, owns_frame h h1 _ _ _ _ ?_ hk, ?_⟩
      · rw [hfr a (by simp [path_before]) ?_, hc]
        · simp only [firstOr_none, plug_cons_first R g g1 hRe]
        · rw [hLe1]
          simp only [ne_eq, Option.some.injEq]
          rintro rfl
          exact haR hLm
      · intro b hb
        refine hfr b (by simp [path_before, hb]) ?_
        rw [hLe1]
        simp only [ne_eq, Option.some.injEq]
        rintro rfl
        exact hdis hb hLm
      · refine owns_siblings h h1 p R (some a) g g1 hR hr ho1 hRn ?_ ?_
        · intro b hb hne
          exact hfr b (by simp [path_before, hb]) hne
        · intro L1 nd _ hL1 hcl hnr
          exact hL L1 nd (by simp) hL1 hcl hnr
  | .down _ _ _ :: _, _, _, _, hR, _, _, _, _, _ => (hR trivial).elim

theorem exists_parent_path : ∀ (f : Forest α) (x : Nat), x ∈ f.pre →
    (∃ R v kx rx, ¬ has_down R ∧ f = plug R (.cons x v kx rx)) ∨
    (∃ C0 P vp restP R v kx rx, ¬ has_down R ∧
      f = plug C0 (.cons P vp (plug R (.cons x v kx rx)) restP)) := by
  intro f
  induction f with
  | nil => intro x hx; simp [Forest.pre] at hx
  | cons a w k r ihk ihr =>
    intro x hx
    simp only [Forest.pre, List.mem_cons, List.mem_append] at hx
    rcases hx with rfl | hx | hx
    · exact Or.inl ⟨[], w, k, r, fun hd => hd, rfl⟩
    · rcases ihk x hx with ⟨R, v, kx, rx, hR, hk⟩ | ⟨C0, P, vp, restP, R, v, kx, rx, hR, hk⟩
      · exact Or.inr ⟨[], a, w, r, R, v, kx, rx, hR, by simp [plug, ← hk]⟩
      · exact Or.inr ⟨.down a w r :: C0, P, vp, restP, R, v, kx, rx, hR,
          by simp [plug, Frame.fill, ← hk]⟩
    · rcases ihr x hx with ⟨R, v, kx, rx, hR, hk⟩ | ⟨C0, P, vp, restP, R, v, kx, rx, hR, hk⟩
      · exact Or.inl ⟨.right a w k :: R, v, kx, rx, hR, by simp [plug, Frame.fill, ← hk]⟩
      · exact Or.inr ⟨.right a w k :: C0, P, vp, restP, R, v, kx, rx, hR,
          by simp [plug, Frame.fill, ← hk]⟩

theorem pre_nested (C0 R : List (Frame α)) (P : Nat) (vp : α) (restP g : Forest α)
    (hR : ¬ has_down R) :
    (plug C0 (.cons P vp (plug R g) restP)).pre =
      path_before C0 ++ P :: (path_before R ++ (g.pre ++ (restP.pre ++ path_after C0))) := by
  rw [pre_plug]
  simp only [Forest.pre, pre_plug, path_after_right R hR, List.append_nil, List.append_assoc,
    List.cons_append]

theorem modify_nested (x : Nat) (gf : α → Forest α → Forest α → Forest α)
    (C0 R : List (Frame α)) (P : Nat) (vp v : α) (restP kx rx : Forest α)
    (hnd : (plug C0 (.cons P vp (plug R (.cons x v kx rx)) restP)).pre.Nodup) :
    (plug C0 (.cons P vp (plug R (.cons x v kx rx)) restP)).modify x gf =
      plug C0 (.cons P vp (plug R (gf v kx rx)) restP) := by
  have e1 : ∀ g : Forest α, plug C0 (.cons P vp (plug R g) restP)
      = plug (C0 ++ .down P vp restP :: R) g := by
    intro g
    rw [plug_append]
    rfl
  rw [e1, e1]
  rw [e1] at hnd
  exact modify_plug x gf _ v kx rx hnd

/-- Path to the parent of a node other than the root, and to the node among
the children of that parent. -/
theorem focus_parent (h : Heap α) (t : tree) (r : Nat) (v0 : α) (kids : Forest α) (x : Nat)
    (hwf : well_formed h t (.cons r v0 kids .nil))
    (hx : x ∈ (Forest.cons r v0 kids .nil).pre) (hxr : x ≠ r) :
    ∃ e C0 P vp restP R v kx rx, t.foot = some e ∧ ¬ has_down R ∧
      Forest.cons r v0 kids .nil = plug C0 (.cons P vp (plug R (.cons x v kx rx)) restP) ∧
      owns h (some P) none (plug R (.cons x v kx rx)) none ∧
      owns h (some P) (hole (some P) none none R).2.1 (.cons x v kx rx) none ∧
      (∃ ndP, h[P]? = some (some ndP) ∧ ndP.child_begin = (plug R (.cons x v kx rx)).first ∧
        ndP.child_end = (plug R (.cons x v kx rx)).last) ∧
      h[e]? = some (some ⟨none, some r, none, none, none, none⟩) ∧
      (e :: (path_before C0 ++ P :: (path_before R ++ (x :: (kx.pre ++ rx.pre) ++
        (restP.pre ++ path_after C0))))).Nodup ∧
      e < h.length ∧
      (∀ a ∈ path_before C0 ++ P :: (path_before R ++ (x :: (kx.pre ++ rx.pre) ++
        (restP.pre ++ path_after C0))), a < h.length) := by
  obtain ⟨e, _, hf, hown, he, hnd⟩ := well_formed_cons hwf
  rcases exists_parent_path _ x hx with ⟨R, v, kx, rx, hR, hT⟩ |
    ⟨C0, P, vp, restP, R, v, kx, rx, hR, hT⟩
  · exfalso
    cases R with
    | nil =>
      simp only [plug, Forest.cons.injEq] at hT
      exact hxr hT.1.symm
    | cons F R1 =>
      cases F with
      | right a w k =>
        simp only [plug, Frame.fill, Forest.cons.injEq] at hT
        exact plug_ne_nil R1 _ (by simp) hT.2.2.2.symm
      | down a w rest => exact hR trivial
  · have hpre := pre_nested C0 R P vp restP (.cons x v kx rx) hR
    simp only [Forest.pre] at hpre
    have hoP := owns_hole h C0 none none (some e) _ (hT ▸ hown)
    obtain ⟨hcP, hkP, _⟩ := hoP
    have hox := owns_hole h R (some P) none none _ hkP
    rw [(hole_right R (some P) none none hR).1, (hole_right R (some P) none none hR).2] at hox
    refine ⟨e, C0, P, vp, restP, R, v, kx, rx, hf, hR, hT, hkP, hox, ⟨_, hcP, rfl, rfl⟩, he,
      ?_, cell_lt he, ?_⟩
    · rw [hT, show (plug C0 _).pre = _ from hpre] at hnd
      simpa [List.append_assoc] using hnd
    · intro a ha
      refine owns_lt h _ _ _ _ hown a ?_
      rw [hT, show (plug C0 _).pre = _ from hpre]
      simpa [List.append_assoc] using ha

/-- Replacing a part of the chain of children of a node `P` of a well-formed
tree: the record of `P` follows the ends of the chain, the left neighbour of
the part follows its first node. -/
theorem well_formed_siblings (h h1 : Heap α) (t : tree) (r e : Nat) (v0 : α)
    (kids : Forest α) (C0 R : List (Frame α)) (P : Nat) (vp : α) (restP g g1 : Forest α)
    (hwf : well_formed h t (.cons r v0 kids .nil)) (hf : t.foot = some e)
    (hT : Forest.cons r v0 kids .nil = plug C0 (.cons P vp (plug R g) restP))
    (hR : ¬ has_down R)
    (ho1 : owns h1 (some P) (hole (some P) none none R).2.1 g1 none)
    (hP : ∀ nd, h[P]? = some (some nd) → nd.child_begin = (plug R g).first →
      nd.child_end = (plug R g).last → h1[P]? = some (some { nd with
        child_begin := (plug R g1).first
        child_end := (plug R g1).last }))
    (hL : ∀ L nd, R ≠ [] → (hole (some P) none none R).2.1 = some L →
      h[L]? = some (some nd) → nd.right = g.first →
      h1[L]? = some (some { nd with right := g1.first }))
    (hfr : ∀ a ∈ path_addrs C0 ++ (path_before R ++ restP.pre),
      some a ≠ (hole (some P) none none R).2.1 → h1[a]? = h[a]?)
    (hfoot : h1[e]? = h[e]?)
    (hnd : (e :: (plug C0 (.cons P vp (plug R g1) restP)).pre).Nodup) :
    well_formed h1 t (plug C0 (.cons P vp (plug R g1) restP)) := by
  obtain ⟨e1, _, hf1, hown, _, hnd0⟩ := well_formed_cons hwf
  rw [hf] at hf1; cases hf1
  have hpre := pre_nested C0 R P vp restP g hR
  rw [hT, hpre] at hnd0
  simp only [List.nodup_cons, List.nodup_append, List.mem_append, List.mem_cons, not_or,
    List.disjoint_append_left, List.disjoint_append_right, List.disjoint_cons_left,
    List.disjoint_cons_right] at hnd0
  obtain ⟨-, -, ⟨⟨hPR, -⟩, hRn, -, hRd⟩, hPb, hbR, -⟩ := hnd0
  have hoP := owns_hole h C0 none none (some e) _ (hT ▸ hown)
  obtain ⟨hcP, hkP, hrP⟩ := hoP
  have hPne : ∀ L, (hole (some P) none none R).2.1 = some L → L ∈ path_before R := by
    intro L hL1
    by_cases hRe : R = []
    · subst hRe; cases hL1
    · obtain ⟨L1, hL2, hm⟩ := hole_left_mem R (some P) none none hR hRe
      rw [hL2] at hL1; cases hL1; exact hm
  refine well_formed_replace h h1 t r e v0 kids C0 _ _ hwf hf hT (by simp) ⟨?_, ?_, ?_⟩ rfl
    (fun _ => by cases restP <;> rfl) ?_ hfoot hnd ?_
  · rw [hP _ hcP rfl rfl]
  · exact owns_siblings h h1 (some P) R none g g1 hR hkP ho1 hRn
      (fun a ha hne => hfr a (by simp [ha]) hne) hL
  · refine owns_frame h h1 _ _ _ _ ?_ hrP
    intro a ha
    refine hfr a (by simp [ha]) ?_
    intro hl
    exact hRd.2.1 (hPne a hl.symm) ha
  · intro a ha
    refine hfr a (by simp [ha]) ?_
    intro hl
    have hm := hPne a hl.symm
    rcases (mem_path_addrs C0 a).mp ha with hb | hb
    · exact hbR hb hm
    · exact hRd.2.2 hm hb
  · intro hC
    subst hC
    simp only [plug, Forest.cons.injEq] at hT
    obtain ⟨rfl, rfl, -, rfl⟩ := hT
    exact ⟨_, _, rfl⟩

/-! ## Adding a sibling -/

theorem insert_left_inner (h : Heap α) (t : tree) (x L : Nat) (w : α) (nd ndL : node α)
    (hxb : (some x : nodeptr) ≠ t.begin) (hx : (some x : nodeptr) ≠ t.end_)
    (hc : h[x]? = some (some nd)) (hl : nd.left = some L) (hcL : h[L]? = some (some ndL))
    (hxL : x ≠ L) :
    ∃ h1, insert_left h t (some x) w = .ok (h1, some h.length) ∧
      h1[h.length]? = some (some ⟨nd.parent, some L, some x, none, none, some w⟩) ∧
      h1[x]? = some (some { nd with left := some h.length }) ∧
      h1[L]? = some (some { ndL with right := some h.length }) ∧
      ∀ a, a ≠ x → a ≠ L → a ≠ h.length → h1[a]? = h[a]? := by
  have hlt := cell_lt hc
  have hltc := cell_lt hcL
  have hne : x ≠ h.length := Nat.ne_of_lt hlt
  have hne2 : h.length ≠ x := Ne.symm hne
  have hnec : L ≠ h.length := Nat.ne_of_lt hltc
  have hnec2 : h.length ≠ L := Ne.symm hnec
  have hLx : L ≠ x := Ne.symm hxL
  have hlt1 : x < h.length + 1 := by omega
  have hltc1 : L < h.length + 1 := by omega
  simp only [insert_left, hxb, hx, p_node_allocate, wr, rd, bind, Except.bind, pure, Except.pure,
    List.getElem?_set, get_snoc, List.length_set, List.length_append, List.length_singleton,
    hlt, hlt1, hltc, hltc1, hne, hne2, hnec, hnec2, hxL, hLx, hc, hl, hcL, if_true, if_false,
    lt_irrefl, Nat.lt_succ_self, Except.ok.injEq, Prod.mk.injEq, and_true, true_and,
    exists_eq_left']
  intro a ha1 ha2 ha3
  simp only [Ne.symm ha1, Ne.symm ha2, Ne.symm ha3, if_false]
  split_ifs with h1
  · rfl
  · exact (get_none_of_ge h a h1).symm

theorem insert_left_first (h : Heap α) (t : tree) (x P : Nat) (w : α) (nd ndP : node α)
    (hxb : (some x : nodeptr) ≠ t.begin) (hx : (some x : nodeptr) ≠ t.end_)
    (hc : h[x]? = some (some nd)) (hl : nd.left = none) (hp : nd.parent = some P)
    (hcP : h[P]? = some (some ndP)) (hcb : ndP.child_begin = some x) (hxP : x ≠ P) :
    ∃ h1, insert_left h t (some x) w = .ok (h1, some h.length) ∧
      h1[h.length]? = some (some ⟨some P, none, some x, none, none, some w⟩) ∧
      h1[x]? = some (some { nd with left := some h.length }) ∧
      h1[P]? = some (some { ndP with child_begin := some h.length }) ∧
      ∀ a, a ≠ x → a ≠ P → a ≠ h.length → h1[a]? = h[a]? := by
  have hlt := cell_lt hc
  have hltc := cell_lt hcP
  have hne : x ≠ h.length := Nat.ne_of_lt hlt
  have hne2 : h.length ≠ x := Ne.symm hne
  have hnec : P ≠ h.length := Nat.ne_of_lt hltc
  have hnec2 : h.length ≠ P := Ne.symm hnec
  have hPx : P ≠ x := Ne.symm hxP
  have hlt1 : x < h.length + 1 := by omega
  have hltc1 : P < h.length + 1 := by omega
  simp only [insert_left, hxb, hx, p_node_allocate, wr, rd, bind, Except.bind, pure, Except.pure,
    List.getElem?_set, get_snoc, List.length_set, List.length_append, List.length_singleton,
    hlt, hlt1, hltc, hltc1, hne, hne2, hnec, hnec2, hxP, hPx, hc, hl, hp, hcP, hcb, if_true,
    if_false, lt_irrefl, Nat.lt_succ_self, Except.ok.injEq, Prod.mk.injEq, and_true, true_and,
    exists_eq_left']
  intro a ha1 ha2 ha3
  simp only [Ne.symm ha1, Ne.symm ha2, Ne.symm ha3, if_false]
  split_ifs with h1
  · rfl
  · exact (get_none_of_ge h a h1).symm

theorem insert_right_inner (h : Heap α) (t : tree) (x b : Nat) (w : α) (nd ndb : node α)
    (hxb : (some x : nodeptr) ≠ t.begin) (hx : (some x : nodeptr) ≠ t.end_)
    (hc : h[x]? = some (some nd)) (hr : nd.right = some b) (hcb : h[b]? = some (some ndb))
    (hxr : x ≠ b) :
    ∃ h1, insert_right h t (some x) w = .ok (h1, some h.length) ∧
      h1[h.length]? = some (some ⟨nd.parent, some x, some b, none, none, some w⟩) ∧
      h1[x]? = some (some { nd with right := some h.length }) ∧
      h1[b]? = some (some { ndb with left := some h.length }) ∧
      ∀ a, a ≠ x → a ≠ b → a ≠ h.length → h1[a]? = h[a]? := by
  have hlt := cell_lt hc
  have hltc := cell_lt hcb
  have hne : x ≠ h.length := Nat.ne_of_lt hlt
  have hne2 : h.length ≠ x := Ne.symm hne
  have hnec : b ≠ h.length := Nat.ne_of_lt hltc
  have hnec2 : h.length ≠ b := Ne.symm hnec
  have hbx : b ≠ x := Ne.symm hxr
  have hlt1 : x < h.length + 1 := by omega
  have hltc1 : b < h.length + 1 := by omega
  simp only [insert_right, hxb, hx, p_node_allocate, wr, rd, bind, Except.bind, pure, Except.pure,
    List.getElem?_set, get_snoc, List.length_set, List.length_append, List.length_singleton,
    hlt, hlt1, hltc, hltc1, hne, hne2, hnec, hnec2, hxr, hbx, hc, hr, hcb, if_true, if_false,
    lt_irrefl, Nat.lt_succ_self, Except.ok.injEq, Prod.mk.injEq, and_true, true_and,
    exists_eq_left']
  intro a ha1 ha2 ha3
  simp only [Ne.symm ha1, Ne.symm ha2, Ne.symm ha3, if_false]
  split_ifs with h1
  · rfl
  · exact (get_none_of_ge h a h1).symm

theorem insert_right_last (h : Heap α) (t : tree) (x P : Nat) (w : α) (nd ndP : node α)
    (hxb : (some x : nodeptr) ≠ t.begin) (hx : (some x : nodeptr) ≠ t.end_)
    (hc : h[x]? = some (some nd)) (hr : nd.right = none) (hp : nd.parent = some P)
    (hcP : h[P]? = some (some ndP)) (hce : ndP.child_end = some x) (hxP : x ≠ P) :
    ∃ h1, insert_right h t (some x) w = .ok (h1, some h.length) ∧
      h1[h.length]? = some (some ⟨some P, some x, none, none, none, some w⟩) ∧
      h1[x]? = some (some { nd with right := some h.length }) ∧
      h1[P]? = some (some { ndP with child_end := some h.length }) ∧
      ∀ a, a ≠ x → a ≠ P → a ≠ h.length → h1[a]? = h[a]? := by
  have hlt := cell_lt hc
  have hltc := cell_lt hcP
  have hne : x ≠ h.length := Nat.ne_of_lt hlt
  have hne2 : h.length ≠ x := Ne.symm hne
  have hnec : P ≠ h.length := Nat.ne_of_lt hltc
  have hnec2 : h.length ≠ P := Ne.symm hnec
  have hPx : P ≠ x := Ne.symm hxP
  have hlt1 : x < h.length + 1 := by omega
  have hltc1 : P < h.length + 1 := by omega
  simp only [insert_right, hxb, hx, p_node_allocate, wr, rd, bind, Except.bind, pure, Except.pure,
    List.getElem?_set, get_snoc, List.length_set, List.length_append, List.length_singleton,
    hlt, hlt1, hltc, hltc1, hne, hne2, hnec, hnec2, hxP, hPx, hc, hr, hp, hcP, hce, if_true,
    if_false, lt_irrefl, Nat.lt_succ_self, Except.ok.injEq, Prod.mk.injEq, and_true, true_and,
    exists_eq_left']
  intro a ha1 ha2 ha3
  simp only [Ne.symm ha1, Ne.symm ha2, Ne.symm ha3, if_false]
  split_ifs with h1
  · rfl
  · exact (get_none_of_ge h a h1).symm

theorem plug_first_mem : ∀ (R : List (Frame α)) (g : Forest α), R ≠ [] →
    ∃ F, (plug R g).first = some F ∧ F ∈ path_before R
  | [], _, hne => (hne rfl).elim
  | .right a _ _ :: _, _, _ => ⟨a, rfl, by simp [path_before]⟩
  | .down a _ _ :: _, _, _ => ⟨a, rfl, by simp [path_before]⟩

theorem insert_left_spec (h : Heap α) (t : tree) (r : Nat) (v0 : α) (kids : Forest α)
    (x : Nat) (w : α) (hwf : well_formed h t (.cons r v0 kids .nil))
    (hx : x ∈ (Forest.cons r v0 kids .nil).pre) (hxr : x ≠ r) :
    ∃ h1 nd, insert_left h t (some x) w = .ok (h1, some h.length) ∧
      well_formed h1 t ((Forest.cons r v0 kids .nil).modify x
        (fun v k rs => .cons h.length w .nil (.cons x v k rs))) ∧
      h[x]? = some (some nd) ∧
      h1[h.length]? = some (some ⟨nd.parent, nd.left, some x, none, none, some w⟩) ∧
      h1[x]? = some (some { nd with left := some h.length }) ∧
      (∃ P ndP, nd.parent = some P ∧ h[P]? = some (some ndP) ∧
        (ndP.child_begin = some x ↔ nd.left = none) ∧
        h1[P]? = some (some { ndP with
          child_begin := (if nd.left = none then some h.length else ndP.child_begin) })) ∧
      (∀ L ndL, nd.left = some L → h[L]? = some (some ndL) →
        h1[L]? = some (some { ndL with right := some h.length })) ∧
      (∀ a, a ≠ x → some a ≠ nd.parent → some a ≠ nd.left → a ≠ h.length →
        h1[a]? = h[a]?) := by
  obtain ⟨e, C0, P, vp, restP, R, v, kx, rx, hf, hR, hT, hkP, hox, ⟨ndP, hcP, hPb, hPe⟩, he,
    hnd, helt, hlt⟩ := focus_parent h t r v0 kids x hwf hx hxr
  have hnd0 := hnd
  simp only [List.nodup_cons, List.nodup_append, List.mem_append, List.mem_cons, not_or,
    List.disjoint_append_left, List.disjoint_append_right, List.disjoint_cons_left,
    List.disjoint_cons_right] at hnd
  obtain ⟨⟨heC, heP, heR, ⟨hex, heK, heRx⟩, heS, heA⟩, hCn, ⟨⟨hPR, ⟨hPx, hPK, hPRx⟩, hPS, hPA⟩,
    hRn, ⟨⟨⟨hxK, hxRx⟩, hKn, hRxn, hKRx⟩, ⟨hSn, hAn, hSA⟩, ⟨hxS, hKS, hRxS⟩, hxA, hKA, hRxA⟩,
    ⟨hxR, hRK, hRRx⟩, hRS, hRA⟩, hPC, hCR, ⟨hxC, hCK, hCRx⟩, hCS, hCA⟩ := hnd
  obtain ⟨_, hroot, _, _, _, hndT⟩ := well_formed_cons hwf
  have hxb : (some x : nodeptr) ≠ t.begin := by
    rw [tree.begin, hroot]; intro hh; cases hh; exact hxr rfl
  have hxe : (some x : nodeptr) ≠ t.end_ := by
    rw [tree.end_, hf]; intro hh; cases hh; exact hex rfl
  have hmod : (plug C0 (.cons P vp (plug R (.cons x v kx rx)) restP)).modify x
      (fun v k rs => Forest.cons h.length w .nil (.cons x v k rs)) =
      plug C0 (.cons P vp (plug R (.cons h.length w .nil (.cons x v kx rx))) restP) :=
    modify_nested x (fun v k rs => Forest.cons h.length w .nil (.cons x v k rs))
      C0 R P vp v restP kx rx (hT ▸ (List.nodup_cons.mp hndT).2)
  obtain ⟨hcx, hokx, horx⟩ := hox
  have hn : ∀ a, a < h.length → a ≠ h.length := fun a ha => Nat.ne_of_lt ha
  have hxP : x ≠ P := fun hh => hPx hh.symm
  have hPlt : P < h.length := cell_lt hcP
  -- the pre-order of the new tree has no repetition
  have hndnew : (e :: (plug C0 (.cons P vp (plug R (.cons h.length w .nil (.cons x v kx rx)))
      restP)).pre).Nodup := by
    rw [pre_nested C0 R P vp restP _ hR]
    have hins := nodup_insert e h.length (path_before C0 ++ P :: path_before R)
      (x :: (kx.pre ++ rx.pre) ++ (restP.pre ++ path_after C0))
      (by simpa [List.append_assoc] using hnd0)
      (by
        intro hm
        rcases List.mem_cons.mp hm with hm | hm
        · exact hn e helt hm.symm
        · exact hn _ (hlt _ (by simpa [List.append_assoc] using hm)) rfl)
    simpa [Forest.pre, List.append_assoc] using hins
  rw [hT, hmod]
  by_cases hRe : R = []
  · subst hRe
    simp only [hole] at hcx
    simp only [plug, Forest.first] at hPb
    obtain ⟨h1, hev, hcn, hcx1, hcP1, hfr⟩ :=
      insert_left_first h t x P w _ ndP hxb hxe hcx rfl rfl hcP hPb hxP
    refine ⟨h1, _, hev, ?_, hcx, hcn, hcx1, ?_, ?_, ?_⟩
    · refine well_formed_siblings h h1 t r e v0 kids C0 [] P vp restP _ _ hwf hf hT hR
        ⟨?_, trivial, ?_, ?_, ?_⟩ ?_ ?_ ?_ ?_ hndnew
      · simpa [hole, Forest.firstOr] using hcn
      · simpa [hole] using hcx1
      · refine owns_frame h h1 _ _ _ _ ?_ hokx
        intro a ha
        exact hfr a (fun hh => hxK (hh ▸ ha)) (fun hh => hPK (hh ▸ ha)) (hn a (hlt a (by simp [ha])))
      · refine owns_frame h h1 _ _ _ _ ?_ horx
        intro a ha
        exact hfr a (fun hh => hxRx (hh ▸ ha)) (fun hh => hPRx (hh ▸ ha))
          (hn a (hlt a (by simp [ha])))
      · intro nd hcell _ _
        rw [hcP] at hcell
        cases hcell
        rw [hcP1]
        simp [plug, Forest.first, Forest.last, hPe]
      · intro L nd hne
        exact (hne rfl).elim
      · intro a ha _
        simp only [List.mem_append, path_before, List.not_mem_nil, false_or] at ha
        rcases ha with ha | ha
        · rcases (mem_path_addrs C0 a).mp ha with hb | hb
          · exact hfr a (fun hh => hxC (hh ▸ hb)) (fun hh => hPC (hh ▸ hb))
              (hn a (hlt a (by simp [hb])))
          · exact hfr a (fun hh => hxA (hh ▸ hb)) (fun hh => hPA (hh ▸ hb))
              (hn a (hlt a (by simp [hb])))
        · exact hfr a (fun hh => hxS (hh ▸ ha)) (fun hh => hPS (hh ▸ ha))
            (hn a (hlt a (by simp [ha])))
      · exact hfr e hex heP (hn e helt)
    · exact ⟨P, ndP, rfl, hcP, by simp [hPb], by simpa using hcP1⟩
    · intro L ndL hl
      simp at hl
    · intro a ha1 ha2 _ ha4
      exact hfr a ha1 (fun hh => ha2 (by rw [hh])) ha4
  · obtain ⟨L, hLe, hLm⟩ := hole_left_mem R (some P) none none hR hRe
    rw [hLe] at hcx
    have hLpre : L ∈ (plug R (Forest.cons x v kx rx)).pre := by
      rw [pre_plug]; simp [hLm]
    obtain ⟨ndL, hcL, _⟩ := owns_cell h _ _ _ _ hkP L hLpre
    have hxL : x ≠ L := fun hh => hxR (hh ▸ hLm)
    have hPL : P ≠ L := fun hh => hPR (hh ▸ hLm)
    obtain ⟨h1, hev, hcn, hcx1, hcL1, hfr⟩ :=
      insert_left_inner h t x L w _ ndL hxb hxe hcx rfl hcL hxL
    have hcP1 : h1[P]? = h[P]? := hfr P (Ne.symm hxP) hPL (hn P hPlt)
    obtain ⟨F, hF, hFm⟩ := plug_first_mem R (Forest.cons x v kx rx) hRe
    refine ⟨h1, _, hev, ?_, hcx, hcn, hcx1, ?_, ?_, ?_⟩
    · refine well_formed_siblings h h1 t r e v0 kids C0 R P vp restP _ _ hwf hf hT hR
        ?_ ?_ ?_ ?_ ?_ hndnew
      · rw [hLe]
        refine ⟨?_, trivial, ?_, ?_, ?_⟩
        · simpa [Forest.firstOr] using hcn
        · simpa using hcx1
        · refine owns_frame h h1 _ _ _ _ ?_ hokx
          intro a ha
          exact hfr a (fun hh => hxK (hh ▸ ha)) (fun hh => hRK hLm (hh ▸ ha))
            (hn a (hlt a (by simp [ha])))
        · refine owns_frame h h1 _ _ _ _ ?_ horx
          intro a ha
          exact hfr a (fun hh => hxRx (hh ▸ ha)) (fun hh => hRRx hLm (hh ▸ ha))
            (hn a (hlt a (by simp [ha])))
      · intro nd hcell hb1 he1
        rw [hcP1, hcell, plug_cons_first R (Forest.cons x v kx rx) _ hRe,
          plug_last R (Forest.cons x v kx rx)
            (Forest.cons h.length w .nil (.cons x v kx rx)) rfl, ← hb1, ← he1]
      · intro L1 nd _ hL1 hcell _
        rw [hLe] at hL1
        cases hL1
        rw [hcL] at hcell
        cases hcell
        simpa [Forest.first] using hcL1
      · intro a ha hne
        rw [hLe] at hne
        have haL : a ≠ L := fun hh => hne (by rw [hh])
        simp only [List.mem_append] at ha
        rcases ha with ha | ha | ha
        · rcases (mem_path_addrs C0 a).mp ha with hb | hb
          · exact hfr a (fun hh => hxC (hh ▸ hb)) haL (hn a (hlt a (by simp [hb])))
          · exact hfr a (fun hh => hxA (hh ▸ hb)) haL (hn a (hlt a (by simp [hb])))
        · exact hfr a (fun hh => hxR (hh ▸ ha)) haL (hn a (hlt a (by simp [ha])))
        · exact hfr a (fun hh => hxS (hh ▸ ha)) haL (hn a (hlt a (by simp [ha])))
      · exact hfr e hex (fun hh => heR (hh ▸ hLm)) (hn e helt)
    · refine ⟨P, ndP, rfl, hcP, ?_, by simpa using hcP1.trans hcP⟩
      rw [hPb, hF]
      simp only [Option.some.injEq, reduceCtorEq, iff_false]
      intro hh
      exact hxR (hh ▸ hFm)
    · intro L1 ndL1 hl hc1
      simp only [Option.some.injEq] at hl
      subst hl
      rw [hcL] at hc1
      cases hc1
      exact hcL1
    · intro a ha1 _ ha3 ha4
      exact hfr a ha1 (fun hh => ha3 (by rw [hh])) ha4

theorem node_right_eta (nd : node α) (q : nodeptr) (hq : nd.right = q) :
    ({ nd with right := q } : node α) = nd := by
  cases nd
  simp only at hq
  subst hq
  rfl

theorem insert_right_spec (h : Heap α) (t : tree) (r : Nat) (v0 : α) (kids : Forest α)
    (x : Nat) (w : α) (hwf : well_formed h t (.cons r v0 kids .nil))
    (hx : x ∈ (Forest.cons r v0 kids .nil).pre) (hxr : x ≠ r) :
    ∃ h1 nd, insert_right h t (some x) w = .ok (h1, some h.length) ∧
      well_formed h1 t ((Forest.cons r v0 kids .nil).modify x
        (fun v k rs => .cons x v k (.cons h.length w .nil rs))) ∧
      h[x]? = some (some nd) ∧
      h1[h.length]? = some (some ⟨nd.parent, some x, nd.right, none, none, some w⟩) ∧
      h1[x]? = some (some { nd with right := some h.length }) ∧
      (∃ P ndP, nd.parent = some P ∧ h[P]? = some (some ndP) ∧
        (ndP.child_end = some x ↔ nd.right = none) ∧
        h1[P]? = some (some { ndP with
          child_end := (if nd.right = none then some h.length else ndP.child_end) })) ∧
      (∀ b ndb, nd.right = some b → h[b]? = some (some ndb) →
        h1[b]? = some (some { ndb with left := some h.length })) ∧
      (∀ a, a ≠ x → some a ≠ nd.parent → some a ≠ nd.right → a ≠ h.length →
        h1[a]? = h[a]?) := by
  obtain ⟨e, C0, P, vp, restP, R, v, kx, rx, hf, hR, hT, hkP, hox, ⟨ndP, hcP, hPb, hPe⟩, he,
    hnd, helt, hlt⟩ := focus_parent h t r v0 kids x hwf hx hxr
  have hnd0 := hnd
  simp only [List.nodup_cons, List.nodup_append, List.mem_append, List.mem_cons, not_or,
    List.disjoint_append_left, List.disjoint_append_right, List.disjoint_cons_left,
    List.disjoint_cons_right] at hnd
  obtain ⟨⟨heC, heP, heR, ⟨hex, heK, heRx⟩, heS, heA⟩, hCn, ⟨⟨hPR, ⟨hPx, hPK, hPRx⟩, hPS, hPA⟩,
    hRn, ⟨⟨⟨hxK, hxRx⟩, hKn, hRxn, hKRx⟩, ⟨hSn, hAn, hSA⟩, ⟨hxS, hKS, hRxS⟩, hxA, hKA, hRxA⟩,
    ⟨hxR, hRK, hRRx⟩, hRS, hRA⟩, hPC, hCR, ⟨hxC, hCK, hCRx⟩, hCS, hCA⟩ := hnd
  obtain ⟨_, hroot, _, _, _, hndT⟩ := well_formed_cons hwf
  have hxb : (some x : nodeptr) ≠ t.begin := by
    rw [tree.begin, hroot]; intro hh; cases hh; exact hxr rfl
  have hxe : (some x : nodeptr) ≠ t.end_ := by
    rw [tree.end_, hf]; intro hh; cases hh; exact hex rfl
  have hmod : (plug C0 (.cons P vp (plug R (.cons x v kx rx)) restP)).modify x
      (fun v k rs => Forest.cons x v k (.cons h.length w .nil rs)) =
      plug C0 (.cons P vp (plug R (.cons x v kx (.cons h.length w .nil rx))) restP) :=
    modify_nested x (fun v k rs => Forest.cons x v k (.cons h.length w .nil rs))
      C0 R P vp v restP kx rx (hT ▸ (List.nodup_cons.mp hndT).2)
  obtain ⟨hcx, hokx, horx⟩ := hox
  have hn : ∀ a, a < h.length → a ≠ h.length := fun a ha => Nat.ne_of_lt ha
  have hxP : x ≠ P := fun hh => hPx hh.symm
  have hPlt : P < h.length := cell_lt hcP
  have hndnew : (e :: (plug C0 (.cons P vp (plug R (.cons x v kx (.cons h.length w .nil rx)))
      restP)).pre).Nodup := by
    rw [pre_nested C0 R P vp restP _ hR]
    have hins := nodup_insert e h.length (path_before C0 ++ P :: (path_before R ++ x :: kx.pre))
      (rx.pre ++ (restP.pre ++ path_after C0))
      (by simpa [List.append_assoc] using hnd0)
      (by
        intro hm
        rcases List.mem_cons.mp hm with hm | hm
        · exact hn e helt hm.symm
        · exact hn _ (hlt _ (by simpa [List.append_assoc] using hm)) rfl)
    simpa [Forest.pre, List.append_assoc] using hins
  -- the left neighbour of `x` keeps its record
  have hLfact : ∀ L, (hole (some P) none none R).2.1 = some L → L ∈ path_before R := by
    intro L hL1
    by_cases hRe : R = []
    · subst hRe; cases hL1
    · obtain ⟨L1, hL2, hm⟩ := hole_left_mem R (some P) none none hR hRe
      rw [hL2] at hL1; cases hL1; exact hm
  have hpf : ∀ g1 : Forest α, g1.first = some x →
      (plug R g1).first = (plug R (Forest.cons x v kx rx)).first :=
    fun g1 hg1 => plug_first R _ g1 hg1
  rw [hT, hmod]
  cases rx with
  | nil =>
    have hPe1 : ndP.child_end = some x := by
      rw [hPe, plug_right_last_none R (some P) none _ hR]
      rfl
    obtain ⟨h1, hev, hcn, hcx1, hcP1, hfr⟩ :=
      insert_right_last h t x P w _ ndP hxb hxe hcx rfl rfl hcP hPe1 hxP
    refine ⟨h1, _, hev, ?_, hcx, by simpa [Forest.firstOr] using hcn, hcx1, ?_, ?_, ?_⟩
    · refine well_formed_siblings h h1 t r e v0 kids C0 R P vp restP _ _ hwf hf hT hR
        ⟨?_, ?_, ⟨?_, trivial, trivial⟩⟩ ?_ ?_ ?_ ?_ hndnew
      · simpa [Forest.firstOr] using hcx1
      · refine owns_frame h h1 _ _ _ _ ?_ hokx
        intro a ha
        exact hfr a (fun hh => hxK (hh ▸ ha)) (fun hh => hPK (hh ▸ ha)) (hn a (hlt a (by simp [ha])))
      · simpa [Forest.firstOr] using hcn
      · intro nd hcell hb1 _
        rw [hcP] at hcell
        cases hcell
        rw [hcP1, hpf (Forest.cons x v kx (.cons h.length w .nil .nil)) rfl,
          plug_right_last_none R (some P) none _ hR, ← hb1]
        rfl
      · intro L nd _ hL1 hcell hnr
        have hLm := hLfact L hL1
        rw [hfr L (fun hh => hxR (hh ▸ hLm)) (fun hh => hPR (hh ▸ hLm)) (hn L (cell_lt hcell)),
          hcell]
        exact congrArg (fun z => some (some z)) (node_right_eta nd (some x) hnr).symm
      · intro a ha _
        simp only [List.mem_append] at ha
        rcases ha with ha | ha | ha
        · rcases (mem_path_addrs C0 a).mp ha with hb | hb
          · exact hfr a (fun hh => hxC (hh ▸ hb)) (fun hh => hPC (hh ▸ hb))
              (hn a (hlt a (by simp [hb])))
          · exact hfr a (fun hh => hxA (hh ▸ hb)) (fun hh => hPA (hh ▸ hb))
              (hn a (hlt a (by simp [hb])))
        · exact hfr a (fun hh => hxR (hh ▸ ha)) (fun hh => hPR (hh ▸ ha))
            (hn a (hlt a (by simp [ha])))
        · exact hfr a (fun hh => hxS (hh ▸ ha)) (fun hh => hPS (hh ▸ ha))
            (hn a (hlt a (by simp [ha])))
      · exact hfr e hex heP (hn e helt)
    · exact ⟨P, ndP, rfl, hcP, by simp [hPe1, Forest.firstOr], by simpa [Forest.firstOr] using hcP1⟩
    · intro b ndb hl
      simp [Forest.firstOr] at hl
    · intro a ha1 ha2 _ ha4
      exact hfr a ha1 (fun hh => ha2 (by rw [hh])) ha4
  | cons b vb kb rb =>
    obtain ⟨hcb, hokb, horb⟩ := horx
    have hbm : b ∈ (Forest.cons b vb kb rb).pre := by simp [Forest.pre]
    have hxb1 : x ≠ b := fun hh => hxRx (hh ▸ hbm)
    have hPb1 : P ≠ b := fun hh => hPRx (hh ▸ hbm)
    obtain ⟨h1, hev, hcn, hcx1, hcb1, hfr⟩ :=
      insert_right_inner h t x b w _ _ hxb hxe hcx rfl hcb hxb1
    have hcP1 : h1[P]? = h[P]? := hfr P (Ne.symm hxP) hPb1 (hn P hPlt)
    obtain ⟨c, hc⟩ := last_cons_some rb b vb kb
    have hcm := last_mem _ c hc
    refine ⟨h1, _, hev, ?_, hcx, by simpa [Forest.firstOr] using hcn, hcx1, ?_, ?_, ?_⟩
    · refine well_formed_siblings h h1 t r e v0 kids C0 R P vp restP _ _ hwf hf hT hR
        ⟨?_, ?_, ⟨?_, trivial, ⟨?_, ?_, ?_⟩⟩⟩ ?_ ?_ ?_ ?_ hndnew
      · simpa [Forest.firstOr] using hcx1
      · refine owns_frame h h1 _ _ _ _ ?_ hokx
        intro a ha
        exact hfr a (fun hh => hxK (hh ▸ ha)) (fun hh => hKRx ha (hh ▸ hbm))
          (hn a (hlt a (by simp [ha])))
      · simpa [Forest.firstOr] using hcn
      · simpa using hcb1
      · refine owns_frame h h1 _ _ _ _ ?_ hokb
        intro a ha
        have ham : a ∈ (Forest.cons b vb kb rb).pre := by simp [Forest.pre, ha]
        have hbn := hRxn
        simp only [Forest.pre, List.nodup_cons, List.mem_append, not_or] at hbn
        exact hfr a (fun hh => hxRx (hh ▸ ham)) (fun hh => hbn.1.1 (hh ▸ ha))
          (hn a (hlt a (by simp [ham])))
      · refine owns_frame h h1 _ _ _ _ ?_ horb
        intro a ha
        have ham : a ∈ (Forest.cons b vb kb rb).pre := by simp [Forest.pre, ha]
        have hbn := hRxn
        simp only [Forest.pre, List.nodup_cons, List.mem_append, not_or] at hbn
        exact hfr a (fun hh => hxRx (hh ▸ ham)) (fun hh => hbn.1.2 (hh ▸ ha))
          (hn a (hlt a (by simp [ham])))
      · intro nd hcell hb1 he1
        rw [hcP1, hcell, hpf (Forest.cons x v kx (.cons h.length w .nil (.cons b vb kb rb))) rfl,
          plug_last R (Forest.cons x v kx (.cons b vb kb rb))
          (Forest.cons x v kx (.cons h.length w .nil (.cons b vb kb rb))) rfl, ← hb1, ← he1]
      · intro L nd _ hL1 hcell hnr
        have hLm := hLfact L hL1
        rw [hfr L (fun hh => hxR (hh ▸ hLm)) (fun hh => hRRx hLm (hh ▸ hbm))
          (hn L (cell_lt hcell)), hcell]
        exact congrArg (fun z => some (some z)) (node_right_eta nd (some x) hnr).symm
      · intro a ha _
        simp only [List.mem_append] at ha
        rcases ha with ha | ha | ha
        · rcases (mem_path_addrs C0 a).mp ha with hb | hb
          · exact hfr a (fun hh => hxC (hh ▸ hb)) (fun hh => hCRx hb (hh ▸ hbm))
              (hn a (hlt a (by simp [hb])))
          · exact hfr a (fun hh => hxA (hh ▸ hb)) (fun hh => hRxA hbm (hh ▸ hb))
              (hn a (hlt a (by simp [hb])))
        · exact hfr a (fun hh => hxR (hh ▸ ha)) (fun hh => hRRx ha (hh ▸ hbm))
            (hn a (hlt a (by simp [ha])))
        · exact hfr a (fun hh => hxS (hh ▸ ha)) (fun hh => hRxS hbm (hh ▸ ha))
            (hn a (hlt a (by simp [ha])))
      · exact hfr e hex (fun hh => heRx (hh ▸ hbm)) (hn e helt)
    · refine ⟨P, ndP, rfl, hcP, ?_, by simpa [Forest.firstOr] using hcP1.trans hcP⟩
      rw [hPe, plug_right_last_none R (some P) none _ hR]
      have hc2 : (Forest.cons x v kx (Forest.cons b vb kb rb)).last = some c := hc
      rw [hc2]
      simp only [Option.some.injEq, Forest.firstOr, reduceCtorEq, iff_false]
      intro hh
      exact hxRx (hh ▸ hcm)
    · intro b1 ndb1 hl hc1
      simp only [Forest.firstOr, Option.some.injEq] at hl
      subst hl
      rw [hcb] at hc1
      cases hc1
      exact hcb1
    · intro a ha1 _ ha3 ha4
      exact hfr a ha1 (fun hh => ha3 (by rw [hh]; rfl)) ha4

/-- C15: in a well-formed tree, `insert_left` at a value-holding node `x` other
than the root succeeds and returns an iterator to a freshly allocated node `n`
that holds the value, has no children, the parent of `x` as parent, the former
left sibling of `x` as left sibling and `x` as right sibling; `x.left` is `n`,
the former left sibling (if any) gets `n` as right sibling, the parent's
`child_begin` becomes `n` exactly when it was `x` (which is exactly when `x`
had no left sibling) and the rest of the parent's record is kept; no other
cell of the heap changes, and the tree is well-formed again, representing the
old tree with `n` put directly before `x` in its chain of siblings. -/
theorem insert_left_adds_left_sibling (h : Heap α) (t : tree) (r : Nat) (v0 : α)
    (kids : Forest α) (x : Nat) (w : α) (hwf : well_formed h t (.cons r v0 kids .nil))
    (hx : x ∈ (Forest.cons r v0 kids .nil).pre) (hxr : x ≠ r) :
    ∃ h1 nd, insert_left h t (some x) w = .ok (h1, some h.length) ∧
      h[h.length]? = none ∧
      well_formed h1 t ((Forest.cons r v0 kids .nil).modify x
        (fun v k rs => .cons h.length w .nil (.cons x v k rs))) ∧
      h[x]? = some (some nd) ∧
      h1[h.length]? = some (some ⟨nd.parent, nd.left, some x, none, none, some w⟩) ∧
      h1[x]? = some (some { nd with left := some h.length }) ∧
      (∃ P ndP, nd.parent = some P ∧ h[P]? = some (some ndP) ∧
        (ndP.child_begin = some x ↔ nd.left = none) ∧
        h1[P]? = some (some { ndP with
          child_begin := (if nd.left = none then some h.length else ndP.child_begin) })) ∧
      (∀ L ndL, nd.left = some L → h[L]? = some (some ndL) →
        h1[L]? = some (some { ndL with right := some h.length })) ∧
      (∀ a, a ≠ x → some a ≠ nd.parent → some a ≠ nd.left → a ≠ h.length →
        h1[a]? = h[a]?) := by
  obtain ⟨h1, nd, hev, hrest⟩ := insert_left_spec h t r v0 kids x w hwf hx hxr
  exact ⟨h1, nd, hev, get_none_of_ge h _ (lt_irrefl _), hrest⟩

theorem insert_left_adds_left_sibling_witness :
    well_formed scenario_heap scenario_tree (.cons 0 0 scenario_kids .nil) ∧
    7 ∈ (Forest.cons 0 0 scenario_kids .nil).pre ∧ 7 ≠ 0 ∧
    ∃ h1 nd, insert_left scenario_heap scenario_tree (some 7) 9
        = .ok (h1, some scenario_heap.length) ∧
      scenario_heap[scenario_heap.length]? = none ∧
      well_formed h1 scenario_tree ((Forest.cons 0 0 scenario_kids .nil).modify 7
        (fun v k rs => .cons scenario_heap.length 9 .nil (.cons 7 v k rs))) ∧
      scenario_heap[7]? = some (some nd) ∧
      h1[scenario_heap.length]? = some (some ⟨nd.parent, nd.left, some 7, none, none, some 9⟩) ∧
      h1[7]? = some (some { nd with left := some scenario_heap.length }) ∧
      (∃ P ndP, nd.parent = some P ∧ scenario_heap[P]? = some (some ndP) ∧
        (ndP.child_begin = some 7 ↔ nd.left = none) ∧
        h1[P]? = some (some { ndP with
          child_begin :=
            (if nd.left = none then some scenario_heap.length else ndP.child_begin) })) ∧
      (∀ L ndL, nd.left = some L → scenario_heap[L]? = some (some ndL) →
        h1[L]? = some (some { ndL with right := some scenario_heap.length })) ∧
      (∀ a, a ≠ 7 → some a ≠ nd.parent → some a ≠ nd.left → a ≠ scenario_heap.length →
        h1[a]? = scenario_heap[a]?) :=
  ⟨scenario_well_formed, by decide, by decide,
    insert_left_adds_left_sibling scenario_heap scenario_tree 0 0 scenario_kids 7 9
      scenario_well_formed (by decide) (by decide)⟩

/-- C16: in a well-formed tree, `insert_right` at a value-holding node `x`
other than the root succeeds and returns an iterator to a freshly allocated
node `n` that holds the value, has no children, the parent of `x` as parent,
`x` as left sibling and the former right sibling of `x` as right sibling;
`x.right` is `n`, the former right sibling (if any) gets `n` as left sibling,
the parent's `child_end` becomes `n` exactly when it was `x` (which is exactly
when `x` had no right sibling) and the rest of the parent's record is kept; no
other cell of the heap changes, and the tree is well-formed again, representing
the old tree with `n` put directly behind `x` in its chain of siblings. -/
theorem insert_right_adds_right_sibling (h : Heap α) (t : tree) (r : Nat) (v0 : α)
    (kids : Forest α) (x : Nat) (w : α) (hwf : well_formed h t (.cons r v0 kids .nil))
    (hx : x ∈ (Forest.cons r v0 kids .nil).pre) (hxr : x ≠ r) :
    ∃ h1 nd, insert_right h t (some x) w = .ok (h1, some h.length) ∧
      h[h.length]? = none ∧
      well_formed h1 t ((Forest.cons r v0 kids .nil).modify x
        (fun v k rs => .cons x v k (.cons h.length w .nil rs))) ∧
      h[x]? = some (some nd) ∧
      h1[h.length]? = some (some ⟨nd.parent, some x, nd.right, none, none, some w⟩) ∧
      h1[x]? = some (some { nd with right := some h.length }) ∧
      (∃ P ndP, nd.parent = some P ∧ h[P]? = some (some ndP) ∧
        (ndP.child_end = some x ↔ nd.right = none) ∧
        h1[P]? = some (some { ndP with
          child_end := (if nd.right = none then some h.length else ndP.child_end) })) ∧
      (∀ b ndb, nd.right = some b → h[b]? = some (some ndb) →
        h1[b]? = some (some { ndb with left := some h.length })) ∧
      (∀ a, a ≠ x → some a ≠ nd.parent → some a ≠ nd.right → a ≠ h.length →
        h1[a]? = h[a]?) := by
  obtain ⟨h1, nd, hev, hrest⟩ := insert_right_spec h t r v0 kids x w hwf hx hxr
  exact ⟨h1, nd, hev, get_none_of_ge h _ (lt_irrefl _), hrest⟩

theorem insert_right_adds_right_sibling_witness :
    well_formed scenario_heap scenario_tree (.cons 0 0 scenario_kids .nil) ∧
    5 ∈ (Forest.cons 0 0 scenario_kids .nil).pre ∧ 5 ≠ 0 ∧
    ∃ h1 nd, insert_right scenario_heap scenario_tree (some 5) 9
        = .ok (h1, some scenario_heap.length) ∧
      scenario_heap[scenario_heap.length]? = none ∧
      well_formed h1 scenario_tree ((Forest.cons 0 0 scenario_kids .nil).modify 5
        (fun v k rs => .cons 5 v k (.cons scenario_heap.length 9 .nil rs))) ∧
      scenario_heap[5]? = some (some nd) ∧
      h1[scenario_heap.length]? = some (some ⟨nd.parent, some 5, nd.right, none, none, some 9⟩) ∧
      h1[5]? = some (some { nd with right := some scenario_heap.length }) ∧
      (∃ P ndP, nd.parent = some P ∧ scenario_heap[P]? = some (some ndP) ∧
        (ndP.child_end = some 5 ↔ nd.right = none) ∧
        h1[P]? = some (some { ndP with
          child_end :=
            (if nd.right = none then some scenario_heap.length else ndP.child_end) })) ∧
      (∀ b ndb, nd.right = some b → scenario_heap[b]? = some (some ndb) →
        h1[b]? = some (some { ndb with left := some scenario_heap.length })) ∧
      (∀ a, a ≠ 5 → some a ≠ nd.parent → some a ≠ nd.right → a ≠ scenario_heap.length →
        h1[a]? = scenario_heap[a]?) :=
  ⟨scenario_well_formed, by decide, by decide,
    insert_right_adds_right_sibling scenario_heap scenario_tree 0 0 scenario_kids 5 9
      scenario_well_formed (by decide) (by decide)⟩

/-! ## Erasing a node -/

theorem erase_unlink (fuel : Nat) (h h' : Heap α) (t : tree) (x P : Nat) (nd ndP : node α)
    (hxf : (some x : nodeptr) ≠ t.foot) (hxr : (some x : nodeptr) ≠ t.root)
    (hc : h[x]? = some (some nd))
    (hk : (nd.child_begin = none ∧ h' = h) ∨
      (∃ c, nd.child_begin = some c ∧ p_erase_children fuel h (some c) nd.child_end = .ok h'))
    (hc1 : h'[x]? = some (some nd)) (hp : nd.parent = some P)
    (hcP : h'[P]? = some (some ndP)) (hxP : x ≠ P)
    (hPb : ndP.child_begin = some x ↔ nd.left = none)
    (hPe : ndP.child_end = some x ↔ nd.right = none)
    (hL : ∀ L, nd.left = some L → L ≠ x ∧ L ≠ P ∧ some L ≠ nd.right ∧
      ∃ ndL, h'[L]? = some (some ndL))
    (hb : ∀ b, nd.right = some b → b ≠ x ∧ b ≠ P ∧ ∃ ndb, h'[b]? = some (some ndb)) :
    ∃ h1, erase fuel h t (some x)
        = .ok (h1, t, if nd.right ≠ none then nd.right else nd.parent) ∧
      h1[x]? = some none ∧
      h1[P]? = some (some { ndP with
        child_begin := (if nd.left = none then nd.right else ndP.child_begin)
        child_end := (if nd.right = none then nd.left else ndP.child_end) }) ∧
      (∀ L ndL, nd.left = some L → h'[L]? = some (some ndL) →
        h1[L]? = some (some { ndL with right := nd.right })) ∧
      (∀ b ndb, nd.right = some b → h'[b]? = some (some ndb) →
        h1[b]? = some (some { ndb with left := nd.left })) ∧
      (∀ a, a ≠ x → a ≠ P → some a ≠ nd.left → some a ≠ nd.right → h1[a]? = h'[a]?) := by
  have hlt := cell_lt hc1
  have hltP := cell_lt hcP
  have hPx : P ≠ x := Ne.symm hxP
  cases hl : nd.left with
  | none =>
    have hPb1 : ndP.child_begin = some x := hPb.mpr hl
    cases hr : nd.right with
    | none =>
      have hPe1 : ndP.child_end = some x := hPe.mpr hr
      rcases hk with ⟨hk0, rfl⟩ | ⟨c, hkc, hke⟩
      · simp only [erase, hxf, hxr, p_node_deallocate, wr, rd, bind, Except.bind, pure,
          Except.pure, List.getElem?_set, List.length_set, hlt, hltP, hxP, hPx, hc, hc1, hl,
          hr, hp, hcP, hPb1, hPe1, hk0, if_true, if_false, ne_eq, not_true_eq_false,
          not_false_eq_true, Except.ok.injEq, Prod.mk.injEq, and_true, true_and,
          exists_eq_left', reduceCtorEq, false_implies, implies_true, Option.some.injEq,
          forall_eq', not_false_eq_true]
        intro a ha1 ha2
        simp only [Ne.symm ha1, Ne.symm ha2, if_false]
        intros; trivial
      · simp only [erase, hxf, hxr, p_node_deallocate, wr, rd, bind, Except.bind, pure,
          Except.pure, List.getElem?_set, List.length_set, hlt, hltP, hxP, hPx, hc, hc1, hl,
          hr, hp, hcP, hPb1, hPe1, hkc, hke, if_true, if_false, ne_eq, not_true_eq_false,
          not_false_eq_true, Except.ok.injEq, Prod.mk.injEq, and_true, true_and,
          exists_eq_left', reduceCtorEq, false_implies, implies_true, Option.some.injEq,
          forall_eq', not_false_eq_true]
        intro a ha1 ha2
        simp only [Ne.symm ha1, Ne.symm ha2, if_false]
        intros; trivial
    | some b =>
      have hPe1 : ¬ ndP.child_end = some x := fun hh => by
        have := hPe.mp hh
        rw [hr] at this
        cases this
      obtain ⟨hbx, hbP, ndb, hcb⟩ := hb b hr
      have hltb := cell_lt hcb
      have hxb : x ≠ b := Ne.symm hbx
      have hPb2 : P ≠ b := Ne.symm hbP
      rcases hk with ⟨hk0, rfl⟩ | ⟨c, hkc, hke⟩
      · simp only [erase, hxf, hxr, p_node_deallocate, wr, rd, bind, Except.bind, pure,
          Except.pure, List.getElem?_set, List.length_set, hlt, hltP, hxP, hPx, hc, hc1, hl,
          hr, hp, hcP, hPb1, hPe1, hbx, hbP, hxb, hPb2, hcb, hltb, hk0, if_true, if_false, ne_eq, not_true_eq_false,
          not_false_eq_true, Except.ok.injEq, Prod.mk.injEq, and_true, true_and,
          exists_eq_left', reduceCtorEq, false_implies, implies_true, Option.some.injEq,
          forall_eq', not_false_eq_true]
        refine ⟨?_, ?_⟩
        · intro b1 ndb1 hbb hcb1
          subst hbb
          rw [hcb] at hcb1
          cases hcb1
          split_ifs <;> first | rfl | omega
        · intro a
          intros
          split_ifs <;> first | rfl | omega
      · simp only [erase, hxf, hxr, p_node_deallocate, wr, rd, bind, Except.bind, pure,
          Except.pure, List.getElem?_set, List.length_set, hlt, hltP, hxP, hPx, hc, hc1, hl,
          hr, hp, hcP, hPb1, hPe1, hbx, hbP, hxb, hPb2, hcb, hltb, hkc, hke, if_true, if_false, ne_eq, not_true_eq_false,
          not_false_eq_true, Except.ok.injEq, Prod.mk.injEq, and_true, true_and,
          exists_eq_left', reduceCtorEq, false_implies, implies_true, Option.some.injEq,
          forall_eq', not_false_eq_true]
        refine ⟨?_, ?_⟩
        · intro b1 ndb1 hbb hcb1
          subst hbb
          rw [hcb] at hcb1
          cases hcb1
          split_ifs <;> first | rfl | omega
        · intro a
          intros
          split_ifs <;> first | rfl | omega
  | some L =>
    have hPb1 : ¬ ndP.child_begin = some x := fun hh => by
      have := hPb.mp hh
      rw [hl] at this
      cases this
    obtain ⟨hLx, hLP, hLr, ndL, hcL⟩ := hL L hl
    have hltL := cell_lt hcL
    have hxL : x ≠ L := Ne.symm hLx
    have hPL : P ≠ L := Ne.symm hLP
    cases hr : nd.right with
    | none =>
      have hPe1 : ndP.child_end = some x := hPe.mpr hr
      rcases hk with ⟨hk0, rfl⟩ | ⟨c, hkc, hke⟩
      · simp only [erase, hxf, hxr, p_node_deallocate, wr, rd, bind, Except.bind, pure,
          Except.pure, List.getElem?_set, List.length_set, hlt, hltP, hxP, hPx, hc, hc1, hl,
          hr, hp, hcP, hPb1, hPe1, hLx, hLP, hxL, hPL, hcL, hltL, hk0, if_true, if_false, ne_eq, not_true_eq_false,
          not_false_eq_true, Except.ok.injEq, Prod.mk.injEq, and_true, true_and,
          exists_eq_left', reduceCtorEq, false_implies, implies_true, Option.some.injEq,
          forall_eq', not_false_eq_true]
        refine ⟨?_, ?_⟩
        · intro L1 ndL1 hLL hcL1
          subst hLL
          rw [hcL] at hcL1
          cases hcL1
          split_ifs <;> first | rfl | omega
        · intro a
          intros
          split_ifs <;> first | rfl | omega
      · simp only [erase, hxf, hxr, p_node_deallocate, wr, rd, bind, Except.bind, pure,
          Except.pure, List.getElem?_set, List.length_set, hlt, hltP, hxP, hPx, hc, hc1, hl,
          hr, hp, hcP, hPb1, hPe1, hLx, hLP, hxL, hPL, hcL, hltL, hkc, hke, if_true, if_false, ne_eq, not_true_eq_false,
          not_false_eq_true, Except.ok.injEq, Prod.mk.injEq, and_true, true_and,
          exists_eq_left', reduceCtorEq, false_implies, implies_true, Option.some.injEq,
          forall_eq', not_false_eq_true]
        refine ⟨?_, ?_⟩
        · intro L1 ndL1 hLL hcL1
          subst hLL
          rw [hcL] at hcL1
          cases hcL1
          split_ifs <;> first | rfl | omega
        · intro a
          intros
          split_ifs <;> first | rfl | omega
    | some b =>
      have hPe1 : ¬ ndP.child_end = some x := fun hh => by
        have := hPe.mp hh
        rw [hr] at this
        cases this
      obtain ⟨hbx, hbP, ndb, hcb⟩ := hb b hr
      have hltb := cell_lt hcb
      have hxb : x ≠ b := Ne.symm hbx
      have hPb2 : P ≠ b := Ne.symm hbP
      have hLb : L ≠ b := fun hh => hLr (by rw [hr, hh])
      have hbL : b ≠ L := Ne.symm hLb
      rcases hk with ⟨hk0, rfl⟩ | ⟨c, hkc, hke⟩
      · simp only [erase, hxf, hxr, p_node_deallocate, wr, rd, bind, Except.bind, pure,
          Except.pure, List.getElem?_set, List.length_set, hlt, hltP, hxP, hPx, hc, hc1, hl,
          hr, hp, hcP, hPb1, hPe1, hLx, hLP, hxL, hPL, hcL, hltL, hbx, hbP, hxb, hPb2, hcb, hltb, hLb, hbL, hk0, if_true, if_false, ne_eq, not_true_eq_false,
          not_false_eq_true, Except.ok.injEq, Prod.mk.injEq, and_true, true_and,
          exists_eq_left', reduceCtorEq, false_implies, implies_true, Option.some.injEq,
          forall_eq', not_false_eq_true]
        refine ⟨?_, ?_, ?_⟩
        · intro L1 ndL1 hLL hcL1
          subst hLL
          rw [hcL] at hcL1
          cases hcL1
          split_ifs <;> first | rfl | omega
        · intro b1 ndb1 hbb hcb1
          subst hbb
          rw [hcb] at hcb1
          cases hcb1
          split_ifs <;> first | rfl | omega
        · intro a
          intros
          split_ifs <;> first | rfl | omega
      · simp only [erase, hxf, hxr, p_node_deallocate, wr, rd, bind, Except.bind, pure,
          Except.pure, List.getElem?_set, List.length_set, hlt, hltP, hxP, hPx, hc, hc1, hl,
          hr, hp, hcP, hPb1, hPe1, hLx, hLP, hxL, hPL, hcL, hltL, hbx, hbP, hxb, hPb2, hcb, hltb, hLb, hbL, hkc, hke, if_true, if_false, ne_eq, not_true_eq_false,
          not_false_eq_true, Except.ok.injEq, Prod.mk.injEq, and_true, true_and,
          exists_eq_left', reduceCtorEq, false_implies, implies_true, Option.some.injEq,
          forall_eq', not_false_eq_true]
        refine ⟨?_, ?_, ?_⟩
        · intro L1 ndL1 hLL hcL1
          subst hLL
          rw [hcL] at hcL1
          cases hcL1
          split_ifs <;> first | rfl | omega
        · intro b1 ndb1 hbb hcb1
          subst hbb
          rw [hcb] at hcb1
          cases hcb1
          split_ifs <;> first | rfl | omega
        · intro a
          intros
          split_ifs <;> first | rfl | omega

theorem erase_root_cells (fuel : Nat) (h h' : Heap α) (t : tree) (r e : Nat) (nd nde : node α)
    (hroot : t.root = some r) (hf : t.foot = some e) (hre : r ≠ e)
    (hc : h[r]? = some (some nd))
    (hk : (nd.child_begin = none ∧ h' = h) ∨
      (∃ c, nd.child_begin = some c ∧ p_erase_children fuel h (some c) nd.child_end = .ok h'))
    (hc1 : h'[r]? = some (some nd)) (hl : nd.left = none) (hr : nd.right = some e)
    (hp : nd.parent = none) (hce : h'[e]? = some (some nde)) :
    ∃ h1, erase fuel h t (some r) = .ok (h1, ⟨some e, some e⟩, some e) ∧
      h1[r]? = some none ∧ h1[e]? = some (some { nde with left := none }) ∧
      (∀ a, a ≠ r → a ≠ e → h1[a]? = h'[a]?) := by
  have hlt := cell_lt hc1
  have hlte := cell_lt hce
  have her : e ≠ r := Ne.symm hre
  have hxf : (some r : nodeptr) ≠ some e := by simp [hre]
  rcases hk with ⟨hk0, rfl⟩ | ⟨c, hkc, hke⟩
  · simp only [erase, hroot, hf, hxf, p_node_deallocate, wr, rd, bind, Except.bind, pure,
      Except.pure, List.getElem?_set, List.length_set, hlt, hlte, hre, her, hc, hc1, hk0, hl,
      hr, hp, hce, if_true, if_false, ne_eq, not_true_eq_false,
      not_false_eq_true, Except.ok.injEq, Prod.mk.injEq, and_true, true_and,
      exists_eq_left', reduceCtorEq, false_implies, implies_true, Option.some.injEq]
    intro a
    intros
    split_ifs <;> first | rfl | omega
  · simp only [erase, hroot, hf, hxf, p_node_deallocate, wr, rd, bind, Except.bind, pure,
      Except.pure, List.getElem?_set, List.length_set, hlt, hlte, hre, her, hc, hc1, hkc, hke, hl,
      hr, hp, hce, if_true, if_false, ne_eq, not_true_eq_false,
      not_false_eq_true, Except.ok.injEq, Prod.mk.injEq, and_true, true_and,
      exists_eq_left', reduceCtorEq, false_implies, implies_true, Option.some.injEq]
    intro a
    intros
    split_ifs <;> first | rfl | omega

/-- The children phase of `erase` on a node whose children form the forest
`kx`: all of them are deleted, every other cell is kept. -/
theorem erase_children_phase (fuel : Nat) (h : Heap α) (x : Nat) (kx : Forest α)
    (hok : owns h (some x) none kx none) (hKn : kx.pre.Nodup) (hfuel : kx.size ≤ fuel) :
    ∃ h', freed h h' kx.pre ∧
      ((kx.first = none ∧ h' = h) ∨
        (∃ c, kx.first = some c ∧ p_erase_children fuel h (some c) kx.last = .ok h')) := by
  cases kx with
  | nil => exact ⟨h, by simpa [Forest.pre] using freed_refl h, Or.inl ⟨rfl, rfl⟩⟩
  | cons c vc kc rc =>
    obtain ⟨h', hev, hfr⟩ :=
      p_erase_children_forest (.cons c vc kc rc) h (some x) none fuel (by simp) hok hKn hfuel
    exact ⟨h', hfr, Or.inr ⟨c, rfl, hev⟩⟩

theorem size_le_of_plug : ∀ (C : List (Frame α)) (g : Forest α), g.size ≤ (plug C g).size
  | [], _ => le_refl _
  | .right a v k :: C, g => by
    have := size_le_of_plug C g
    simp only [plug, Frame.fill, Forest.size]
    omega
  | .down a v rest :: C, g => by
    have := size_le_of_plug C g
    simp only [plug, Frame.fill, Forest.size]
    omega

theorem first_mem (f : Forest α) (b : Nat) (hb : f.first = some b) : b ∈ f.pre := by
  cases f with
  | nil => simp [Forest.first] at hb
  | cons a v k r =>
    simp only [Forest.first, Option.some.injEq] at hb
    subst hb
    simp [Forest.pre]

theorem erase_spec_ext (h : Heap α) (t : tree) (r : Nat) (v0 : α) (kids : Forest α)
    (x : Nat) (hwf : well_formed h t (.cons r v0 kids .nil))
    (hx : x ∈ (Forest.cons r v0 kids .nil).pre) (hxr : x ≠ r)
    (fuel : Nat) (hfuel : kids.size + 1 ≤ fuel) :
    ∃ h1 C0 P vp restP R v kx rx nd, ¬ has_down R ∧
      Forest.cons r v0 kids .nil = plug C0 (.cons P vp (plug R (.cons x v kx rx)) restP) ∧
      (Forest.cons r v0 kids .nil).modify x (fun _ _ rs => rs)
        = plug C0 (.cons P vp (plug R rx) restP) ∧
      h[x]? = some (some nd) ∧ nd.parent = some P ∧ nd.right = rx.first ∧
      erase fuel h t (some x)
        = .ok (h1, t, (match rx.first with | some b => some b | none => some P)) ∧
      well_formed h1 t (plug C0 (.cons P vp (plug R rx) restP)) ∧
      (∀ a ∈ x :: kx.pre, h1[a]? = some none) ∧
      (∀ a nd0, a ∉ x :: kx.pre → h[a]? = some (some nd0) →
        ∃ nd1, h1[a]? = some (some nd1) ∧ nd1.value = nd0.value ∧ nd1.parent = nd0.parent) ∧
      (∀ a, a ∉ t.nodes (Forest.cons r v0 kids .nil) → h1[a]? = h[a]?) := by
  obtain ⟨e, C0, P, vp, restP, R, v, kx, rx, hf, hR, hT, hkP, hox, ⟨ndP, hcP, hPb, hPe⟩, he,
    hnd, helt, hlt⟩ := focus_parent h t r v0 kids x hwf hx hxr
  have hnd0 := hnd
  simp only [List.nodup_cons, List.nodup_append, List.mem_append, List.mem_cons, not_or,
    List.disjoint_append_left, List.disjoint_append_right, List.disjoint_cons_left,
    List.disjoint_cons_right] at hnd
  obtain ⟨⟨heC, heP, heR, ⟨hex, heK, heRx⟩, heS, heA⟩, hCn, ⟨⟨hPR, ⟨hPx, hPK, hPRx⟩, hPS, hPA⟩,
    hRn, ⟨⟨⟨hxK, hxRx⟩, hKn, hRxn, hKRx⟩, ⟨hSn, hAn, hSA⟩, ⟨hxS, hKS, hRxS⟩, hxA, hKA, hRxA⟩,
    ⟨hxR, hRK, hRRx⟩, hRS, hRA⟩, hPC, hCR, ⟨hxC, hCK, hCRx⟩, hCS, hCA⟩ := hnd
  obtain ⟨_, hroot, _, _, _, hndT⟩ := well_formed_cons hwf
  have hxb : (some x : nodeptr) ≠ t.root := by
    rw [hroot]; intro hh; cases hh; exact hxr rfl
  have hxe : (some x : nodeptr) ≠ t.foot := by
    rw [hf]; intro hh; cases hh; exact hex rfl
  have hmod : (plug C0 (.cons P vp (plug R (.cons x v kx rx)) restP)).modify x
      (fun _ _ rs => rs) = plug C0 (.cons P vp (plug R rx) restP) :=
    modify_nested x (fun _ _ rs => rs) C0 R P vp v restP kx rx
      (hT ▸ (List.nodup_cons.mp hndT).2)
  obtain ⟨hcx, hokx, horx⟩ := hox
  have hxP : x ≠ P := fun hh => hPx hh.symm
  have hLfact : ∀ L, (hole (some P) none none R).2.1 = some L → L ∈ path_before R := by
    intro L hL1
    by_cases hRe : R = []
    · subst hRe; cases hL1
    · obtain ⟨L1, hL2, hm⟩ := hole_left_mem R (some P) none none hR hRe
      rw [hL2] at hL1; cases hL1; exact hm
  -- the children of `x` are erased first
  have hsz : kx.size ≤ fuel := by
    have hs := congrArg Forest.size hT
    have h1 := size_le_of_plug C0 (.cons P vp (plug R (.cons x v kx rx)) restP)
    have h2 := size_le_of_plug R (.cons x v kx rx)
    simp only [Forest.size] at hs h1 h2
    omega
  obtain ⟨h', hfr', hk⟩ := erase_children_phase fuel h x kx hokx hKn hsz
  have hsame : ∀ a, a ∉ kx.pre → h'[a]? = h[a]? := hfr'.2.2
  have hc1 : h'[x]? = _ := (hsame x hxK).trans hcx
  have hcP1 : h'[P]? = some (some ndP) := (hsame P hPK).trans hcP
  have hrxf : ∀ b, rx.firstOr none = some b → b ∈ rx.pre := by
    intro b hb
    rw [firstOr_none] at hb
    exact first_mem rx b hb
  have hPbiff : ndP.child_begin = some x ↔ (hole (some P) none none R).2.1 = none := by
    rw [hPb]
    by_cases hRe : R = []
    · subst hRe
      simp [plug, Forest.first, hole]
    · obtain ⟨F, hF, hFm⟩ := plug_first_mem R (Forest.cons x v kx rx) hRe
      obtain ⟨L1, hL2, _⟩ := hole_left_mem R (some P) none none hR hRe
      rw [hF, hL2]
      simp only [Option.some.injEq, reduceCtorEq, iff_false]
      intro hh
      exact hxR (hh ▸ hFm)
  have hPeiff : ndP.child_end = some x ↔ rx.firstOr none = none := by
    rw [hPe, plug_right_last_none R (some P) none _ hR]
    cases rx with
    | nil => simp [Forest.last, Forest.firstOr]
    | cons b vb kb rb =>
      obtain ⟨c, hc⟩ := last_cons_some rb b vb kb
      have hcm := last_mem _ c hc
      have hc2 : (Forest.cons x v kx (Forest.cons b vb kb rb)).last = some c := hc
      rw [hc2]
      simp only [Option.some.injEq, Forest.firstOr, reduceCtorEq, iff_false]
      intro hh
      exact hxRx (hh ▸ hcm)
  obtain ⟨h1, hev, hx1, hP1, hL1, hb1, hfr1⟩ := erase_unlink fuel h h' t x P _ ndP hxe hxb hcx
    hk hc1 rfl hcP1 hxP hPbiff hPeiff
    (by
      intro L hl
      have hLm := hLfact L hl
      have hLpre : L ∈ (plug R (Forest.cons x v kx rx)).pre := by
        rw [pre_plug]; simp [hLm]
      obtain ⟨ndL, hcL, _⟩ := owns_cell h _ _ _ _ hkP L hLpre
      refine ⟨fun hh => hxR (hh ▸ hLm), fun hh => hPR (hh ▸ hLm), ?_,
        ndL, (hsame L (fun hm => hRK hLm hm)).trans hcL⟩
      intro hh
      exact hRRx hLm (hrxf L hh.symm))
    (by
      intro b hb
      have hbm := hrxf b hb
      obtain ⟨ndb, hcb, _⟩ := owns_cell h _ _ _ _ horx b hbm
      exact ⟨fun hh => hxRx (hh ▸ hbm), fun hh => hPRx (hh ▸ hbm),
        ndb, (hsame b (fun hm => hKRx hm hbm)).trans hcb⟩)
  -- cells outside the erased subtree and away from the neighbours of `x`
  have hkeep : ∀ a, a ≠ x → a ≠ P → a ∉ path_before R → a ∉ rx.pre → a ∉ kx.pre →
      h1[a]? = h[a]? := by
    intro a h1a h2a h3a h4a h5a
    rw [hfr1 a h1a h2a ?_ ?_, hsame a h5a]
    · intro hh
      exact h3a (hLfact a hh.symm)
    · intro hh
      exact h4a (hrxf a hh.symm)
  have hndnew : (e :: (plug C0 (.cons P vp (plug R rx) restP)).pre).Nodup := by
    rw [pre_nested C0 R P vp restP _ hR]
    refine hnd0.sublist (List.Sublist.cons₂ e ?_)
    refine List.Sublist.append (List.Sublist.refl _) (List.Sublist.cons₂ P ?_)
    refine List.Sublist.append (List.Sublist.refl _) ?_
    refine List.Sublist.append ?_ (List.Sublist.refl _)
    exact (List.sublist_append_right _ _).cons x
  have hbak : (if (rx.firstOr none ≠ none) then rx.firstOr none else some P)
      = (match rx.first with | some b => some b | none => some P) := by
    cases rx <;> rfl
  refine ⟨h1, C0, P, vp, restP, R, v, kx, rx, _, hR, hT, hT ▸ hmod, hcx, rfl, firstOr_none rx,
    hev.trans (by rw [← hbak]), ?_, ?_, ?_, ?_⟩
  · refine well_formed_siblings h h1 t r e v0 kids C0 R P vp restP _ _ hwf hf hT hR
      ?_ ?_ ?_ ?_ ?_ hndnew
    · cases rx with
      | nil => trivial
      | cons b vb kb rb =>
        obtain ⟨hcb, hokb, horb⟩ := horx
        have hbm : b ∈ (Forest.cons b vb kb rb).pre := by simp [Forest.pre]
        have hbn := hRxn
        simp only [Forest.pre, List.nodup_cons, List.mem_append, not_or] at hbn
        refine ⟨?_, ?_, ?_⟩
        · exact hb1 b _ rfl ((hsame b (fun hm => hKRx hm hbm)).trans hcb)
        · refine owns_frame h h1 _ _ _ _ ?_ hokb
          intro a ha
          have ham : a ∈ (Forest.cons b vb kb rb).pre := by simp [Forest.pre, ha]
          have hab : a ≠ b := fun hh => hbn.1.1 (hh ▸ ha)
          rw [hfr1 a (fun hh => hxRx (hh ▸ ham)) (fun hh => hPRx (hh ▸ ham)) ?_ ?_,
            hsame a (fun hm => hKRx hm ham)]
          · intro hh
            exact hRRx (hLfact a hh.symm) ham
          · intro hh
            exact hab (by simpa [Forest.firstOr] using hh)
        · refine owns_frame h h1 _ _ _ _ ?_ horb
          intro a ha
          have ham : a ∈ (Forest.cons b vb kb rb).pre := by simp [Forest.pre, ha]
          have hab : a ≠ b := fun hh => hbn.1.2 (hh ▸ ha)
          rw [hfr1 a (fun hh => hxRx (hh ▸ ham)) (fun hh => hPRx (hh ▸ ham)) ?_ ?_,
            hsame a (fun hm => hKRx hm ham)]
          · intro hh
            exact hRRx (hLfact a hh.symm) ham
          · intro hh
            exact hab (by simpa [Forest.firstOr] using hh)
    · intro nd0 hcell hb0 he0
      rw [hcP] at hcell
      cases hcell
      rw [hP1]
      have hfirst_eq : (if (hole (some P) none none R).2.1 = none then rx.firstOr none
          else ndP.child_begin) = (plug R rx).first := by
        by_cases hRe : R = []
        · subst hRe
          simp [hole, plug, firstOr_none]
        · obtain ⟨L1, hL2, _⟩ := hole_left_mem R (some P) none none hR hRe
          rw [hL2, hPb, plug_cons_first R (Forest.cons x v kx rx) rx hRe]
          simp
      have hlast_eq : (if rx.firstOr none = none then (hole (some P) none none R).2.1
          else ndP.child_end) = (plug R rx).last := by
        rw [plug_right_last_none R (some P) none rx hR, hPe,
          plug_right_last_none R (some P) none _ hR]
        cases rx with
        | nil => simp [Forest.firstOr, Forest.last]
        | cons b vb kb rb =>
          obtain ⟨c, hc⟩ := last_cons_some rb b vb kb
          have hc2 : (Forest.cons x v kx (Forest.cons b vb kb rb)).last = some c := hc
          rw [hc2, hc]
          simp [Forest.firstOr]
      exact congrArg₂ (fun a b => some (some ({ ndP with child_begin := a, child_end := b })))
        hfirst_eq hlast_eq
    · intro L nd0 _ hL0 hcell _
      have hLm := hLfact L hL0
      have := hL1 L nd0 hL0 ((hsame L (fun hm => hRK hLm hm)).trans hcell)
      rw [this]
      simp [firstOr_none]
    · intro a ha hne
      simp only [List.mem_append] at ha
      rcases ha with ha | ha | ha
      · rcases (mem_path_addrs C0 a).mp ha with hb | hb
        · exact hkeep a (fun hh => hxC (hh ▸ hb)) (fun hh => hPC (hh ▸ hb))
            (fun hm => hCR hb hm) (fun hm => hCRx hb hm) (fun hm => hCK hb hm)
        · exact hkeep a (fun hh => hxA (hh ▸ hb)) (fun hh => hPA (hh ▸ hb))
            (fun hm => hRA hm hb) (fun hm => hRxA hm hb) (fun hm => hKA hm hb)
      · rw [hfr1 a (fun hh => hxR (hh ▸ ha)) (fun hh => hPR (hh ▸ ha)) hne ?_,
          hsame a (fun hm => hRK ha hm)]
        intro hh
        exact hRRx ha (hrxf a hh.symm)
      · exact hkeep a (fun hh => hxS (hh ▸ ha)) (fun hh => hPS (hh ▸ ha))
          (fun hm => hRS hm ha) (fun hm => hRxS hm ha) (fun hm => hKS hm ha)
    · exact hkeep e hex heP heR heRx heK
  · intro a ha
    rcases List.mem_cons.mp ha with rfl | ha
    · exact hx1
    · rw [hfr1 a (fun hh => hxK (hh ▸ ha)) (fun hh => hPK (hh ▸ ha)) ?_ ?_]
      · exact hfr'.2.1 a ha
      · intro hh
        exact hRK (hLfact a hh.symm) ha
      · intro hh
        exact hKRx ha (hrxf a hh.symm)
  · intro a nd0 ha hcell
    simp only [List.mem_cons, not_or] at ha
    have hcell' : h'[a]? = some (some nd0) := (hsame a ha.2).trans hcell
    by_cases haP : a = P
    · subst haP
      rw [hcP1] at hcell'
      cases hcell'
      exact ⟨_, hP1, rfl, rfl⟩
    · by_cases haL : some a = (hole (some P) none none R).2.1
      · exact ⟨_, hL1 a nd0 haL.symm hcell', rfl, rfl⟩
      · by_cases hab : some a = rx.firstOr none
        · exact ⟨_, hb1 a nd0 hab.symm hcell', rfl, rfl⟩
        · exact ⟨nd0, (hfr1 a ha.1 haP haL hab).trans hcell', rfl, rfl⟩
  · intro a ha
    rw [hT] at ha
    simp only [tree.nodes, hf, Option.toList, List.singleton_append, List.mem_cons, not_or,
      pre_nested C0 R P vp restP _ hR, List.mem_append, Forest.pre] at ha
    obtain ⟨_, ha1, ha2, ha3, ⟨ha4, ha5, ha6⟩, ha7, ha8⟩ := ha
    exact hkeep a ha4 ha2 ha3 ha6 ha5

theorem erase_spec (h : Heap α) (t : tree) (r : Nat) (v0 : α) (kids : Forest α)
    (x : Nat) (hwf : well_formed h t (.cons r v0 kids .nil))
    (hx : x ∈ (Forest.cons r v0 kids .nil).pre) (hxr : x ≠ r)
    (fuel : Nat) (hfuel : kids.size + 1 ≤ fuel) :
    ∃ h1 C0 P vp restP R v kx rx nd, ¬ has_down R ∧
      Forest.cons r v0 kids .nil = plug C0 (.cons P vp (plug R (.cons x v kx rx)) restP) ∧
      (Forest.cons r v0 kids .nil).modify x (fun _ _ rs => rs)
        = plug C0 (.cons P vp (plug R rx) restP) ∧
      h[x]? = some (some nd) ∧ nd.parent = some P ∧ nd.right = rx.first ∧
      erase fuel h t (some x)
        = .ok (h1, t, (match rx.first with | some b => some b | none => some P)) ∧
      well_formed h1 t (plug C0 (.cons P vp (plug R rx) restP)) ∧
      (∀ a ∈ x :: kx.pre, h1[a]? = some none) ∧
      (∀ a nd0, a ∉ x :: kx.pre → h[a]? = some (some nd0) →
        ∃ nd1, h1[a]? = some (some nd1) ∧ nd1.value = nd0.value ∧ nd1.parent = nd0.parent) := by
  obtain ⟨h1, C0, P, vp, restP, R, v, kx, rx, nd, a1, a2, a3, a4, a5, a6, a7, a8, a9, a10, _⟩ :=
    erase_spec_ext h t r v0 kids x hwf hx hxr fuel hfuel
  exact ⟨h1, C0, P, vp, restP, R, v, kx, rx, nd, a1, a2, a3, a4, a5, a6, a7, a8, a9, a10⟩

theorem erase_root_spec (h : Heap α) (t : tree) (r : Nat) (v0 : α) (kids : Forest α)
    (hwf : well_formed h t (.cons r v0 kids .nil)) (fuel : Nat) (hfuel : kids.size + 1 ≤ fuel) :
    ∃ h1 e, t.foot = some e ∧ erase fuel h t (some r) = .ok (h1, ⟨some e, some e⟩, some e) ∧
      well_formed h1 ⟨some e, some e⟩ .nil ∧
      (∀ a ∈ (Forest.cons r v0 kids .nil).pre, h1[a]? = some none) ∧
      (∀ a, a ∉ (Forest.cons r v0 kids .nil).pre → a ≠ e → h1[a]? = h[a]?) := by
  obtain ⟨e, hroot, hf, ⟨hcr, hok, _⟩, he, hnd⟩ := well_formed_cons hwf
  simp only [Forest.pre, List.append_nil, List.nodup_cons, List.mem_cons, not_or] at hnd
  obtain ⟨⟨her, heK⟩, hrK, hKn⟩ := hnd
  obtain ⟨h', hfr', hk⟩ := erase_children_phase fuel h r kids hok hKn (by omega)
  have hsame : ∀ a, a ∉ kids.pre → h'[a]? = h[a]? := hfr'.2.2
  obtain ⟨h1, hev, hr1, he1, hfr1⟩ := erase_root_cells fuel h h' t r e _ _ hroot hf
    (fun hh => her hh.symm) hcr hk ((hsame r hrK).trans hcr) rfl rfl rfl
    ((hsame e heK).trans he)
  refine ⟨h1, e, hf, hev, ⟨rfl, he1⟩, ?_, ?_⟩
  · intro a ha
    simp only [Forest.pre, List.append_nil, List.mem_cons] at ha
    rcases ha with rfl | ha
    · exact hr1
    · rw [hfr1 a (fun hh => hrK (hh ▸ ha)) (fun hh => heK (hh ▸ ha))]
      exact hfr'.2.1 a ha
  · intro a ha hae
    simp only [Forest.pre, List.append_nil, List.mem_cons, not_or] at ha
    rw [hfr1 a ha.1 hae, hsame a ha.2]

theorem modify_root_ne (x r : Nat) (v0 : α) (kids : Forest α)
    (g : α → Forest α → Forest α → Forest α) (hxr : x ≠ r) :
    (Forest.cons r v0 kids .nil).modify x g = .cons r v0 (kids.modify x g) .nil := by
  simp [Forest.modify, Ne.symm hxr]

/-- C11: in a well-formed tree, `erase` at a value-holding node `x` other than
the root succeeds and leaves the tree object unchanged; `x` stands in the chain
of children of a node `P`, behind the left siblings `R` and before the right
siblings `rx`, with the forest `kx` of its descendants, and afterwards the heap
represents the same tree with `x` and `kx` taken out of that chain
(well-formed again). The depth-first sequence of the old tree is
`A ++ x :: kx.pre ++ B`, that of the new tree is `A ++ B`, and it is what
`df_iterator::operator++` visits from `begin()` to `end()`. Exactly the cells
of `x` and its descendants are deleted, and every other node keeps its value
and its parent. -/
theorem erase_removes_subtree (h : Heap α) (t : tree) (r : Nat) (v0 : α) (kids : Forest α)
    (x : Nat) (hwf : well_formed h t (.cons r v0 kids .nil))
    (hx : x ∈ (Forest.cons r v0 kids .nil).pre) (hxr : x ≠ r)
    (fuel : Nat) (hfuel : kids.size + 2 ≤ fuel) :
    ∃ h1 bak C0 P vp restP R v kx rx,
      erase fuel h t (some x) = .ok (h1, t, bak) ∧ ¬ has_down R ∧
      Forest.cons r v0 kids .nil = plug C0 (.cons P vp (plug R (.cons x v kx rx)) restP) ∧
      Forest.cons r v0 (kids.modify x (fun _ _ rs => rs)) .nil
        = plug C0 (.cons P vp (plug R rx) restP) ∧
      well_formed h1 t (.cons r v0 (kids.modify x (fun _ _ rs => rs)) .nil) ∧
      (Forest.cons r v0 kids .nil).pre
        = (path_before C0 ++ P :: path_before R) ++ (x :: kx.pre)
            ++ (rx.pre ++ (restP.pre ++ path_after C0)) ∧
      (Forest.cons r v0 (kids.modify x (fun _ _ rs => rs)) .nil).pre
        = (path_before C0 ++ P :: path_before R) ++ (rx.pre ++ (restP.pre ++ path_after C0)) ∧
      run (df_inc fuel h1) ((kids.modify x (fun _ _ rs => rs)).size + 1) t.begin
        = .ok ((Forest.cons r v0 (kids.modify x (fun _ _ rs => rs)) .nil).pre.map some
            ++ [t.end_]) ∧
      (∀ a ∈ x :: kx.pre, h1[a]? = some none) ∧
      (∀ a nd0, a ∉ x :: kx.pre → h[a]? = some (some nd0) →
        ∃ nd1, h1[a]? = some (some nd1) ∧ nd1.value = nd0.value ∧
          nd1.parent = nd0.parent) := by
  obtain ⟨h1, C0, P, vp, restP, R, v, kx, rx, nd, hR, hT, hmod, _, _, _, hev, hwf1, hdel,
    hkeep⟩ := erase_spec h t r v0 kids x hwf hx hxr fuel (by omega)
  rw [modify_root_ne x r v0 kids _ hxr] at hmod
  rw [← hmod] at hwf1
  have hpre : (Forest.cons r v0 kids .nil).pre
      = (path_before C0 ++ P :: path_before R) ++ (x :: kx.pre)
          ++ (rx.pre ++ (restP.pre ++ path_after C0)) := by
    rw [hT, pre_nested C0 R P vp restP _ hR]
    simp [Forest.pre, List.append_assoc]
  have hpre1 : (Forest.cons r v0 (kids.modify x (fun _ _ rs => rs)) .nil).pre
      = (path_before C0 ++ P :: path_before R) ++ (rx.pre ++ (restP.pre ++ path_after C0)) := by
    rw [hmod, pre_nested C0 R P vp restP _ hR]
    simp [List.append_assoc]
  have hsz : (kids.modify x (fun _ _ rs => rs)).size ≤ kids.size := by
    have e1 := congrArg List.length hpre
    have e2 := congrArg List.length hpre1
    rw [pre_length] at e1 e2
    simp only [Forest.size, List.length_append, List.length_cons] at e1 e2
    omega
  exact ⟨h1, _, C0, P, vp, restP, R, v, kx, rx, hev, hR, hT, hmod, hwf1, hpre, hpre1,
    (preorder_run h1 t r v0 _ hwf1 fuel (by omega)).1, hdel, hkeep⟩

theorem erase_removes_subtree_witness :
    well_formed scenario_heap scenario_tree (.cons 0 0 scenario_kids .nil) ∧
    3 ∈ (Forest.cons 0 0 scenario_kids .nil).pre ∧ 3 ≠ 0 ∧
    (Forest.cons 0 0 (scenario_kids.modify 3 (fun _ _ rs => rs)) .nil).vals = [0, 1, 5, 7] ∧
    ∃ h1 bak C0 P vp restP R v kx rx,
      erase 9 scenario_heap scenario_tree (some 3) = .ok (h1, scenario_tree, bak) ∧
      ¬ has_down R ∧
      Forest.cons 0 0 scenario_kids .nil
        = plug C0 (.cons P vp (plug R (.cons 3 v kx rx)) restP) ∧
      Forest.cons 0 0 (scenario_kids.modify 3 (fun _ _ rs => rs)) .nil
        = plug C0 (.cons P vp (plug R rx) restP) ∧
      well_formed h1 scenario_tree
        (.cons 0 0 (scenario_kids.modify 3 (fun _ _ rs => rs)) .nil) ∧
      (Forest.cons 0 0 scenario_kids .nil).pre
        = (path_before C0 ++ P :: path_before R) ++ (3 :: kx.pre)
            ++ (rx.pre ++ (restP.pre ++ path_after C0)) ∧
      (Forest.cons 0 0 (scenario_kids.modify 3 (fun _ _ rs => rs)) .nil).pre
        = (path_before C0 ++ P :: path_before R) ++ (rx.pre ++ (restP.pre ++ path_after C0)) ∧
      run (df_inc 9 h1) ((scenario_kids.modify 3 (fun _ _ rs => rs)).size + 1)
          scenario_tree.begin
        = .ok ((Forest.cons 0 0 (scenario_kids.modify 3 (fun _ _ rs => rs)) .nil).pre.map some
            ++ [scenario_tree.end_]) ∧
      (∀ a ∈ 3 :: kx.pre, h1[a]? = some none) ∧
      (∀ a nd0, a ∉ 3 :: kx.pre → scenario_heap[a]? = some (some nd0) →
        ∃ nd1, h1[a]? = some (some nd1) ∧ nd1.value = nd0.value ∧
          nd1.parent = nd0.parent) :=
  ⟨scenario_well_formed, by decide, by decide, by decide,
    erase_removes_subtree scenario_heap scenario_tree 0 0 scenario_kids 3
      scenario_well_formed (by decide) (by decide) 9 (by decide)⟩

/-- C12: in a well-formed tree, `erase` at a value-holding node `x` succeeds
and returns `x.right` if that is not null and `x.parent` otherwise, read from
the record of `x` before the call. For the root this is the sentinel, `end()`
of the tree before and after the call. For any other node, which stands in the
chain of children of a node `P` before its right siblings `rx`, it is the first
node of `rx` if there is one and `P` otherwise. -/
theorem erase_returns_next (h : Heap α) (t : tree) (r : Nat) (v0 : α) (kids : Forest α)
    (x : Nat) (hwf : well_formed h t (.cons r v0 kids .nil))
    (hx : x ∈ (Forest.cons r v0 kids .nil).pre) (fuel : Nat) (hfuel : kids.size + 1 ≤ fuel) :
    ∃ h1 t1 bak nd, erase fuel h t (some x) = .ok (h1, t1, bak) ∧ h[x]? = some (some nd) ∧
      bak = (if nd.right ≠ none then nd.right else nd.parent) ∧
      (x = r → bak = t.end_ ∧ bak = t1.end_) ∧
      (x ≠ r → ∃ C0 P vp restP R v kx rx, ¬ has_down R ∧
        Forest.cons r v0 kids .nil = plug C0 (.cons P vp (plug R (.cons x v kx rx)) restP) ∧
        nd.parent = some P ∧ nd.right = rx.first ∧
        bak = (match rx.first with | some b => some b | none => some P)) := by
  by_cases hxr : x = r
  · subst hxr
    obtain ⟨h1, e, hf, hev, _, _, _⟩ := erase_root_spec h t x v0 kids hwf fuel hfuel
    obtain ⟨e1, _, hf1, ⟨hcr, _, _⟩, _, _⟩ := well_formed_cons hwf
    rw [hf] at hf1
    cases hf1
    refine ⟨h1, _, _, _, hev, hcr, by simp [Forest.firstOr], ?_, fun hne => (hne rfl).elim⟩
    intro _
    exact ⟨by rw [tree.end_, hf], rfl⟩
  · obtain ⟨h1, C0, P, vp, restP, R, v, kx, rx, nd, hR, hT, _, hcx, hp, hr, hev, _, _, _⟩ :=
      erase_spec h t r v0 kids x hwf hx hxr fuel hfuel
    refine ⟨h1, t, _, nd, hev, hcx, ?_, fun he => (hxr he).elim, fun _ =>
      ⟨C0, P, vp, restP, R, v, kx, rx, hR, hT, hp, hr, rfl⟩⟩
    rw [hr, hp]
    cases rx.first <;> simp

theorem erase_returns_next_witness :
    well_formed scenario_heap scenario_tree (.cons 0 0 scenario_kids .nil) ∧
    8 ∈ (Forest.cons 0 0 scenario_kids .nil).pre ∧
    ∃ h1 t1 bak nd, erase 9 scenario_heap scenario_tree (some 8) = .ok (h1, t1, bak) ∧
      scenario_heap[8]? = some (some nd) ∧
      bak = (if nd.right ≠ none then nd.right else nd.parent) ∧
      (8 = 0 → bak = scenario_tree.end_ ∧ bak = t1.end_) ∧
      (8 ≠ 0 → ∃ C0 P vp restP R v kx rx, ¬ has_down R ∧
        Forest.cons 0 0 scenario_kids .nil
          = plug C0 (.cons P vp (plug R (.cons 8 v kx rx)) restP) ∧
        nd.parent = some P ∧ nd.right = rx.first ∧
        bak = (match rx.first with | some b => some b | none => some P)) :=
  ⟨scenario_well_formed, by decide,
    erase_returns_next scenario_heap scenario_tree 0 0 scenario_kids 8
      scenario_well_formed (by decide) 9 (by decide)⟩

/-- C13: on a well-formed non-empty tree, `erase(begin())` and `clear()` both
succeed with the same result: every value-holding node is deleted and the tree
is in the empty state (`empty()` is true, `begin() == end()`, `size()` is 0,
the representation is well-formed for the empty forest); `clear()` on that
tree, and on any tree for which `empty()` is true, returns the heap and the
tree unchanged. -/
theorem erase_root_and_clear_leave_empty (h : Heap α) (t : tree) (r : Nat) (v0 : α)
    (kids : Forest α) (hwf : well_formed h t (.cons r v0 kids .nil))
    (fuel : Nat) (hfuel : kids.size + 1 ≤ fuel) :
    (∃ h1 t1 bak, erase fuel h t t.begin = .ok (h1, t1, bak) ∧
      clear fuel h t = .ok (h1, t1) ∧ well_formed h1 t1 .nil ∧
      t1.empty = true ∧ t1.begin = t1.end_ ∧ size fuel h1 t1 = .ok 0 ∧
      (∀ a ∈ (Forest.cons r v0 kids .nil).pre, h1[a]? = some none) ∧
      clear fuel h1 t1 = .ok (h1, t1)) ∧
    (∀ (h0 : Heap α) (t0 : tree) (fuel0 : Nat), t0.empty = true →
      clear fuel0 h0 t0 = .ok (h0, t0)) := by
  obtain ⟨h1, e, hf, hev, hwf1, hdel, _⟩ := erase_root_spec h t r v0 kids hwf fuel hfuel
  obtain ⟨e1, hroot, hf1, _, _, hnd⟩ := well_formed_cons hwf
  have hne : (some r : nodeptr) ≠ t.foot := by
    rw [hf1]
    intro hh
    cases hh
    exact (List.nodup_cons.mp hnd).1 (by simp [Forest.pre])
  obtain ⟨n, rfl⟩ : ∃ n, fuel = n + 1 := ⟨fuel - 1, by omega⟩
  refine ⟨⟨h1, _, _, by rw [tree.begin, hroot]; exact hev, ?_, hwf1, by simp [tree.empty], rfl,
    ?_, hdel, by simp [clear]⟩, ?_⟩
  · simp [clear, hroot, hne, hev]
  · simp [size, size_loop, tree.begin, tree.end_]
  · intro h0 t0 fuel0 he0
    have : t0.root = t0.foot := by simpa [tree.empty] using he0
    simp [clear, this]

theorem erase_root_and_clear_leave_empty_witness :
    well_formed scenario_heap scenario_tree (.cons 0 0 scenario_kids .nil) ∧
    ((∃ h1 t1 bak, erase 9 scenario_heap scenario_tree scenario_tree.begin = .ok (h1, t1, bak) ∧
      clear 9 scenario_heap scenario_tree = .ok (h1, t1) ∧ well_formed h1 t1 .nil ∧
      t1.empty = true ∧ t1.begin = t1.end_ ∧ size 9 h1 t1 = .ok 0 ∧
      (∀ a ∈ (Forest.cons 0 0 scenario_kids .nil).pre, h1[a]? = some none) ∧
      clear 9 h1 t1 = .ok (h1, t1)) ∧
    (∀ (h0 : Heap Int) (t0 : tree) (fuel0 : Nat), t0.empty = true →
      clear fuel0 h0 t0 = .ok (h0, t0))) :=
  ⟨scenario_well_formed,
    erase_root_and_clear_leave_empty scenario_heap scenario_tree 0 0 scenario_kids
      scenario_well_formed 9 (by decide)⟩

/-! ## Setting the root -/

theorem set_root_nonempty (h : Heap α) (t : tree) (r : Nat) (v0 v : α) (kids : Forest α)
    (hwf : well_formed h t (.cons r v0 kids .nil)) :
    ∃ h1, set_root h t v = .ok (h1, t, t.begin) ∧
      well_formed h1 t (.cons r v kids .nil) ∧ deref h1 t.begin = .ok v ∧
      (∀ a, a ≠ r → h1[a]? = h[a]?) := by
  obtain ⟨e, hroot, hf, ⟨hcr, hok, _⟩, he, hnd⟩ := well_formed_cons hwf
  have hnd1 := hnd
  simp only [Forest.pre, List.append_nil, List.nodup_cons, List.mem_cons, not_or] at hnd1
  obtain ⟨⟨her, heK⟩, hrK, hKn⟩ := hnd1
  have hne : (some r : nodeptr) ≠ some e := by
    intro hh; cases hh; exact her rfl
  have hlt := cell_lt hcr
  have hfr : ∀ a, a ≠ r → (h.set r (some ⟨none, none, some e, kids.first, kids.last, some v⟩))[a]?
      = h[a]? := fun a ha => List.getElem?_set_ne (Ne.symm ha)
  refine ⟨h.set r (some ⟨none, none, some e, kids.first, kids.last, some v⟩), ?_, ?_, ?_, hfr⟩
  · simp [set_root, hroot, hf, hne, wr, rd, hcr, tree.begin, Forest.firstOr, bind, Except.bind,
      pure, Except.pure]
  · refine well_formed_mk _ t r e v kids hroot hf ⟨?_, ?_, trivial⟩ ?_ hnd
    · simp [List.getElem?_set, hlt, Forest.firstOr]
    · exact owns_frame h _ _ _ _ _ (fun a ha => hfr a (fun hh => hrK (hh ▸ ha))) hok
    · rw [hfr e her]; exact he
  · simp [deref, rd, tree.begin, hroot, List.getElem?_set, hlt]

theorem set_root_empty (h : Heap α) (t : tree) (e : Nat) (v : α)
    (hwf : well_formed h t .nil) (hf : t.foot = some e) :
    ∃ h1, set_root h t v = .ok (h1, ⟨some e, some h.length⟩, some e) ∧
      well_formed h1 ⟨some e, some h.length⟩ (.cons e v .nil .nil) ∧
      deref h1 (some e) = .ok v ∧
      (∀ a, a ≠ e → a ≠ h.length → h1[a]? = h[a]?) := by
  obtain ⟨hrf, hfoot⟩ := hwf
  rw [hf] at hfoot hrf
  simp only at hfoot
  have hlt := cell_lt hfoot
  have hlt1 : e < h.length + 1 := by omega
  have hne : e ≠ h.length := Nat.ne_of_lt hlt
  have hne2 : h.length ≠ e := Ne.symm hne
  simp only [set_root, hrf, hf, p_node_allocate, wr, rd, bind, Except.bind, pure, Except.pure,
    List.getElem?_set, get_snoc, List.length_set, List.length_append, List.length_singleton,
    hlt, hlt1, hne, hne2, hfoot, if_true, if_false, lt_irrefl, Nat.lt_succ_self,
    Except.ok.injEq, Prod.mk.injEq, and_true, true_and, exists_eq_left', deref]
  refine ⟨?_, ?_⟩
  · refine well_formed_mk _ _ e h.length v .nil rfl rfl ⟨?_, trivial, trivial⟩ ?_ ?_
    · simp only [List.getElem?_set, get_snoc, List.length_set, List.length_append,
        List.length_singleton, hlt, hlt1, hne, hne2, if_true, if_false, lt_irrefl,
        Nat.lt_succ_self, Forest.firstOr, Forest.first, Forest.last]
    · simp only [List.getElem?_set, get_snoc, List.length_set, List.length_append,
        List.length_singleton, hlt, hlt1, hne, hne2, if_true, if_false, lt_irrefl,
        Nat.lt_succ_self]
    · simp [Forest.pre, hne2]
  · intro a ha1 ha2
    simp only [Ne.symm ha1, Ne.symm ha2, if_false]
    split_ifs with h1
    · rfl
    · exact (get_none_of_ge h a h1).symm

/-- C14: on the tree object a move leaves behind, for which `empty()` is true,
`set_root` dereferences the null root: it fails instead of inserting a root
node. -/
theorem set_root_fails_on_moved_from (h : Heap α) (T : tree) (v : α) :
    (tree.move_ctor T).2.empty = true ∧
      set_root h (tree.move_ctor T).2 v = .error .null_deref := by
  refine ⟨rfl, ?_⟩
  simp [set_root, tree.move_ctor, p_node_allocate, wr, rd, bind, Except.bind]

/-! ## Counting the nodes -/

theorem size_loop_chain (F : Nat) (h : Heap α) (t : tree) :
    ∀ (p : List nodeptr) (x : nodeptr) (tl : List nodeptr) (n res : Nat),
      p ++ [t.end_] = x :: tl →
      List.Chain' (fun a b => df_inc F h a = .ok b) (x :: tl) →
      t.end_ ∉ p → p.length + 1 ≤ n → size_loop F h t n x res = .ok (res + p.length)
  | [], x, tl, n, res, he, _, _, hn => by
    obtain ⟨m, rfl⟩ : ∃ m, n = m + 1 := ⟨n - 1, by simp at hn; omega⟩
    simp only [List.nil_append, List.cons.injEq] at he
    simp [size_loop, he.1]
  | a :: p, x, tl, n, res, he, hc, hne, hn => by
    obtain ⟨m, rfl⟩ : ∃ m, n = m + 1 := ⟨n - 1, by simp at hn; omega⟩
    simp only [List.cons_append, List.cons.injEq] at he
    obtain ⟨rfl, rfl⟩ := he
    obtain ⟨y, tl1, hy⟩ : ∃ y tl1, p ++ [t.end_] = y :: tl1 := by
      cases p with
      | nil => exact ⟨_, _, rfl⟩
      | cons b q => exact ⟨_, _, rfl⟩
    rw [hy, List.chain'_cons] at hc
    simp only [List.mem_cons, not_or] at hne
    have ih := size_loop_chain F h t p y tl1 m (res + 1) hy hc.2 hne.2
      (by simp at hn; omega)
    simp only [size_loop, ne_eq, Ne.symm hne.1, not_false_eq_true, if_true, hc.1, ih,
      List.length_cons]
    congr 1
    omega

theorem size_spec (h : Heap α) (t : tree) (f : Forest α) (hwf : well_formed h t f)
    (fuel : Nat) (hfuel : f.size + 1 ≤ fuel) : size fuel h t = .ok f.size := by
  obtain ⟨hb, hc, hne, _⟩ := traversal_of_well_formed hwf fuel hfuel
  obtain ⟨x, tl, hx⟩ : ∃ x tl, f.pre.map some ++ [t.end_] = x :: tl := by
    cases f.pre.map some with
    | nil => exact ⟨_, _, rfl⟩
    | cons b q => exact ⟨_, _, rfl⟩
  have hbx : t.begin = x := by
    rw [hb]
    simp only [hx, List.head_cons]
  have := size_loop_chain fuel h t (f.pre.map some) x tl fuel 0 hx (hx ▸ hc) hne
    (by simp [pre_length]; omega)
  simp only [size, hbx, this, List.length_map, pre_length, Nat.zero_add]

theorem next_it_chain (F : Nat) (h : Heap α) :
    ∀ (k : Nat) (x : nodeptr) (l : List nodeptr) (y : nodeptr),
      List.Chain' (fun a b => df_inc F h a = .ok b) (x :: l) → (x :: l)[k]? = some y →
      next_it F h k x = .ok y
  | 0, x, l, y, _, hk => by
    simp only [List.getElem?_cons_zero, Option.some.injEq] at hk
    simp [next_it, hk]
  | k + 1, x, [], y, _, hk => by simp at hk
  | k + 1, x, z :: l, y, hc, hk => by
    rw [List.chain'_cons] at hc
    simp only [List.getElem?_cons_succ] at hk
    simp only [next_it, hc.1]
    exact next_it_chain F h k z l y hc.2 hk

/-- The iterator `std::next(t.begin(), k)` of a well-formed tree, for `k` below
the number of nodes, stands on the `k`-th node of the pre-order. -/
theorem next_it_spec (h : Heap α) (t : tree) (f : Forest α) (hwf : well_formed h t f)
    (fuel : Nat) (hfuel : f.size + 1 ≤ fuel) (k : Nat) (hk : k < f.size) :
    ∃ x, x ∈ f.pre ∧ f.pre[k]? = some x ∧ next_it fuel h k t.begin = .ok (some x) := by
  obtain ⟨hb, hc, _, _⟩ := traversal_of_well_formed hwf fuel hfuel
  obtain ⟨x, tl, hx⟩ : ∃ x tl, f.pre.map some ++ [t.end_] = x :: tl := by
    cases f.pre.map some with
    | nil => exact ⟨_, _, rfl⟩
    | cons b q => exact ⟨_, _, rfl⟩
  have hbx : t.begin = x := by
    rw [hb]
    simp only [hx, List.head_cons]
  have hklt : k < f.pre.length := by rw [pre_length]; exact hk
  have hget : (x :: tl)[k]? = some (some (f.pre[k])) := by
    rw [← hx, List.getElem?_append_left (by simpa using hklt)]
    simp [hklt]
  refine ⟨f.pre[k], List.getElem_mem _, List.getElem?_eq_getElem hklt, ?_⟩
  rw [hbx]
  exact next_it_chain fuel h k x tl _ (hx ▸ hc) hget

theorem size_plug_add : ∀ (C : List (Frame α)) (g g1 : Forest α) (k : Nat),
    g1.size = g.size + k → (plug C g1).size = (plug C g).size + k
  | [], _, _, _, hg => hg
  | .right a v kids :: C, g, g1, k, hg => by
    have := size_plug_add C g g1 k hg
    simp only [plug, Frame.fill, Forest.size]
    omega
  | .down a v rest :: C, g, g1, k, hg => by
    have := size_plug_add C g g1 k hg
    simp only [plug, Frame.fill, Forest.size]
    omega

theorem modify_size (x : Nat) (g : α → Forest α → Forest α → Forest α) (k : Nat)
    (f : Forest α) (hx : x ∈ f.pre) (hnd : f.pre.Nodup)
    (hg : ∀ v kx rx, (g v kx rx).size = (Forest.cons x v kx rx).size + k) :
    (f.modify x g).size = f.size + k := by
  obtain ⟨C, v, kx, rx, hC⟩ := exists_path f x hx
  rw [hC, modify_plug x g C v kx rx (hC ▸ hnd)]
  exact size_plug_add C _ _ k (hg v kx rx)

theorem snoc_size (n : Nat) (w : α) : ∀ f : Forest α, (f.snoc n w).size = f.size + 1
  | .nil => by simp [Forest.snoc, Forest.size]
  | .cons a v k r => by
    have := snoc_size n w r
    simp only [Forest.snoc, Forest.size]
    omega

theorem well_formed_shape {h : Heap α} {t : tree} {f : Forest α} (hwf : well_formed h t f)
    (hpos : 0 < f.size) : ∃ r v kids, f = .cons r v kids .nil := by
  cases f with
  | nil => simp [Forest.size] at hpos
  | cons r v kids rest =>
    cases rest with
    | nil => exact ⟨r, v, kids, rfl⟩
    | cons _ _ _ _ => exact hwf.elim

theorem deref_assign_spec (h : Heap α) (t : tree) (r : Nat) (v0 : α) (kids : Forest α)
    (x : Nat) (w : α) (hwf : well_formed h t (.cons r v0 kids .nil))
    (hx : x ∈ (Forest.cons r v0 kids .nil).pre) :
    ∃ h1, deref_assign h (some x) w = .ok h1 ∧
      well_formed h1 t ((Forest.cons r v0 kids .nil).modify x
        (fun _ k rs => .cons x w k rs)) ∧
      deref h1 (some x) = .ok w ∧ (∀ a, a ≠ x → h1[a]? = h[a]?) := by
  obtain ⟨e, C, v, kx, rx, hf, hT, hown, he, hnd, helt, hlt⟩ := focus h t r v0 kids x hwf hx
  have hndT : (plug C (Forest.cons x v kx rx)).pre.Nodup := by
    have := pre_plug C (Forest.cons x v kx rx)
    simp only [Forest.pre] at this
    rw [this]
    exact (List.nodup_cons.mp hnd).2
  have hmod := modify_plug x (fun _ k rs => Forest.cons x w k rs) C v kx rx hndT
  have hnd0 := hnd
  simp only [List.nodup_cons, List.nodup_append, List.mem_append, List.mem_cons, not_or,
    List.disjoint_append_left, List.disjoint_append_right, List.disjoint_cons_left,
    List.disjoint_cons_right] at hnd
  obtain ⟨⟨⟨heB, hex, heK, heR⟩, heA⟩, ⟨hBn, ⟨⟨hxK, hxR⟩, hKn, hRn, hKR⟩, hxB, hBK, hBR⟩,
    hAn, hBA, hxA, hKA, hRA⟩ := hnd
  obtain ⟨hcx, hok, hor⟩ := hown
  have hltx := cell_lt hcx
  have hfr : ∀ a, a ≠ x → (h.set x (some ⟨(hole none none (some e) C).1,
      (hole none none (some e) C).2.1, rx.firstOr (hole none none (some e) C).2.2,
      kx.first, kx.last, some w⟩))[a]? = h[a]? := fun a ha => List.getElem?_set_ne (Ne.symm ha)
  refine ⟨_, ?_, ?_, ?_, hfr⟩
  · simp [deref_assign, rd, wr, hcx]
  · rw [hT, hmod]
    refine well_formed_replace h _ t r e v0 kids C _ _ hwf hf hT (by simp) ⟨?_, ?_, ?_⟩ rfl
      (fun _ => by cases rx <;> rfl) ?_ ?_ ?_ ?_
    · simp [List.getElem?_set, hltx]
    · exact owns_frame h _ _ _ _ _ (fun a ha => hfr a (fun hh => hxK (hh ▸ ha))) hok
    · exact owns_frame h _ _ _ _ _ (fun a ha => hfr a (fun hh => hxR (hh ▸ ha))) hor
    · intro a ha
      rcases (mem_path_addrs C a).mp ha with hb | hb
      · exact hfr a (fun hh => hxB (hh ▸ hb))
      · exact hfr a (fun hh => hxA (hh ▸ hb))
    · exact hfr e hex
    · rw [pre_plug]
      simpa [Forest.pre] using hnd0
    · intro hC
      subst hC
      simp only [plug, Forest.cons.injEq] at hT
      obtain ⟨rfl, rfl, _, rfl⟩ := hT
      exact ⟨_, _, rfl⟩
  · simp [deref, rd, List.getElem?_set, hltx]

/-- The size after each of the four insertions and after an assignment through
an iterator, at a node `x` of a well-formed tree. -/
theorem size_after_step (h : Heap α) (t : tree) (r : Nat) (v0 : α) (kids : Forest α)
    (x : Nat) (w : α) (hwf : well_formed h t (.cons r v0 kids .nil))
    (hx : x ∈ (Forest.cons r v0 kids .nil).pre) (fuel : Nat) (hfuel : kids.size + 3 ≤ fuel) :
    (∃ h1 it T1, append_child h t (some x) w = .ok (h1, it) ∧ well_formed h1 t T1 ∧
      T1.size = kids.size + 2 ∧ size fuel h1 t = .ok (kids.size + 2)) ∧
    (∃ h1 it T1, prepend_child h t (some x) w = .ok (h1, it) ∧ well_formed h1 t T1 ∧
      T1.size = kids.size + 2 ∧ size fuel h1 t = .ok (kids.size + 2)) ∧
    (∃ h1 T1, deref_assign h (some x) w = .ok h1 ∧ well_formed h1 t T1 ∧
      T1.size = kids.size + 1 ∧ size fuel h1 t = .ok (kids.size + 1)) ∧
    (x ≠ r →
      (∃ h1 it T1, insert_left h t (some x) w = .ok (h1, it) ∧ well_formed h1 t T1 ∧
        T1.size = kids.size + 2 ∧ size fuel h1 t = .ok (kids.size + 2)) ∧
      (∃ h1 it T1, insert_right h t (some x) w = .ok (h1, it) ∧ well_formed h1 t T1 ∧
        T1.size = kids.size + 2 ∧ size fuel h1 t = .ok (kids.size + 2))) := by
  obtain ⟨_, _, _, _, _, hnd⟩ := well_formed_cons hwf
  have hndT := (List.nodup_cons.mp hnd).2
  have hsz : (Forest.cons r v0 kids .nil).size = kids.size + 1 := by
    simp only [Forest.size]; omega
  have key : ∀ (g : α → Forest α → Forest α → Forest α) (k : Nat) (h1 : Heap α),
      (∀ v kx rx, (g v kx rx).size = (Forest.cons x v kx rx).size + k) →
      well_formed h1 t ((Forest.cons r v0 kids .nil).modify x g) →
      ((Forest.cons r v0 kids .nil).modify x g).size = kids.size + 1 + k ∧
      size fuel h1 t = .ok (kids.size + 1 + k) ∨ 1 < k := by
    intro g k h1 hg hw
    by_cases hk : 1 < k
    · exact Or.inr hk
    · have hs := modify_size x g k _ hx hndT hg
      rw [hsz] at hs
      refine Or.inl ⟨hs, ?_⟩
      rw [← hs]
      exact size_spec h1 t _ hw fuel (by rw [hs]; omega)
  refine ⟨?_, ?_, ?_, fun hxr => ⟨?_, ?_⟩⟩
  · obtain ⟨h1, _, hev, hw, _⟩ := append_child_spec h t r v0 kids x w hwf hx
    rcases key _ 1 h1 (fun v kx rx => by simp only [Forest.size, snoc_size]; omega) hw with
      hk | hk
    · exact ⟨h1, _, _, hev, hw, hk.1, hk.2⟩
    · omega
  · obtain ⟨h1, _, hev, hw, _⟩ := prepend_child_spec h t r v0 kids x w hwf hx
    rcases key _ 1 h1 (fun v kx rx => by simp only [Forest.size]; omega) hw with hk | hk
    · exact ⟨h1, _, _, hev, hw, hk.1, hk.2⟩
    · omega
  · obtain ⟨h1, hev, hw, _⟩ := deref_assign_spec h t r v0 kids x w hwf hx
    rcases key _ 0 h1 (fun v kx rx => by simp only [Forest.size]; omega) hw with hk | hk
    · exact ⟨h1, _, hev, hw, hk.1, hk.2⟩
    · omega
  · obtain ⟨h1, _, hev, hw, _⟩ := insert_left_spec h t r v0 kids x w hwf hx hxr
    rcases key _ 1 h1 (fun v kx rx => by simp only [Forest.size]; omega) hw with hk | hk
    · exact ⟨h1, _, _, hev, hw, hk.1, hk.2⟩
    · omega
  · obtain ⟨h1, _, hev, hw, _⟩ := insert_right_spec h t r v0 kids x w hwf hx hxr
    rcases key _ 1 h1 (fun v kx rx => by simp only [Forest.size]; omega) hw with hk | hk
    · exact ⟨h1, _, _, hev, hw, hk.1, hk.2⟩
    · omega

/-- One round of the loop of the random test keeps the tree well-formed and
`resulting_size` equal to the number of its nodes. -/
theorem random_step_spec (fuel : Nat) (t : tree) (i : Int) (d : Draw) (h : Heap Int)
    (rs : Nat) (T : Forest Int) (hwf : well_formed h t T) (hT : T.size = rs) (hpos : 0 < rs)
    (hfuel : rs + 2 ≤ fuel) :
    ∃ h1 rs1 T1, random_step fuel t i d (h, rs) = .ok (h1, rs1) ∧ well_formed h1 t T1 ∧
      T1.size = rs1 ∧ rs ≤ rs1 ∧ rs1 ≤ rs + 1 := by
  obtain ⟨r, v0, kids, rfl⟩ := well_formed_shape hwf (by omega)
  have hks : kids.size + 1 = rs := by simp only [Forest.size] at hT; omega
  have hsize := size_spec h t _ hwf fuel (by omega)
  rw [hT] at hsize
  have hlt : d.pick % rs < rs := Nat.mod_lt _ hpos
  obtain ⟨x, hx, _, hnext⟩ := next_it_spec h t _ hwf fuel (by omega) (d.pick % rs)
    (by rw [hT]; exact hlt)
  obtain ⟨_, hroot, _⟩ := well_formed_cons hwf
  obtain ⟨ha, hp, hd, hsib⟩ := size_after_step h t r v0 kids x i hwf hx fuel (by omega)
  have hn0 : rs ≠ 0 := by omega
  have hnum : d.num % 5 < 5 := Nat.mod_lt _ (by decide)
  by_cases hb : (some x : nodeptr) = t.begin
  · by_cases hs : d.num % 5 = 1 ∨ d.num % 5 = 2
    · refine ⟨h, rs, _, ?_, hwf, hT, le_refl _, by omega⟩
      simp [random_step, hsize, hn0, hnext, hb, hs, bind, Except.bind, pure, Except.pure]
    · have h12 : d.num % 5 ≠ 1 ∧ d.num % 5 ≠ 2 := by
        constructor <;> intro hh <;> exact hs (by simp [hh])
      rcases (by omega : d.num % 5 = 0 ∨ d.num % 5 = 3 ∨ d.num % 5 = 4) with hq | hq | hq
      · obtain ⟨h1, T1, hev, hw, hs1, _⟩ := hd
        refine ⟨h1, rs, T1, ?_, hw, by omega, le_refl _, by omega⟩
        rw [hb] at hev
        simp [random_step, hsize, hn0, hnext, hb, hq, hev, bind, Except.bind, pure, Except.pure]
      · obtain ⟨h1, it, T1, hev, hw, hs1, _⟩ := ha
        refine ⟨h1, rs + 1, T1, ?_, hw, by omega, by omega, le_refl _⟩
        rw [hb] at hev
        simp [random_step, hsize, hn0, hnext, hb, hq, hev, bind, Except.bind, pure, Except.pure]
      · obtain ⟨h1, it, T1, hev, hw, hs1, _⟩ := hp
        refine ⟨h1, rs + 1, T1, ?_, hw, by omega, by omega, le_refl _⟩
        rw [hb] at hev
        simp [random_step, hsize, hn0, hnext, hb, hq, hev, bind, Except.bind, pure, Except.pure]
  · have hxr : x ≠ r := by
      intro hh
      apply hb
      rw [tree.begin, hroot, hh]
    obtain ⟨hl, hr⟩ := hsib hxr
    rcases (by omega : d.num % 5 = 0 ∨ d.num % 5 = 1 ∨ d.num % 5 = 2 ∨ d.num % 5 = 3 ∨
      d.num % 5 = 4) with hq | hq | hq | hq | hq
    · obtain ⟨h1, T1, hev, hw, hs1, _⟩ := hd
      refine ⟨h1, rs, T1, ?_, hw, by omega, le_refl _, by omega⟩
      simp [random_step, hsize, hn0, hnext, hb, hq, hev, bind, Except.bind, pure, Except.pure]
    · obtain ⟨h1, it, T1, hev, hw, hs1, _⟩ := hl
      refine ⟨h1, rs + 1, T1, ?_, hw, by omega, by omega, le_refl _⟩
      simp [random_step, hsize, hn0, hnext, hb, hq, hev, bind, Except.bind, pure, Except.pure]
    · obtain ⟨h1, it, T1, hev, hw, hs1, _⟩ := hr
      refine ⟨h1, rs + 1, T1, ?_, hw, by omega, by omega, le_refl _⟩
      simp [random_step, hsize, hn0, hnext, hb, hq, hev, bind, Except.bind, pure, Except.pure]
    · obtain ⟨h1, it, T1, hev, hw, hs1, _⟩ := ha
      refine ⟨h1, rs + 1, T1, ?_, hw, by omega, by omega, le_refl _⟩
      simp [random_step, hsize, hn0, hnext, hb, hq, hev, bind, Except.bind, pure, Except.pure]
    · obtain ⟨h1, it, T1, hev, hw, hs1, _⟩ := hp
      refine ⟨h1, rs + 1, T1, ?_, hw, by omega, by omega, le_refl _⟩
      simp [random_step, hsize, hn0, hnext, hb, hq, hev, bind, Except.bind, pure, Except.pure]

theorem random_loop_spec (fuel : Nat) (t : tree) :
    ∀ (draws : List Draw) (i : Int) (h : Heap Int) (rs : Nat) (T : Forest Int),
      well_formed h t T → T.size = rs → 0 < rs → rs + draws.length + 1 ≤ fuel →
      ∃ h1 rs1 T1, random_loop fuel t i draws (h, rs) = .ok (h1, rs1) ∧ well_formed h1 t T1 ∧
        T1.size = rs1 ∧ rs ≤ rs1 ∧ rs1 ≤ rs + draws.length
  | [], _, h, rs, T, hwf, hT, _, _ => ⟨h, rs, T, rfl, hwf, hT, le_refl _, le_refl _⟩
  | d :: ds, i, h, rs, T, hwf, hT, hpos, hfuel => by
    simp only [List.length_cons] at hfuel
    obtain ⟨h1, rs1, T1, hev, hw1, hT1, hle, hle1⟩ :=
      random_step_spec fuel t i d h rs T hwf hT hpos (by omega)
    obtain ⟨h2, rs2, T2, hev2, hw2, hT2, hle2, hle3⟩ :=
      random_loop_spec fuel t ds (i + 1) h1 rs1 T1 hw1 hT1 (by omega) (by omega)
    refine ⟨h2, rs2, T2, ?_, hw2, hT2, by omega, by simp only [List.length_cons]; omega⟩
    simp only [random_loop, hev, hev2]

theorem root_only_well_formed :
    well_formed root_only_heap root_only_tree (.cons 0 0 .nil .nil) := by decide

/-- The assertion at the end of the random test holds for all random numbers. -/
theorem random_test_passes (draws : List Draw) (fuel : Nat) (hfuel : draws.length + 2 ≤ fuel) :
    random_test fuel draws = .ok true := by
  have h1 : tree.ctor ([] : Heap Int) (-1) = .ok
      ([some ⟨none, none, some 1, none, none, some (-1)⟩,
        some ⟨none, some 0, none, none, none, none⟩], ⟨some 0, some 1⟩) := rfl
  have h2 : set_root ([some ⟨none, none, some 1, none, none, some (-1)⟩,
        some ⟨none, some 0, none, none, none, none⟩] : Heap Int) ⟨some 0, some 1⟩ 0
      = .ok (root_only_heap, root_only_tree, some 0) := rfl
  obtain ⟨hh, rs, T, hev, hw, hT, _, hle⟩ := random_loop_spec fuel root_only_tree draws 0
    root_only_heap 1 _ root_only_well_formed rfl (by decide) (by omega)
  have hs := size_spec hh root_only_tree T hw fuel (by omega)
  simp [random_test, h1, h2, hev, hs, hT, bind, Except.bind, pure, Except.pure]

/-- C19: `size()` of a well-formed tree returns the number of its value-holding
nodes (0 for the empty tree). At a node `x` of a well-formed tree with
`kids.size + 1` nodes, `append_child` and `prepend_child`, and for `x` other
than the root also `insert_left` and `insert_right`, succeed and leave a
well-formed tree for which `size()` returns one more; the assignment `*it = w`
leaves one for which `size()` returns the same. The test `random_test.cpp`,
which starts from a root-only tree and counts its insertions in
`resulting_size`, therefore ends with `t.size() == resulting_size` for every
sequence of random numbers. -/
theorem size_counts_value_nodes (h : Heap α) (t : tree) (r : Nat) (v0 : α) (kids : Forest α)
    (x : Nat) (w : α) (hwf : well_formed h t (.cons r v0 kids .nil))
    (hx : x ∈ (Forest.cons r v0 kids .nil).pre) (fuel : Nat) (hfuel : kids.size + 3 ≤ fuel) :
    (∀ (h0 : Heap α) (t0 : tree) (f : Forest α) (F : Nat), well_formed h0 t0 f →
      f.size + 1 ≤ F → size F h0 t0 = .ok f.vals.length) ∧
    size fuel h t = .ok (kids.size + 1) ∧
    (∃ h1 it T1, append_child h t (some x) w = .ok (h1, it) ∧ well_formed h1 t T1 ∧
      T1.size = kids.size + 2 ∧ size fuel h1 t = .ok (kids.size + 2)) ∧
    (∃ h1 it T1, prepend_child h t (some x) w = .ok (h1, it) ∧ well_formed h1 t T1 ∧
      T1.size = kids.size + 2 ∧ size fuel h1 t = .ok (kids.size + 2)) ∧
    (∃ h1 T1, deref_assign h (some x) w = .ok h1 ∧ well_formed h1 t T1 ∧
      T1.size = kids.size + 1 ∧ size fuel h1 t = .ok (kids.size + 1)) ∧
    (x ≠ r →
      (∃ h1 it T1, insert_left h t (some x) w = .ok (h1, it) ∧ well_formed h1 t T1 ∧
        T1.size = kids.size + 2 ∧ size fuel h1 t = .ok (kids.size + 2)) ∧
      (∃ h1 it T1, insert_right h t (some x) w = .ok (h1, it) ∧ well_formed h1 t T1 ∧
        T1.size = kids.size + 2 ∧ size fuel h1 t = .ok (kids.size + 2))) ∧
    (∀ (draws : List Draw) (F : Nat), draws.length + 2 ≤ F →
      random_test F draws = .ok true) := by
  obtain ⟨ha, hp, hd, hsib⟩ := size_after_step h t r v0 kids x w hwf hx fuel hfuel
  refine ⟨?_, ?_, ha, hp, hd, hsib, random_test_passes⟩
  · intro h0 t0 f F hw hF
    rw [vals_length]
    exact size_spec h0 t0 f hw F hF
  · have := size_spec h t _ hwf fuel (by simp only [Forest.size]; omega)
    rw [this]
    simp only [Forest.size]
    congr 1
    omega

theorem size_counts_value_nodes_witness :
    well_formed scenario_heap scenario_tree (.cons 0 0 scenario_kids .nil) ∧
    6 ∈ (Forest.cons 0 0 scenario_kids .nil).pre ∧ scenario_kids.size + 3 ≤ 10 ∧
    (∀ (h0 : Heap Int) (t0 : tree) (f : Forest Int) (F : Nat), well_formed h0 t0 f →
      f.size + 1 ≤ F → size F h0 t0 = .ok f.vals.length) ∧
    size 10 scenario_heap scenario_tree = .ok (scenario_kids.size + 1) ∧
    (∃ h1 it T1, append_child scenario_heap scenario_tree (some 6) 9 = .ok (h1, it) ∧
      well_formed h1 scenario_tree T1 ∧
      T1.size = scenario_kids.size + 2 ∧ size 10 h1 scenario_tree = .ok (scenario_kids.size + 2)) ∧
    (∃ h1 it T1, prepend_child scenario_heap scenario_tree (some 6) 9 = .ok (h1, it) ∧
      well_formed h1 scenario_tree T1 ∧
      T1.size = scenario_kids.size + 2 ∧ size 10 h1 scenario_tree = .ok (scenario_kids.size + 2)) ∧
    (∃ h1 T1, deref_assign scenario_heap (some 6) 9 = .ok h1 ∧ well_formed h1 scenario_tree T1 ∧
      T1.size = scenario_kids.size + 1 ∧ size 10 h1 scenario_tree = .ok (scenario_kids.size + 1)) ∧
    (6 ≠ 0 →
      (∃ h1 it T1, insert_left scenario_heap scenario_tree (some 6) 9 = .ok (h1, it) ∧
        well_formed h1 scenario_tree T1 ∧
        T1.size = scenario_kids.size + 2 ∧
        size 10 h1 scenario_tree = .ok (scenario_kids.size + 2)) ∧
      (∃ h1 it T1, insert_right scenario_heap scenario_tree (some 6) 9 = .ok (h1, it) ∧
        well_formed h1 scenario_tree T1 ∧
        T1.size = scenario_kids.size + 2 ∧
        size 10 h1 scenario_tree = .ok (scenario_kids.size + 2))) ∧
    (∀ (draws : List Draw) (F : Nat), draws.length + 2 ≤ F →
      random_test F draws = .ok true) :=
  ⟨scenario_well_formed, by decide, by decide,
    size_counts_value_nodes scenario_heap scenario_tree 0 0 scenario_kids 6 9
      scenario_well_formed (by decide) 10 (by decide)⟩

/-! ## More fuel gives the same result -/

theorem df_inc_climb_mono (h : Heap α) : ∀ (F F1 : Nat) (n y : nodeptr),
    df_inc_climb F h n = .ok y → F ≤ F1 → df_inc_climb F1 h n = .ok y
  | 0, _, _, _, he, _ => by simp [df_inc_climb] at he
  | F + 1, F1, n, y, he, hle => by
    obtain ⟨m, rfl⟩ : ∃ m, F1 = m + 1 := ⟨F1 - 1, by omega⟩
    simp only [df_inc_climb] at he ⊢
    cases hrd : rd h n with
    | error e => simp [hrd] at he
    | ok nd =>
      simp only [hrd] at he ⊢
      cases hr : nd.right with
      | some r => simpa [hr] using he
      | none =>
        simp only [hr] at he ⊢
        cases hp : nd.parent with
        | none => simpa [hp] using he
        | some p =>
          simp only [hp] at he ⊢
          exact df_inc_climb_mono h F m (some p) y he (by omega)

theorem df_inc_mono (h : Heap α) (F F1 : Nat) (n y : nodeptr)
    (he : df_inc F h n = .ok y) (hle : F ≤ F1) : df_inc F1 h n = .ok y := by
  simp only [df_inc] at he ⊢
  cases hrd : rd h n with
  | error e => simp [hrd] at he
  | ok nd =>
    simp only [hrd] at he ⊢
    cases hc : nd.child_begin with
    | some c => simpa [hc] using he
    | none =>
      simp only [hc] at he ⊢
      exact df_inc_climb_mono h F F1 n y he hle

theorem next_it_mono (h : Heap α) (F F1 : Nat) (hle : F ≤ F1) : ∀ (k : Nat) (n y : nodeptr),
    next_it F h k n = .ok y → next_it F1 h k n = .ok y
  | 0, _, _, he => he
  | k + 1, n, y, he => by
    simp only [next_it] at he ⊢
    cases hd : df_inc F h n with
    | error e => simp [hd] at he
    | ok z =>
      simp only [hd] at he
      simp only [df_inc_mono h F F1 n z hd hle]
      exact next_it_mono h F F1 hle k z y he

theorem p_erase_children_mono : ∀ (F F1 : Nat) (h : Heap α) (n e : nodeptr) (h1 : Heap α),
    p_erase_children F h n e = .ok h1 → F ≤ F1 → p_erase_children F1 h n e = .ok h1
  | 0, _, _, _, _, _, he, _ => by simp [p_erase_children] at he
  | F + 1, F1, h, n, e, h1, he, hle => by
    obtain ⟨m, rfl⟩ : ∃ m, F1 = m + 1 := ⟨F1 - 1, by omega⟩
    have hFm : F ≤ m := by omega
    simp only [p_erase_children] at he ⊢
    by_cases hne : n ≠ e
    · rw [if_pos hne] at he ⊢
      cases hrd : rd h n with
      | error er => simp [hrd] at he
      | ok nd =>
        simp only [hrd] at he ⊢
        cases hc : nd.child_begin with
        | none =>
          simp only [hc] at he ⊢
          cases hrd1 : rd h n with
          | error er => simp [hrd1] at he
          | ok nd1 =>
            simp only [hrd1] at he ⊢
            cases hd : p_node_deallocate h n with
            | error er => simp [hd] at he
            | ok h2 =>
              simp only [hd] at he ⊢
              exact p_erase_children_mono F m h2 nd1.right e h1 he hFm
        | some c =>
          simp only [hc] at he ⊢
          cases hk : p_erase_children F h (some c) nd.child_end with
          | error er => simp [hk] at he
          | ok hk1 =>
            simp only [hk] at he
            simp only [p_erase_children_mono F m h (some c) nd.child_end hk1 hk hFm]
            cases hrd1 : rd hk1 n with
            | error er => simp [hrd1] at he
            | ok nd1 =>
              simp only [hrd1] at he ⊢
              cases hd : p_node_deallocate hk1 n with
              | error er => simp [hd] at he
              | ok h2 =>
                simp only [hd] at he ⊢
                exact p_erase_children_mono F m h2 nd1.right e h1 he hFm
    · rw [if_neg hne] at he ⊢
      cases e with
      | none => exact he
      | some a =>
        simp only at he ⊢
        cases hrd : rd h (some a) with
        | error er => simp [hrd] at he
        | ok nd =>
          simp only [hrd] at he ⊢
          cases hc : nd.child_begin with
          | none => simpa [hc] using he
          | some c =>
            simp only [hc] at he ⊢
            cases hk : p_erase_children F h (some c) nd.child_end with
            | error er => simp [hk] at he
            | ok hk1 =>
              simp only [hk] at he
              simp only [p_erase_children_mono F m h (some c) nd.child_end hk1 hk hFm]
              exact he

theorem erase_mono (F F1 : Nat) (h : Heap α) (t : tree) (it : nodeptr)
    (res : Heap α × tree × nodeptr) (he : erase F h t it = .ok res) (hle : F ≤ F1) :
    erase F1 h t it = .ok res := by
  by_cases hf : it = t.foot
  · simp [erase, hf, bind, Except.bind, throw, throwThe, MonadExceptOf.throw] at he
  · cases hrd : rd h it with
    | error e => simp [erase, hf, hrd, bind, Except.bind, pure, Except.pure] at he
    | ok nd =>
      cases hc : nd.child_begin with
      | none =>
        simp only [erase, hf, hrd, hc, bind, Except.bind, if_false] at he ⊢
        exact he
      | some c =>
        cases hk : p_erase_children F h (some c) nd.child_end with
        | error e => simp [erase, hf, hrd, hc, hk, bind, Except.bind, pure, Except.pure] at he
        | ok hk1 =>
          have hm := p_erase_children_mono F F1 h (some c) nd.child_end hk1 hk hle
          simp only [erase, hf, hrd, hc, hk, bind, Except.bind, if_false] at he
          simp only [erase, hf, hrd, hc, hm, bind, Except.bind, if_false]
          exact he

theorem clear_mono (F F1 : Nat) (h : Heap α) (t : tree) (res : Heap α × tree)
    (he : clear F h t = .ok res) (hle : F ≤ F1) : clear F1 h t = .ok res := by
  by_cases hf : t.root = t.foot
  · simpa [clear, hf] using he
  · simp only [clear, hf, if_false] at he ⊢
    cases hk : erase F h t t.root with
    | error e => simp [hk] at he
    | ok r =>
      simp only [hk] at he
      simp only [erase_mono F F1 h t t.root r hk hle]
      exact he

/-! ## The link invariants of a well-formed tree -/

theorem owns_tops (h : Heap α) (p : nodeptr) : ∀ (f : Forest α) (l : nodeptr),
    owns h p l f none →
    f.tops.head? = f.first ∧ f.tops.getLast? = f.last ∧
    List.Chain' (fun c d => ∃ ndc, h[c]? = some (some ndc) ∧ ndc.right = some d) f.tops ∧
    (∀ c ∈ f.tops, ∃ ndc, h[c]? = some (some ndc) ∧ ndc.parent = p) ∧
    (∀ c ndc, f.tops.head? = some c → h[c]? = some (some ndc) → ndc.left = l) ∧
    (∀ c ndc, f.tops.getLast? = some c → h[c]? = some (some ndc) → ndc.right = none) := by
  intro f
  induction f with
  | nil =>
    intro l _
    simp [Forest.tops, Forest.first, Forest.last]
  | cons a v k r _ ihr =>
    intro l ho
    obtain ⟨hc, _, hr⟩ := ho
    obtain ⟨i1, i2, i3, i4, i5, i6⟩ := ihr (some a) hr
    refine ⟨rfl, ?_, ?_, ?_, ?_, ?_⟩
    · cases r with
      | nil => rfl
      | cons b w kb rb =>
        simp only [Forest.tops, Forest.last] at i2 ⊢
        rw [List.getLast?_cons_cons]
        exact i2
    · cases r with
      | nil => simp [Forest.tops]
      | cons b w kb rb =>
        simp only [Forest.tops] at i3 ⊢
        exact List.Chain'.cons ⟨_, hc, rfl⟩ i3
    · intro c hcm
      simp only [Forest.tops, List.mem_cons] at hcm
      rcases hcm with rfl | hcm
      · exact ⟨_, hc, rfl⟩
      · exact i4 c hcm
    · intro c ndc hh hcell
      simp only [Forest.tops, List.head?_cons, Option.some.injEq] at hh
      subst hh
      rw [hc] at hcell
      cases hcell
      rfl
    · intro c ndc hh hcell
      cases r with
      | nil =>
        simp only [Forest.tops, List.getLast?_singleton, Option.some.injEq] at hh
        subst hh
        rw [hc] at hcell
        cases hcell
        rfl
      | cons b w kb rb =>
        simp only [Forest.tops] at hh i6
        rw [List.getLast?_cons_cons] at hh
        exact i6 c ndc hh hcell

theorem owns_links (h : Heap α) : ∀ (f : Forest α) (p l stop : nodeptr),
    owns h p l f stop →
    (∀ L, l = some L → ∃ ndl, h[L]? = some (some ndl) ∧ ndl.right = f.firstOr stop) →
    (∀ S, stop = some S → ∃ nds, h[S]? = some (some nds) ∧
      nds.left = (match f.last with | some c => some c | none => l)) →
    ∀ a ∈ f.pre, links_ok h a ∧ children_ok h a := by
  intro f
  induction f with
  | nil => intro p l stop _ _ _ a ha; simp [Forest.pre] at ha
  | cons a v k r ihk ihr =>
    intro p l stop ho h1 h2 x hx
    obtain ⟨hc, hk, hr⟩ := ho
    simp only [Forest.pre, List.mem_cons, List.mem_append] at hx
    rcases hx with rfl | hx | hx
    · refine ⟨?_, ?_⟩
      · intro nd hnd
        rw [hc] at hnd
        cases hnd
        refine ⟨fun L hL => ?_, fun R hR => ?_⟩
        · exact h1 L hL
        · cases r with
          | nil =>
            obtain ⟨nds, hs, hsl⟩ := h2 R hR
            exact ⟨nds, hs, hsl⟩
          | cons b w kb rb =>
            simp only [Forest.firstOr, Option.some.injEq] at hR
            subst hR
            exact ⟨_, hr.1, rfl⟩
      · intro nd hnd
        rw [hc] at hnd
        cases hnd
        refine ⟨by simp only [first_eq_none, last_eq_none], fun _ => ?_⟩
        obtain ⟨i1, i2, i3, i4, i5, i6⟩ := owns_tops h (some x) k none hk
        exact ⟨k.tops, i1, i2, i3, i4, i5, i6⟩
    · exact ihk (some a) none none hk (fun L hL => by cases hL) (fun S hS => by cases hS) x hx
    · refine ihr p (some a) stop hr ?_ ?_ x hx
      · intro L hL
        cases hL
        exact ⟨_, hc, rfl⟩
      · intro S hS
        obtain ⟨nds, hs, hsl⟩ := h2 S hS
        refine ⟨nds, hs, ?_⟩
        rw [hsl, last_cons_eq]
        cases r.last <;> rfl

theorem well_formed_links (h : Heap α) (t : tree) (f : Forest α) (hwf : well_formed h t f) :
    ∀ a ∈ t.nodes f, links_ok h a ∧ children_ok h a := by
  cases f with
  | nil =>
    intro a ha
    obtain ⟨_, hfoot⟩ := hwf
    cases hf : t.foot with
    | none => simp [tree.nodes, hf, Forest.pre] at ha
    | some e =>
      rw [hf] at hfoot
      simp only [tree.nodes, hf, Forest.pre, Option.toList, List.append_nil,
        List.mem_singleton] at ha
      subst ha
      refine ⟨?_, ?_⟩
      · intro nd hnd
        rw [hfoot] at hnd
        cases hnd
        exact ⟨fun l hl => (by cases hl), fun r hr => (by cases hr)⟩
      · intro nd hnd
        rw [hfoot] at hnd
        cases hnd
        exact ⟨Iff.rfl, fun hh => (hh rfl).elim⟩
  | cons r v kids rest =>
    cases rest with
    | cons _ _ _ _ => exact hwf.elim
    | nil =>
      obtain ⟨e, _, hf, hown, he, _⟩ := well_formed_cons hwf
      intro a ha
      simp only [tree.nodes, hf, Option.toList, List.singleton_append, List.mem_cons] at ha
      rcases ha with rfl | ha
      · refine ⟨?_, ?_⟩
        · intro nd hnd
          rw [he] at hnd
          cases hnd
          refine ⟨fun l hl => ?_, fun r hr => by cases hr⟩
          simp only [Option.some.injEq] at hl
          subst hl
          exact ⟨_, hown.1, rfl⟩
        · intro nd hnd
          rw [he] at hnd
          cases hnd
          exact ⟨Iff.rfl, fun hh => (hh rfl).elim⟩
      · exact owns_links h _ none none (some e) hown (fun L hL => by cases hL)
          (fun S hS => by
            cases hS
            exact ⟨_, he, rfl⟩) a ha

/-! ## Iterators found from `begin()` -/

theorem next_it_in_chain (F : Nat) (h : Heap α) :
    ∀ (k : Nat) (x : nodeptr) (l : List nodeptr) (a : Nat),
      List.Chain' (fun a b => df_inc F h a = .ok b) (x :: l) →
      (∀ y, df_inc F h ((x :: l).getLast (by simp)) = .ok y → y = none) →
      next_it F h k x = .ok (some a) → some a ∈ x :: l
  | 0, x, l, a, _, _, hn => by
    simp only [next_it, Except.ok.injEq] at hn
    simp [hn]
  | k + 1, x, [], a, _, hlast, hn => by
    exfalso
    simp only [next_it] at hn
    cases hd : df_inc F h x with
    | error e => simp [hd] at hn
    | ok y =>
      have hy := hlast y (by simpa using hd)
      subst hy
      simp only [hd] at hn
      cases k with
      | zero => simp [next_it] at hn
      | succ k => simp [next_it, df_inc, rd] at hn
  | k + 1, x, z :: l, a, hc, hlast, hn => by
    rw [List.chain'_cons] at hc
    simp only [next_it, hc.1] at hn
    have := next_it_in_chain F h k z l a hc.2 (by simpa using hlast) hn
    exact List.mem_cons_of_mem _ this

theorem df_inc_end (h : Heap α) (t : tree) (f : Forest α) (hwf : well_formed h t f)
    (F : Nat) (y : nodeptr) (hd : df_inc F h t.end_ = .ok y) : y = none := by
  have hcell : t.foot = none ∨ ∃ e l, t.foot = some e ∧
      h[e]? = some (some ⟨none, l, none, none, none, none⟩) := by
    cases f with
    | nil =>
      cases hf : t.foot with
      | none => exact Or.inl rfl
      | some e =>
        have := hwf.2
        rw [hf] at this
        exact Or.inr ⟨e, none, rfl, this⟩
    | cons r v kids rest =>
      cases rest with
      | cons _ _ _ _ => exact hwf.elim
      | nil =>
        obtain ⟨e, _, hf, _, he, _⟩ := well_formed_cons hwf
        exact Or.inr ⟨e, some r, hf, he⟩
  rcases hcell with hf | ⟨e, l, hf, he⟩
  · simp [df_inc, tree.end_, hf, rd] at hd
  · cases F with
    | zero => simp [df_inc, tree.end_, hf, rd, he, df_inc_climb] at hd
    | succ F =>
      simp [df_inc, tree.end_, hf, rd, he, df_inc_climb] at hd
      exact hd.symm

/-- An iterator found by `std::next(begin(), k)` stands on a node of the
tree. -/
theorem next_it_nodes (h : Heap α) (t : tree) (f : Forest α) (hwf : well_formed h t f)
    (fuel k a : Nat) (hn : next_it fuel h k t.begin = .ok (some a)) : a ∈ t.nodes f := by
  have hn1 := next_it_mono h fuel (max fuel (f.size + 1)) (le_max_left _ _) k _ _ hn
  obtain ⟨hb, hc, _, _⟩ := traversal_of_well_formed hwf (max fuel (f.size + 1))
    (le_max_right _ _)
  obtain ⟨x, tl, hx⟩ : ∃ x tl, f.pre.map some ++ [t.end_] = x :: tl := by
    cases f.pre.map some with
    | nil => exact ⟨_, _, rfl⟩
    | cons b q => exact ⟨_, _, rfl⟩
  have hbx : t.begin = x := by
    rw [hb]
    simp only [hx, List.head_cons]
  have hlast : (x :: tl).getLast (by simp) = t.end_ := by
    have : (f.pre.map some ++ [t.end_]).getLast (by simp) = t.end_ := by simp
    simpa [hx] using this
  rw [hbx] at hn1
  have hm := next_it_in_chain _ h k x tl a (hx ▸ hc)
    (fun y hy => df_inc_end h t f hwf _ y (hlast ▸ hy)) hn1
  rw [← hx] at hm
  simp only [List.mem_append, List.mem_map, List.mem_singleton] at hm
  rcases hm with ⟨b, hb1, hb2⟩ | hm
  · cases hb2
    simp [tree.nodes, hb1]
  · simp [tree.nodes, tree.end_] at hm ⊢
    left
    rw [← hm]

theorem node_of_iterator (h : Heap α) (t : tree) (f : Forest α) (hwf : well_formed h t f)
    (fuel k x : Nat) (hn : next_it fuel h k t.begin = .ok (some x))
    (hxe : (some x : nodeptr) ≠ t.end_) :
    ∃ r v0 kids, f = .cons r v0 kids .nil ∧ x ∈ f.pre ∧ t.begin = some r := by
  have hm := next_it_nodes h t f hwf fuel k x hn
  have hx : x ∈ f.pre := by
    simp only [tree.nodes, List.mem_append] at hm
    rcases hm with hm | hm
    · exfalso
      apply hxe
      cases hf : t.foot with
      | none => simp [hf] at hm
      | some e =>
        simp only [hf, Option.toList, List.mem_singleton] at hm
        rw [tree.end_, hf, hm]
    · exact hm
  have hpos : 0 < f.size := by
    rw [← pre_length]
    exact List.length_pos_of_mem hx
  obtain ⟨r, v0, kids, rfl⟩ := well_formed_shape hwf hpos
  obtain ⟨_, hroot, _⟩ := well_formed_cons hwf
  exact ⟨r, v0, kids, rfl, hx, hroot⟩

/-! ## Reachable trees are well-formed -/

theorem ctor_well_formed (h0 h : Heap α) (t : tree) (v : α)
    (hc : tree.ctor h0 v = .ok (h, t)) : ∃ f, well_formed h t f := by
  have hw0 : well_formed (h0 ++ [some ⟨none, none, none, none, none, none⟩])
      ⟨some h0.length, some h0.length⟩ (.nil : Forest α) := by
    refine ⟨rfl, ?_⟩
    simp
  obtain ⟨h1, hev, hw1, _⟩ := set_root_empty _ _ h0.length v hw0 rfl
  simp only [tree.ctor, p_init, p_node_allocate, hev, bind, Except.bind, pure, Except.pure,
    Except.ok.injEq, Prod.mk.injEq] at hc
  obtain ⟨rfl, rfl⟩ := hc
  exact ⟨_, hw1⟩

theorem set_root_well_formed (h h1 : Heap α) (t t1 : tree) (v : α) (it : nodeptr)
    (f : Forest α) (hwf : well_formed h t f) (hs : set_root h t v = .ok (h1, t1, it)) :
    ∃ f1, well_formed h1 t1 f1 := by
  cases f with
  | nil =>
    cases hf : t.foot with
    | none =>
      have hr : t.root = none := hwf.1.trans hf
      simp [set_root, hr, hf, p_node_allocate, wr, rd, bind, Except.bind] at hs
    | some e =>
      obtain ⟨h2, hev, hw, _⟩ := set_root_empty h t e v hwf hf
      rw [hev] at hs
      simp only [Except.ok.injEq, Prod.mk.injEq] at hs
      obtain ⟨rfl, rfl, _⟩ := hs
      exact ⟨_, hw⟩
  | cons r v0 kids rest =>
    cases rest with
    | cons _ _ _ _ => exact hwf.elim
    | nil =>
      obtain ⟨h2, hev, hw, _⟩ := set_root_nonempty h t r v0 v kids hwf
      rw [hev] at hs
      simp only [Except.ok.injEq, Prod.mk.injEq] at hs
      obtain ⟨rfl, rfl, _⟩ := hs
      exact ⟨_, hw⟩

theorem erase_well_formed (h h1 : Heap α) (t t1 : tree) (F x : Nat) (bak : nodeptr)
    (r : Nat) (v0 : α) (kids : Forest α) (hwf : well_formed h t (.cons r v0 kids .nil))
    (hx : x ∈ (Forest.cons r v0 kids .nil).pre)
    (he : erase F h t (some x) = .ok (h1, t1, bak)) : ∃ f1, well_formed h1 t1 f1 := by
  have hm := erase_mono F (max F (kids.size + 1)) h t (some x) _ he (le_max_left _ _)
  by_cases hxr : x = r
  · subst hxr
    obtain ⟨h2, e, _, hev, hw, _⟩ := erase_root_spec h t x v0 kids hwf _ (le_max_right _ _)
    rw [hev] at hm
    simp only [Except.ok.injEq, Prod.mk.injEq] at hm
    obtain ⟨rfl, rfl, _⟩ := hm
    exact ⟨_, hw⟩
  · obtain ⟨h2, C0, P, vp, restP, R, v, kx, rx, nd, _, _, _, _, _, _, hev, hw, _⟩ :=
      erase_spec h t r v0 kids x hwf hx hxr _ (le_max_right _ _)
    rw [hev] at hm
    simp only [Except.ok.injEq, Prod.mk.injEq] at hm
    obtain ⟨rfl, rfl, _⟩ := hm
    exact ⟨_, hw⟩

theorem reachable_well_formed (h : Heap α) (t : tree) (hr : reachable h t) :
    ∃ f, well_formed h t f := by
  induction hr with
  | ctor h0 h t v hc => exact ctor_well_formed h0 h t v hc
  | set_root h h1 t t1 v it _ hs ih =>
    obtain ⟨f, hwf⟩ := ih
    exact set_root_well_formed h h1 t t1 v it f hwf hs
  | insert_left h h1 t fuel k x v it _ hn hop ih =>
    obtain ⟨f, hwf⟩ := ih
    have hxe : (some x : nodeptr) ≠ t.end_ := by
      intro hh
      simp [insert_left, hh, bind, Except.bind, throw, throwThe, MonadExceptOf.throw] at hop
      split_ifs at hop
      simp [pure, Except.pure] at hop
    obtain ⟨r, v0, kids, rfl, hx, hb⟩ := node_of_iterator h t f hwf fuel k x hn hxe
    have hxr : x ≠ r := by
      rintro rfl
      simp [insert_left, hb, bind, Except.bind, throw, throwThe, MonadExceptOf.throw] at hop
    obtain ⟨h2, _, hev, hw, _⟩ := insert_left_spec h t r v0 kids x v hwf hx hxr
    rw [hev] at hop
    simp only [Except.ok.injEq, Prod.mk.injEq] at hop
    obtain ⟨rfl, _⟩ := hop
    exact ⟨_, hw⟩
  | insert_right h h1 t fuel k x v it _ hn hop ih =>
    obtain ⟨f, hwf⟩ := ih
    have hxe : (some x : nodeptr) ≠ t.end_ := by
      intro hh
      simp [insert_right, hh, bind, Except.bind, throw, throwThe, MonadExceptOf.throw] at hop
      split_ifs at hop
      simp [pure, Except.pure] at hop
    obtain ⟨r, v0, kids, rfl, hx, hb⟩ := node_of_iterator h t f hwf fuel k x hn hxe
    have hxr : x ≠ r := by
      rintro rfl
      simp [insert_right, hb, bind, Except.bind, throw, throwThe, MonadExceptOf.throw] at hop
    obtain ⟨h2, _, hev, hw, _⟩ := insert_right_spec h t r v0 kids x v hwf hx hxr
    rw [hev] at hop
    simp only [Except.ok.injEq, Prod.mk.injEq] at hop
    obtain ⟨rfl, _⟩ := hop
    exact ⟨_, hw⟩
  | append_child h h1 t fuel k x v it _ hn hop ih =>
    obtain ⟨f, hwf⟩ := ih
    have hxe : (some x : nodeptr) ≠ t.end_ := by
      intro hh
      simp [append_child, hh, bind, Except.bind, throw, throwThe, MonadExceptOf.throw] at hop
    obtain ⟨r, v0, kids, rfl, hx, _⟩ := node_of_iterator h t f hwf fuel k x hn hxe
    obtain ⟨h2, _, hev, hw, _⟩ := append_child_spec h t r v0 kids x v hwf hx
    rw [hev] at hop
    simp only [Except.ok.injEq, Prod.mk.injEq] at hop
    obtain ⟨rfl, _⟩ := hop
    exact ⟨_, hw⟩
  | prepend_child h h1 t fuel k x v it _ hn hop ih =>
    obtain ⟨f, hwf⟩ := ih
    have hxe : (some x : nodeptr) ≠ t.end_ := by
      intro hh
      simp [prepend_child, hh, bind, Except.bind, throw, throwThe, MonadExceptOf.throw] at hop
    obtain ⟨r, v0, kids, rfl, hx, _⟩ := node_of_iterator h t f hwf fuel k x hn hxe
    obtain ⟨h2, _, hev, hw, _⟩ := prepend_child_spec h t r v0 kids x v hwf hx
    rw [hev] at hop
    simp only [Except.ok.injEq, Prod.mk.injEq] at hop
    obtain ⟨rfl, _⟩ := hop
    exact ⟨_, hw⟩
  | erase h h1 t t1 fuel k x F bak _ hn hop ih =>
    obtain ⟨f, hwf⟩ := ih
    have hxe : (some x : nodeptr) ≠ t.end_ := by
      intro hh
      simp [erase, tree.end_] at hh
      simp [erase, hh, bind, Except.bind, throw, throwThe, MonadExceptOf.throw] at hop
    obtain ⟨r, v0, kids, rfl, hx, _⟩ := node_of_iterator h t f hwf fuel k x hn hxe
    exact erase_well_formed h h1 t t1 F x bak r v0 kids hwf hx hop
  | clear h h1 t t1 F _ hop ih =>
    obtain ⟨f, hwf⟩ := ih
    by_cases hrf : t.root = t.foot
    · simp only [clear, hrf, if_true, Except.ok.injEq, Prod.mk.injEq] at hop
      obtain ⟨rfl, rfl⟩ := hop
      exact ⟨f, hwf⟩
    · simp only [clear, hrf, if_false] at hop
      cases f with
      | nil => exact (hrf hwf.1).elim
      | cons r v0 kids rest =>
        cases rest with
        | cons _ _ _ _ => exact hwf.elim
        | nil =>
          obtain ⟨_, hroot, _⟩ := well_formed_cons hwf
          cases hk : erase F h t t.root with
          | error e => simp [hk] at hop
          | ok res =>
            obtain ⟨h2, t2, bak⟩ := res
            simp only [hk, Except.ok.injEq, Prod.mk.injEq] at hop
            obtain ⟨rfl, rfl⟩ := hop
            rw [hroot] at hk
            exact erase_well_formed h h2 t t2 F r bak r v0 kids hwf (by simp [Forest.pre]) hk

theorem edit_reachable : reachable edit_heap3 root_only_tree :=
  reachable.erase edit_heap2 edit_heap3 root_only_tree root_only_tree 4 2 2 4 (some 0)
    (reachable.insert_left edit_heap1 edit_heap2 root_only_tree 4 1 2 2 (some 3)
      (reachable.append_child root_only_heap edit_heap1 root_only_tree 4 0 0 1 (some 2)
        (reachable.ctor [] root_only_heap root_only_tree 0 rfl) rfl rfl)
      rfl rfl)
    rfl rfl

/-- C20: every heap and tree object reachable from a constructed tree by calls
of `set_root`, `insert_left`, `insert_right`, `append_child`, `prepend_child`,
`erase` and `clear` that return, with iterators found from `begin()`,
represents a forest (is well-formed), and at every node of the tree, the
sentinel included, and so at every node an iterator found from `begin()`
stands on, the invariants I1 (`links_ok`: a left or right neighbour links
back) and I2 (`children_ok`: `child_begin` and `child_end` are both null or
bound a chain of `right` links through nodes with this parent, with no `left`
before and no `right` behind it) hold. -/
theorem reachable_trees_keep_links (h : Heap α) (t : tree) (hr : reachable h t) :
    ∃ f, well_formed h t f ∧
      (∀ a ∈ t.nodes f, links_ok h a ∧ children_ok h a) ∧
      (∀ fuel k a, next_it fuel h k t.begin = .ok (some a) →
        links_ok h a ∧ children_ok h a) := by
  obtain ⟨f, hwf⟩ := reachable_well_formed h t hr
  have hl := well_formed_links h t f hwf
  exact ⟨f, hwf, hl, fun fuel k a hn => hl a (next_it_nodes h t f hwf fuel k a hn)⟩

theorem reachable_trees_keep_links_witness :
    reachable edit_heap3 root_only_tree ∧
    ∃ f, well_formed edit_heap3 root_only_tree f ∧
      (∀ a ∈ root_only_tree.nodes f, links_ok edit_heap3 a ∧ children_ok edit_heap3 a) ∧
      (∀ fuel k a, next_it fuel edit_heap3 k root_only_tree.begin = .ok (some a) →
        links_ok edit_heap3 a ∧ children_ok edit_heap3 a) :=
  ⟨edit_reachable, reachable_trees_keep_links edit_heap3 root_only_tree edit_reachable⟩

/-! ## The scenario of the tests -/

/-- C24: the calls of the tests (`tree_ tree; set_root(0); append_child(it0, 1);
append_child(it0, 2); append_child(it2, 3); append_child(it2, 4);
append_child(it0, 5); insert_left(it3, 6); insert_right(it5, 7)`) all return
and build `scenario_heap`; `df_iterator::operator++` from `begin()` reaches
`end()` after 8 steps over nodes holding 0,1,2,6,3,4,5,7; a `bf_iterator` from
`begin()` reaches `end()` after 8 steps over nodes holding 0,1,2,5,7,6,3,4;
`size()` is 8 and exactly 8 values are alive. -/
theorem scenario_orders :
    scenario = .ok (scenario_heap, scenario_tree) ∧
    run (df_inc 9 scenario_heap) 8 scenario_tree.begin
      = .ok ([some 0, some 2, some 3, some 7, some 4, some 5, some 6, some 8]
          ++ [scenario_tree.end_]) ∧
    [some 0, some 2, some 3, some 7, some 4, some 5, some 6, some 8].map
        (fun a => deref scenario_heap a)
      = [0, 1, 2, 6, 3, 4, 5, 7].map .ok ∧
    bf_run scenario_heap 8 (bf_iterator.ctor scenario_tree.begin)
      = .ok ([some 0, some 2, some 3, some 6, some 8, some 7, some 4, some 5]
          ++ [scenario_tree.end_]) ∧
    [some 0, some 2, some 3, some 6, some 8, some 7, some 4, some 5].map
        (fun a => deref scenario_heap a)
      = [0, 1, 2, 5, 7, 6, 3, 4].map .ok ∧
    size 9 scenario_heap scenario_tree = .ok 8 ∧
    live_values scenario_heap = 8 :=
  ⟨rfl, rfl, rfl, rfl, rfl, rfl, rfl⟩

/-! ## Distances between nodes -/

/-- C27: in the scenario tree the node holding 2 is the parent of the node
holding 6, yet `depth_between` from the node holding 6 to the node holding 2
returns 0 and `is_parent_to` returns false: the loop climbs to the top of the
parent chain and compares only that node, the root, with `rhs`. To the root the
same start gives 2. -/
theorem depth_between_misses_inner_ancestor :
    well_formed scenario_heap scenario_tree (.cons 0 0 scenario_kids .nil) ∧
    rd scenario_heap (some 7) = .ok ⟨some 3, none, some 4, none, none, some 6⟩ ∧
    deref scenario_heap (some 3) = .ok 2 ∧
    depth_between 9 scenario_heap (some 7) (some 3) = .ok 0 ∧
    is_parent_to 9 scenario_heap (some 7) (some 3) = .ok false ∧
    depth_between 9 scenario_heap (some 7) (some 0) = .ok 2 :=
  ⟨by decide, rfl, rfl, rfl, rfl, rfl⟩

/-- C28: in the scenario tree the node holding 2 is the right sibling of the
node holding 1, yet `breadth_between` from the node holding 1 to the node
holding 2 returns 0, `is_right_to` returns false and `is_left_to` with the
arguments exchanged returns false: the loop walks to the end of the `right`
chain and compares only that node, the last sibling, with `rhs`. To the last
sibling, the node holding 7, the same start gives 3. -/
theorem breadth_between_misses_inner_sibling :
    well_formed scenario_heap scenario_tree (.cons 0 0 scenario_kids .nil) ∧
    rd scenario_heap (some 2) = .ok ⟨some 0, none, some 3, none, none, some 1⟩ ∧
    deref scenario_heap (some 3) = .ok 2 ∧
    breadth_between 9 scenario_heap (some 2) (some 3) = .ok 0 ∧
    is_right_to 9 scenario_heap (some 2) (some 3) = .ok false ∧
    is_left_to 9 scenario_heap (some 3) (some 2) = .ok false ∧
    breadth_between 9 scenario_heap (some 2) (some 8) = .ok 3 :=
  ⟨by decide, rfl, rfl, rfl, rfl, rfl, rfl⟩

/-- C22: on a well-formed tree, for every node x of it (the sentinel
included), insert_left and insert_right fail their assertion (the call
returns no heap: nothing is allocated or written) exactly when x is the root
(begin()) or the sentinel (end()); for every other node both return a new heap
and an iterator. -/
theorem insert_sibling_rejected_iff (h : Heap α) (t : tree) (f : Forest α)
    (hwf : well_formed h t f) (x : Nat) (hx : x ∈ t.nodes f) (v : α) :
    (insert_left h t (some x) v = .error .assert_fail ↔
        (some x = t.begin ∨ some x = t.end_)) ∧
      (insert_right h t (some x) v = .error .assert_fail ↔
        (some x = t.begin ∨ some x = t.end_)) ∧
      (¬ (some x = t.begin ∨ some x = t.end_) →
        (∃ h1 it, insert_left h t (some x) v = .ok (h1, it)) ∧
        (∃ h1 it, insert_right h t (some x) v = .ok (h1, it))) := by
  by_cases hbe : some x = t.begin ∨ some x = t.end_
  · refine ⟨⟨fun _ => hbe, fun _ => ?_⟩, ⟨fun _ => hbe, fun _ => ?_⟩, fun hh => (hh hbe).elim⟩
    · rcases hbe with hb | he
      · simp [insert_left, hb, bind, Except.bind, throw, throwThe, MonadExceptOf.throw]
      · simp [insert_left, he, bind, Except.bind, throw, throwThe, MonadExceptOf.throw, pure, Except.pure]
    · rcases hbe with hb | he
      · simp [insert_right, hb, bind, Except.bind, throw, throwThe, MonadExceptOf.throw]
      · simp [insert_right, he, bind, Except.bind, throw, throwThe, MonadExceptOf.throw, pure, Except.pure]
  · have hbe0 := hbe
    simp only [not_or] at hbe
    obtain ⟨hb, he⟩ := hbe
    cases f with
    | nil =>
      cases hf : t.foot with
      | none => simp [tree.nodes, hf, Forest.pre] at hx
      | some e =>
        simp [tree.nodes, hf, Forest.pre] at hx
        subst hx
        exact (he hf.symm).elim
    | cons r v0 kids rest =>
      cases rest with
      | cons _ _ _ _ => exact hwf.elim
      | nil =>
        obtain ⟨e, hroot, hf, _⟩ := well_formed_cons hwf
        have hxe : x ≠ e := fun hh => he (by rw [hh]; exact hf.symm)
        have hxr : x ≠ r := fun hh => hb (by rw [hh]; exact hroot.symm)
        have hxp : x ∈ (Forest.cons r v0 kids .nil).pre := by
          simp only [tree.nodes, hf, Option.toList, List.singleton_append, List.mem_cons] at hx
          rcases hx with hx | hx
          · exact (hxe hx).elim
          · exact hx
        obtain ⟨h1, _, hev1, _⟩ := insert_left_spec h t r v0 kids x v hwf hxp hxr
        obtain ⟨h2, _, hev2, _⟩ := insert_right_spec h t r v0 kids x v hwf hxp hxr
        refine ⟨⟨fun hh => ?_, fun hh => (hbe0 hh).elim⟩, ⟨fun hh => ?_, fun hh => (hbe0 hh).elim⟩,
          fun _ => ⟨⟨_, _, hev1⟩, ⟨_, _, hev2⟩⟩⟩
        · rw [hev1] at hh; cases hh
        · rw [hev2] at hh; cases hh

theorem insert_sibling_rejected_iff_witness :
    (insert_left scenario_heap scenario_tree (some 3) 9 = .error .assert_fail ↔
        (some 3 = scenario_tree.begin ∨ some 3 = scenario_tree.end_)) ∧
      (insert_right scenario_heap scenario_tree (some 3) 9 = .error .assert_fail ↔
        (some 3 = scenario_tree.begin ∨ some 3 = scenario_tree.end_)) ∧
      (¬ (some 3 = scenario_tree.begin ∨ some 3 = scenario_tree.end_) →
        (∃ h1 it, insert_left scenario_heap scenario_tree (some 3) 9 = .ok (h1, it)) ∧
        (∃ h1 it, insert_right scenario_heap scenario_tree (some 3) 9 = .ok (h1, it))) :=
  insert_sibling_rejected_iff scenario_heap scenario_tree (.cons 0 0 scenario_kids .nil)
    (by decide) 3 (by decide) 9

theorem owns_closed (h : Heap α) : ∀ (f : Forest α) (p l stop : nodeptr),
    owns h p l f stop → ∀ a ∈ f.pre, ∀ nd, h[a]? = some (some nd) →
      ∀ x ∈ [nd.parent, nd.left, nd.right, nd.child_begin, nd.child_end],
        x = none ∨ x = p ∨ x = l ∨ x = stop ∨ ∃ q ∈ f.pre, x = some q := by
  intro f
  induction f with
  | nil => intro p l stop _ a ha; simp [Forest.pre] at ha
  | cons a v kids rest ihk ihr =>
    intro p l stop ho a1 ha1 nd hnd x hx
    obtain ⟨hc, hk, hr⟩ := ho
    simp only [Forest.pre, List.mem_cons, List.mem_append] at ha1
    rcases ha1 with rfl | ha1 | ha1
    · rw [hc] at hnd
      simp only [Option.some.injEq] at hnd
      subst hnd
      simp only [List.mem_cons, List.mem_singleton, List.not_mem_nil, or_false] at hx
      rcases hx with rfl | rfl | rfl | rfl | rfl
      · exact Or.inr (Or.inl rfl)
      · exact Or.inr (Or.inr (Or.inl rfl))
      · cases rest with
        | nil => exact Or.inr (Or.inr (Or.inr (Or.inl rfl)))
        | cons b w kb rb =>
          exact Or.inr (Or.inr (Or.inr (Or.inr ⟨b, by simp [Forest.pre], rfl⟩)))
      · cases hkf : kids.first with
        | none => exact Or.inl rfl
        | some c =>
          exact Or.inr (Or.inr (Or.inr (Or.inr ⟨c, by
            have := first_mem kids c hkf
            simp [Forest.pre, this], rfl⟩)))
      · cases hkl : kids.last with
        | none => exact Or.inl rfl
        | some c =>
          exact Or.inr (Or.inr (Or.inr (Or.inr ⟨c, by
            have := last_mem kids c hkl
            simp [Forest.pre, this], rfl⟩)))
    · rcases ihk (some a) none none hk a1 ha1 nd hnd x hx with h1 | h1 | h1 | h1 | ⟨q, hq, h1⟩
      · exact Or.inl h1
      · exact Or.inr (Or.inr (Or.inr (Or.inr ⟨a, by simp [Forest.pre], h1⟩)))
      · exact Or.inl h1
      · exact Or.inl h1
      · exact Or.inr (Or.inr (Or.inr (Or.inr ⟨q, by simp [Forest.pre, hq], h1⟩)))
    · rcases ihr p (some a) stop hr a1 ha1 nd hnd x hx with h1 | h1 | h1 | h1 | ⟨q, hq, h1⟩
      · exact Or.inl h1
      · exact Or.inr (Or.inl h1)
      · exact Or.inr (Or.inr (Or.inr (Or.inr ⟨a, by simp [Forest.pre], h1⟩)))
      · exact Or.inr (Or.inr (Or.inr (Or.inl h1)))
      · exact Or.inr (Or.inr (Or.inr (Or.inr ⟨q, by simp [Forest.pre, hq], h1⟩)))


theorem well_formed_closed (h : Heap α) (t : tree) (f : Forest α) (hwf : well_formed h t f) :
    ∀ a ∈ t.nodes f, ∀ nd, h[a]? = some (some nd) →
      ∀ x ∈ [nd.parent, nd.left, nd.right, nd.child_begin, nd.child_end],
        x = none ∨ ∃ q ∈ t.nodes f, x = some q := by
  intro a ha nd hnd x hx
  cases f with
  | nil =>
    cases hf : t.foot with
    | none => simp [tree.nodes, hf, Forest.pre] at ha
    | some e =>
      have hw := hwf.2
      simp only [hf] at hw
      simp [tree.nodes, hf, Forest.pre] at ha
      subst ha
      rw [hw] at hnd
      simp only [Option.some.injEq] at hnd
      subst hnd
      simp only [List.mem_cons, List.mem_singleton, List.not_mem_nil, or_false] at hx
      rcases hx with rfl | rfl | rfl | rfl | rfl <;> exact Or.inl rfl
  | cons r v0 kids rest =>
    cases rest with
    | cons _ _ _ _ => exact hwf.elim
    | nil =>
      obtain ⟨e, hroot, hf, ho, hce, hnd0⟩ := well_formed_cons hwf
      simp only [tree.nodes, hf, Option.toList, List.singleton_append, List.mem_cons] at ha
      rcases ha with rfl | ha
      · rw [hce] at hnd
        simp only [Option.some.injEq] at hnd
        subst hnd
        simp only [List.mem_cons, List.mem_singleton, List.not_mem_nil, or_false] at hx
        rcases hx with rfl | rfl | rfl | rfl | rfl
        · exact Or.inl rfl
        · exact Or.inr ⟨r, by simp [tree.nodes, hf, Forest.pre], rfl⟩
        · exact Or.inl rfl
        · exact Or.inl rfl
        · exact Or.inl rfl
      · rcases owns_closed h _ _ _ _ ho a (by simpa using ha) nd hnd x hx with
          h1 | h1 | h1 | h1 | ⟨q, hq, h1⟩
        · exact Or.inl h1
        · exact Or.inl h1
        · exact Or.inl h1
        · exact Or.inr ⟨e, by simp [tree.nodes, hf], h1⟩
        · exact Or.inr ⟨q, by
            simp only [tree.nodes, hf, Option.toList, List.singleton_append, List.mem_cons]
            exact Or.inr hq, h1⟩

theorem nodes_cell (h : Heap α) (t : tree) (f : Forest α) (hwf : well_formed h t f) :
    ∀ a ∈ t.nodes f, ∃ nd, h[a]? = some (some nd) ∧ (nd.value ≠ none ↔ a ∈ f.pre) := by
  intro a ha
  cases f with
  | nil =>
    cases hf : t.foot with
    | none => simp [tree.nodes, hf, Forest.pre] at ha
    | some e =>
      have hw := hwf.2
      simp only [hf] at hw
      simp [tree.nodes, hf, Forest.pre] at ha
      subst ha
      exact ⟨_, hw, by simp [Forest.pre]⟩
  | cons r v0 kids rest =>
    cases rest with
    | cons _ _ _ _ => exact hwf.elim
    | nil =>
      obtain ⟨e, hroot, hf, ho, hce, hnd0⟩ := well_formed_cons hwf
      simp only [tree.nodes, hf, Option.toList, List.singleton_append, List.mem_cons] at ha
      rcases ha with rfl | ha
      · refine ⟨_, hce, ?_⟩
        have := (List.nodup_cons.mp hnd0).1
        simp [this]
      · obtain ⟨nd, hc, hv⟩ := owns_cell h _ _ _ _ ho a ha
        exact ⟨nd, hc, by simp [hv, ha]⟩

theorem mem_modify_pre (x n : Nat) (g : α → Forest α → Forest α → Forest α) (f : Forest α)
    (hx : x ∈ f.pre) (hnd : f.pre.Nodup)
    (hg : ∀ v kx rx a, a ∈ (g v kx rx).pre ↔ a = n ∨ a ∈ (Forest.cons x v kx rx).pre) :
    ∀ a, a ∈ (f.modify x g).pre ↔ a = n ∨ a ∈ f.pre := by
  obtain ⟨C, v, kx, rx, hC⟩ := exists_path f x hx
  intro a
  rw [hC, modify_plug x g C v kx rx (hC ▸ hnd), pre_plug, pre_plug]
  simp only [List.mem_append, hg]
  tauto

theorem local_step_refl (h : Heap α) (t : tree) (f : Forest α) (hwf : well_formed h t f) :
    local_step h t f h t f :=
  ⟨hwf, fun hh => hh, fun a ha => Or.inl ha, fun a ha hn => (hn ha).elim,
    fun a _ _ => Or.inl rfl⟩

theorem local_step_trans (h0 h h1 : Heap α) (t0 t t1 : tree) (f0 f f1 : Forest α)
    (h01 : local_step h0 t0 f0 h t f) (h12 : local_step h t f h1 t1 f1) :
    local_step h0 t0 f0 h1 t1 f1 := by
  obtain ⟨_, hft, hn, hr, hfr⟩ := h01
  obtain ⟨hw1, hft1, hn1, hr1, hfr1⟩ := h12
  refine ⟨hw1, fun hh => hft1 (hft hh), ?_, ?_, ?_⟩
  · intro a ha
    by_cases ha0 : a ∈ t0.nodes f0
    · exact Or.inl ha0
    · right
      by_cases hat : a ∈ t.nodes f
      · rcases hn a hat with h2 | h2
        · exact (ha0 h2).elim
        · exact h2
      · rcases hn1 a ha with h2 | h2
        · exact (hat h2).elim
        · rcases hfr a ha0 hat with h3 | ⟨h3, _⟩
          · rw [← h3]; exact h2
          · exact h3
  · intro a ha0 ha1
    by_cases hat : a ∈ t.nodes f
    · exact hr1 a hat ha1
    · rcases hfr1 a hat ha1 with h2 | ⟨_, h2⟩
      · rw [h2]; exact hr a ha0 hat
      · exact h2
  · intro a ha0 ha1
    by_cases hat : a ∈ t.nodes f
    · right
      rcases hn a hat with h2 | h2
      · exact (ha0 h2).elim
      · exact ⟨h2, hr1 a hat ha1⟩
    · rcases hfr1 a hat ha1 with h2 | ⟨h2, h3⟩
      · rw [h2]; exact hfr a ha0 hat
      · right
        rcases hfr a ha0 hat with h4 | ⟨h4, _⟩
        · exact ⟨by rw [← h4]; exact h2, h3⟩
        · exact ⟨h4, h3⟩

/-- A well-formed tree whose nodes are apart from those of the tree a call
works on is untouched by the call and stays apart from the result. -/
theorem local_step_other (h h1 : Heap α) (t t1 B : tree) (f f1 fB : Forest α)
    (hst : local_step h t f h1 t1 f1) (hB : well_formed h B fB)
    (hdis : ∀ a ∈ B.nodes fB, a ∉ t.nodes f) :
    (∀ a ∈ B.nodes fB, h1[a]? = h[a]?) ∧ well_formed h1 B fB ∧
      (∀ a ∈ B.nodes fB, a ∉ t1.nodes f1) := by
  obtain ⟨_, _, hn, _, hfr⟩ := hst
  have hout : ∀ a ∈ B.nodes fB, a ∉ t1.nodes f1 := by
    intro a ha h1a
    obtain ⟨nd, hc, _⟩ := nodes_cell h B fB hB a ha
    rcases hn a h1a with h2 | h2
    · exact hdis a ha h2
    · rw [hc] at h2; cases h2
  have hsame : ∀ a ∈ B.nodes fB, h1[a]? = h[a]? := by
    intro a ha
    obtain ⟨nd, hc, _⟩ := nodes_cell h B fB hB a ha
    rcases hfr a (hdis a ha) (hout a ha) with h2 | ⟨h2, _⟩
    · exact h2
    · rw [hc] at h2; cases h2
  exact ⟨hsame, well_formed_frame h h1 B fB hsame hB, hout⟩

theorem closed_ne {S : List Nat} {x : nodeptr} {a : Nat}
    (hcl : x = none ∨ ∃ q ∈ S, x = some q) (ha : a ∉ S) : some a ≠ x := by
  rintro rfl
  rcases hcl with h1 | ⟨q, hq, h1⟩
  · cases h1
  · cases h1; exact ha hq

theorem insert_local_step (h h1 : Heap α) (t : tree) (f f1 : Forest α)
    (hwf : well_formed h t f) (hw1 : well_formed h1 t f1)
    (hmem : ∀ a, a ∈ f1.pre ↔ a = h.length ∨ a ∈ f.pre)
    (hfr : ∀ a, a ∉ t.nodes f → a ≠ h.length → h1[a]? = h[a]?) :
    local_step h t f h1 t f1 := by
  refine ⟨hw1, fun hh => hh, ?_, ?_, ?_⟩
  · intro a ha
    simp only [tree.nodes, List.mem_append, hmem] at ha ⊢
    rcases ha with ha | rfl | ha
    · exact Or.inl (Or.inl ha)
    · exact Or.inr (List.getElem?_eq_none (le_refl _))
    · exact Or.inl (Or.inr ha)
  · intro a ha hn
    exfalso
    apply hn
    simp only [tree.nodes, List.mem_append, hmem] at ha ⊢
    tauto
  · intro a ha hn
    left
    apply hfr a ha
    rintro rfl
    apply hn
    simp [tree.nodes, hmem]

theorem set_root_step (h h1 : Heap α) (t t1 : tree) (v : α) (it : nodeptr)
    (f : Forest α) (hwf : well_formed h t f) (hs : set_root h t v = .ok (h1, t1, it)) :
    ∃ f1, local_step h t f h1 t1 f1 := by
  cases f with
  | nil =>
    cases hf : t.foot with
    | none =>
      have hr : t.root = none := hwf.1.trans hf
      simp [set_root, hr, hf, p_node_allocate, wr, rd, bind, Except.bind] at hs
    | some e =>
      obtain ⟨h2, hev, hw, _, hfr⟩ := set_root_empty h t e v hwf hf
      rw [hev] at hs
      simp only [Except.ok.injEq, Prod.mk.injEq] at hs
      obtain ⟨rfl, rfl, _⟩ := hs
      refine ⟨_, hw, fun _ => by simp, ?_, ?_, ?_⟩
      · intro a ha
        simp only [tree.nodes, hf, Option.toList, Forest.pre, List.singleton_append,
          List.mem_cons, List.append_nil, List.not_mem_nil, or_false] at ha ⊢
        rcases ha with rfl | rfl
        · exact Or.inr (List.getElem?_eq_none (le_refl _))
        · exact Or.inl rfl
      · intro a ha hn
        exfalso
        apply hn
        simp only [tree.nodes, hf, Option.toList, Forest.pre, List.singleton_append,
          List.mem_cons, List.append_nil, List.not_mem_nil, or_false] at ha ⊢
        exact Or.inr ha
      · intro a ha hn
        simp only [tree.nodes, hf, Option.toList, Forest.pre, List.singleton_append,
          List.mem_cons, List.append_nil, List.not_mem_nil, or_false, not_or] at ha hn
        exact Or.inl (hfr a ha hn.1)
  | cons r v0 kids rest =>
    cases rest with
    | cons _ _ _ _ => exact hwf.elim
    | nil =>
      obtain ⟨h2, hev, hw, _, hfr⟩ := set_root_nonempty h t r v0 v kids hwf
      rw [hev] at hs
      simp only [Except.ok.injEq, Prod.mk.injEq] at hs
      obtain ⟨rfl, rfl, _⟩ := hs
      refine ⟨_, hw, fun hh => hh, fun a ha => Or.inl ha, fun a ha hn => (hn ha).elim, ?_⟩
      intro a ha _
      left
      apply hfr
      rintro rfl
      apply ha
      simp [tree.nodes, Forest.pre]

theorem nodes_cons_cases {h : Heap α} {t : tree} {f : Forest α} (hwf : well_formed h t f)
    {x : Nat} (hx : x ∈ t.nodes f) (hxe : (some x : nodeptr) ≠ t.end_) :
    ∃ r v0 kids, f = .cons r v0 kids .nil ∧ x ∈ f.pre ∧ t.begin = some r ∧
      (Forest.cons r v0 kids .nil).pre.Nodup := by
  cases f with
  | nil =>
    cases hf : t.foot with
    | none => simp [tree.nodes, hf, Forest.pre] at hx
    | some e =>
      simp [tree.nodes, hf, Forest.pre] at hx
      subst hx
      exact (hxe hf.symm).elim
  | cons r v0 kids rest =>
    cases rest with
    | cons _ _ _ _ => exact hwf.elim
    | nil =>
      obtain ⟨e, hroot, hf, _, _, hnd⟩ := well_formed_cons hwf
      have hxe1 : x ≠ e := fun hh => hxe (by rw [hh]; exact hf.symm)
      simp only [tree.nodes, hf, Option.toList, List.singleton_append, List.mem_cons] at hx
      rcases hx with hx | hx
      · exact (hxe1 hx).elim
      · exact ⟨r, v0, kids, rfl, hx, hroot, (List.nodup_cons.mp hnd).2⟩

theorem insert_left_step (h h1 : Heap α) (t : tree) (x : Nat) (v : α) (it : nodeptr)
    (f : Forest α) (hwf : well_formed h t f) (hx : x ∈ t.nodes f)
    (hop : insert_left h t (some x) v = .ok (h1, it)) : ∃ f1, local_step h t f h1 t f1 := by
  have hxe : (some x : nodeptr) ≠ t.end_ := by
    intro hh
    simp [insert_left, hh, bind, Except.bind, throw, throwThe, MonadExceptOf.throw] at hop
    split_ifs at hop
    simp [pure, Except.pure] at hop
  obtain ⟨r, v0, kids, rfl, hxp, hb, hnd⟩ := nodes_cons_cases hwf hx hxe
  have hxr : x ≠ r := by
    rintro rfl
    simp [insert_left, hb, bind, Except.bind, throw, throwThe, MonadExceptOf.throw] at hop
  obtain ⟨h2, nd, hev, hw, hc, _, _, _, _, hfr⟩ := insert_left_spec h t r v0 kids x v hwf hxp hxr
  rw [hev] at hop
  simp only [Except.ok.injEq, Prod.mk.injEq] at hop
  obtain ⟨rfl, _⟩ := hop
  have hcl := well_formed_closed h t _ hwf x hx nd hc
  refine ⟨_, insert_local_step h h2 t _ _ hwf hw
    (mem_modify_pre x h.length _ _ hxp hnd (by intro v k rs a; simp [Forest.pre])) ?_⟩
  intro a ha hal
  exact hfr a (fun hh => ha (hh ▸ hx)) (closed_ne (hcl _ (by simp)) ha)
    (closed_ne (hcl _ (by simp)) ha) hal

theorem insert_right_step (h h1 : Heap α) (t : tree) (x : Nat) (v : α) (it : nodeptr)
    (f : Forest α) (hwf : well_formed h t f) (hx : x ∈ t.nodes f)
    (hop : insert_right h t (some x) v = .ok (h1, it)) : ∃ f1, local_step h t f h1 t f1 := by
  have hxe : (some x : nodeptr) ≠ t.end_ := by
    intro hh
    simp [insert_right, hh, bind, Except.bind, throw, throwThe, MonadExceptOf.throw] at hop
    split_ifs at hop
    simp [pure, Except.pure] at hop
  obtain ⟨r, v0, kids, rfl, hxp, hb, hnd⟩ := nodes_cons_cases hwf hx hxe
  have hxr : x ≠ r := by
    rintro rfl
    simp [insert_right, hb, bind, Except.bind, throw, throwThe, MonadExceptOf.throw] at hop
  obtain ⟨h2, nd, hev, hw, hc, _, _, _, _, hfr⟩ :=
    insert_right_spec h t r v0 kids x v hwf hxp hxr
  rw [hev] at hop
  simp only [Except.ok.injEq, Prod.mk.injEq] at hop
  obtain ⟨rfl, _⟩ := hop
  have hcl := well_formed_closed h t _ hwf x hx nd hc
  refine ⟨_, insert_local_step h h2 t _ _ hwf hw
    (mem_modify_pre x h.length _ _ hxp hnd (by
      intro v k rs a; simp only [Forest.pre, List.mem_cons, List.mem_append]; tauto)) ?_⟩
  intro a ha hal
  exact hfr a (fun hh => ha (hh ▸ hx)) (closed_ne (hcl _ (by simp)) ha)
    (closed_ne (hcl _ (by simp)) ha) hal

theorem append_child_step (h h1 : Heap α) (t : tree) (x : Nat) (v : α) (it : nodeptr)
    (f : Forest α) (hwf : well_formed h t f) (hx : x ∈ t.nodes f)
    (hop : append_child h t (some x) v = .ok (h1, it)) : ∃ f1, local_step h t f h1 t f1 := by
  have hxe : (some x : nodeptr) ≠ t.end_ := by
    intro hh
    simp [append_child, hh, bind, Except.bind, throw, throwThe, MonadExceptOf.throw] at hop
  obtain ⟨r, v0, kids, rfl, hxp, hb, hnd⟩ := nodes_cons_cases hwf hx hxe
  obtain ⟨h2, nd, hev, hw, hc, _, _, hfr, _⟩ := append_child_spec h t r v0 kids x v hwf hxp
  rw [hev] at hop
  simp only [Except.ok.injEq, Prod.mk.injEq] at hop
  obtain ⟨rfl, _⟩ := hop
  have hcl := well_formed_closed h t _ hwf x hx nd hc
  refine ⟨_, insert_local_step h h2 t _ _ hwf hw
    (mem_modify_pre x h.length _ _ hxp hnd (by
      intro v k rs a
      simp only [Forest.pre, snoc_pre, List.mem_cons, List.mem_append, List.mem_singleton]
      tauto)) ?_⟩
  intro a ha hal
  exact hfr a (fun hh => ha (hh ▸ hx)) (closed_ne (hcl _ (by simp)) ha) hal

theorem prepend_child_step (h h1 : Heap α) (t : tree) (x : Nat) (v : α) (it : nodeptr)
    (f : Forest α) (hwf : well_formed h t f) (hx : x ∈ t.nodes f)
    (hop : prepend_child h t (some x) v = .ok (h1, it)) : ∃ f1, local_step h t f h1 t f1 := by
  have hxe : (some x : nodeptr) ≠ t.end_ := by
    intro hh
    simp [prepend_child, hh, bind, Except.bind, throw, throwThe, MonadExceptOf.throw] at hop
  obtain ⟨r, v0, kids, rfl, hxp, hb, hnd⟩ := nodes_cons_cases hwf hx hxe
  obtain ⟨h2, nd, hev, hw, hc, _, _, hfr⟩ := prepend_child_spec h t r v0 kids x v hwf hxp
  rw [hev] at hop
  simp only [Except.ok.injEq, Prod.mk.injEq] at hop
  obtain ⟨rfl, _⟩ := hop
  have hcl := well_formed_closed h t _ hwf x hx nd hc
  refine ⟨_, insert_local_step h h2 t _ _ hwf hw
    (mem_modify_pre x h.length _ _ hxp hnd (by
      intro v k rs a
      simp only [Forest.pre, List.mem_cons, List.mem_append, List.not_mem_nil, false_or]
      tauto)) ?_⟩
  intro a ha hal
  exact hfr a (fun hh => ha (hh ▸ hx)) (closed_ne (hcl _ (by simp)) ha) hal

theorem erase_step (h h1 : Heap α) (t t1 : tree) (F x : Nat) (bak : nodeptr)
    (f : Forest α) (hwf : well_formed h t f) (hx : x ∈ t.nodes f)
    (hop : erase F h t (some x) = .ok (h1, t1, bak)) : ∃ f1, local_step h t f h1 t1 f1 := by
  have hxe : (some x : nodeptr) ≠ t.end_ := by
    intro hh
    simp [erase, tree.end_] at hh
    simp [erase, hh, bind, Except.bind, throw, throwThe, MonadExceptOf.throw] at hop
  obtain ⟨r, v0, kids, rfl, hxp, hb, hnd⟩ := nodes_cons_cases hwf hx hxe
  have hm := erase_mono F (max F (kids.size + 1)) h t (some x) _ hop (le_max_left _ _)
  obtain ⟨e, hroot, hf, _, hce, hnd0⟩ := well_formed_cons hwf
  by_cases hxr : x = r
  · subst hxr
    obtain ⟨h2, e1, hf1, hev, hw, hdel, hfr⟩ :=
      erase_root_spec h t x v0 kids hwf _ (le_max_right _ _)
    rw [hev] at hm
    simp only [Except.ok.injEq, Prod.mk.injEq] at hm
    obtain ⟨rfl, rfl, _⟩ := hm
    rw [hf] at hf1
    cases hf1
    refine ⟨_, hw, fun _ => by simp, ?_, ?_, ?_⟩
    · intro a ha
      left
      simp only [tree.nodes, hf, Option.toList, Forest.pre, List.singleton_append,
        List.mem_cons, List.append_nil, List.not_mem_nil, or_false] at ha ⊢
      exact Or.inl ha
    · intro a ha hn
      simp only [tree.nodes, hf, Option.toList, List.singleton_append,
        List.mem_cons, List.append_nil, List.not_mem_nil, or_false, Forest.pre] at ha hn
      rcases ha with ha | ha
      · exact (hn ha).elim
      · exact hdel a (by simpa [Forest.pre] using ha)
    · intro a ha hn
      left
      simp only [tree.nodes, hf, Option.toList, List.singleton_append,
        List.mem_cons, List.append_nil, List.not_mem_nil, or_false, not_or] at ha hn
      exact hfr a ha.2 ha.1
  · obtain ⟨h2, C0, P, vp, restP, R, v, kx, rx, nd, hR, hT, _, _, _, _, hev, hw, hdel, _, hfr⟩ :=
      erase_spec_ext h t r v0 kids x hwf hxp hxr _ (le_max_right _ _)
    rw [hev] at hm
    simp only [Except.ok.injEq, Prod.mk.injEq] at hm
    obtain ⟨rfl, rfl, _⟩ := hm
    have hsub : ∀ a, a ∈ (plug C0 (.cons P vp (plug R rx) restP)).pre ↔
        a ∈ (Forest.cons r v0 kids .nil).pre ∧ a ∉ x :: kx.pre := by
      intro a
      have hnd1 := hnd
      rw [hT, pre_nested C0 R P vp restP _ hR] at hnd1
      rw [hT, pre_nested C0 R P vp restP _ hR, pre_nested C0 R P vp restP _ hR]
      simp only [Forest.pre, List.nodup_cons, List.nodup_append, List.mem_append, List.mem_cons,
        not_or, List.disjoint_append_left, List.disjoint_append_right, List.disjoint_cons_left,
        List.disjoint_cons_right, List.cons_append] at hnd1 ⊢
      obtain ⟨hCn, ⟨⟨hPR, hPx, ⟨hPK, hPRx⟩, hPS, hPA⟩, hRn,
        ⟨⟨⟨hxK, hxRx⟩, hxS, hxA⟩, ⟨hKn, hRxn, hKRx⟩, ⟨hSn, hAn, hSA⟩, ⟨hKS, hRxS⟩, hKA, hRxA⟩,
        hxR, ⟨hRK, hRRx⟩, hRS, hRA⟩, hPC, hCR, hxC, ⟨hCK, hCRx⟩, hCS, hCA⟩ := hnd1
      constructor
      · rintro (ha | rfl | ha | ha | ha | ha)
        · exact ⟨Or.inl ha, fun hh => hxC (hh ▸ ha), fun hh => hCK ha hh⟩
        · exact ⟨Or.inr (Or.inl rfl), fun hh => hPx hh, fun hh => hPK hh⟩
        · exact ⟨Or.inr (Or.inr (Or.inl ha)), fun hh => hxR (hh ▸ ha), fun hh => hRK ha hh⟩
        · exact ⟨Or.inr (Or.inr (Or.inr (Or.inr (Or.inl (Or.inr ha))))),
            fun hh => hxRx (hh ▸ ha), fun hh => hKRx hh ha⟩
        · exact ⟨Or.inr (Or.inr (Or.inr (Or.inr (Or.inr (Or.inl ha))))),
            fun hh => hxS (hh ▸ ha), fun hh => hKS hh ha⟩
        · exact ⟨Or.inr (Or.inr (Or.inr (Or.inr (Or.inr (Or.inr ha))))),
            fun hh => hxA (hh ▸ ha), fun hh => hKA hh ha⟩
      · rintro ⟨ha, hn1, hn2⟩
        rcases ha with ha | rfl | ha | rfl | (ha | ha) | ha | ha
        · exact Or.inl ha
        · exact Or.inr (Or.inl rfl)
        · exact Or.inr (Or.inr (Or.inl ha))
        · exact (hn1 rfl).elim
        · exact (hn2 ha).elim
        · exact Or.inr (Or.inr (Or.inr (Or.inl ha)))
        · exact Or.inr (Or.inr (Or.inr (Or.inr (Or.inl ha))))
        · exact Or.inr (Or.inr (Or.inr (Or.inr (Or.inr ha))))
    refine ⟨_, hw, fun hh => hh, ?_, ?_, ?_⟩
    · intro a ha
      left
      simp only [tree.nodes, List.mem_append, hsub] at ha ⊢
      tauto
    · intro a ha hn
      apply hdel
      simp only [tree.nodes, List.mem_append, hsub] at ha hn
      by_contra hc
      exact hn (ha.imp id (fun hh => ⟨hh, hc⟩))
    · intro a ha _
      exact Or.inl (hfr a ha)

theorem clear_step (h h1 : Heap α) (t t1 : tree) (F : Nat)
    (f : Forest α) (hwf : well_formed h t f)
    (hop : clear F h t = .ok (h1, t1)) : ∃ f1, local_step h t f h1 t1 f1 := by
  by_cases hrf : t.root = t.foot
  · simp only [clear, hrf, if_true, Except.ok.injEq, Prod.mk.injEq] at hop
    obtain ⟨rfl, rfl⟩ := hop
    exact ⟨f, local_step_refl h t f hwf⟩
  · simp only [clear, hrf, if_false] at hop
    cases f with
    | nil => exact (hrf hwf.1).elim
    | cons r v0 kids rest =>
      cases rest with
      | cons _ _ _ _ => exact hwf.elim
      | nil =>
        obtain ⟨e, hroot, hf, _⟩ := well_formed_cons hwf
        cases hk : erase F h t t.root with
        | error e => simp [hk] at hop
        | ok res =>
          obtain ⟨h2, t2, bak⟩ := res
          simp only [hk, Except.ok.injEq, Prod.mk.injEq] at hop
          obtain ⟨rfl, rfl⟩ := hop
          rw [hroot] at hk
          exact erase_step h h2 t t2 F r bak _ hwf (by simp [tree.nodes, Forest.pre]) hk

/-- Every sequence of mutator calls that return is one call on the tree in
the sense of `local_step`. -/
theorem evolves_local_step (h0 h : Heap α) (t0 t : tree) (f0 : Forest α)
    (hwf : well_formed h0 t0 f0) (hev : evolves h0 t0 h t) :
    ∃ f, local_step h0 t0 f0 h t f := by
  induction hev with
  | refl => exact ⟨f0, local_step_refl h0 t0 f0 hwf⟩
  | set_root h h1 t t1 v it _ hs ih =>
    obtain ⟨f, hst⟩ := ih
    obtain ⟨f1, hst1⟩ := set_root_step h h1 t t1 v it f hst.1 hs
    exact ⟨f1, local_step_trans _ _ _ _ _ _ _ _ _ hst hst1⟩
  | insert_left h h1 t fuel k x v it _ hn hop ih =>
    obtain ⟨f, hst⟩ := ih
    obtain ⟨f1, hst1⟩ := insert_left_step h h1 t x v it f hst.1
      (next_it_nodes h t f hst.1 fuel k x hn) hop
    exact ⟨f1, local_step_trans _ _ _ _ _ _ _ _ _ hst hst1⟩
  | insert_right h h1 t fuel k x v it _ hn hop ih =>
    obtain ⟨f, hst⟩ := ih
    obtain ⟨f1, hst1⟩ := insert_right_step h h1 t x v it f hst.1
      (next_it_nodes h t f hst.1 fuel k x hn) hop
    exact ⟨f1, local_step_trans _ _ _ _ _ _ _ _ _ hst hst1⟩
  | append_child h h1 t fuel k x v it _ hn hop ih =>
    obtain ⟨f, hst⟩ := ih
    obtain ⟨f1, hst1⟩ := append_child_step h h1 t x v it f hst.1
      (next_it_nodes h t f hst.1 fuel k x hn) hop
    exact ⟨f1, local_step_trans _ _ _ _ _ _ _ _ _ hst hst1⟩
  | prepend_child h h1 t fuel k x v it _ hn hop ih =>
    obtain ⟨f, hst⟩ := ih
    obtain ⟨f1, hst1⟩ := prepend_child_step h h1 t x v it f hst.1
      (next_it_nodes h t f hst.1 fuel k x hn) hop
    exact ⟨f1, local_step_trans _ _ _ _ _ _ _ _ _ hst hst1⟩
  | erase h h1 t t1 fuel k x F bak _ hn hop ih =>
    obtain ⟨f, hst⟩ := ih
    obtain ⟨f1, hst1⟩ := erase_step h h1 t t1 F x bak f hst.1
      (next_it_nodes h t f hst.1 fuel k x hn) hop
    exact ⟨f1, local_step_trans _ _ _ _ _ _ _ _ _ hst hst1⟩
  | clear h h1 t t1 F _ hop ih =>
    obtain ⟨f, hst⟩ := ih
    obtain ⟨f1, hst1⟩ := clear_step h h1 t t1 F f hst.1 hop
    exact ⟨f1, local_step_trans _ _ _ _ _ _ _ _ _ hst hst1⟩

theorem reachable_evolves (h : Heap α) (t : tree) (hr : reachable h t) :
    ∃ h0 ha ta v, tree.ctor h0 v = .ok (ha, ta) ∧ evolves ha ta h t := by
  induction hr with
  | ctor h0 h t v hc => exact ⟨h0, h, t, v, hc, evolves.refl⟩
  | set_root h h1 t t1 v it _ hs ih =>
    obtain ⟨h0, ha, ta, w, hc, he⟩ := ih
    exact ⟨h0, ha, ta, w, hc, evolves.set_root h h1 t t1 v it he hs⟩
  | insert_left h h1 t fuel k x v it _ hn hop ih =>
    obtain ⟨h0, ha, ta, w, hc, he⟩ := ih
    exact ⟨h0, ha, ta, w, hc, evolves.insert_left h h1 t fuel k x v it he hn hop⟩
  | insert_right h h1 t fuel k x v it _ hn hop ih =>
    obtain ⟨h0, ha, ta, w, hc, he⟩ := ih
    exact ⟨h0, ha, ta, w, hc, evolves.insert_right h h1 t fuel k x v it he hn hop⟩
  | append_child h h1 t fuel k x v it _ hn hop ih =>
    obtain ⟨h0, ha, ta, w, hc, he⟩ := ih
    exact ⟨h0, ha, ta, w, hc, evolves.append_child h h1 t fuel k x v it he hn hop⟩
  | prepend_child h h1 t fuel k x v it _ hn hop ih =>
    obtain ⟨h0, ha, ta, w, hc, he⟩ := ih
    exact ⟨h0, ha, ta, w, hc, evolves.prepend_child h h1 t fuel k x v it he hn hop⟩
  | erase h h1 t t1 fuel k x F bak _ hn hop ih =>
    obtain ⟨h0, ha, ta, w, hc, he⟩ := ih
    exact ⟨h0, ha, ta, w, hc, evolves.erase h h1 t t1 fuel k x F bak he hn hop⟩
  | clear h h1 t t1 F _ hop ih =>
    obtain ⟨h0, ha, ta, w, hc, he⟩ := ih
    exact ⟨h0, ha, ta, w, hc, evolves.clear h h1 t t1 F he hop⟩

/-- The constructor gives a well-formed one-node tree with a sentinel, on
fresh cells. -/
theorem ctor_spec (h0 : Heap α) (v : α) :
    ∃ h, tree.ctor h0 v = .ok (h, ⟨some h0.length, some (h0.length + 1)⟩) ∧
      well_formed h ⟨some h0.length, some (h0.length + 1)⟩ (.cons h0.length v .nil .nil) ∧
      (∀ a, a ≠ h0.length → a ≠ h0.length + 1 → h[a]? = h0[a]?) := by
  have hw0 : well_formed (h0 ++ [some ⟨none, none, none, none, none, none⟩])
      ⟨some h0.length, some h0.length⟩ (.nil : Forest α) := by
    refine ⟨rfl, ?_⟩
    simp
  obtain ⟨h1, hev, hw1, _, hfr⟩ := set_root_empty _ _ h0.length v hw0 rfl
  refine ⟨h1, ?_, ?_, ?_⟩
  · simp only [tree.ctor, p_init, p_node_allocate, hev, bind, Except.bind, pure, Except.pure]
    simp
  · simpa using hw1
  · intro a ha1 ha2
    rw [hfr a ha1 (by simpa using ha2)]
    by_cases hlt : a < h0.length
    · simp [List.getElem?_append_left hlt]
    · rw [List.getElem?_eq_none (by simp; omega), List.getElem?_eq_none (by omega)]

theorem reachable_foot (h : Heap α) (t : tree) (hr : reachable h t) :
    ∃ f e, well_formed h t f ∧ t.foot = some e := by
  obtain ⟨h0, ha, ta, v, hc, he⟩ := reachable_evolves h t hr
  obtain ⟨h1, hev, hw, _⟩ := ctor_spec h0 v
  rw [hev] at hc
  simp only [Except.ok.injEq, Prod.mk.injEq] at hc
  obtain ⟨rfl, rfl⟩ := hc
  obtain ⟨f, hst⟩ := evolves_local_step _ _ _ _ _ hw he
  have := hst.2.1 (by simp)
  cases hf : t.foot with
  | none => exact (this hf).elim
  | some e => exact ⟨f, e, hst.1, rfl⟩

/-- C21: in every heap and tree object reachable from a constructed tree by
calls of `set_root`, `insert_left`, `insert_right`, `append_child`,
`prepend_child`, `erase` and `clear` that return (iterators found from
`begin()`), the tree represents a forest `f`, the sentinel `foot` is a live
node without value, parent and children, dereferencing `end()` fails, the tree
is empty (`empty()` is true, and it holds no value: `size()` is 0) exactly when
`root == foot`, and when `root != foot` the root is a live node with a value,
without parent and left sibling, with `root->right == foot` and
`foot->left == root`. -/
theorem sentinel_invariant (h : Heap α) (t : tree) (hr : reachable h t) :
    ∃ f e nde, well_formed h t f ∧ t.foot = some e ∧ h[e]? = some (some nde) ∧
      nde.value = none ∧ nde.parent = none ∧ nde.child_begin = none ∧
      nde.child_end = none ∧ deref h t.end_ = .error .null_deref ∧
      (t.empty = true ↔ t.root = t.foot) ∧ (f.size = 0 ↔ t.root = t.foot) ∧
      size (f.size + 1) h t = .ok f.size ∧
      (t.root ≠ t.foot → ∃ r ndr, t.root = some r ∧ h[r]? = some (some ndr) ∧
        ndr.value ≠ none ∧ ndr.parent = none ∧ ndr.left = none ∧ ndr.right = t.foot ∧
        nde.left = t.root) := by
  obtain ⟨f, e, hwf, hf⟩ := reachable_foot h t hr
  have hsz := size_spec h t f hwf (f.size + 1) (le_refl _)
  cases f with
  | nil =>
    have hw := hwf.2
    simp only [hf] at hw
    refine ⟨_, e, _, hwf, hf, hw, rfl, rfl, rfl, rfl, ?_, by simp [tree.empty], ?_, hsz, ?_⟩
    · simp [deref, rd, tree.end_, hf, hw]
    · simp [Forest.size, hwf.1]
    · intro hne
      exact (hne hwf.1).elim
  | cons r v0 kids rest =>
    cases rest with
    | cons _ _ _ _ => exact hwf.elim
    | nil =>
      obtain ⟨e1, hroot, hf1, ho, hce, hnd⟩ := well_formed_cons hwf
      rw [hf] at hf1
      cases hf1
      have hre : r ≠ e := by
        intro hh
        have := (List.nodup_cons.mp hnd).1
        apply this
        simp [Forest.pre, hh]
      refine ⟨_, e, _, hwf, hf, hce, rfl, rfl, rfl, rfl, ?_, by simp [tree.empty], ?_, hsz, ?_⟩
      · simp [deref, rd, tree.end_, hf, hce]
      · simp [Forest.size, hroot, hf, hre]
      · intro _
        exact ⟨r, _, hroot, ho.1, by simp, rfl, rfl, by simp [Forest.firstOr, hf], hroot.symm⟩

theorem sentinel_invariant_witness :
    reachable edit_heap3 root_only_tree ∧
    ∃ f e nde, well_formed edit_heap3 root_only_tree f ∧ root_only_tree.foot = some e ∧
      edit_heap3[e]? = some (some nde) ∧
      nde.value = none ∧ nde.parent = none ∧ nde.child_begin = none ∧
      nde.child_end = none ∧ deref edit_heap3 root_only_tree.end_ = .error .null_deref ∧
      (root_only_tree.empty = true ↔ root_only_tree.root = root_only_tree.foot) ∧
      (f.size = 0 ↔ root_only_tree.root = root_only_tree.foot) ∧
      size (f.size + 1) edit_heap3 root_only_tree = .ok f.size ∧
      (root_only_tree.root ≠ root_only_tree.foot → ∃ r ndr, root_only_tree.root = some r ∧
        edit_heap3[r]? = some (some ndr) ∧
        ndr.value ≠ none ∧ ndr.parent = none ∧ ndr.left = none ∧
        ndr.right = root_only_tree.foot ∧ nde.left = root_only_tree.root) :=
  ⟨edit_reachable, sentinel_invariant edit_heap3 root_only_tree edit_reachable⟩

/-! ## The linked list: equality -/

theorem list.first_cons (stop : nodeptr) (a : Nat) (v : α) (r : List (Nat × α)) :
    list.first stop ((a, v) :: r) = some a := rfl

theorem list.first_nil (stop : nodeptr) : list.first stop ([] : List (Nat × α)) = stop := rfl

theorem list.well_formed_owns {h : list.Heap α} {l : list} {c : List (Nat × α)}
    (hwf : list.well_formed h l c) :
    list.owns h none c l.tail ∧ (∀ a ∈ c.map Prod.fst, some a ≠ l.tail) ∧
      l.begin = list.first l.tail c ∧ (c.map Prod.fst).Nodup := by
  cases c with
  | nil => exact ⟨trivial, by simp, hwf.1, by simp⟩
  | cons p rest =>
    obtain ⟨a, v⟩ := p
    cases ht : l.tail with
    | none =>
      have := hwf.2
      simp [ht] at this
    | some e =>
      have hw := hwf.2
      simp only [ht] at hw
      obtain ⟨ho, _, hnd⟩ := hw
      refine ⟨ho, ?_, hwf.1, (List.nodup_cons.mp hnd).2⟩
      intro x hx hh
      cases hh
      exact (List.nodup_cons.mp hnd).1 hx

theorem list.eq_loop_spec [DecidableEq α] (h : list.Heap α) (A B : list) :
    ∀ (cb ca : List (Nat × α)) (la lb : nodeptr) (fuel : Nat),
      list.owns h la ca A.end_ → list.owns h lb cb B.end_ →
      (∀ a ∈ ca.map Prod.fst, some a ≠ A.end_) → (∀ b ∈ cb.map Prod.fst, some b ≠ B.end_) →
      cb.length + 1 ≤ fuel →
      list.eq_loop h A B fuel (list.first A.end_ ca) (list.first B.end_ cb)
        = .ok (decide (ca.map Prod.snd = cb.map Prod.snd)) := by
  intro cb
  induction cb with
  | nil =>
    intro ca la lb fuel hoa _ hna _ hfuel
    obtain ⟨f, rfl⟩ : ∃ f, fuel = f + 1 := ⟨fuel - 1, by simp at hfuel; omega⟩
    cases ca with
    | nil => simp [list.eq_loop, list.first_nil]
    | cons p ra =>
      obtain ⟨a, v⟩ := p
      have := hna a (by simp)
      simp [list.eq_loop, list.first_cons, list.first_nil, this]
  | cons q rb ih =>
    obtain ⟨b, w⟩ := q
    intro ca la lb fuel hoa hob hna hnb hfuel
    obtain ⟨f, rfl⟩ : ∃ f, fuel = f + 1 := ⟨fuel - 1, by simp at hfuel; omega⟩
    have hb := hnb b (by simp)
    cases ca with
    | nil => simp [list.eq_loop, list.first_cons, list.first_nil, hb]
    | cons p ra =>
      obtain ⟨a, v⟩ := p
      have ha := hna a (by simp)
      obtain ⟨hca, hoa1⟩ := hoa
      obtain ⟨hcb, hob1⟩ := hob
      have hrec := ih ra (some a) (some b) f hoa1 hob1
        (fun x hx => hna x (by simp only [List.map_cons, List.mem_cons]; exact Or.inr hx))
        (fun x hx => hnb x (by simp only [List.map_cons, List.mem_cons]; exact Or.inr hx))
        (by simp at hfuel ⊢; omega)
      by_cases hvw : w = v
      · subst hvw
        simp [list.eq_loop, list.first_cons, hb, ha, list.deref, list.rd, list.inc, hca, hcb,
          hrec]
      · have hvw2 : ¬ v = w := fun hh => hvw hh.symm
        simp [list.eq_loop, list.first_cons, hb, ha, list.deref, list.rd, list.inc, hca, hcb,
          hvw, hvw2]

theorem list.op_eq_spec [DecidableEq α] (h : list.Heap α) (A B : list)
    (ca cb : List (Nat × α)) (hA : list.well_formed h A ca) (hB : list.well_formed h B cb)
    (fuel : Nat) (hfuel : cb.length + 1 ≤ fuel) :
    list.op_eq fuel h A B = .ok (decide (ca.map Prod.snd = cb.map Prod.snd)) := by
  obtain ⟨hoa, hna, hba, _⟩ := list.well_formed_owns hA
  obtain ⟨hob, hnb, hbb, _⟩ := list.well_formed_owns hB
  unfold list.op_eq
  rw [hba, hbb]
  exact list.eq_loop_spec h A B cb ca none none fuel hoa hob hna hnb hfuel

theorem list.size_loop_spec (h : list.Heap α) (l : list) :
    ∀ (c : List (Nat × α)) (lf : nodeptr) (fuel k : Nat),
      list.owns h lf c l.end_ → (∀ a ∈ c.map Prod.fst, some a ≠ l.end_) →
      c.length + 1 ≤ fuel →
      list.size_loop h l fuel (list.first l.end_ c) k = .ok (k + c.length) := by
  intro c
  induction c with
  | nil =>
    intro lf fuel k _ _ hfuel
    obtain ⟨f, rfl⟩ : ∃ f, fuel = f + 1 := ⟨fuel - 1, by simp at hfuel; omega⟩
    simp [list.size_loop, list.first_nil]
  | cons p rest ih =>
    obtain ⟨a, v⟩ := p
    intro lf fuel k ho hn hfuel
    obtain ⟨f, rfl⟩ : ∃ f, fuel = f + 1 := ⟨fuel - 1, by simp at hfuel; omega⟩
    have ha := hn a (by simp)
    obtain ⟨hc, ho1⟩ := ho
    have hrec := ih (some a) f (k + 1) ho1
      (fun x hx => hn x (by simp only [List.map_cons, List.mem_cons]; exact Or.inr hx))
      (by simp at hfuel ⊢; omega)
    simp only [list.size_loop, list.first_cons, ha, ne_eq, not_false_eq_true, if_true,
      list.inc, list.rd, hc, hrec, List.length_cons, Except.ok.injEq]
    omega

theorem list.list_size_spec (h : list.Heap α) (l : list) (c : List (Nat × α))
    (hwf : list.well_formed h l c) (fuel : Nat) (hfuel : c.length + 1 ≤ fuel) :
    list.size fuel h l = .ok c.length := by
  obtain ⟨ho, hn, hb, _⟩ := list.well_formed_owns hwf
  unfold list.size
  rw [hb]
  simpa using list.size_loop_spec h l c none fuel 0 ho hn hfuel

/-- C29: for every pair of list objects `A` and `B` in a heap, holding the
cells `ca` and `cb` (empty lists and moved-from lists included), and enough
fuel for the loop, `A == B` returns, and it returns true exactly when the
value sequences are equal, that is when the two lists hold the same number of
elements (the numbers `size()` returns) and the elements at every position are
equal; `A != B` returns the negation. -/
theorem list_eq_iff_same_elements [DecidableEq α] (h : list.Heap α) (A B : list)
    (ca cb : List (Nat × α)) (hA : list.well_formed h A ca) (hB : list.well_formed h B cb)
    (fuel : Nat) (hfuel : ca.length + cb.length + 1 ≤ fuel) :
    (∃ r, list.op_eq fuel h A B = .ok r ∧ list.op_ne fuel h A B = .ok (!r) ∧
      (r = true ↔ ca.map Prod.snd = cb.map Prod.snd)) ∧
    list.size fuel h A = .ok ca.length ∧ list.size fuel h B = .ok cb.length ∧
    (list.op_eq fuel h A B = .ok true ↔
      (ca.length = cb.length ∧
        ∀ i : Nat, (ca.map Prod.snd)[i]? = (cb.map Prod.snd)[i]?)) := by
  have he := list.op_eq_spec h A B ca cb hA hB fuel (by omega)
  refine ⟨⟨_, he, by simp [list.op_ne, he], by simp⟩,
    list.list_size_spec h A ca hA fuel (by omega), list.list_size_spec h B cb hB fuel (by omega), ?_⟩
  rw [he]
  simp only [Except.ok.injEq, decide_eq_true_eq]
  constructor
  · intro hh
    refine ⟨?_, fun i => by rw [hh]⟩
    have := congrArg List.length hh
    simpa using this
  · rintro ⟨_, hh⟩
    exact List.ext_getElem? hh

/-! ## The linked list: copies -/

theorem list.list_owns_frame (h h1 : list.Heap α) : ∀ (c : List (Nat × α)) (l stop : nodeptr),
    (∀ a ∈ c.map Prod.fst, h1[a]? = h[a]?) → list.owns h l c stop → list.owns h1 l c stop := by
  intro c
  induction c with
  | nil => intros; trivial
  | cons p rest ih =>
    obtain ⟨a, v⟩ := p
    intro l stop hs ho
    refine ⟨?_, ih (some a) stop (fun x hx => hs x (by simp [hx])) ho.2⟩
    rw [hs a (by simp)]
    exact ho.1

theorem list.list_owns_lt (h : list.Heap α) : ∀ (c : List (Nat × α)) (l stop : nodeptr),
    list.owns h l c stop → ∀ a ∈ c.map Prod.fst, a < h.length := by
  intro c
  induction c with
  | nil => intro l stop _ a ha; simp at ha
  | cons p rest ih =>
    obtain ⟨a, v⟩ := p
    intro l stop ho x hx
    simp only [List.map_cons, List.mem_cons] at hx
    rcases hx with rfl | hx
    · by_contra hlt
      have hn : h[x]? = none := List.getElem?_eq_none (by omega)
      have h1 := ho.1
      rw [hn] at h1
      cases h1
    · exact ih (some a) stop ho.2 x hx

theorem list.last_append (l : nodeptr) (n : Nat) (v : α) :
    ∀ c : List (Nat × α), list.last l (c ++ [(n, v)]) = some n := by
  intro c
  induction c generalizing l with
  | nil => rfl
  | cons p rest ih =>
    obtain ⟨a, w⟩ := p
    exact ih (some a)

theorem list.first_append (stop : nodeptr) (n : Nat) (v : α) (a : Nat) (w : α)
    (c : List (Nat × α)) :
    list.first stop (((a, w) :: c) ++ [(n, v)]) = some a := rfl

/-- Appending a cell at the end of a chain: the last cell gets the new cell as
right neighbour, the new cell has the last cell on its left. -/
theorem list.list_owns_snoc (h h1 : list.Heap α) (n : Nat) (v : α) (stop : nodeptr) :
    ∀ (c : List (Nat × α)) (l : nodeptr) (z : Nat) (ndz : list.node α),
      c ≠ [] → list.owns h l c stop → (c.map Prod.fst).Nodup →
      list.last l c = some z → h[z]? = some (some ndz) →
      h1[z]? = some (some { ndz with right := some n }) →
      h1[n]? = some (some ⟨some z, stop, some v⟩) →
      (∀ a ∈ c.map Prod.fst, a ≠ z → h1[a]? = h[a]?) →
      list.owns h1 l (c ++ [(n, v)]) stop := by
  intro c
  induction c with
  | nil => intro l z ndz hc; exact (hc rfl).elim
  | cons p rest ih =>
    obtain ⟨a, w⟩ := p
    intro l z ndz _ ho hnd hz hcz hz1 hn1 hsame
    obtain ⟨hca, ho1⟩ := ho
    cases rest with
    | nil =>
      simp only [list.last, Option.some.injEq] at hz
      subst hz
      rw [hca] at hcz
      simp only [Option.some.injEq] at hcz
      subst hcz
      exact ⟨hz1, hn1, trivial⟩
    | cons q r2 =>
      obtain ⟨b, u⟩ := q
      have hnd1 : (((b, u) :: r2).map Prod.fst).Nodup := (List.nodup_cons.mp hnd).2
      have hza : a ≠ z := by
        intro hh
        subst hh
        have hmem : ∀ (c : List (Nat × α)) (l : nodeptr) (x : Nat), c ≠ [] →
            list.last l c = some x → x ∈ c.map Prod.fst := by
          intro c
          induction c with
          | nil => intro l x hc; exact (hc rfl).elim
          | cons p rest ih2 =>
            obtain ⟨a2, w2⟩ := p
            intro l x _ hl
            cases rest with
            | nil =>
              simp only [list.last, Option.some.injEq] at hl
              simp [hl]
            | cons q r3 =>
              have := ih2 (some a2) x (by simp) hl
              simp only [List.map_cons, List.mem_cons] at this ⊢
              exact Or.inr this
        exact (List.nodup_cons.mp hnd).1 (hmem _ (some a) a (by simp) hz)
      refine ⟨?_, ih (some a) z ndz (by simp) ho1 hnd1 hz hcz hz1 hn1
        (fun x hx hxz => hsame x (by simp only [List.map_cons, List.mem_cons] at hx ⊢; exact Or.inr hx) hxz)⟩
      rw [hsame a (by simp) hza]
      exact hca

theorem list.list_last_mem : ∀ (c : List (Nat × α)) (l : nodeptr) (x : Nat), c ≠ [] →
    list.last l c = some x → x ∈ c.map Prod.fst := by
  intro c
  induction c with
  | nil => intro l x hc; exact (hc rfl).elim
  | cons p rest ih2 =>
    obtain ⟨a2, w2⟩ := p
    intro l x _ hl
    cases rest with
    | nil =>
      simp only [list.last, Option.some.injEq] at hl
      simp [hl]
    | cons q r3 =>
      have := ih2 (some a2) x (by simp) hl
      simp only [List.map_cons, List.mem_cons] at this ⊢
      exact Or.inr this

theorem list.last_some : ∀ (c : List (Nat × α)) (l : nodeptr), c ≠ [] →
    ∃ z, list.last l c = some z := by
  intro c
  induction c with
  | nil => intro l hc; exact (hc rfl).elim
  | cons p rest ih =>
    obtain ⟨a, w⟩ := p
    intro l _
    cases rest with
    | nil => exact ⟨a, rfl⟩
    | cons q r => exact ih (some a) (by simp)

theorem list.list_owns_cell (h : list.Heap α) : ∀ (c : List (Nat × α)) (l stop : nodeptr),
    list.owns h l c stop → ∀ a ∈ c.map Prod.fst, ∃ nd, h[a]? = some (some nd) ∧
      nd.value ≠ none := by
  intro c
  induction c with
  | nil => intro l stop _ a ha; simp at ha
  | cons p rest ih =>
    obtain ⟨a, v⟩ := p
    intro l stop ho x hx
    simp only [List.map_cons, List.mem_cons] at hx
    rcases hx with rfl | hx
    · exact ⟨_, ho.1, by simp⟩
    · exact ih (some a) stop ho.2 x hx

theorem list.list_get_snoc (h : list.Heap α) (c : Option (list.node α)) (j : Nat) :
    (h ++ [c])[j]? = if j < h.length then h[j]? else if j = h.length then some c else none := by
  by_cases h1 : j < h.length
  · simp [h1, List.getElem?_append_left]
  · by_cases h2 : j = h.length
    · subst h2; simp
    · simp only [h1, h2, if_false]
      exact List.getElem?_eq_none (by simp; omega)

theorem list.list_cell_lt {h : list.Heap α} {a : Nat} {c : Option (list.node α)}
    (hc : h[a]? = some c) : a < h.length := by
  by_contra hlt
  have hn : h[a]? = none := List.getElem?_eq_none (by omega)
  rw [hn] at hc
  cases hc

theorem list.list_well_formed_cons {h : list.Heap α} {l : list} {a : Nat} {v : α}
    {rest : List (Nat × α)} (hwf : list.well_formed h l ((a, v) :: rest)) :
    ∃ e, l.head = some a ∧ l.tail = some e ∧
      list.owns h none ((a, v) :: rest) (some e) ∧
      h[e]? = some (some ⟨list.last none ((a, v) :: rest), none, none⟩) ∧
      (e :: ((a, v) :: rest).map Prod.fst).Nodup := by
  cases ht : l.tail with
  | none =>
    have := hwf.2
    simp [ht] at this
  | some e =>
    have hw := hwf.2
    simp only [ht] at hw
    exact ⟨e, hwf.1, rfl, hw⟩

theorem list.well_formed_nil {h : list.Heap α} {l : list} {e : Nat}
    (hwf : list.well_formed h l []) (hf : l.tail = some e) :
    l.head = some e ∧ ∃ lf, h[e]? = some (some ⟨lf, none, none⟩) := by
  have hw := hwf.2
  simp only [hf, list.bare_tail] at hw
  refine ⟨hwf.1.trans hf, ?_⟩
  cases hc : h[e]? with
  | none => simp [hc] at hw
  | some o =>
    cases o with
    | none => simp [hc] at hw
    | some nd =>
      simp only [hc] at hw
      obtain ⟨lf, r, val⟩ := nd
      simp only at hw
      obtain ⟨rfl, rfl⟩ := hw
      exact ⟨lf, rfl⟩

theorem list.well_formed_nil_mk {h : list.Heap α} {l : list} {e : Nat} (lf : nodeptr)
    (hh : l.head = some e) (hf : l.tail = some e) (hc : h[e]? = some (some ⟨lf, none, none⟩)) :
    list.well_formed h l [] := by
  refine ⟨hh.trans hf.symm, ?_⟩
  simp [hf, list.bare_tail, hc]

theorem list.well_formed_cons_mk {h : list.Heap α} {l : list} {a : Nat} {v : α}
    {rest : List (Nat × α)} (e : Nat) (hh : l.head = some a) (hf : l.tail = some e)
    (ho : list.owns h none ((a, v) :: rest) (some e))
    (hce : h[e]? = some (some ⟨list.last none ((a, v) :: rest), none, none⟩))
    (hnd : (e :: ((a, v) :: rest).map Prod.fst).Nodup) :
    list.well_formed h l ((a, v) :: rest) := by
  refine ⟨hh, ?_⟩
  simp only [hf]
  exact ⟨ho, hce, hnd⟩

/-- The call `insert_before(end(), v)` on a list with a tail node: the value
goes to a fresh node behind the last cell. -/
theorem list.push_back_spec (h : list.Heap α) (l : list) (c : List (Nat × α)) (v : α)
    (e : Nat) (hwf : list.well_formed h l c) (hf : l.tail = some e) :
    ∃ h1 l1, list.insert_before h l l.end_ v = .ok (h1, l1, some h.length) ∧
      list.well_formed h1 l1 (c ++ [(h.length, v)]) ∧ l1.tail = some e ∧
      h1.length = h.length + 1 ∧
      (∀ a, a ∉ l.nodes c → a ≠ h.length → h1[a]? = h[a]?) := by
  cases c with
  | nil =>
    obtain ⟨hh, lf, hc⟩ := list.well_formed_nil hwf hf
    have hlt := list.list_cell_lt hc
    have hlt1 : e < h.length + 1 := by omega
    have hne : e ≠ h.length := Nat.ne_of_lt hlt
    have hne2 : h.length ≠ e := Ne.symm hne
    refine ⟨((h ++ [some (⟨none, none, some v⟩ : list.node α)]).set h.length
        (some ⟨none, some e, some v⟩)).set e (some ⟨some h.length, none, none⟩),
      ⟨some h.length, some e⟩, ?_, ?_, rfl, by simp, ?_⟩
    · simp only [list.insert_before, list.end_, hh, hf, list.p_node_allocate, list.wr, list.rd,
        bind, Except.bind, pure, Except.pure, List.getElem?_set, list.list_get_snoc, List.length_set,
        List.length_append, List.length_singleton, hlt, hlt1, hne, hne2, hc, if_true, if_false,
        lt_irrefl, Nat.lt_succ_self]
    · refine ⟨rfl, ?_⟩
      simp only [List.nil_append]
      refine ⟨⟨?_, trivial⟩, ?_, ?_⟩
      · simp only [List.getElem?_set, list.list_get_snoc, List.length_set, List.length_append,
          List.length_singleton, hlt, hlt1, hne, hne2, if_true, if_false, lt_irrefl,
          Nat.lt_succ_self, list.first]
      · simp only [List.getElem?_set, list.list_get_snoc, List.length_set, List.length_append,
          List.length_singleton, hlt, hlt1, hne, hne2, hc, if_true, if_false, lt_irrefl,
          Nat.lt_succ_self, list.last]
      · simp [hne]
    · intro a ha hal
      simp only [list.nodes, hf, Option.toList, List.map_nil, List.append_nil,
        List.mem_singleton] at ha
      simp only [List.getElem?_set, list.list_get_snoc, Ne.symm ha, Ne.symm hal, if_false]
      split_ifs with h1
      · rfl
      · exact (List.getElem?_eq_none (by omega)).symm
  | cons p rest =>
    obtain ⟨a0, v0⟩ := p
    obtain ⟨e1, hh, hf1, ho, hce, hnd⟩ := list.list_well_formed_cons hwf
    rw [hf] at hf1
    cases hf1
    obtain ⟨z, hz⟩ := list.last_some ((a0, v0) :: rest) none (by simp)
    rw [hz] at hce
    have hzm := list.list_last_mem _ none z (by simp) hz
    obtain ⟨ndz, hcz, _⟩ := list.list_owns_cell h _ _ _ ho z hzm
    have hlt := list.list_cell_lt hce
    have hltz := list.list_cell_lt hcz
    have hlt1 : e < h.length + 1 := by omega
    have hltz1 : z < h.length + 1 := by omega
    have hne : e ≠ h.length := Nat.ne_of_lt hlt
    have hne2 : h.length ≠ e := Ne.symm hne
    have hnz : z ≠ h.length := Nat.ne_of_lt hltz
    have hnz2 : h.length ≠ z := Ne.symm hnz
    have hez : e ≠ z := fun hh2 => (List.nodup_cons.mp hnd).1 (hh2 ▸ hzm)
    have hze : z ≠ e := Ne.symm hez
    have hae : (some a0 : nodeptr) ≠ some e := by
      intro hh2
      cases hh2
      exact (List.nodup_cons.mp hnd).1 (by simp)
    have hea : (some e : nodeptr) ≠ some a0 := Ne.symm hae
    refine ⟨((((h ++ [some (⟨none, none, some v⟩ : list.node α)]).set h.length
        (some ⟨some z, none, some v⟩)).set h.length (some ⟨some z, some e, some v⟩)).set z
        (some ⟨ndz.left, some h.length, ndz.value⟩)).set e (some ⟨some h.length, none, none⟩),
      l, ?_, ?_, hf, by simp, ?_⟩
    · simp only [list.insert_before, list.end_, list.begin, hh, hf, hae, hea,
        list.p_node_allocate, list.wr, list.rd,
        bind, Except.bind, pure, Except.pure, List.getElem?_set, list.list_get_snoc, List.length_set,
        List.length_append, List.length_singleton, hlt, hlt1, hltz, hltz1, hne, hne2, hnz, hnz2,
        hez, hze, hce, hcz, if_true, if_false, lt_irrefl, Nat.lt_succ_self]
    · show list.well_formed _ _ ((a0, v0) :: (rest ++ [(h.length, v)]))
      refine list.well_formed_cons_mk e hh hf ?_ ?_ ?_
      · refine list.list_owns_snoc h _ h.length v (some e) _ none z ndz (by simp) ho
          (List.nodup_cons.mp hnd).2 hz hcz ?_ ?_ ?_
        · simp only [List.getElem?_set, list.list_get_snoc, List.length_set, List.length_append,
            List.length_singleton, hlt, hlt1, hltz, hltz1, hne, hne2, hnz, hnz2, hez, hze, hcz,
            if_true, if_false, lt_irrefl, Nat.lt_succ_self]
        · simp only [List.getElem?_set, list.list_get_snoc, List.length_set, List.length_append,
            List.length_singleton, hlt, hlt1, hltz, hltz1, hne, hne2, hnz, hnz2, hez, hze,
            if_true, if_false, lt_irrefl, Nat.lt_succ_self]
        · intro a ha haz
          have hal := list.list_owns_lt h _ _ _ ho a ha
          have hae2 : a ≠ e := fun hh2 => (List.nodup_cons.mp hnd).1 (hh2 ▸ ha)
          have hane : a ≠ h.length := Nat.ne_of_lt hal
          simp only [List.getElem?_set, list.list_get_snoc, List.length_set, List.length_append,
            List.length_singleton, hal, Ne.symm hae2, Ne.symm haz, Ne.symm hane, if_true,
            if_false]
      · have hl : list.last none ((a0, v0) :: (rest ++ [(h.length, v)])) = some h.length :=
          list.last_append none h.length v ((a0, v0) :: rest)
        have hl2 : list.last none ((a0, v0) :: rest ++ [(h.length, v)]) = some h.length :=
          list.last_append none h.length v ((a0, v0) :: rest)
        simp only [hl, hl2, List.getElem?_set, list.list_get_snoc, List.length_set, List.length_append,
          List.length_singleton, hlt, hlt1, hltz, hltz1, hne, hne2, hnz, hnz2, hez, hze, hce,
          if_true, if_false, lt_irrefl, Nat.lt_succ_self]
      · have hall := list.list_owns_lt h _ _ _ ho
        have hp : (e :: (((a0, v0) :: (rest ++ [(h.length, v)])).map Prod.fst)).Perm
            (h.length :: e :: (((a0, v0) :: rest).map Prod.fst)) := by
          simp only [List.map_append, List.map_cons, List.map_nil]
          refine (List.Perm.cons e ?_).trans (List.Perm.swap _ _ _)
          exact @List.perm_append_comm _ (a0 :: rest.map Prod.fst) [h.length]
        rw [hp.nodup_iff]
        refine List.nodup_cons.mpr ⟨?_, hnd⟩
        intro hm
        rcases List.mem_cons.mp hm with h1 | h1
        · exact hne2 h1
        · exact absurd (hall _ h1) (lt_irrefl _)
    · intro a ha hal
      simp only [list.nodes, hf, Option.toList, List.singleton_append, List.mem_cons,
        not_or] at ha
      have haz : a ≠ z := fun hh2 => ha.2 (hh2 ▸ hzm)
      simp only [List.getElem?_set, list.list_get_snoc, Ne.symm ha.1, Ne.symm hal, Ne.symm haz,
        if_false]
      split_ifs with h1
      · rfl
      · exact (List.getElem?_eq_none (by omega)).symm

theorem list.p_erase_loop_spec (e : Nat) :
    ∀ (c : List (Nat × α)) (l : nodeptr) (h : list.Heap α) (fuel : Nat),
      list.owns h l c (some e) → (e :: c.map Prod.fst).Nodup → c.length + 1 ≤ fuel →
      ∃ h1, list.p_erase_loop fuel h (list.first (some e) c) (some e) = .ok h1 ∧
        h1.length = h.length ∧ (∀ a ∈ c.map Prod.fst, h1[a]? = some none) ∧
        (∀ a, a ∉ c.map Prod.fst → h1[a]? = h[a]?) := by
  intro c
  induction c with
  | nil =>
    intro l h fuel _ _ hfuel
    obtain ⟨f, rfl⟩ : ∃ f, fuel = f + 1 := ⟨fuel - 1, by simp at hfuel; omega⟩
    exact ⟨h, by simp [list.p_erase_loop, list.first_nil], rfl, by simp, fun _ _ => rfl⟩
  | cons p rest ih =>
    obtain ⟨a, v⟩ := p
    intro l h fuel ho hnd hfuel
    obtain ⟨f, rfl⟩ : ∃ f, fuel = f + 1 := ⟨fuel - 1, by simp at hfuel; omega⟩
    obtain ⟨hc, ho1⟩ := ho
    simp only [List.map_cons, List.nodup_cons, List.mem_cons, not_or] at hnd
    obtain ⟨⟨hea, her⟩, har, hrn⟩ := hnd
    have hae : (some a : nodeptr) ≠ some e := by
      intro hh; cases hh; exact hea rfl
    have ho2 : list.owns (h.set a none) (some a) rest (some e) := by
      refine list.list_owns_frame h _ rest _ _ ?_ ho1
      intro x hx
      have hxa : a ≠ x := fun hh => har (hh ▸ hx)
      simp [List.getElem?_set, hxa]
    obtain ⟨h1, hev, hlen, hdel, hfr⟩ := ih (some a) (h.set a none) f ho2
      (List.nodup_cons.mpr ⟨her, hrn⟩) (by simp at hfuel ⊢; omega)
    refine ⟨h1, ?_, by simpa using hlen, ?_, ?_⟩
    · simp only [list.p_erase_loop, list.first_cons, hae, ne_eq, not_false_eq_true, if_true,
        list.rd, hc, list.p_node_deallocate, hev]
    · intro x hx
      simp only [List.map_cons, List.mem_cons] at hx
      rcases hx with rfl | hx
      · rw [hfr x har]
        simp [List.getElem?_set, list.list_cell_lt hc]
      · exact hdel x hx
    · intro x hx
      simp only [List.map_cons, List.mem_cons, not_or] at hx
      rw [hfr x hx.2]
      simp [List.getElem?_set, Ne.symm hx.1]

theorem list.clear_spec (h : list.Heap α) (l : list) (c : List (Nat × α))
    (hwf : list.well_formed h l c) (fuel : Nat) (hfuel : c.length + 1 ≤ fuel) :
    ∃ h1, list.clear fuel h l = .ok (h1, ⟨l.tail, l.tail⟩) ∧
      list.well_formed h1 ⟨l.tail, l.tail⟩ [] ∧ h1.length = h.length ∧
      (∀ a ∈ c.map Prod.fst, h1[a]? = some none) ∧
      (∀ a, a ∉ c.map Prod.fst → h1[a]? = h[a]?) := by
  cases c with
  | nil =>
    refine ⟨h, ?_, ⟨rfl, hwf.2⟩, rfl, by simp, fun _ _ => rfl⟩
    cases ht : l.tail with
    | none =>
      have hh : l.head = none := hwf.1.trans ht
      simp [list.clear, list.p_erase, hh, ht]
    | some e =>
      have hh : l.head = some e := hwf.1.trans ht
      obtain ⟨f, rfl⟩ : ∃ f, fuel = f + 1 := ⟨fuel - 1, by simp at hfuel; omega⟩
      simp [list.clear, list.p_erase, hh, ht, list.p_erase_loop]
  | cons p rest =>
    obtain ⟨a, v⟩ := p
    obtain ⟨e, hh, hf, ho, hce, hnd⟩ := list.list_well_formed_cons hwf
    obtain ⟨h1, hev, hlen, hdel, hfr⟩ :=
      list.p_erase_loop_spec e ((a, v) :: rest) none h fuel ho hnd hfuel
    rw [list.first_cons] at hev
    refine ⟨h1, ?_, ?_, hlen, hdel, hfr⟩
    · simp [list.clear, list.p_erase, hh, hf, hev]
    · refine list.well_formed_nil_mk (list.last none ((a, v) :: rest)) hf hf ?_
      rw [hfr e (List.nodup_cons.mp hnd).1]
      exact hce

theorem list.p_transfer_loop_spec (rhs : list) (e : Nat) :
    ∀ (cs : List (Nat × α)) (h : list.Heap α) (this : list) (cd : List (Nat × α))
      (ls : nodeptr) (fuel : Nat),
      this.tail = some e → list.well_formed h this cd → list.owns h ls cs rhs.end_ →
      (∀ a ∈ cs.map Prod.fst, some a ≠ rhs.end_) →
      (∀ a ∈ cs.map Prod.fst, a ∉ this.nodes cd) → cs.length + 1 ≤ fuel →
      ∃ h1 this1 cd1, list.p_transfer_loop rhs fuel h this (list.first rhs.end_ cs)
          = .ok (h1, this1) ∧
        list.well_formed h1 this1 cd1 ∧ cd1.map Prod.snd = cd.map Prod.snd ++ cs.map Prod.snd ∧
        this1.tail = some e ∧ h.length ≤ h1.length ∧
        (∀ a, a < h.length → a ∉ this.nodes cd → h1[a]? = h[a]?) ∧
        (∀ a ∈ this1.nodes cd1, a ∈ this.nodes cd ∨ h.length ≤ a) := by
  intro cs
  induction cs with
  | nil =>
    intro h this cd ls fuel hf hwf _ _ _ hfuel
    obtain ⟨f, rfl⟩ : ∃ f, fuel = f + 1 := ⟨fuel - 1, by simp at hfuel; omega⟩
    exact ⟨h, this, cd, by simp [list.p_transfer_loop, list.first_nil], hwf, by simp, hf,
      le_refl _, fun _ _ _ => rfl, fun _ ha => Or.inl ha⟩
  | cons p rest ih =>
    obtain ⟨a, v⟩ := p
    intro h this cd ls fuel hf hwf ho hne hdis hfuel
    obtain ⟨f, rfl⟩ : ∃ f, fuel = f + 1 := ⟨fuel - 1, by simp at hfuel; omega⟩
    obtain ⟨hc, ho1⟩ := ho
    have hae := hne a (by simp)
    have hlts := list.list_owns_lt h _ _ _ (show list.owns h ls ((a, v) :: rest) rhs.end_ from
      ⟨hc, ho1⟩)
    obtain ⟨h', this', hev, hwf', hf', hlen', hfr'⟩ := list.push_back_spec h this cd v e hwf hf
    have hsame : ∀ x ∈ ((a, v) :: rest).map Prod.fst, h'[x]? = h[x]? := by
      intro x hx
      exact hfr' x (hdis x hx) (Nat.ne_of_lt (hlts x hx))
    have hc' : h'[a]? = _ := (hsame a (by simp)).trans hc
    have ho2 : list.owns h' (some a) rest rhs.end_ :=
      list.list_owns_frame h h' rest _ _ (fun x hx => hsame x (by
        simp only [List.map_cons, List.mem_cons]; exact Or.inr hx)) ho1
    have hnodes : ∀ x, x ∈ this'.nodes (cd ++ [(h.length, v)]) ↔
        (x ∈ this.nodes cd ∨ x = h.length) := by
      intro x
      simp only [list.nodes, hf, hf', List.map_append, List.map_cons, List.map_nil,
        List.mem_append, List.mem_singleton, Option.toList, List.mem_cons, List.not_mem_nil,
        or_false]
      tauto
    obtain ⟨h1, this1, cd1, hev1, hwf1, hv1, hf1, hlen1, hfr1, hnew1⟩ :=
      ih h' this' (cd ++ [(h.length, v)]) (some a) f hf' hwf' ho2
        (fun x hx => hne x (by simp only [List.map_cons, List.mem_cons]; exact Or.inr hx))
        (fun x hx hm => by
          have hx2 : x ∈ ((a, v) :: rest).map Prod.fst := by
            simp only [List.map_cons, List.mem_cons]; exact Or.inr hx
          rcases (hnodes x).mp hm with h2 | h2
          · exact hdis x hx2 h2
          · exact absurd (hlts x hx2) (by omega))
        (by simp at hfuel ⊢; omega)
    refine ⟨h1, this1, cd1, ?_, hwf1, ?_, hf1, by omega, ?_, ?_⟩
    · simp only [list.p_transfer_loop, list.first_cons, hae, ne_eq, not_false_eq_true, if_true,
        list.deref, list.rd, hc, hev, list.inc, hc', hev1]
    · rw [hv1]
      simp
    · intro x hx hxn
      rw [hfr1 x (by omega) (fun hm => by
        rcases (hnodes x).mp hm with h2 | h2
        · exact hxn h2
        · omega)]
      exact hfr' x hxn (by omega)
    · intro x hx
      rcases hnew1 x hx with h2 | h2
      · rcases (hnodes x).mp h2 with h3 | h3
        · exact Or.inl h3
        · exact Or.inr (by omega)
      · exact Or.inr (by omega)

theorem list.list_well_formed_frame (h h1 : list.Heap α) (l : list) (c : List (Nat × α))
    (hs : ∀ a ∈ l.nodes c, h1[a]? = h[a]?) (hwf : list.well_formed h l c) :
    list.well_formed h1 l c := by
  cases c with
  | nil =>
    refine ⟨hwf.1, ?_⟩
    have hw := hwf.2
    cases ht : l.tail with
    | none => trivial
    | some e =>
      simp only [ht] at hw ⊢
      unfold list.bare_tail at hw ⊢
      rw [hs e (by simp [list.nodes, ht])]
      exact hw
  | cons p rest =>
    obtain ⟨a, v⟩ := p
    obtain ⟨e, hh, hf, ho, hce, hnd⟩ := list.list_well_formed_cons hwf
    refine list.well_formed_cons_mk e hh hf ?_ ?_ hnd
    · exact list.list_owns_frame h h1 _ _ _ (fun x hx => hs x (by
        simp only [list.nodes, hf, Option.toList, List.singleton_append, List.mem_cons]
        exact Or.inr (by simpa using hx))) ho
    · rw [hs e (by simp [list.nodes, hf])]
      exact hce

theorem list.list_nodes_lt (h : list.Heap α) (l : list) (c : List (Nat × α))
    (hwf : list.well_formed h l c) : ∀ a ∈ l.nodes c, a < h.length := by
  intro a ha
  cases c with
  | nil =>
    cases ht : l.tail with
    | none => simp [list.nodes, ht] at ha
    | some e =>
      obtain ⟨_, lf, hc⟩ := list.well_formed_nil hwf ht
      simp [list.nodes, ht] at ha
      subst ha
      exact list.list_cell_lt hc
  | cons p rest =>
    obtain ⟨a0, v⟩ := p
    obtain ⟨e, hh, hf, ho, hce, hnd⟩ := list.list_well_formed_cons hwf
    simp only [list.nodes, hf, Option.toList, List.singleton_append, List.mem_cons] at ha
    rcases ha with rfl | ha
    · exact list.list_cell_lt hce
    · exact list.list_owns_lt h _ _ _ ho a (by simpa using ha)

theorem list.empty_iff (h : list.Heap α) (l : list) (c : List (Nat × α))
    (hwf : list.well_formed h l c) : l.empty = true ↔ c = [] := by
  cases c with
  | nil => simp [list.empty, hwf.1]
  | cons p rest =>
    obtain ⟨a0, v⟩ := p
    obtain ⟨e, hh, hf, ho, hce, hnd⟩ := list.list_well_formed_cons hwf
    have : a0 ≠ e := fun hh2 => (List.nodup_cons.mp hnd).1 (by simp [hh2])
    simp [list.empty, hh, hf, this]

/-- Copy assignment into a list that has a tail node: the destination keeps
its tail node, and every other node of the result is a fresh cell. -/
theorem list.copy_assign_spec (h : list.Heap α) (D L : list) (cD cL : List (Nat × α))
    (e : Nat) (hD : list.well_formed h D cD) (hL : list.well_formed h L cL)
    (hfD : D.tail = some e) (hdis : ∀ a ∈ L.nodes cL, a ∉ D.nodes cD)
    (fuel : Nat) (hfuel : cD.length + cL.length + 1 ≤ fuel) :
    ∃ h1 D1 c1, list.copy_assign fuel h D L = .ok (h1, D1) ∧ list.well_formed h1 D1 c1 ∧
      c1.map Prod.snd = cL.map Prod.snd ∧ list.well_formed h1 L cL ∧
      (∀ a, a < h.length → a ∉ D.nodes cD → h1[a]? = h[a]?) ∧
      D1.tail = some e ∧ (∀ a ∈ D1.nodes c1, a = e ∨ h.length ≤ a) := by
  obtain ⟨h', hcl, hwf', hlen', _, hfr'⟩ := list.clear_spec h D cD hD fuel (by omega)
  have hnD : ∀ a, a ∉ D.nodes cD → a ∉ cD.map Prod.fst := by
    intro a ha hm
    exact ha (by simp [list.nodes, hm])
  have hL' : list.well_formed h' L cL :=
    list.list_well_formed_frame h h' L cL (fun a ha => hfr' a (hnD a (hdis a ha))) hL
  by_cases hc : cL = []
  · subst hc
    refine ⟨h', ⟨D.tail, D.tail⟩, [], ?_, hwf', rfl, hL', ?_, hfD, ?_⟩
    · have := (list.empty_iff h' L [] hL').mpr rfl
      simp [list.copy_assign, hcl, list.p_transfer, this]
    · intro a _ ha
      exact hfr' a (hnD a ha)
    · intro a ha
      simp only [list.nodes, hfD, Option.toList, List.map_nil, List.append_nil,
        List.mem_singleton] at ha
      exact Or.inl ha
  · have hemp : L.empty = false := by
      cases hb : L.empty with
      | false => rfl
      | true => exact (hc ((list.empty_iff h' L cL hL').mp hb)).elim
    obtain ⟨ho, hne, hbeg, _⟩ := list.well_formed_owns hL'
    obtain ⟨h1, D1, c1, hev, hwf1, hv1, hf1, _, hfr1, hnew1⟩ :=
      list.p_transfer_loop_spec L e cL h' ⟨D.tail, D.tail⟩ [] none fuel hfD hwf' ho hne
        (fun a ha hm => by
          have h1 : a ∈ L.nodes cL := by simp [list.nodes, ha]
          have h2 := hdis a h1
          simp only [list.nodes, hfD, Option.toList, List.map_nil, List.append_nil,
            List.mem_singleton] at hm
          exact h2 (by simp [list.nodes, hfD, hm]))
        (by omega)
    have hfr : ∀ a, a < h.length → a ∉ D.nodes cD → h1[a]? = h[a]? := by
      intro a hal ha
      rw [hfr1 a (by omega) (fun hm => by
        simp only [list.nodes, hfD, Option.toList, List.map_nil, List.append_nil,
          List.mem_singleton] at hm
        exact ha (by simp [list.nodes, hfD, hm]))]
      exact hfr' a (hnD a ha)
    refine ⟨h1, D1, c1, ?_, hwf1, by simpa using hv1, ?_, hfr, hf1, ?_⟩
    · simp only [list.copy_assign, hcl, list.p_transfer, hemp, hbeg]
      exact hev
    · exact list.list_well_formed_frame h h1 L cL
        (fun a ha => hfr a (list.list_nodes_lt h L cL hL a ha) (hdis a ha)) hL
    · intro a ha
      rcases hnew1 a ha with h2 | h2
      · simp only [list.nodes, hfD, Option.toList, List.map_nil, List.append_nil,
          List.mem_singleton] at h2
        exact Or.inl h2
      · exact Or.inr (by omega)

/-- Copy construction: every node of the new list is a fresh cell. -/
theorem list.copy_ctor_spec (h : list.Heap α) (L : list) (cL : List (Nat × α))
    (hL : list.well_formed h L cL) (fuel : Nat) (hfuel : cL.length + 1 ≤ fuel) :
    ∃ h1 C cC, list.copy_ctor fuel h L = .ok (h1, C) ∧ list.well_formed h1 C cC ∧
      cC.map Prod.snd = cL.map Prod.snd ∧ list.well_formed h1 L cL ∧
      (∀ a, a < h.length → h1[a]? = h[a]?) ∧
      (∀ a ∈ C.nodes cC, h.length ≤ a) := by
  have hlt := list.list_nodes_lt h L cL hL
  have hsame : ∀ a, a < h.length →
      (h ++ [some (⟨none, none, none⟩ : list.node α)])[a]? = h[a]? := by
    intro a ha
    simp [List.getElem?_append_left ha]
  have hL0 : list.well_formed (h ++ [some (⟨none, none, none⟩ : list.node α)]) L cL :=
    list.list_well_formed_frame h _ L cL (fun a ha => hsame a (hlt a ha)) hL
  have hD0 : list.well_formed (h ++ [some (⟨none, none, none⟩ : list.node α)])
      ⟨some h.length, some h.length⟩ [] :=
    list.well_formed_nil_mk none rfl rfl (by simp)
  obtain ⟨h1, D1, c1, hev, hwf1, hv1, hL1, hfr, _, hnew⟩ :=
    list.copy_assign_spec _ ⟨some h.length, some h.length⟩ L [] cL h.length hD0 hL0 rfl
      (fun a ha hm => by
        simp only [list.nodes, Option.toList, List.map_nil, List.append_nil,
          List.mem_singleton] at hm
        exact absurd (hlt a ha) (by omega))
      fuel (by simpa using hfuel)
  refine ⟨h1, D1, c1, hev, hwf1, hv1, hL1, ?_, ?_⟩
  · intro a ha
    rw [hfr a (by simp; omega) (by
      simp only [list.nodes, Option.toList, List.map_nil, List.append_nil, List.mem_singleton]
      omega)]
    exact hsame a ha
  · intro a ha
    rcases hnew a ha with h2 | h2
    · omega
    · simp at h2
      omega

theorem list_pair_eval : list_pair = .ok (list_pair_heap, list_obj, list_dest) := rfl

theorem list_eq_iff_same_elements_witness :
    list.well_formed list_pair_heap list_obj list_cells ∧
    list.well_formed list_pair_heap list_dest list_dest_cells ∧
    (∃ r, list.op_eq 7 list_pair_heap list_obj list_dest = .ok r ∧
      list.op_ne 7 list_pair_heap list_obj list_dest = .ok (!r) ∧
      (r = true ↔ list_cells.map Prod.snd = list_dest_cells.map Prod.snd)) ∧
    list.size 7 list_pair_heap list_obj = .ok list_cells.length ∧
    list.size 7 list_pair_heap list_dest = .ok list_dest_cells.length ∧
    (list.op_eq 7 list_pair_heap list_obj list_dest = .ok true ↔
      (list_cells.length = list_dest_cells.length ∧
        ∀ i : Nat, (list_cells.map Prod.snd)[i]? = (list_dest_cells.map Prod.snd)[i]?)) :=
  ⟨by decide, by decide,
    list_eq_iff_same_elements list_pair_heap list_obj list_dest list_cells list_dest_cells
      (by decide) (by decide) 7 (by decide)⟩

/-- Copies of a list: for every list `L` holding the cells `cL` (the empty
list and a moved-from list included) and enough fuel, copy construction from
`L` returns a list `C` whose values are those of `L` in the same order, built
of fresh cells only, `C == L` returns true, `L` still holds its cells and no
cell of the former heap has changed, and the list move-constructed from `C`
holds the cells of `C` and also compares equal to `L` (the moved-from `C` is
left with null pointers). The same holds for copy assignment `D = L` into
every other list `D` that has a tail node (every list that was constructed and
not moved from), whatever `D` held before; the result keeps the tail node of
`D` and shares no node with `L`. -/
theorem list_copy_holds_elements [DecidableEq α] (h : list.Heap α) (L : list)
    (cL : List (Nat × α)) (hL : list.well_formed h L cL) (fuel : Nat)
    (hfuel : cL.length + 1 ≤ fuel) :
    (∃ h1 C cC, list.copy_ctor fuel h L = .ok (h1, C) ∧ list.well_formed h1 C cC ∧
      cC.map Prod.snd = cL.map Prod.snd ∧ list.op_eq fuel h1 C L = .ok true ∧
      list.well_formed h1 L cL ∧ (∀ a, a < h.length → h1[a]? = h[a]?) ∧
      (list.move_ctor C).2 = ⟨none, none⟩ ∧ list.well_formed h1 (list.move_ctor C).1 cC ∧
      list.op_eq fuel h1 (list.move_ctor C).1 L = .ok true ∧
      (∀ a ∈ C.nodes cC, a ∉ L.nodes cL)) ∧
    (∀ (D : list) (cD : List (Nat × α)) (e : Nat), list.well_formed h D cD →
      D.tail = some e → (∀ a ∈ L.nodes cL, a ∉ D.nodes cD) → cD.length + cL.length + 1 ≤ fuel →
      ∃ h1 D1 c1, list.copy_assign fuel h D L = .ok (h1, D1) ∧ list.well_formed h1 D1 c1 ∧
        c1.map Prod.snd = cL.map Prod.snd ∧ list.op_eq fuel h1 D1 L = .ok true ∧
        list.well_formed h1 L cL ∧ (∀ a ∈ L.nodes cL, h1[a]? = h[a]?) ∧
        (list.move_ctor D1).2 = ⟨none, none⟩ ∧ list.well_formed h1 (list.move_ctor D1).1 c1 ∧
        list.op_eq fuel h1 (list.move_ctor D1).1 L = .ok true ∧
        D1.tail = D.tail ∧ (∀ a ∈ D1.nodes c1, a ∉ L.nodes cL)) := by
  have hlt := list.list_nodes_lt h L cL hL
  constructor
  · obtain ⟨h1, C, cC, hev, hwf, hv, hL1, hfr, hnew⟩ :=
      list.copy_ctor_spec h L cL hL fuel hfuel
    have heq := list.op_eq_spec h1 C L cC cL hwf hL1 fuel hfuel
    rw [hv] at heq
    simp only [decide_True] at heq
    exact ⟨h1, C, cC, hev, hwf, hv, heq, hL1, hfr, rfl, hwf, heq,
      fun a ha hm => absurd (hlt a hm) (by have := hnew a ha; omega)⟩
  · intro D cD e hD hfD hdis hfuel2
    obtain ⟨h1, D1, c1, hev, hwf, hv, hL1, hfr, hf1, hnew⟩ :=
      list.copy_assign_spec h D L cD cL e hD hL hfD hdis fuel hfuel2
    have heq := list.op_eq_spec h1 D1 L c1 cL hwf hL1 fuel hfuel
    rw [hv] at heq
    simp only [decide_True] at heq
    refine ⟨h1, D1, c1, hev, hwf, hv, heq, hL1,
      fun a ha => hfr a (hlt a ha) (hdis a ha), rfl, hwf, heq, hf1.trans hfD.symm, ?_⟩
    intro a ha hm
    rcases hnew a ha with h2 | h2
    · subst h2
      exact hdis a hm (by simp [list.nodes, hfD])
    · exact absurd (hlt a hm) (by omega)

theorem list_copy_holds_elements_witness :
    list.well_formed list_pair_heap list_obj list_cells ∧
    (∃ h1 C cC, list.copy_ctor 7 list_pair_heap list_obj = .ok (h1, C) ∧
      list.well_formed h1 C cC ∧
      cC.map Prod.snd = list_cells.map Prod.snd ∧ list.op_eq 7 h1 C list_obj = .ok true ∧
      list.well_formed h1 list_obj list_cells ∧
      (∀ a, a < list_pair_heap.length → h1[a]? = list_pair_heap[a]?) ∧
      (list.move_ctor C).2 = ⟨none, none⟩ ∧ list.well_formed h1 (list.move_ctor C).1 cC ∧
      list.op_eq 7 h1 (list.move_ctor C).1 list_obj = .ok true ∧
      (∀ a ∈ C.nodes cC, a ∉ list_obj.nodes list_cells)) ∧
    (∃ h1 D1 c1, list.copy_assign 7 list_pair_heap list_dest list_obj = .ok (h1, D1) ∧
      list.well_formed h1 D1 c1 ∧
      c1.map Prod.snd = list_cells.map Prod.snd ∧ list.op_eq 7 h1 D1 list_obj = .ok true ∧
      list.well_formed h1 list_obj list_cells ∧
      (∀ a ∈ list_obj.nodes list_cells, h1[a]? = list_pair_heap[a]?) ∧
      (list.move_ctor D1).2 = ⟨none, none⟩ ∧ list.well_formed h1 (list.move_ctor D1).1 c1 ∧
      list.op_eq 7 h1 (list.move_ctor D1).1 list_obj = .ok true ∧
      D1.tail = list_dest.tail ∧ (∀ a ∈ D1.nodes c1, a ∉ list_obj.nodes list_cells)) :=
  ⟨by decide,
    (list_copy_holds_elements list_pair_heap list_obj list_cells (by decide) 7 (by decide)).1,
    (list_copy_holds_elements list_pair_heap list_obj list_cells (by decide) 7 (by decide)).2
      list_dest list_dest_cells 6 (by decide) rfl (by decide) (by decide)⟩

/-- The list object a move leaves behind holds no element, and `clear()` and
the destructor return on it without touching the heap. -/
theorem list.moved_from_empty (h : list.Heap α) (M : list) (fuel : Nat) :
    list.well_formed h (list.move_ctor M).2 [] ∧ (list.move_ctor M).2.empty = true ∧
      list.clear fuel h (list.move_ctor M).2 = .ok (h, (list.move_ctor M).2) ∧
      list.dtor fuel h (list.move_ctor M).2 = .ok h := by
  refine ⟨⟨rfl, trivial⟩, rfl, ?_, ?_⟩
  · simp [list.clear, list.move_ctor, list.p_erase]
  · simp [list.dtor, list.clear, list.move_ctor, list.p_erase, list.p_node_deallocate]

/-- Copy assignment of a list that holds an element into a list whose tail
pointer is null: after `clear()`, which returns at once, the first
`insert_before(end(), ...)` of `p_transfer` finds `head == tail`, links the
new node and writes `this->tail->left` through the null tail. -/
theorem list.list_copy_assign_null (h : list.Heap α) (L : list) (cL : List (Nat × α))
    (hL : list.well_formed h L cL) (hc : cL ≠ []) (fuel : Nat) (hfuel : 1 ≤ fuel) :
    list.copy_assign fuel h ⟨none, none⟩ L = .error .null_deref := by
  obtain ⟨f, rfl⟩ : ∃ f, fuel = f + 1 := ⟨fuel - 1, by omega⟩
  cases cL with
  | nil => exact (hc rfl).elim
  | cons p rest =>
    obtain ⟨a, v⟩ := p
    have hemp : L.empty = false := by
      cases hb : L.empty with
      | false => rfl
      | true => exact (hc ((list.empty_iff h L _ hL).mp hb)).elim
    obtain ⟨e, hh, hf, ho, hce, hnd⟩ := list.list_well_formed_cons hL
    have hae : a ≠ e := fun hh2 => (List.nodup_cons.mp hnd).1 (by simp [hh2])
    have hlt : a < h.length := list.list_cell_lt ho.1
    simp [list.copy_assign, list.clear, list.p_erase, list.p_transfer, hemp, list.begin, hh,
      list.p_transfer_loop, list.end_, hf, hae, list.deref, list.rd, ho.1, list.insert_before,
      list.p_node_allocate, list.wr, bind, Except.bind, pure, Except.pure]

/-- C30: copy assignment into the list object a move leaves behind fails. For
every list `L` that holds at least one element, the moved-from list (`head`
and `tail` null) is a well-formed empty list, `empty()` is true on it,
`clear()` and the destructor return on it, and yet `D = L` ends in a null
dereference: after `clear()` the first `insert_before(end(), ...)` of
`p_transfer` finds `head == tail` and writes `this->tail->left` with
`tail == nullptr`. No list holding the elements of `L` is produced. -/
theorem list_copy_assign_fails_on_moved_from (h : list.Heap α) (M L : list)
    (cL : List (Nat × α)) (hL : list.well_formed h L cL) (hc : cL ≠ []) (fuel : Nat)
    (hfuel : 1 ≤ fuel) :
    list.well_formed h (list.move_ctor M).2 [] ∧ (list.move_ctor M).2.empty = true ∧
      list.clear fuel h (list.move_ctor M).2 = .ok (h, (list.move_ctor M).2) ∧
      list.dtor fuel h (list.move_ctor M).2 = .ok h ∧
      list.copy_assign fuel h (list.move_ctor M).2 L = .error .null_deref :=
  ⟨(list.moved_from_empty h M fuel).1, (list.moved_from_empty h M fuel).2.1,
    (list.moved_from_empty h M fuel).2.2.1, (list.moved_from_empty h M fuel).2.2.2,
    list.list_copy_assign_null h L cL hL hc fuel hfuel⟩

theorem list_copy_assign_fails_on_moved_from_witness :
    list.well_formed list_pair_heap list_obj list_cells ∧ list_cells ≠ [] ∧
      list.well_formed list_pair_heap (list.move_ctor list_dest).2 ([] : List (Nat × Int)) ∧
      list.copy_assign 40 list_pair_heap (list.move_ctor list_dest).2 list_obj
        = .error .null_deref :=
  ⟨by decide, by decide,
    (list_copy_assign_fails_on_moved_from list_pair_heap list_dest list_obj list_cells
      (by decide) (by decide) 40 (by decide)).1,
    (list_copy_assign_fails_on_moved_from list_pair_heap list_dest list_obj list_cells
      (by decide) (by decide) 40 (by decide)).2.2.2.2⟩

/-! ## The transfer algorithm: building the copy -/

theorem wr_ok {h : Heap α} {a : Nat} {nd : node α} (hc : h[a]? = some (some nd))
    (f : node α → node α) : wr h (some a) f = .ok (h.set a (some (f nd))) := by
  simp [wr, rd, hc]

theorem get_set_same {h : Heap α} {a : Nat} {c : Option (node α)} (hlt : a < h.length) :
    (h.set a c)[a]? = some c := by
  simp [List.getElem?_set, hlt]

theorem get_set_ne {h : Heap α} {a b : Nat} {c : Option (node α)} (hne : a ≠ b) :
    (h.set a c)[b]? = h[b]? := by
  simp [List.getElem?_set, hne]

theorem transfer_steps_append : ∀ (xs ys : List (α × Nat)) (h : Heap α) (pd : Nat)
    (Q : List (nodeptr × Nat)),
    transfer_steps (xs ++ ys) h pd Q =
      match transfer_steps xs h pd Q with
      | .error e => .error e
      | .ok (h1, pd1, Q1) => transfer_steps ys h1 pd1 Q1
  | [], ys, h, pd, Q => rfl
  | (v, d) :: xs, ys, h, pd, Q => by
    simp only [List.cons_append, transfer_steps]
    cases transfer_step h pd Q v d with
    | error e => rfl
    | ok r => exact transfer_steps_append xs ys r.1 d r.2

/-- The pop loops of `p_transfer` on a block of entries whose depth is not the
one the loop stops at, followed by nothing or by an entry of that depth: the
block is popped, every node of it gets the parent `tmp`, and `bak` is its last
node. -/
theorem pop_tops (tmp : nodeptr) (stop : Option Nat) (d1 : Nat) (hd : stop ≠ some d1) :
    ∀ (tops : List Nat) (Q1 : List (nodeptr × Nat)) (h : Heap α) (bak : nodeptr),
      (∀ a ∈ tops, ∃ nd, h[a]? = some (some nd)) → tops.Nodup →
      (Q1 = [] ∨ ∃ n dq rest, Q1 = (n, dq) :: rest ∧ stop = some dq) →
      ∃ h1, p_transfer_pop tmp stop (tops.map (fun a => (some a, d1)) ++ Q1) h bak
          = .ok (h1, Q1, (match tops.getLast? with | some z => some z | none => bak)) ∧
        h1.length = h.length ∧
        (∀ a ∈ tops, ∀ nd, h[a]? = some (some nd) →
          h1[a]? = some (some { nd with parent := tmp })) ∧
        (∀ a, a ∉ tops → h1[a]? = h[a]?) := by
  intro tops
  induction tops with
  | nil =>
    intro Q1 h bak _ _ hQ
    refine ⟨h, ?_, rfl, by simp, fun _ _ => rfl⟩
    rcases hQ with rfl | ⟨n, dq, rest, rfl, hs⟩
    · rfl
    · simp [p_transfer_pop, hs]
  | cons a tops ih =>
    intro Q1 h bak hcells hnd hQ
    obtain ⟨nd, hc⟩ := hcells a (by simp)
    obtain ⟨hat, hnd1⟩ := List.nodup_cons.mp hnd
    obtain ⟨h1, hev, hlen, hset, hfr⟩ := ih Q1 (h.set a (some { nd with parent := tmp }))
      (some a) (by
        intro x hx
        obtain ⟨ndx, hcx⟩ := hcells x (by simp [hx])
        exact ⟨ndx, by rw [get_set_ne (fun hh => hat (by rw [hh]; exact hx))]; exact hcx⟩)
      hnd1 hQ
    refine ⟨h1, ?_, by simpa using hlen, ?_, ?_⟩
    · have e1 : (a :: tops).map (fun a => ((some a : nodeptr), d1)) ++ Q1
          = (some a, d1) :: (tops.map (fun a => ((some a : nodeptr), d1)) ++ Q1) := rfl
      rw [e1, p_transfer_pop]
      simp only [hd, if_false, wr_ok hc]
      rw [hev]
      congr 3
      cases tops with
      | nil => rfl
      | cons b t =>
        rw [List.getLast?_cons_cons]
        cases hl : (b :: t).getLast? with
        | none => simp at hl
        | some z => rfl
    · intro x hx ndx hcx
      rcases List.mem_cons.mp hx with rfl | hx
      · rw [hfr x hat, get_set_same (cell_lt hc)]
        rw [hc] at hcx
        cases hcx
        rfl
      · exact hset x hx ndx (by
          rw [get_set_ne (fun hh => hat (by rw [hh]; exact hx))]; exact hcx)
    · intro x hx
      simp only [List.mem_cons, not_or] at hx
      rw [hfr x hx.2, get_set_ne (Ne.symm hx.1)]

theorem tops_subset_pre : ∀ (f : Forest α) (a : Nat), a ∈ f.tops → a ∈ f.pre
  | .nil, a, h => by simp [Forest.tops] at h
  | .cons b v k r, a, h => by
    simp only [Forest.tops, List.mem_cons] at h
    simp only [Forest.pre, List.mem_cons, List.mem_append]
    rcases h with rfl | h
    · exact Or.inl rfl
    · exact Or.inr (Or.inr (tops_subset_pre r a h))

theorem tops_nodup : ∀ (f : Forest α), f.pre.Nodup → f.tops.Nodup
  | .nil, _ => by simp [Forest.tops]
  | .cons b v k r, h => by
    simp only [Forest.pre, List.nodup_cons, List.mem_append, not_or, List.nodup_append] at h
    simp only [Forest.tops, List.nodup_cons]
    exact ⟨fun hh => h.1.2 (tops_subset_pre r b hh), tops_nodup r h.2.2.1⟩

theorem tops_head : ∀ (f : Forest α), f.tops.head? = f.first
  | .nil => rfl
  | .cons _ _ _ _ => rfl

theorem tops_getLast : ∀ (f : Forest α), f.tops.getLast? = f.last
  | .nil => rfl
  | .cons a v k .nil => rfl
  | .cons a v k (.cons b w kb rb) => by
    have := tops_getLast (.cons b w kb rb)
    simp only [Forest.tops, Forest.last] at this ⊢
    rw [List.getLast?_cons_cons]
    exact this

/-- Giving the nodes of the top level of a chain a new parent. -/
theorem owns_set_parent (h h1 : Heap α) (q : nodeptr) :
    ∀ (f : Forest α) (p l stop : nodeptr), owns h p l f stop → f.pre.Nodup →
      (∀ a ∈ f.tops, ∀ nd, h[a]? = some (some nd) →
        h1[a]? = some (some { nd with parent := q })) →
      (∀ a ∈ f.pre, a ∉ f.tops → h1[a]? = h[a]?) →
      owns h1 q l f stop := by
  intro f
  induction f with
  | nil => intros; trivial
  | cons a v k r _ ihr =>
    intro p l stop ho hnd hset hfr
    obtain ⟨hc, hk, hr⟩ := ho
    simp only [Forest.pre, List.nodup_cons, List.mem_append, not_or, List.nodup_append] at hnd
    obtain ⟨⟨hak, har⟩, hkn, hrn, hkr⟩ := hnd
    refine ⟨hset a (by simp [Forest.tops]) _ hc, ?_, ?_⟩
    · refine owns_frame h h1 k _ _ _ ?_ hk
      intro x hx
      refine hfr x (by simp [Forest.pre, hx]) ?_
      simp only [Forest.tops, List.mem_cons, not_or]
      exact ⟨fun hh => hak (hh ▸ hx), fun hh => hkr hx (tops_subset_pre r x hh)⟩
    · refine ihr p (some a) stop hr hrn ?_ ?_
      · intro x hx
        exact hset x (by simp [Forest.tops, hx])
      · intro x hx hxt
        refine hfr x (by simp [Forest.pre, hx]) ?_
        simp only [Forest.tops, List.mem_cons, not_or]
        exact ⟨fun hh => har (hh ▸ hx), hxt⟩

/-- Giving the first node of a chain a new left neighbour. -/
theorem owns_set_left (h h1 : Heap α) (l1 : nodeptr) (b : Nat) (w : α) (kb rb : Forest α)
    (p l stop : nodeptr) (ndb : node α) (ho : owns h p l (.cons b w kb rb) stop)
    (hnd : (Forest.cons b w kb rb).pre.Nodup) (hcb : h[b]? = some (some ndb))
    (hb1 : h1[b]? = some (some { ndb with left := l1 }))
    (hfr : ∀ a ∈ (Forest.cons b w kb rb).pre, a ≠ b → h1[a]? = h[a]?) :
    owns h1 p l1 (.cons b w kb rb) stop := by
  obtain ⟨hc, hk, hr⟩ := ho
  simp only [Forest.pre, List.nodup_cons, List.mem_append, not_or] at hnd
  rw [hc] at hcb
  cases hcb
  refine ⟨hb1, ?_, ?_⟩
  · refine owns_frame h h1 kb _ _ _ ?_ hk
    intro x hx
    exact hfr x (by simp [Forest.pre, hx]) (fun hh => hnd.1.1 (hh ▸ hx))
  · refine owns_frame h h1 rb _ _ _ ?_ hr
    intro x hx
    exact hfr x (by simp [Forest.pre, hx]) (fun hh => hnd.1.2 (hh ▸ hx))

theorem copy_size : ∀ (f : Forest α) (n : Nat), (f.copy n).size = f.size
  | .nil, _ => rfl
  | .cons a v k r, n => by
    simp [Forest.copy, Forest.size, copy_size k, copy_size r]

theorem copy_pre_range : ∀ (f : Forest α) (n : Nat), ∀ a ∈ (f.copy n).pre,
    n ≤ a ∧ a < n + f.size
  | .nil, _, a, ha => by simp [Forest.copy, Forest.pre] at ha
  | .cons b v k r, n, a, ha => by
    simp only [Forest.copy, Forest.pre, List.mem_cons, List.mem_append] at ha
    simp only [Forest.size]
    rcases ha with rfl | ha | ha
    · omega
    · have := copy_pre_range k (n + r.size) a ha
      omega
    · have := copy_pre_range r n a ha
      omega

theorem copy_pre_nodup : ∀ (f : Forest α) (n : Nat), (f.copy n).pre.Nodup
  | .nil, _ => by simp [Forest.copy, Forest.pre]
  | .cons b v k r, n => by
    simp only [Forest.copy, Forest.pre, List.nodup_cons, List.mem_append, not_or,
      List.nodup_append]
    refine ⟨⟨?_, ?_⟩, copy_pre_nodup k _, copy_pre_nodup r _, ?_⟩
    · intro hh
      have := copy_pre_range k (n + r.size) _ hh
      omega
    · intro hh
      have := copy_pre_range r n _ hh
      omega
    · intro x hx1 hx2
      have h1 := copy_pre_range k (n + r.size) x hx1
      have h2 := copy_pre_range r n x hx2
      omega

theorem copy_shape : ∀ (f : Forest α) (n : Nat), (f.copy n).shape = f.shape
  | .nil, _ => rfl
  | .cons a v k r, n => by
    simp [Forest.copy, Forest.shape, copy_shape k, copy_shape r]

theorem copy_vals : ∀ (f : Forest α) (n : Nat), (f.copy n).vals = f.vals
  | .nil, _ => rfl
  | .cons a v k r, n => by
    simp [Forest.copy, Forest.vals, copy_vals k, copy_vals r]

theorem copy_eq_nil {f : Forest α} {n : Nat} : f.copy n = .nil ↔ f = .nil := by
  cases f <;> simp [Forest.copy]

theorem get_append_lt {h : Heap α} {c : Option (node α)} {a : Nat} (hlt : a < h.length) :
    (h ++ [c])[a]? = h[a]? := by
  simp [List.getElem?_append_left hlt]

theorem get_append_len {h : Heap α} {c : Option (node α)} :
    (h ++ [c])[h.length]? = some c := by
  simp

/-- One round of the loop of `p_transfer` for a node whose children `k1` and
right siblings `r1` have been copied: the new node becomes the head of the
chain, above its children. -/
theorem transfer_node (h2 : Heap α) (v : α) (d pd2 : Nat) (k1 r1 : Forest α)
    (Q : List (nodeptr × Nat))
    (hk : owns h2 none none k1 none) (hr : owns h2 none none r1 none)
    (hnd : (k1.pre ++ r1.pre).Nodup) (htr : k1 = .nil ∨ r1 ≠ .nil)
    (hpd1 : k1 ≠ .nil → pd2 = d + 1) (hpd2 : k1 = .nil → r1 ≠ .nil → pd2 = d)
    (hpd3 : k1 = .nil → r1 = .nil → pd2 < d ∨ (Q = [] ∧ pd2 = d)) :
    ∃ h3, transfer_step h2 pd2
        (k1.tops.map (fun a => ((some a : nodeptr), d + 1)) ++
          (r1.tops.map (fun a => ((some a : nodeptr), d)) ++ Q)) v d
        = .ok (h3, (some h2.length, d) :: (r1.tops.map (fun a => ((some a : nodeptr), d)) ++ Q)) ∧
      h3.length = h2.length + 1 ∧
      (∀ a, a < h2.length → a ∉ k1.tops → some a ≠ r1.first → h3[a]? = h2[a]?) ∧
      owns h3 none none (.cons h2.length v k1 r1) none := by
  have hltk := owns_lt h2 _ _ _ _ hk
  have hltr := owns_lt h2 _ _ _ _ hr
  have hnew : (h2 ++ [some (⟨none, none, none, none, none, some v⟩ : node α)])[h2.length]?
      = some (some ⟨none, none, none, none, none, some v⟩) := get_append_len
  cases k1 with
  | nil =>
    cases r1 with
    | nil =>
      have hc1 : ¬ d < pd2 := by
        rcases hpd3 rfl rfl with h1 | ⟨_, h1⟩ <;> omega
      have hc2 : ¬ (d = pd2 ∧ Q ≠ []) := by
        rcases hpd3 rfl rfl with h1 | ⟨h1, _⟩
        · intro hh; omega
        · intro hh; exact hh.2 h1
      refine ⟨h2 ++ [some ⟨none, none, none, none, none, some v⟩], ?_, by simp, ?_, ?_⟩
      · simp [transfer_step, p_node_allocate, Forest.tops, hc1, hc2, bind, Except.bind, pure,
          Except.pure]
      · intro a ha _ _
        exact get_append_lt ha
      · exact ⟨by simp [Forest.firstOr, Forest.first, Forest.last], trivial, trivial⟩
    | cons b w kb rb =>
      have hpd := hpd2 rfl (by simp)
      subst hpd
      obtain ⟨hcb, hokb, horb⟩ := hr
      have hbl : b < h2.length := cell_lt hcb
      have hbn : b ≠ h2.length := Nat.ne_of_lt hbl
      have hw1 : wr (h2 ++ [some (⟨none, none, none, none, none, some v⟩ : node α)])
          (some h2.length) (fun x => { x with right := some b })
          = .ok ((h2 ++ [some (⟨none, none, none, none, none, some v⟩ : node α)]).set h2.length
            (some ⟨none, none, some b, none, none, some v⟩)) := wr_ok hnew _
      have hcb2 : ((h2 ++ [some (⟨none, none, none, none, none, some v⟩ : node α)]).set h2.length
          (some ⟨none, none, some b, none, none, some v⟩))[b]? = _ :=
        (get_set_ne (Ne.symm hbn)).trans ((get_append_lt hbl).trans hcb)
      have hw2 : wr ((h2 ++ [some (⟨none, none, none, none, none, some v⟩ : node α)]).set
          h2.length (some ⟨none, none, some b, none, none, some v⟩)) (some b)
          (fun x => { x with left := some h2.length })
          = .ok (((h2 ++ [some (⟨none, none, none, none, none, some v⟩ : node α)]).set
            h2.length (some ⟨none, none, some b, none, none, some v⟩)).set b
            (some ⟨none, some h2.length, rb.firstOr none, kb.first, kb.last, some w⟩)) :=
        wr_ok hcb2 _
      have hnd1 : (Forest.cons b w kb rb).pre.Nodup := by simpa [Forest.pre] using hnd
      refine ⟨((h2 ++ [some (⟨none, none, none, none, none, some v⟩ : node α)]).set
            h2.length (some ⟨none, none, some b, none, none, some v⟩)).set b
            (some ⟨none, some h2.length, rb.firstOr none, kb.first, kb.last, some w⟩),
        ?_, ?_, ?_, ?_⟩
      · simp only [transfer_step, p_node_allocate, Forest.tops, List.map_nil, List.nil_append,
          List.map_cons, List.cons_append, lt_irrefl, if_false, true_and, ne_eq,
          reduceCtorEq, not_false_eq_true, if_true, back, bind, Except.bind, pure, Except.pure,
          hw1, hw2]
      · simp
      · intro a ha _ hab
        have hab2 : b ≠ a := fun hh => hab (by simp [Forest.first, hh])
        rw [get_set_ne hab2, get_set_ne (Nat.ne_of_gt ha), get_append_lt ha]
      · refine ⟨?_, trivial, ?_⟩
        · rw [get_set_ne hbn, get_set_same (by simp)]
          rfl
        · refine owns_set_left h2 _ (some h2.length) b w kb rb none none none _
            ⟨hcb, hokb, horb⟩ hnd1 hcb ?_ ?_
          · rw [get_set_same (by simp; omega)]
          · intro a ha hab
            have hal := hltr a ha
            rw [get_set_ne (Ne.symm hab), get_set_ne (Nat.ne_of_gt hal), get_append_lt hal]
  | cons c u kc rc =>
    have hpd := hpd1 (by simp)
    subst hpd
    cases r1 with
    | nil => rcases htr with h1 | h1 <;> simp at h1
    | cons b w kb rb =>
      obtain ⟨hcb, hokb, horb⟩ := hr
      have hbl : b < h2.length := cell_lt hcb
      have hbn : b ≠ h2.length := Nat.ne_of_lt hbl
      have hndk : (Forest.cons c u kc rc).pre.Nodup := (List.nodup_append.mp hnd).1
      have hndr : (Forest.cons b w kb rb).pre.Nodup := (List.nodup_append.mp hnd).2.1
      have hdis : ∀ x ∈ (Forest.cons c u kc rc).pre, x ∉ (Forest.cons b w kb rb).pre :=
        fun x hx1 hx2 => (List.nodup_append.mp hnd).2.2 hx1 hx2
      have hbk : b ∉ (Forest.cons c u kc rc).tops := fun hh =>
        hdis b (tops_subset_pre _ b hh) (by simp [Forest.pre])
      obtain ⟨z, hz⟩ := last_cons_some rc c u kc
      -- tmp->child_begin = queue.back().first
      have hw1 : wr (h2 ++ [some (⟨none, none, none, none, none, some v⟩ : node α)])
          (some h2.length) (fun x => { x with child_begin := some c })
          = .ok ((h2 ++ [some (⟨none, none, none, none, none, some v⟩ : node α)]).set h2.length
            (some ⟨none, none, none, some c, none, some v⟩)) := wr_ok hnew _
      -- the pop loop
      obtain ⟨h3, hpop, hlen3, hset3, hfr3⟩ := pop_tops (some h2.length) (some d) (d + 1)
        (by simp) (Forest.cons c u kc rc).tops
        ((Forest.cons b w kb rb).tops.map (fun a => ((some a : nodeptr), d)) ++ Q)
        ((h2 ++ [some (⟨none, none, none, none, none, some v⟩ : node α)]).set h2.length
          (some ⟨none, none, none, some c, none, some v⟩)) (some c)
        (by
          intro a ha
          have hal := hltk a (tops_subset_pre _ a ha)
          obtain ⟨nd, hc, _⟩ := owns_cell h2 _ _ _ _ hk a (tops_subset_pre _ a ha)
          exact ⟨nd, by
            rw [get_set_ne (Nat.ne_of_gt hal), get_append_lt hal]; exact hc⟩)
        (tops_nodup _ hndk)
        (Or.inr ⟨some b, d, _, rfl, rfl⟩)
      rw [tops_getLast, hz] at hpop
      have hn3 : h3[h2.length]? = some (some ⟨none, none, none, some c, none, some v⟩) := by
        rw [hfr3 _ (fun hh => absurd (hltk _ (tops_subset_pre _ _ hh)) (lt_irrefl _)),
          get_set_same (by simp)]
      -- tmp->child_end = bak
      have hw2 : wr h3 (some h2.length) (fun x => { x with child_end := some z })
          = .ok (h3.set h2.length (some ⟨none, none, none, some c, some z, some v⟩)) :=
        wr_ok hn3 _
      have hlt3 : h2.length < h3.length := by rw [hlen3]; simp
      have hw3 : wr (h3.set h2.length (some ⟨none, none, none, some c, some z, some v⟩))
          (some h2.length) (fun x => { x with right := some b })
          = .ok ((h3.set h2.length (some ⟨none, none, none, some c, some z, some v⟩)).set
            h2.length (some ⟨none, none, some b, some c, some z, some v⟩)) :=
        wr_ok (get_set_same hlt3) _
      have hcb5 : (((h3.set h2.length (some ⟨none, none, none, some c, some z, some v⟩)).set
          h2.length (some ⟨none, none, some b, some c, some z, some v⟩)))[b]? = _ :=
        (get_set_ne (Ne.symm hbn)).trans ((get_set_ne (Ne.symm hbn)).trans
          ((hfr3 b hbk).trans ((get_set_ne (Ne.symm hbn)).trans ((get_append_lt hbl).trans hcb))))
      have hw4 : wr (((h3.set h2.length (some ⟨none, none, none, some c, some z, some v⟩)).set
          h2.length (some ⟨none, none, some b, some c, some z, some v⟩))) (some b)
          (fun x => { x with left := some h2.length })
          = .ok ((((h3.set h2.length (some ⟨none, none, none, some c, some z, some v⟩)).set
            h2.length (some ⟨none, none, some b, some c, some z, some v⟩))).set b
            (some ⟨none, some h2.length, rb.firstOr none, kb.first, kb.last, some w⟩)) :=
        wr_ok hcb5 _
      refine ⟨(((h3.set h2.length (some ⟨none, none, none, some c, some z, some v⟩)).set
            h2.length (some ⟨none, none, some b, some c, some z, some v⟩))).set b
            (some ⟨none, some h2.length, rb.firstOr none, kb.first, kb.last, some w⟩),
        ?_, ?_, ?_, ?_⟩
      · simp only [transfer_step, p_node_allocate, Nat.lt_succ_self, if_true, bind, Except.bind,
          pure, Except.pure]
        simp only [Forest.tops, List.map_cons, List.cons_append, back, hw1]
        simp only [Forest.tops, List.map_cons, List.cons_append] at hpop
        simp only [hpop, hw2, back, hw3, hw4]
      · simp [hlen3]
      · intro a ha hak hab
        have hab2 : b ≠ a := fun hh => hab (by simp [Forest.first, hh])
        rw [get_set_ne hab2, get_set_ne (Nat.ne_of_gt ha), get_set_ne (Nat.ne_of_gt ha),
          hfr3 a hak, get_set_ne (Nat.ne_of_gt ha), get_append_lt ha]
      · refine ⟨?_, ?_, ?_⟩
        · rw [get_set_ne hbn, get_set_same (by simp; omega)]
          simp [Forest.firstOr, Forest.first, hz]
        · refine owns_set_parent h2 _ (some h2.length) _ none none none hk hndk ?_ ?_
          · intro a ha nd hc
            have hal := hltk a (tops_subset_pre _ a ha)
            have hab : b ≠ a := fun hh => hbk (hh ▸ ha)
            rw [get_set_ne hab, get_set_ne (Nat.ne_of_gt hal), get_set_ne (Nat.ne_of_gt hal)]
            exact hset3 a ha nd (by
              rw [get_set_ne (Nat.ne_of_gt hal), get_append_lt hal]; exact hc)
          · intro a ha hat
            have hal := hltk a ha
            have hab : b ≠ a := fun hh => hdis a ha (by simp [Forest.pre, ← hh])
            rw [get_set_ne hab, get_set_ne (Nat.ne_of_gt hal), get_set_ne (Nat.ne_of_gt hal),
              hfr3 a hat, get_set_ne (Nat.ne_of_gt hal), get_append_lt hal]
        · refine owns_set_left h2 _ (some h2.length) b w kb rb none none none _
            ⟨hcb, hokb, horb⟩ hndr hcb ?_ ?_
          · rw [get_set_same (by simp; omega)]
          · intro a ha hab
            have hal := hltr a ha
            have hak : a ∉ (Forest.cons c u kc rc).tops := fun hh =>
              hdis a (tops_subset_pre _ a hh) ha
            rw [get_set_ne (Ne.symm hab), get_set_ne (Nat.ne_of_gt hal),
              get_set_ne (Nat.ne_of_gt hal), hfr3 a hak, get_set_ne (Nat.ne_of_gt hal),
              get_append_lt hal]

theorem last_depth_rest (a : Nat) (v : α) (k rest : Forest α) (hr : rest ≠ .nil) :
    (Forest.cons a v k rest).last_depth = rest.last_depth := by
  cases rest with
  | nil => exact (hr rfl).elim
  | cons b w kb rb => cases k <;> rfl

theorem last_depth_kids (a : Nat) (v : α) (k : Forest α) (hk : k ≠ .nil) :
    (Forest.cons a v k .nil).last_depth = k.last_depth + 1 := by
  cases k with
  | nil => exact (hk rfl).elim
  | cons b w kb rb => rfl

/-- The rounds of the loop of `p_transfer` for a chain of the source in which
every node with children has a right sibling: the chain is copied to fresh
cells, the copies of its top level are left on the deque, and no older cell is
written. -/
theorem transfer_chain : ∀ (f : Forest α) (d : Nat) (h : Heap α) (pd : Nat)
    (Q : List (nodeptr × Nat)),
    f.transferable → (f ≠ .nil → pd < d ∨ (Q = [] ∧ pd = d + f.last_depth)) →
    ∃ h1, transfer_steps (f.rev_items d) h pd Q
        = .ok (h1, f.dist_after pd d,
            (f.copy h.length).tops.map (fun a => ((some a : nodeptr), d)) ++ Q) ∧
      h1.length = h.length + f.size ∧ (∀ a, a < h.length → h1[a]? = h[a]?) ∧
      owns h1 none none (f.copy h.length) none := by
  intro f
  induction f with
  | nil =>
    intro d h pd Q _ _
    exact ⟨h, rfl, by simp [Forest.size], fun _ _ => rfl, trivial⟩
  | cons a v k rest ihk ihr =>
    intro d h pd Q htr hpre
    obtain ⟨htr1, htrk, htrr⟩ := htr
    have hpre1 := hpre (by simp)
    obtain ⟨h1, hev1, hlen1, hfr1, ho1⟩ := ihr d h pd Q htrr (by
      intro hr
      rcases hpre1 with h1 | ⟨hq, hp⟩
      · exact Or.inl h1
      · exact Or.inr ⟨hq, by rw [hp, last_depth_rest a v k rest hr]⟩)
    obtain ⟨h2, hev2, hlen2, hfr2, ho2⟩ := ihk (d + 1) h1 (rest.dist_after pd d)
      ((rest.copy h.length).tops.map (fun a => ((some a : nodeptr), d)) ++ Q) htrk (by
        intro hk
        cases rest with
        | nil =>
          rcases htr1 with h1 | h1
          · exact (hk h1).elim
          · exact (h1 rfl).elim
        | cons b w kb rb => exact Or.inl (Nat.lt_succ_self d))
    rw [hlen1] at ho2 hev2
    have ho1' : owns h2 none none (rest.copy h.length) none := by
      refine owns_frame h1 h2 _ _ _ _ ?_ ho1
      intro x hx
      have := copy_pre_range rest h.length x hx
      exact hfr2 x (by omega)
    have hnd : ((k.copy (h.length + rest.size)).pre ++ (rest.copy h.length).pre).Nodup := by
      refine List.nodup_append.mpr ⟨copy_pre_nodup _ _, copy_pre_nodup _ _, ?_⟩
      intro x hx1 hx2
      have h1 := copy_pre_range k (h.length + rest.size) x hx1
      have h2 := copy_pre_range rest h.length x hx2
      omega
    obtain ⟨h3, hev3, hlen3, hfr3, ho3⟩ := transfer_node h2 v d
      (k.dist_after (rest.dist_after pd d) (d + 1))
      (k.copy (h.length + rest.size)) (rest.copy h.length) Q ho2 ho1' hnd
      (htr1.imp (fun hh => copy_eq_nil.mpr hh) (fun hh hc => hh (copy_eq_nil.mp hc)))
      (by
        intro hk
        cases k with
        | nil => exact (hk rfl).elim
        | cons _ _ _ _ => rfl)
      (by
        intro hk hr
        cases k with
        | nil =>
          cases rest with
          | nil => exact (hr rfl).elim
          | cons _ _ _ _ => rfl
        | cons _ _ _ _ => simp [Forest.copy] at hk)
      (by
        intro hk hr
        cases k with
        | nil =>
          cases rest with
          | nil =>
            rcases hpre1 with h1 | ⟨hq, hp⟩
            · exact Or.inl h1
            · exact Or.inr ⟨hq, by simpa [Forest.last_depth] using hp⟩
          | cons _ _ _ _ => simp [Forest.copy] at hr
        | cons _ _ _ _ => simp [Forest.copy] at hk)
    have hl2 : h2.length = h.length + rest.size + k.size := by omega
    refine ⟨h3, ?_, ?_, ?_, ?_⟩
    · show transfer_steps (rest.rev_items d ++ (k.rev_items (d + 1) ++ [(v, d)])) h pd Q = _
      rw [transfer_steps_append, hev1]
      simp only
      rw [transfer_steps_append, hev2]
      simp only [transfer_steps]
      rw [hev3]
      simp only [Forest.copy, Forest.tops, List.map_cons, List.cons_append, hl2,
        Forest.dist_after]
    · simp only [Forest.size]
      omega
    · intro x hx
      rw [hfr3 x (by omega) ?_ ?_, hfr2 x (by omega), hfr1 x hx]
      · intro hh
        have := copy_pre_range k (h.length + rest.size) x (tops_subset_pre _ x hh)
        omega
      · intro hh
        have := copy_pre_range rest h.length x (first_mem _ x hh.symm)
        omega
    · rw [hl2] at ho3
      exact ho3

theorem wr_frame {h h1 : Heap α} {a : Nat} {f : node α → node α}
    (hw : wr h (some a) f = .ok h1) :
    h1.length = h.length ∧ a < h.length ∧ ∀ x, x ≠ a → h1[x]? = h[x]? := by
  unfold wr at hw
  cases hrd : rd h (some a) with
  | error e => simp [hrd] at hw
  | ok nd =>
    simp only [hrd, Except.ok.injEq] at hw
    subst hw
    have hlt : a < h.length := by
      by_contra hh
      simp [rd, List.getElem?_eq_none (not_lt.mp hh)] at hrd
    exact ⟨by simp, hlt, fun x hx => get_set_ne (Ne.symm hx)⟩

theorem wr_none {h : Heap α} {f : node α → node α} : wr h none f = .error .null_deref := by
  simp [wr, rd]

/-- The pop loops of `p_transfer` write only to nodes of the deque. -/
theorem pop_frame (tmp : nodeptr) (stop : Option Nat) (base : Nat) :
    ∀ (Q : List (nodeptr × Nat)) (h h1 : Heap α) (bak bak1 : nodeptr)
      (Q1 : List (nodeptr × Nat)),
      p_transfer_pop tmp stop Q h bak = .ok (h1, Q1, bak1) → qvalid base Q →
      h1.length = h.length ∧ (∀ x, x < base → h1[x]? = h[x]?) ∧ qvalid base Q1 ∧
        (Q1 = [] ∨ ∃ n dq rest, Q1 = (n, dq) :: rest ∧ stop = some dq) := by
  intro Q
  induction Q with
  | nil =>
    intro h h1 bak bak1 Q1 hp _
    simp only [p_transfer_pop, Except.ok.injEq, Prod.mk.injEq] at hp
    obtain ⟨rfl, rfl, _⟩ := hp
    exact ⟨rfl, fun _ _ => rfl, by intro q hq; simp at hq, Or.inl rfl⟩
  | cons q Q ih =>
    obtain ⟨n, d⟩ := q
    intro h h1 bak bak1 Q1 hp hv
    rw [p_transfer_pop] at hp
    by_cases hs : stop = some d
    · simp only [hs, if_true, Except.ok.injEq, Prod.mk.injEq] at hp
      obtain ⟨rfl, rfl, _⟩ := hp
      exact ⟨rfl, fun _ _ => rfl, hv, Or.inr ⟨n, d, Q, rfl, hs⟩⟩
    · simp only [hs, if_false] at hp
      obtain ⟨a, hna, hba⟩ := hv (n, d) (by simp)
      simp only at hna
      subst hna
      cases hw : wr h (some a) (fun x => { x with parent := tmp }) with
      | error e => simp [hw] at hp
      | ok h2 =>
        simp only [hw] at hp
        obtain ⟨hl2, _, hf2⟩ := wr_frame hw
        obtain ⟨hl1, hf1, hv1, hq1⟩ := ih h2 h1 (some a) bak1 Q1 hp
          (fun q hq => hv q (by simp [hq]))
        exact ⟨hl1.trans hl2, fun x hx => (hf1 x hx).trans (hf2 x (by omega)), hv1, hq1⟩

/-- One round of the loop of `p_transfer` writes only to the new node and to
nodes of the deque. -/
theorem transfer_step_frame (h h2 : Heap α) (pd : Nat) (Q Q2 : List (nodeptr × Nat)) (v : α)
    (d base : Nat) (hs : transfer_step h pd Q v d = .ok (h2, Q2)) (hv : qvalid base Q)
    (hb : base ≤ h.length) :
    h2.length = h.length + 1 ∧ (∀ x, x < base → h2[x]? = h[x]?) ∧ qvalid base Q2 := by
  have hval : ∀ (d1 : Nat) (Q3 : List (nodeptr × Nat)), qvalid base Q3 →
      qvalid base ((some h.length, d1) :: Q3) := by
    intro d1 Q3 h3 q hq
    rcases List.mem_cons.mp hq with rfl | hq
    · exact ⟨h.length, rfl, hb⟩
    · exact h3 q hq
  have hfr0 : ∀ x, x < base →
      (h ++ [some (⟨none, none, none, none, none, some v⟩ : node α)])[x]? = h[x]? :=
    fun x hx => get_append_lt (by omega)
  simp only [transfer_step, p_node_allocate, bind, Except.bind, pure, Except.pure] at hs
  by_cases h1 : d < pd
  · simp only [h1, if_true] at hs
    cases Q with
    | nil => simp [back] at hs
    | cons b Q =>
      obtain ⟨cb, hcb, hbb⟩ := hv b (by simp)
      simp only [back] at hs
      cases hw1 : wr (h ++ [some (⟨none, none, none, none, none, some v⟩ : node α)])
          (some h.length) (fun x => { x with child_begin := b.1 }) with
      | error e => simp [hw1] at hs
      | ok g1 =>
        simp only [hw1] at hs
        obtain ⟨hl1, _, hf1⟩ := wr_frame hw1
        cases hp : p_transfer_pop (some h.length) (some d) (b :: Q) g1 b.1 with
        | error e => simp [hp] at hs
        | ok r =>
          obtain ⟨g3, Q3, bak⟩ := r
          simp only [hp] at hs
          obtain ⟨hl3, hf3, hv3, _⟩ := pop_frame (some h.length) (some d) base (b :: Q) g1 g3
            b.1 bak Q3 hp hv
          cases hw2 : wr g3 (some h.length) (fun x => { x with child_end := bak }) with
          | error e => simp [hw2] at hs
          | ok g4 =>
            simp only [hw2] at hs
            obtain ⟨hl4, _, hf4⟩ := wr_frame hw2
            cases Q3 with
            | nil => simp [back] at hs
            | cons b2 Q3 =>
              obtain ⟨cb2, hcb2, hbb2⟩ := hv3 b2 (by simp)
              simp only [back] at hs
              cases hw3 : wr g4 (some h.length) (fun x => { x with right := b2.1 }) with
              | error e => simp [hw3] at hs
              | ok g5 =>
                simp only [hw3] at hs
                obtain ⟨hl5, _, hf5⟩ := wr_frame hw3
                rw [hcb2] at hs
                cases hw4 : wr g5 (some cb2) (fun x => { x with left := some h.length }) with
                | error e => simp [hw4] at hs
                | ok g6 =>
                  simp only [hw4, Except.ok.injEq, Prod.mk.injEq] at hs
                  obtain ⟨rfl, rfl⟩ := hs
                  obtain ⟨hl6, _, hf6⟩ := wr_frame hw4
                  refine ⟨by simp [hl6, hl5, hl4, hl3, hl1], ?_, hval _ _ hv3⟩
                  intro x hx
                  rw [hf6 x (by omega), hf5 x (by omega), hf4 x (by omega), hf3 x hx,
                    hf1 x (by omega), hfr0 x hx]
  · simp only [h1, if_false] at hs
    by_cases h2c : d = pd ∧ Q ≠ []
    · simp only [h2c, ne_eq, not_false_eq_true, and_self, if_true] at hs
      cases Q with
      | nil => exact (h2c.2 rfl).elim
      | cons b Q =>
        obtain ⟨cb, hcb, hbb⟩ := hv b (by simp)
        simp only [back] at hs
        cases hw1 : wr (h ++ [some (⟨none, none, none, none, none, some v⟩ : node α)])
            (some h.length) (fun x => { x with right := b.1 }) with
        | error e => simp [hw1] at hs
        | ok g1 =>
          simp only [hw1] at hs
          obtain ⟨hl1, _, hf1⟩ := wr_frame hw1
          rw [hcb] at hs
          cases hw2 : wr g1 (some cb) (fun x => { x with left := some h.length }) with
          | error e => simp [hw2] at hs
          | ok g2 =>
            simp only [hw2, Except.ok.injEq, Prod.mk.injEq] at hs
            obtain ⟨rfl, rfl⟩ := hs
            obtain ⟨hl2, _, hf2⟩ := wr_frame hw2
            refine ⟨by simp [hl2, hl1], ?_, hval _ _ hv⟩
            intro x hx
            rw [hf2 x (by omega), hf1 x (by omega), hfr0 x hx]
    · simp only [h2c, if_false, Except.ok.injEq, Prod.mk.injEq] at hs
      obtain ⟨rfl, rfl⟩ := hs
      exact ⟨by simp, hfr0, hval _ _ hv⟩

/-- One round of the loop of `p_transfer`, split into the reads of the source
and `transfer_step`. -/
theorem p_transfer_loop_succ (F : Nat) (rhs : tree) (fuel : Nat) (h : Heap α) (it : nodeptr)
    (pd : Nat) (Q : List (nodeptr × Nat)) (v : α) (d : Nat) (hne : it ≠ rhs.begin)
    (hv : deref h it = .ok v)
    (hd : depth_between F (h ++ [some ⟨none, none, none, none, none, some v⟩]) it rhs.begin
      = .ok d) :
    p_transfer_loop F rhs (fuel + 1) h it pd Q =
      match transfer_step h pd Q v d with
      | .error e => .error e
      | .ok (h2, Q2) =>
        match df_dec F h2 it with
        | .error e => .error e
        | .ok it1 => p_transfer_loop F rhs fuel h2 it1 d Q2 := by
  simp only [p_transfer_loop, transfer_step, hne, ne_eq, not_false_eq_true, if_true, hv,
    p_node_allocate, hd, bind, Except.bind, pure, Except.pure]
  split <;> rename_i hx
  · simp only [hx]
  · simp only [hx]
    split <;> rename_i hy <;> simp only [hy]

theorem items_pre : ∀ (f : Forest α) (d : Nat), (f.items d).map (fun x => x.1) = f.pre
  | .nil, _ => rfl
  | .cons a v k r, d => by
    simp [Forest.items, Forest.pre, items_pre k, items_pre r]

theorem rev_items_eq : ∀ (f : Forest α) (d : Nat),
    f.rev_items d = (f.items d).reverse.map (fun x => (x.2.1, x.2.2))
  | .nil, _ => rfl
  | .cons a v k r, d => by
    simp [Forest.items, Forest.rev_items, rev_items_eq k, rev_items_eq r]

theorem items_value (h : Heap α) : ∀ (f : Forest α) (p l stop : nodeptr) (d : Nat),
    owns h p l f stop → ∀ x ∈ f.items d, deref h (some x.1) = .ok x.2.1 := by
  intro f
  induction f with
  | nil => intro p l stop d _ x hx; simp [Forest.items] at hx
  | cons a v k r ihk ihr =>
    intro p l stop d ho x hx
    obtain ⟨hc, hk, hr⟩ := ho
    simp only [Forest.items, List.mem_cons, List.mem_append] at hx
    rcases hx with rfl | hx | hx
    · simp [deref, rd, hc]
    · exact ihk _ _ _ _ hk x hx
    · exact ihr _ _ _ _ hr x hx

/-- Climbing the parent links from a node of a chain whose parent is at depth
`dP` below the top. -/
theorem items_depth (h : Heap α) (top : nodeptr) : ∀ (f : Forest α) (P : Nat) (l stop : nodeptr)
    (dP : Nat), owns h (some P) l f stop →
    (∀ fuel i, dP + 1 ≤ fuel → depth_between_loop fuel h (some P) i = .ok (top, i + dP)) →
    ∀ x ∈ f.items (dP + 1), ∀ fuel i, x.2.2 + 1 ≤ fuel →
      depth_between_loop fuel h (some x.1) i = .ok (top, i + x.2.2) := by
  intro f
  induction f with
  | nil => intro P l stop dP _ _ x hx; simp [Forest.items] at hx
  | cons a v k r ihk ihr =>
    intro P l stop dP ho hP x hx
    obtain ⟨hc, hk, hr⟩ := ho
    have ha : ∀ fuel i, dP + 1 + 1 ≤ fuel →
        depth_between_loop fuel h (some a) i = .ok (top, i + (dP + 1)) := by
      intro fuel i hf
      obtain ⟨f1, rfl⟩ : ∃ f1, fuel = f1 + 1 := ⟨fuel - 1, by omega⟩
      simp only [depth_between_loop, rd, hc]
      rw [hP f1 (i + 1) (by omega)]
      congr 2
      omega
    simp only [Forest.items, List.mem_cons, List.mem_append] at hx
    rcases hx with rfl | hx | hx
    · exact ha
    · exact ihk a none none (dP + 1) hk ha x hx
    · exact ihr P (some a) stop dP hr hP x hx

theorem chain_adjacent {β : Type} {R : β → β → Prop} (A : List β) (a b : β) (B : List β)
    (hc : List.Chain' R (A ++ a :: b :: B)) : R a b := by
  have := (List.chain'_append.mp hc).2.1
  exact (List.chain'_cons.mp this).1

/-- What the loop of `p_transfer` reads at a node of a well-formed source:
the value, the depth, and the node before it in the pre-order. -/
theorem source_reads (h : Heap α) (rhs : tree) (r : Nat) (v0 : α) (kids : Forest α)
    (hwf : well_formed h rhs (.cons r v0 kids .nil)) (F : Nat) (hF : kids.size + 2 ≤ F)
    (A : List (Nat × α × Nat)) (x : Nat × α × Nat) (B : List (Nat × α × Nat))
    (hK : kids.items 1 = A ++ x :: B) :
    (some x.1 : nodeptr) ≠ rhs.begin ∧ deref h (some x.1) = .ok x.2.1 ∧
      depth_between F h (some x.1) rhs.begin = .ok x.2.2 ∧
      df_dec F h (some x.1)
        = .ok (some (match A.getLast? with | some y => y.1 | none => r)) := by
  obtain ⟨e, hroot, hf, ho, hce, hnd⟩ := well_formed_cons hwf
  obtain ⟨hcr, hok, _⟩ := ho
  have hxm : x ∈ kids.items 1 := by rw [hK]; simp
  have hxp : x.1 ∈ kids.pre := by
    rw [← items_pre kids 1]
    exact List.mem_map.mpr ⟨x, hxm, rfl⟩
  have hxr : x.1 ≠ r := by
    intro hh
    simp only [Forest.pre, List.append_nil, List.nodup_cons, List.mem_cons, not_or] at hnd
    exact hnd.2.1 (hh ▸ hxp)
  have hsz : ∀ y ∈ kids.items 1, y.2.2 ≤ kids.size := by
    have gen : ∀ (f : Forest α) (d : Nat), ∀ y ∈ f.items d, y.2.2 < d + f.size := by
      intro f
      induction f with
      | nil => intro d y hy; simp [Forest.items] at hy
      | cons a v k rr ihk ihr =>
        intro d y hy
        simp only [Forest.items, List.mem_cons, List.mem_append] at hy
        simp only [Forest.size]
        rcases hy with rfl | hy | hy
        · simp
        · have := ihk (d + 1) y hy; omega
        · have := ihr d y hy; omega
    intro y hy
    have := gen kids 1 y hy
    omega
  refine ⟨?_, items_value h kids _ _ _ 1 hok x hxm, ?_, ?_⟩
  · rw [tree.begin, hroot]
    intro hh
    cases hh
    exact hxr rfl
  · have hr0 : ∀ fuel i, 0 + 1 ≤ fuel →
        depth_between_loop fuel h (some r) i = .ok (some r, i + 0) := by
      intro fuel i hfu
      obtain ⟨f1, rfl⟩ : ∃ f1, fuel = f1 + 1 := ⟨fuel - 1, by omega⟩
      simp [depth_between_loop, rd, hcr]
    have := items_depth h (some r) kids r none none 0 hok hr0 x hxm F 0
      (by have := hsz x hxm; omega)
    simp [depth_between, this, tree.begin, hroot]
  · have hl := tree_links hwf
    have hpre : (Forest.cons r v0 kids .nil).pre = r :: (A.map (fun y => y.1) ++
        x.1 :: B.map (fun y => y.1)) := by
      simp only [Forest.pre, List.append_nil]
      rw [← items_pre kids 1, hK]
      simp
    rw [hpre] at hl
    have hdec : dec_to h (kids.size + 2)
        (some (match A.getLast? with | some y => y.1 | none => r)) (some x.1) := by
      rcases List.eq_nil_or_concat A with rfl | ⟨A1, y, rfl⟩
      · simp only [List.map_nil, List.nil_append, List.map_cons, List.cons_append] at hl
        have hl2 : List.Chain' (step_both h (kids.size + 2))
            ([] ++ some r :: some x.1 :: (B.map (fun y : Nat × α × Nat => (some y.1 : nodeptr)) ++
                [rhs.foot])) := by
          simpa [List.map_map, Function.comp] using hl
        exact (chain_adjacent _ _ _ _ hl2).2
      · simp only [List.concat_eq_append, List.map_append, List.map_cons, List.map_nil,
          List.cons_append, List.append_assoc, List.singleton_append] at hl
        have hl2 : List.Chain' (step_both h (kids.size + 2))
            ((some r :: A1.map (fun y : Nat × α × Nat => (some y.1 : nodeptr))) ++
              some y.1 :: some x.1 :: (B.map (fun y : Nat × α × Nat => (some y.1 : nodeptr)) ++
                [rhs.foot])) := by
          simpa [List.map_map, Function.comp] using hl
        have := (chain_adjacent _ _ _ _ hl2).2
        simpa using this
    exact hdec F hF

theorem nodes_lt (h : Heap α) (t : tree) (f : Forest α) (hwf : well_formed h t f) :
    ∀ a ∈ t.nodes f, a < h.length := by
  intro a ha
  obtain ⟨nd, hc, _⟩ := nodes_cell h t f hwf a ha
  exact cell_lt hc

/-- The loop of `p_transfer` on a well-formed source whose nodes lie below
`base`, started at the node `R` begins with (in walking order) with a deque of
nodes from `base` on: it performs the rounds `transfer_steps` for the values
and depths of `R` and ends at the root. -/
theorem loop_steps (F : Nat) (rhs : tree) (r : Nat) (v0 : α) (kids : Forest α) (base : Nat)
    (hF : kids.size + 2 ≤ F) :
    ∀ (R K2 : List (Nat × α × Nat)), kids.items 1 = R.reverse ++ K2 →
      ∀ (h : Heap α) (pd : Nat) (Q : List (nodeptr × Nat)) (fuel : Nat),
        well_formed h rhs (.cons r v0 kids .nil) →
        (∀ x ∈ rhs.nodes (Forest.cons r v0 kids .nil), x < base) → base ≤ h.length →
        qvalid base Q →
        p_transfer_loop F rhs (fuel + R.length + 1) h
            (some (match R.head? with | some x => x.1 | none => r)) pd Q
          = match transfer_steps (R.map (fun x => (x.2.1, x.2.2))) h pd Q with
            | .error e => .error e
            | .ok (h1, _, Q1) => .ok (h1, some r, Q1) := by
  intro R
  induction R with
  | nil =>
    intro K2 _ h pd Q fuel hwf _ _ _
    obtain ⟨e, hroot, _⟩ := well_formed_cons hwf
    simp [p_transfer_loop, transfer_steps, tree.begin, hroot]
  | cons x R ih =>
    intro K2 hK h pd Q fuel hwf hlt hb hq
    have hK1 : kids.items 1 = R.reverse ++ x :: K2 := by
      rw [hK]; simp
    have hsame : ∀ a ∈ rhs.nodes (Forest.cons r v0 kids .nil),
        (h ++ [some (⟨none, none, none, none, none, some x.2.1⟩ : node α)])[a]? = h[a]? :=
      fun a ha => get_append_lt (nodes_lt h rhs _ hwf a ha)
    have hwf1 := well_formed_frame h _ rhs _ hsame hwf
    obtain ⟨hne, hv, _, _⟩ := source_reads h rhs r v0 kids hwf F hF _ x _ hK1
    obtain ⟨_, _, hd, _⟩ := source_reads _ rhs r v0 kids hwf1 F hF _ x _ hK1
    have hfu : fuel + (x :: R).length + 1 = (fuel + R.length + 1) + 1 := by
      simp only [List.length_cons]; omega
    show p_transfer_loop F rhs (fuel + (x :: R).length + 1) h (some x.1) pd Q = _
    rw [hfu, p_transfer_loop_succ F rhs _ h (some x.1) pd Q x.2.1 x.2.2 hne hv hd]
    simp only [List.map_cons, transfer_steps]
    cases hs : transfer_step h pd Q x.2.1 x.2.2 with
    | error e => rfl
    | ok res =>
      obtain ⟨h2, Q2⟩ := res
      obtain ⟨hl2, hf2, hq2⟩ := transfer_step_frame h h2 pd Q Q2 x.2.1 x.2.2 base hs hq hb
      have hwf2 := well_formed_frame h h2 rhs _ (fun a ha => hf2 a (hlt a ha)) hwf
      obtain ⟨_, _, _, hdec⟩ := source_reads h2 rhs r v0 kids hwf2 F hF _ x _ hK1
      simp only [hdec]
      have hlast : R.reverse.getLast? = R.head? := by simp
      rw [hlast]
      exact ih (x :: K2) hK1 h2 x.2.2 Q2 fuel hwf2 hlt (by omega) hq2

theorem items_last : ∀ (f : Forest α) (d : Nat), f ≠ .nil →
    ∃ A x, f.items d = A ++ [x] ∧ x.2.2 = d + f.last_depth := by
  intro f
  induction f with
  | nil => intro d hf; exact (hf rfl).elim
  | cons a v k rest ihk ihr =>
    intro d _
    by_cases hr : rest = .nil
    · subst hr
      by_cases hk : k = .nil
      · subst hk
        exact ⟨[], (a, v, d), rfl, rfl⟩
      · obtain ⟨A, x, hA, hx⟩ := ihk (d + 1) hk
        refine ⟨(a, v, d) :: A, x, by simp [Forest.items, hA], ?_⟩
        rw [hx, last_depth_kids a v k hk]
        omega
    · obtain ⟨A, x, hA, hx⟩ := ihr d hr
      refine ⟨(a, v, d) :: (k.items (d + 1) ++ A), x, by simp [Forest.items, hA], ?_⟩
      rw [hx, last_depth_rest a v k rest hr]

theorem copy_pre_mem : ∀ (f : Forest α) (n a : Nat), n ≤ a → a < n + f.size →
    a ∈ (f.copy n).pre
  | .nil, n, a, h1, h2 => by simp [Forest.size] at h2; omega
  | .cons b v k r, n, a, h1, h2 => by
    simp only [Forest.size] at h2
    simp only [Forest.copy, Forest.pre, List.mem_cons, List.mem_append]
    by_cases h3 : a < n + r.size
    · exact Or.inr (Or.inr (copy_pre_mem r n a h1 h3))
    · by_cases h4 : a < n + r.size + k.size
      · exact Or.inr (Or.inl (copy_pre_mem k (n + r.size) a (by omega) h4))
      · exact Or.inl (by omega)

theorem copy_first_some {f : Forest α} (n : Nat) (hf : f ≠ .nil) :
    ∃ c, (f.copy n).first = some c := by
  cases f with
  | nil => exact (hf rfl).elim
  | cons a v k r => exact ⟨_, rfl⟩

/-- The call `set_root` on a tree that is empty (with a sentinel) or consists
of a root without children. -/
theorem set_root_childless (h1 : Heap α) (this : tree) (fD : Forest α) (v : α)
    (hwf : well_formed h1 this fD)
    (hfD : (fD = .nil ∧ this.foot ≠ none) ∨ ∃ rD vD, fD = .cons rD vD .nil .nil) :
    ∃ h2 t2 R0 E, set_root h1 this v = .ok (h2, t2, some R0) ∧ t2.root = some R0 ∧
      t2.foot = some E ∧
      h2[R0]? = some (some ⟨none, none, some E, none, none, some v⟩) ∧
      h2[E]? = some (some ⟨none, some R0, none, none, none, none⟩) ∧ R0 ≠ E ∧
      R0 ∈ this.nodes fD ∧ (E ∈ this.nodes fD ∨ h1[E]? = none) ∧
      (∀ a ∈ this.nodes fD, a = R0 ∨ a = E) ∧
      (∀ a, a ≠ R0 → a ≠ E → h2[a]? = h1[a]?) := by
  rcases hfD with ⟨rfl, hft⟩ | ⟨rD, vD, rfl⟩
  · cases hf : this.foot with
    | none => exact (hft hf).elim
    | some e =>
      obtain ⟨h2, hev, hw, _, hfr⟩ := set_root_empty h1 this e v hwf hf
      obtain ⟨E, hroot, hfoot, ho, hce, hnd⟩ := well_formed_cons hw
      simp only [Option.some.injEq] at hfoot
      subst hfoot
      refine ⟨h2, _, e, h1.length, hev, rfl, rfl, ?_, hce, ?_, ?_, ?_, ?_, hfr⟩
      · simpa [Forest.firstOr, Forest.first, Forest.last] using ho.1
      · intro hh
        exact (List.nodup_cons.mp hnd).1 (by simp [Forest.pre, hh])
      · simp [tree.nodes, hf]
      · exact Or.inr (List.getElem?_eq_none (le_refl _))
      · intro a ha
        simp only [tree.nodes, hf, Option.toList, Forest.pre, List.append_nil,
          List.mem_singleton] at ha
        exact Or.inl ha
  · obtain ⟨h2, hev, hw, _, hfr⟩ := set_root_nonempty h1 this rD vD v .nil hwf
    obtain ⟨E, hroot, hfoot, ho, hce, hnd⟩ := well_formed_cons hw
    refine ⟨h2, this, rD, E, ?_, hroot, hfoot, ?_, hce, ?_, ?_, ?_, ?_, ?_⟩
    · rw [hev, tree.begin, hroot]
    · simpa [Forest.firstOr, Forest.first, Forest.last] using ho.1
    · intro hh
      exact (List.nodup_cons.mp hnd).1 (by simp [Forest.pre, hh])
    · simp [tree.nodes, Forest.pre]
    · exact Or.inl (by simp [tree.nodes, hfoot])
    · intro a ha
      simp only [tree.nodes, hfoot, Option.toList, Forest.pre, List.append_nil,
        List.singleton_append, List.mem_cons, List.not_mem_nil, or_false] at ha
      exact ha.symm
    · intro a ha _
      exact hfr a ha

/-- The transfer algorithm on its domain: a well-formed source whose root has
a child and in which every other node with children has a right sibling, into
a destination that is empty (with a sentinel) or a root without children. The
destination becomes a well-formed tree with the values and shape of the
source, built on the former nodes of the destination and fresh cells; no other
cell is written. -/
theorem p_transfer_spec (h : Heap α) (this rhs : tree) (r : Nat) (v0 : α) (kids fD : Forest α)
    (hrhs : well_formed h rhs (.cons r v0 kids .nil)) (hthis : well_formed h this fD)
    (hfD : (fD = .nil ∧ this.foot ≠ none) ∨ ∃ rD vD, fD = .cons rD vD .nil .nil)
    (hk : kids ≠ .nil) (htr : kids.transferable) (fuel : Nat) (hfuel : kids.size + 2 ≤ fuel) :
    ∃ h5 t2 R0, p_transfer fuel h this rhs = .ok (h5, t2) ∧
      local_step h this fD h5 t2 (.cons R0 v0 (kids.copy h.length) .nil) := by
  obtain ⟨e, hroot, hf, ho, hce, hnd⟩ := well_formed_cons hrhs
  have hre : r ≠ e := fun hh => (List.nodup_cons.mp hnd).1 (by simp [Forest.pre, hh])
  have hemp : rhs.empty = false := by simp [tree.empty, hroot, hf, hre]
  -- the start of the walk
  obtain ⟨A, x, hA, hxd⟩ := items_last kids 1 hk
  obtain ⟨hdl, hgl, _⟩ := df_dec_from_end h rhs r v0 kids hrhs fuel hfuel
  have hx1 : Forest.deepest_last r kids = x.1 := by
    have h1 := deepest_last_getLast? kids r
    rw [← items_pre kids 1, hA] at h1
    simp only [List.map_append, List.map_cons, List.map_nil] at h1
    rw [← List.cons_append, List.getLast?_append, List.getLast?_singleton] at h1
    simpa using h1.symm
  obtain ⟨_, _, hdep, _⟩ := source_reads h rhs r v0 kids hrhs fuel hfuel A x [] hA
  -- the loop
  have hlt := nodes_lt h rhs _ hrhs
  have hloop := loop_steps fuel rhs r v0 kids h.length hfuel (kids.items 1).reverse []
    (by simp) h x.2.2 [] (fuel - kids.size - 1) hrhs hlt (le_refl _)
    (by intro q hq; simp at hq)
  have hlen : (kids.items 1).reverse.length = kids.size := by
    rw [List.length_reverse, ← List.length_map, items_pre, pre_length]
  have hhead : (kids.items 1).reverse.head? = some x := by
    rw [hA]; simp
  rw [hlen, hhead, show fuel - kids.size - 1 + kids.size + 1 = fuel by omega,
    ← rev_items_eq kids 1] at hloop
  obtain ⟨h1, hev1, hlen1, hfr1, ho1⟩ := transfer_chain kids 1 h x.2.2 [] htr
    (fun _ => Or.inr ⟨rfl, hxd⟩)
  rw [hev1] at hloop
  simp only [List.append_nil] at hloop
  -- the root
  have hv1 : deref h1 (some r) = .ok v0 := by
    simp [deref, rd, hfr1 r (hlt r (by simp [tree.nodes, Forest.pre])), ho.1]
  have hthis1 : well_formed h1 this fD :=
    well_formed_frame h h1 this fD (fun a ha => hfr1 a (nodes_lt h this fD hthis a ha)) hthis
  obtain ⟨h2, t2, R0, E, hsr, hr2, hf2, hcR, hcE, hRE, hRm, hEm, hall, hfr2⟩ :=
    set_root_childless h1 this fD v0 hthis1 hfD
  have hRlt : R0 < h.length := nodes_lt h this fD hthis R0 hRm
  have hElt : E < h.length ∨ h1.length ≤ E := by
    rcases hEm with h3 | h3
    · exact Or.inl (nodes_lt h this fD hthis E h3)
    · right
      by_contra hh
      have : E < h1.length := by omega
      rw [List.getElem?_eq_getElem this] at h3
      cases h3
  have hcopy := copy_pre_range kids h.length
  have hRk : R0 ∉ (kids.copy h.length).pre := fun hh => by
    have := hcopy R0 hh; omega
  have hEk : E ∉ (kids.copy h.length).pre := fun hh => by
    have := hcopy E hh; omega
  have hnR : ∀ a, a ∈ (kids.copy h.length).pre → a ≠ R0 := fun a ha hh => hRk (hh ▸ ha)
  have hnR2 : ∀ a, a ∈ (kids.copy h.length).pre → R0 ≠ a := fun a ha hh => hRk (hh ▸ ha)
  have hnE : ∀ a, a ∈ (kids.copy h.length).pre → a ≠ E := fun a ha hh => hEk (hh ▸ ha)
  obtain ⟨c, hc⟩ := copy_first_some h.length hk
  have hw1 : wr h2 (some R0) (fun x => { x with child_begin := some c })
      = .ok (h2.set R0 (some ⟨none, none, some E, some c, none, some v0⟩)) := wr_ok hcR _
  have hkn := copy_pre_nodup kids h.length
  obtain ⟨h4, hpop, hlen4, hset4, hfr4⟩ := pop_tops (some R0) none 1 (by simp)
    (kids.copy h.length).tops [] (h2.set R0 (some ⟨none, none, some E, some c, none, some v0⟩))
    (some c)
    (by
      intro a ha
      have ham := tops_subset_pre _ a ha
      obtain ⟨nd, hca, _⟩ := owns_cell h1 _ _ _ _ ho1 a ham
      exact ⟨nd, by
        rw [get_set_ne (hnR2 a ham), hfr2 a (hnR a ham) (hnE a ham)]
        exact hca⟩)
    (tops_nodup _ hkn) (Or.inl rfl)
  simp only [List.append_nil] at hpop
  have hlast : ∃ z, (kids.copy h.length).last = some z := by
    cases hkc : kids.copy h.length with
    | nil => exact (hk (copy_eq_nil.mp hkc)).elim
    | cons a v k r => exact last_cons_some r a v k
  obtain ⟨z, hz⟩ := hlast
  rw [tops_getLast, hz] at hpop
  have hR4 : h4[R0]? = some (some ⟨none, none, some E, some c, none, some v0⟩) := by
    rw [hfr4 R0 (fun hh => hRk (tops_subset_pre _ _ hh)), get_set_same (cell_lt hcR)]
  have hw2 : wr h4 (some R0) (fun x => { x with child_end := some z })
      = .ok (h4.set R0 (some ⟨none, none, some E, some c, some z, some v0⟩)) := wr_ok hR4 _
  have hq1 : back ((kids.copy h.length).tops.map (fun a => ((some a : nodeptr), 1)))
      = .ok (some c, 1) := by
    cases hkc : kids.copy h.length with
    | nil => exact (hk (copy_eq_nil.mp hkc)).elim
    | cons a v k r =>
      rw [hkc] at hc
      simp only [Forest.first, Option.some.injEq] at hc
      simp [Forest.tops, back, hc]
  refine ⟨h4.set R0 (some ⟨none, none, some E, some c, some z, some v0⟩), t2, R0, ?_, ?_⟩
  · simp only [p_transfer, hemp, Bool.false_eq_true, if_false, hdl, hx1, hdep, hloop,
      bind, Except.bind, pure, Except.pure, hv1, hsr, hq1, hr2, hw1, hpop, hw2]
  · -- cells of the result
    have hfinal : ∀ a, a ≠ R0 → a ∉ (kids.copy h.length).tops →
        (h4.set R0 (some ⟨none, none, some E, some c, some z, some v0⟩))[a]? = h2[a]? := by
      intro a ha hat
      rw [get_set_ne (Ne.symm ha), hfr4 a hat, get_set_ne (Ne.symm ha)]
    have hwf5 : well_formed (h4.set R0 (some ⟨none, none, some E, some c, some z, some v0⟩))
        t2 (.cons R0 v0 (kids.copy h.length) .nil) := by
      refine well_formed_mk _ t2 R0 E v0 _ hr2 hf2 ⟨?_, ?_, trivial⟩ ?_ ?_
      · rw [get_set_same (by rw [hlen4]; simpa using cell_lt hcR)]
        simp [Forest.firstOr, hc, hz]
      · refine owns_set_parent h1 _ (some R0) _ none none none ho1 hkn ?_ ?_
        · intro a ha nd hca
          have ham := tops_subset_pre _ a ha
          rw [get_set_ne (hnR2 a ham)]
          exact hset4 a ha nd (by
            rw [get_set_ne (hnR2 a ham), hfr2 a (hnR a ham) (hnE a ham)]
            exact hca)
        · intro a ha hat
          rw [hfinal a (hnR a ha) hat, hfr2 a (hnR a ha) (hnE a ha)]
      · rw [hfinal E (Ne.symm hRE) (fun hh => hEk (tops_subset_pre _ _ hh))]
        exact hcE
      · simp only [Forest.pre, List.append_nil, List.nodup_cons, List.mem_cons, not_or]
        exact ⟨⟨Ne.symm hRE, hEk⟩, hRk, hkn⟩
    have hnew : ∀ a, a ∈ t2.nodes (Forest.cons R0 v0 (kids.copy h.length) .nil) ↔
        (a = E ∨ a = R0 ∨ a ∈ (kids.copy h.length).pre) := by
      intro a
      simp [tree.nodes, hf2, Forest.pre]
    refine ⟨hwf5, fun _ => by simp [hf2], ?_, ?_, ?_⟩
    · intro a ha
      rcases (hnew a).mp ha with rfl | rfl | ha
      · rcases hEm with h3 | h3
        · exact Or.inl h3
        · right
          rcases hElt with h4 | h4
          · exact absurd h3 (by
              rw [List.getElem?_eq_getElem (by omega)]; simp)
          · exact List.getElem?_eq_none (by omega)
      · exact Or.inl hRm
      · right
        have := hcopy a ha
        exact List.getElem?_eq_none (by omega)
    · intro a ha hn
      exfalso
      apply hn
      rw [hnew]
      rcases hall a ha with h3 | h3
      · exact Or.inr (Or.inl h3)
      · exact Or.inl h3
    · intro a _ hn
      left
      rw [hnew] at hn
      simp only [not_or] at hn
      obtain ⟨haE, haR, hak⟩ := hn
      rw [hfinal a haR (fun hh => hak (tops_subset_pre _ _ hh)), hfr2 a haR haE]
      by_cases hal : a < h.length
      · exact hfr1 a hal
      · have : h1.length ≤ a := by
          by_contra hh
          exact hak (copy_pre_mem kids h.length a (by omega) (by omega))
        rw [List.getElem?_eq_none this, List.getElem?_eq_none (by omega)]

/-- The pop loop on a deque without an entry of the depth it stops at: it
fails or it empties the deque. -/
theorem pop_all (tmp : nodeptr) (stop : Option Nat) :
    ∀ (Q : List (nodeptr × Nat)) (h : Heap α) (bak : nodeptr),
      (∀ q ∈ Q, stop ≠ some q.2) →
      (∃ e, p_transfer_pop tmp stop Q h bak = .error e) ∨
        (∃ h1 bak1, p_transfer_pop tmp stop Q h bak = .ok (h1, [], bak1)) := by
  intro Q
  induction Q with
  | nil => intro h bak _; exact Or.inr ⟨h, bak, rfl⟩
  | cons q Q ih =>
    obtain ⟨n, d⟩ := q
    intro h bak hq
    have hs : stop ≠ some d := hq (n, d) (by simp)
    rw [p_transfer_pop]
    simp only [hs, if_false]
    cases hw : wr h n (fun x => { x with parent := tmp }) with
    | error e => exact Or.inl ⟨e, rfl⟩
    | ok h2 => exact ih h2 n (fun q hq2 => hq q (by simp [hq2]))

/-- The round of the loop for a node with children and no right sibling
fails: after the children no entry of its depth is on the deque, and `back()`
is read on the empty deque. -/
theorem transfer_step_fails (h : Heap α) (d : Nat) (Q : List (nodeptr × Nat)) (v : α)
    (hq : ∀ q ∈ Q, q.2 ≠ d) : ∃ e, transfer_step h (d + 1) Q v d = .error e := by
  simp only [transfer_step, p_node_allocate, Nat.lt_succ_self, if_true, bind, Except.bind,
    pure, Except.pure]
  cases hb : back Q with
  | error e => exact ⟨e, rfl⟩
  | ok b =>
    simp only
    cases hw1 : wr (h ++ [some (⟨none, none, none, none, none, some v⟩ : node α)])
        (some h.length) (fun x => { x with child_begin := b.1 }) with
    | error e => exact ⟨e, rfl⟩
    | ok g1 =>
      simp only
      rcases pop_all (some h.length) (some d) Q g1 b.1
        (fun q hq2 hh => hq q hq2 (by simpa using hh.symm)) with ⟨e, he⟩ | ⟨g3, bak, hp⟩
      · exact ⟨e, by rw [he]⟩
      · rw [hp]
        simp only
        cases hw2 : wr g3 (some h.length) (fun x => { x with child_end := bak }) with
        | error e => exact ⟨e, rfl⟩
        | ok g4 => exact ⟨.empty_container, rfl⟩

theorem not_transferable_ne_nil {f : Forest α} (h : ¬ f.transferable) : f ≠ .nil := by
  rintro rfl
  exact h trivial

/-- The rounds of the loop of `p_transfer` for a chain of the source in which
some node with children has no right sibling: they fail. -/
theorem transfer_chain_fails : ∀ (f : Forest α) (d : Nat) (h : Heap α) (pd : Nat)
    (Q : List (nodeptr × Nat)) (items : List (α × Nat)),
    ¬ f.transferable →
    ((pd < d ∧ ∀ q ∈ Q, q.2 < d) ∨ (Q = [] ∧ pd = d + f.last_depth)) →
    ∃ e, transfer_steps (f.rev_items d ++ items) h pd Q = .error e := by
  intro f
  induction f with
  | nil => intro d h pd Q items hn; exact (hn trivial).elim
  | cons a v k rest ihk ihr =>
    intro d h pd Q items hn hpre
    by_cases htr : rest.transferable
    · -- the right siblings are copied
      have hprer : rest ≠ .nil → pd < d ∨ (Q = [] ∧ pd = d + rest.last_depth) := by
        intro hr
        rcases hpre with h1 | ⟨hq, hp⟩
        · exact Or.inl h1.1
        · exact Or.inr ⟨hq, by rw [hp, last_depth_rest a v k rest hr]⟩
      obtain ⟨h1, hev1, _, _, _⟩ := transfer_chain rest d h pd Q htr hprer
      have hQ1 : ∀ q ∈ (rest.copy h.length).tops.map (fun a => ((some a : nodeptr), d)) ++ Q,
          q.2 < d + 1 := by
        intro q hq
        rcases List.mem_append.mp hq with hq | hq
        · obtain ⟨x, _, rfl⟩ := List.mem_map.mp hq
          exact Nat.lt_succ_self d
        · rcases hpre with h2 | ⟨h2, _⟩
          · exact Nat.lt_succ_of_lt (h2.2 q hq)
          · rw [h2] at hq; cases hq
      have hprek : k ≠ .nil →
          (rest.dist_after pd d < d + 1 ∧
            ∀ q ∈ (rest.copy h.length).tops.map (fun a => ((some a : nodeptr), d)) ++ Q,
              q.2 < d + 1) ∨
          ((rest.copy h.length).tops.map (fun a => ((some a : nodeptr), d)) ++ Q = [] ∧
            rest.dist_after pd d = d + 1 + k.last_depth) := by
        intro hk
        cases rest with
        | nil =>
          simp only [Forest.dist_after, Forest.copy, Forest.tops, List.map_nil, List.nil_append]
          rcases hpre with h2 | ⟨h2, h3⟩
          · exact Or.inl ⟨by omega, fun q hq => Nat.lt_succ_of_lt (h2.2 q hq)⟩
          · exact Or.inr ⟨h2, by rw [h3, last_depth_kids a v k hk]; omega⟩
        | cons b w kb rb => exact Or.inl ⟨Nat.lt_succ_self d, hQ1⟩
      show ∃ e, transfer_steps ((rest.rev_items d ++ (k.rev_items (d + 1) ++ [(v, d)])) ++ items)
        h pd Q = .error e
      rw [List.append_assoc, transfer_steps_append, hev1]
      simp only
      by_cases htk : k.transferable
      · -- the children are copied, the node itself fails
        have hk : k ≠ .nil ∧ rest = .nil := by
          by_contra hc
          apply hn
          refine ⟨?_, htk, htr⟩
          by_cases hk0 : k = .nil
          · exact Or.inl hk0
          · exact Or.inr (fun hr => hc ⟨hk0, hr⟩)
        obtain ⟨hk0, rfl⟩ := hk
        obtain ⟨h2, hev2, _, _, _⟩ := transfer_chain k (d + 1) h1 ((Forest.nil : Forest α).dist_after pd d)
          (((Forest.nil : Forest α).copy h.length).tops.map (fun a => ((some a : nodeptr), d)) ++ Q) htk
          (fun hk1 => (hprek hk1).imp (fun hh => hh.1) (fun hh => hh))
        rw [List.append_assoc, transfer_steps_append, hev2]
        simp only [List.singleton_append, transfer_steps]
        have hda : k.dist_after ((Forest.nil : Forest α).dist_after pd d) (d + 1) = d + 1 := by
          cases k with
          | nil => exact (hk0 rfl).elim
          | cons _ _ _ _ => rfl
        rw [hda]
        obtain ⟨e, he⟩ := transfer_step_fails h2 d
          ((k.copy h1.length).tops.map (fun a => ((some a : nodeptr), d + 1)) ++
            (((Forest.nil : Forest α).copy h.length).tops.map (fun a => ((some a : nodeptr), d)) ++ Q)) v
          (by
            intro q hq
            rcases List.mem_append.mp hq with hq | hq
            · obtain ⟨x, _, rfl⟩ := List.mem_map.mp hq
              simp
            · simp only [Forest.copy, Forest.tops, List.map_nil, List.nil_append] at hq
              rcases hpre with h2 | ⟨h2, _⟩
              · exact Nat.ne_of_lt (h2.2 q hq)
              · rw [h2] at hq; cases hq)
        exact ⟨e, by rw [he]⟩
      · -- a child chain fails
        obtain ⟨e, he⟩ := ihk (d + 1) h1 (rest.dist_after pd d)
          ((rest.copy h.length).tops.map (fun a => ((some a : nodeptr), d)) ++ Q)
          ([(v, d)] ++ items) htk (hprek (not_transferable_ne_nil htk))
        exact ⟨e, by rw [List.append_assoc]; exact he⟩
    · -- the chain of right siblings fails
      have hr := not_transferable_ne_nil htr
      obtain ⟨e, he⟩ := ihr d h pd Q ((k.rev_items (d + 1) ++ [(v, d)]) ++ items) htr (by
        rcases hpre with h1 | ⟨hq, hp⟩
        · exact Or.inl h1
        · exact Or.inr ⟨hq, by rw [hp, last_depth_rest a v k rest hr]⟩)
      exact ⟨e, by
        show transfer_steps ((rest.rev_items d ++ (k.rev_items (d + 1) ++ [(v, d)])) ++ items)
          h pd Q = .error e
        rw [List.append_assoc]; exact he⟩

/-- Outside its domain the transfer algorithm fails: for a well-formed
non-empty source whose root has no child, or in which a node other than the
root has children and no right sibling, `p_transfer` does not return. -/
theorem p_transfer_fails (h : Heap α) (this rhs : tree) (r : Nat) (v0 : α) (kids : Forest α)
    (hrhs : well_formed h rhs (.cons r v0 kids .nil))
    (hbad : ¬ (kids ≠ .nil ∧ kids.transferable)) (fuel : Nat) (hfuel : kids.size + 2 ≤ fuel) :
    ∃ e, p_transfer fuel h this rhs = .error e := by
  obtain ⟨e, hroot, hf, ho, hce, hnd⟩ := well_formed_cons hrhs
  have hre : r ≠ e := fun hh => (List.nodup_cons.mp hnd).1 (by simp [Forest.pre, hh])
  have hemp : rhs.empty = false := by simp [tree.empty, hroot, hf, hre]
  obtain ⟨hdl, hgl, _⟩ := df_dec_from_end h rhs r v0 kids hrhs fuel hfuel
  have hlt := nodes_lt h rhs _ hrhs
  by_cases hk : kids = .nil
  · subst hk
    have hdep : depth_between fuel h (some r) rhs.begin = .ok 0 := by
      obtain ⟨f1, rfl⟩ : ∃ f1, fuel = f1 + 1 := ⟨fuel - 1, by omega⟩
      simp [depth_between, depth_between_loop, rd, ho.1, tree.begin, hroot]
    have hloop : p_transfer_loop fuel rhs fuel h (some r) 0 [] = .ok (h, some r, []) := by
      obtain ⟨f1, rfl⟩ : ∃ f1, fuel = f1 + 1 := ⟨fuel - 1, by omega⟩
      simp [p_transfer_loop, tree.begin, hroot]
    have hv : deref h (some r) = .ok v0 := by simp [deref, rd, ho.1]
    simp only [p_transfer, hemp, Bool.false_eq_true, if_false, hdl, Forest.deepest_last, hdep,
      hloop, hv, bind, Except.bind, pure, Except.pure]
    cases hs : set_root h this v0 with
    | error e => exact ⟨e, rfl⟩
    | ok res => exact ⟨.empty_container, rfl⟩
  · have htr : ¬ kids.transferable := fun hh => hbad ⟨hk, hh⟩
    obtain ⟨A, x, hA, hxd⟩ := items_last kids 1 hk
    have hx1 : Forest.deepest_last r kids = x.1 := by
      have h1 := deepest_last_getLast? kids r
      rw [← items_pre kids 1, hA] at h1
      simp only [List.map_append, List.map_cons, List.map_nil] at h1
      rw [← List.cons_append, List.getLast?_append, List.getLast?_singleton] at h1
      simpa using h1.symm
    obtain ⟨_, _, hdep, _⟩ := source_reads h rhs r v0 kids hrhs fuel hfuel A x [] hA
    have hloop := loop_steps fuel rhs r v0 kids h.length hfuel (kids.items 1).reverse []
      (by simp) h x.2.2 [] (fuel - kids.size - 1) hrhs hlt (le_refl _)
      (by intro q hq; simp at hq)
    have hlen : (kids.items 1).reverse.length = kids.size := by
      rw [List.length_reverse, ← List.length_map, items_pre, pre_length]
    have hhead : (kids.items 1).reverse.head? = some x := by
      rw [hA]; simp
    rw [hlen, hhead, show fuel - kids.size - 1 + kids.size + 1 = fuel by omega,
      ← rev_items_eq kids 1] at hloop
    obtain ⟨e1, he1⟩ := transfer_chain_fails kids 1 h x.2.2 [] [] htr (Or.inr ⟨rfl, hxd⟩)
    rw [List.append_nil] at he1
    rw [he1] at hloop
    exact ⟨e1, by
      simp only [p_transfer, hemp, Bool.false_eq_true, if_false, hdl, hx1, hdep, hloop,
        bind, Except.bind]⟩

/-! ## More step budget does not change a result -/

theorem depth_between_loop_mono (h : Heap α) : ∀ (F F1 : Nat) (n : nodeptr) (i : Nat)
    (res : nodeptr × Nat),
    depth_between_loop F h n i = .ok res → F ≤ F1 → depth_between_loop F1 h n i = .ok res
  | 0, _, _, _, _, he, _ => by simp [depth_between_loop] at he
  | F + 1, F1, n, i, res, he, hle => by
    obtain ⟨m, rfl⟩ : ∃ m, F1 = m + 1 := ⟨F1 - 1, by omega⟩
    simp only [depth_between_loop] at he ⊢
    cases hrd : rd h n with
    | error e => simp [hrd] at he
    | ok nd =>
      simp only [hrd] at he ⊢
      cases hp : nd.parent with
      | none => simpa [hp] using he
      | some p =>
        simp only [hp] at he ⊢
        exact depth_between_loop_mono h F m (some p) (i + 1) res he (by omega)

theorem depth_between_mono (h : Heap α) (F F1 : Nat) (a b : nodeptr) (d : Nat)
    (he : depth_between F h a b = .ok d) (hle : F ≤ F1) : depth_between F1 h a b = .ok d := by
  simp only [depth_between] at he ⊢
  cases hl : depth_between_loop F h a 0 with
  | error e => simp [hl] at he
  | ok res =>
    rw [depth_between_loop_mono h F F1 a 0 res hl hle]
    simpa [hl] using he

theorem df_dec_descend_mono (h : Heap α) : ∀ (F F1 : Nat) (n y : nodeptr),
    df_dec_descend F h n = .ok y → F ≤ F1 → df_dec_descend F1 h n = .ok y
  | 0, _, _, _, he, _ => by simp [df_dec_descend] at he
  | F + 1, F1, n, y, he, hle => by
    obtain ⟨m, rfl⟩ : ∃ m, F1 = m + 1 := ⟨F1 - 1, by omega⟩
    simp only [df_dec_descend] at he ⊢
    cases hrd : rd h n with
    | error e => simp [hrd] at he
    | ok nd =>
      simp only [hrd] at he ⊢
      cases hp : nd.child_end with
      | none => simpa [hp] using he
      | some p =>
        simp only [hp] at he ⊢
        exact df_dec_descend_mono h F m (some p) y he (by omega)

theorem df_dec_mono (h : Heap α) (F F1 : Nat) (n y : nodeptr)
    (he : df_dec F h n = .ok y) (hle : F ≤ F1) : df_dec F1 h n = .ok y := by
  simp only [df_dec] at he ⊢
  cases hrd : rd h n with
  | error e => simp [hrd] at he
  | ok nd =>
    simp only [hrd] at he ⊢
    cases hl : nd.left with
    | none => simpa [hl] using he
    | some l =>
      simp only [hl] at he ⊢
      exact df_dec_descend_mono h F F1 (some l) y he hle

/-- One round of the loop of `p_transfer`, with every read spelled out. -/
theorem p_transfer_loop_unfold (F : Nat) (rhs : tree) (fuel : Nat) (h : Heap α) (it : nodeptr)
    (pd : Nat) (Q : List (nodeptr × Nat)) :
    p_transfer_loop F rhs (fuel + 1) h it pd Q =
      if it ≠ rhs.begin then
        match deref h it with
        | .error e => .error e
        | .ok v =>
          match depth_between F (h ++ [some ⟨none, none, none, none, none, some v⟩]) it
              rhs.begin with
          | .error e => .error e
          | .ok d =>
            match transfer_step h pd Q v d with
            | .error e => .error e
            | .ok (h2, Q2) =>
              match df_dec F h2 it with
              | .error e => .error e
              | .ok it1 => p_transfer_loop F rhs fuel h2 it1 d Q2
      else .ok (h, it, Q) := by
  by_cases hne : it ≠ rhs.begin
  · simp only [hne, ne_eq, not_false_eq_true, if_true]
    cases hv : deref h it with
    | error e => simp [p_transfer_loop, hne, hv, bind, Except.bind]
    | ok v =>
      simp only
      cases hd : depth_between F (h ++ [some ⟨none, none, none, none, none, some v⟩]) it
          rhs.begin with
      | error e => simp [p_transfer_loop, hne, hv, hd, p_node_allocate, bind, Except.bind]
      | ok d => exact p_transfer_loop_succ F rhs fuel h it pd Q v d hne hv hd
  · simp only [hne, if_false]
    simp [p_transfer_loop, hne]

theorem p_transfer_loop_mono (rhs : tree) (F F1 : Nat) (hF : F ≤ F1) :
    ∀ (fuel fuel1 : Nat) (h : Heap α) (it : nodeptr) (pd : Nat) (Q : List (nodeptr × Nat))
      (res : Heap α × nodeptr × List (nodeptr × Nat)),
      p_transfer_loop F rhs fuel h it pd Q = .ok res → fuel ≤ fuel1 →
      p_transfer_loop F1 rhs fuel1 h it pd Q = .ok res
  | 0, _, _, _, _, _, _, he, _ => by simp [p_transfer_loop] at he
  | fuel + 1, fuel1, h, it, pd, Q, res, he, hle => by
    obtain ⟨m, rfl⟩ : ∃ m, fuel1 = m + 1 := ⟨fuel1 - 1, by omega⟩
    rw [p_transfer_loop_unfold] at he ⊢
    by_cases hne : it ≠ rhs.begin
    · simp only [hne, ne_eq, not_false_eq_true, if_true] at he ⊢
      cases hv : deref h it with
      | error e => simp [hv] at he
      | ok v =>
        simp only [hv] at he ⊢
        cases hd : depth_between F (h ++ [some ⟨none, none, none, none, none, some v⟩]) it
            rhs.begin with
        | error e => simp [hd] at he
        | ok d =>
          simp only [hd] at he
          simp only [depth_between_mono _ F F1 it rhs.begin d hd hF]
          cases hs : transfer_step h pd Q v d with
          | error e => simp [hs] at he
          | ok r =>
            obtain ⟨h2, Q2⟩ := r
            simp only [hs] at he ⊢
            cases hdd : df_dec F h2 it with
            | error e => simp [hdd] at he
            | ok it1 =>
              simp only [hdd] at he
              simp only [df_dec_mono h2 F F1 it it1 hdd hF]
              exact p_transfer_loop_mono rhs F F1 hF fuel m h2 it1 d Q2 res he (by omega)
    · simp only [hne, if_false] at he ⊢
      exact he

theorem p_transfer_mono (fuel fuel1 : Nat) (h : Heap α) (this rhs : tree)
    (res : Heap α × tree) (he : p_transfer fuel h this rhs = .ok res) (hle : fuel ≤ fuel1) :
    p_transfer fuel1 h this rhs = .ok res := by
  by_cases hemp : rhs.empty = true
  · simpa [p_transfer, hemp] using he
  · simp only [p_transfer, hemp, Bool.false_eq_true, if_false, bind, Except.bind] at he ⊢
    cases hd : df_dec fuel h rhs.end_ with
    | error e => simp [hd] at he
    | ok it =>
      simp only [hd] at he
      simp only [df_dec_mono h fuel fuel1 _ it hd hle]
      cases hp : depth_between fuel h it rhs.begin with
      | error e => simp [hp] at he
      | ok pd =>
        simp only [hp] at he
        simp only [depth_between_mono h fuel fuel1 _ _ pd hp hle]
        cases hl : p_transfer_loop fuel rhs fuel h it pd [] with
        | error e => simp [hl] at he
        | ok r =>
          simp only [hl] at he
          simp only [p_transfer_loop_mono rhs fuel fuel1 hle fuel fuel1 h it pd [] r hl hle]
          exact he

/-- On a well-formed non-empty source `p_transfer` returns, for some step
budget, exactly when the root has a child and every other node with children
has a right sibling. -/
theorem p_transfer_domain (h : Heap α) (this rhs : tree) (r : Nat) (v0 : α) (kids : Forest α)
    (hrhs : well_formed h rhs (.cons r v0 kids .nil)) (fuel : Nat) (res : Heap α × tree)
    (he : p_transfer fuel h this rhs = .ok res) : kids ≠ .nil ∧ kids.transferable := by
  by_contra hbad
  have hm := p_transfer_mono fuel (max fuel (kids.size + 2)) h this rhs res he (le_max_left _ _)
  obtain ⟨e, hf⟩ := p_transfer_fails h this rhs r v0 kids hrhs hbad _ (le_max_right _ _)
  rw [hf] at hm
  cases hm

/-! ## Counting values cell by cell -/

theorem valued_lt (h : Heap α) (a : Nat) (hv : valued h a = true) : a < h.length := by
  by_contra hn
  have : h[a]? = none := List.getElem?_eq_none (by omega)
  simp [valued, this] at hv

theorem valued_append_lt (h : Heap α) (c : Option (node α)) (a : Nat) (ha : a < h.length) :
    valued (h ++ [c]) a = valued h a := by
  simp [valued, List.getElem?_append_left ha]

theorem live_values_range (h : Heap α) :
    live_values h = ((Finset.range h.length).filter (fun a => valued h a = true)).card := by
  induction h using List.reverseRecOn with
  | nil => simp [live_values]
  | append_singleton h c ih =>
    have hl : live_values (h ++ [c]) = live_values h + (if valued (h ++ [c]) h.length then 1 else 0) := by
      simp only [live_values, List.filter_append, List.length_append, valued,
        List.getElem?_concat_length]
      congr 1
      cases c with
      | none => simp
      | some nd => cases hv : nd.value <;> simp [List.filter, hv]
    rw [hl, ih, List.length_append, List.length_singleton, Finset.range_succ,
      Finset.filter_insert]
    have hcong : (Finset.range h.length).filter (fun a => valued (h ++ [c]) a = true)
        = (Finset.range h.length).filter (fun a => valued h a = true) := by
      apply Finset.filter_congr
      intro a ha
      rw [valued_append_lt h c a (Finset.mem_range.1 ha)]
    by_cases hv : valued (h ++ [c]) h.length = true
    · simp only [hv, if_true]
      rw [Finset.card_insert_of_not_mem (by simp), hcong]
    · simp only [hv, if_false, Bool.false_eq_true]
      rw [hcong]
      simp

theorem live_values_card (h : Heap α) (N : Nat) (hN : h.length ≤ N) :
    live_values h = ((Finset.range N).filter (fun a => valued h a = true)).card := by
  rw [live_values_range]
  congr 1
  ext a
  simp only [Finset.mem_filter, Finset.mem_range]
  constructor
  · rintro ⟨h1, h2⟩
    exact ⟨by omega, h2⟩
  · rintro ⟨_, h2⟩
    exact ⟨valued_lt h a h2, h2⟩

/-- Balance of a change that takes the valued cells `S` out and puts the
valued cells `S1` in. -/
theorem live_values_swap (h h1 : Heap α) (S S1 : List Nat) (hS : S.Nodup) (hS1 : S1.Nodup)
    (hin : ∀ a ∈ S, valued h a = true) (hin1 : ∀ a ∈ S1, valued h1 a = true)
    (hrem : ∀ a ∈ S, a ∉ S1 → valued h1 a = false)
    (hnew : ∀ a ∈ S1, a ∉ S → valued h a = false)
    (hout : ∀ a, a ∉ S → a ∉ S1 → valued h1 a = valued h a) :
    live_values h1 + S.length = live_values h + S1.length := by
  rw [live_values_card h (max h.length h1.length) (le_max_left _ _),
    live_values_card h1 (max h.length h1.length) (le_max_right _ _)]
  have hN : h.length ≤ max h.length h1.length := le_max_left _ _
  have hN1 : h1.length ≤ max h.length h1.length := le_max_right _ _
  generalize max h.length h1.length = N at hN hN1 ⊢
  have hsub : S.toFinset ⊆ (Finset.range N).filter (fun a => valued h a = true) := by
    intro a ha
    have ha1 := hin a (List.mem_toFinset.1 ha)
    exact Finset.mem_filter.2 ⟨Finset.mem_range.2 (lt_of_lt_of_le (valued_lt h a ha1) hN), ha1⟩
  have hsub1 : S1.toFinset ⊆ (Finset.range N).filter (fun a => valued h1 a = true) := by
    intro a ha
    have ha1 := hin1 a (List.mem_toFinset.1 ha)
    exact Finset.mem_filter.2
      ⟨Finset.mem_range.2 (lt_of_lt_of_le (valued_lt h1 a ha1) hN1), ha1⟩
  have heq : (Finset.range N).filter (fun a => valued h1 a = true) \ S1.toFinset
      = (Finset.range N).filter (fun a => valued h a = true) \ S.toFinset := by
    ext a
    simp only [Finset.mem_sdiff, Finset.mem_filter, Finset.mem_range, List.mem_toFinset]
    constructor
    · rintro ⟨⟨hlt, hv⟩, hn1⟩
      have hnS : a ∉ S := by
        intro ha
        rw [hrem a ha hn1] at hv
        cases hv
      exact ⟨⟨hlt, by rw [← hout a hnS hn1]; exact hv⟩, hnS⟩
    · rintro ⟨⟨hlt, hv⟩, hn⟩
      have hnS1 : a ∉ S1 := by
        intro ha
        rw [hnew a ha hn] at hv
        cases hv
      exact ⟨⟨hlt, by rw [hout a hn hnS1]; exact hv⟩, hnS1⟩
  have c1 := Finset.card_sdiff_add_card_eq_card hsub
  have c2 := Finset.card_sdiff_add_card_eq_card hsub1
  rw [heq] at c2
  rw [List.toFinset_card_of_nodup hS] at c1
  rw [List.toFinset_card_of_nodup hS1] at c2
  omega

theorem valued_cell (h : Heap α) (a : Nat) (nd : node α) (hc : h[a]? = some (some nd)) :
    valued h a = true ↔ nd.value ≠ none := by
  simp only [valued, hc]
  cases nd.value <;> simp

theorem valued_deleted (h : Heap α) (a : Nat) (hc : h[a]? = some none) : valued h a = false := by
  simp [valued, hc]

theorem valued_unallocated (h : Heap α) (a : Nat) (hc : h[a]? = none) : valued h a = false := by
  simp [valued, hc]

theorem valued_nodes (h : Heap α) (t : tree) (f : Forest α) (hwf : well_formed h t f)
    (a : Nat) (ha : a ∈ t.nodes f) : valued h a = true ↔ a ∈ f.pre := by
  obtain ⟨nd, hc, hv⟩ := nodes_cell h t f hwf a ha
  rw [valued_cell h a nd hc, hv]

theorem well_formed_nodup (h : Heap α) (t : tree) (f : Forest α) (hwf : well_formed h t f) :
    f.pre.Nodup := by
  cases f with
  | nil => simp [Forest.pre]
  | cons r v kids rest =>
    cases rest with
    | cons _ _ _ _ => exact hwf.elim
    | nil =>
      obtain ⟨e, _, _, _, _, hnd⟩ := well_formed_cons hwf
      exact (List.nodup_cons.1 hnd).2

theorem pre_sub_nodes (t : tree) (f : Forest α) (a : Nat) (ha : a ∈ f.pre) : a ∈ t.nodes f := by
  simp [tree.nodes, ha]

/-- A call described by `local_step` changes the number of live values by the
change of the number of value-holding nodes of its tree. -/
theorem local_step_count (h h1 : Heap α) (t t1 : tree) (f f1 : Forest α)
    (hwf : well_formed h t f) (hst : local_step h t f h1 t1 f1) :
    live_values h1 + f.size = live_values h + f1.size := by
  obtain ⟨hw1, _, hn, hr, hfr⟩ := hst
  rw [← pre_length f, ← pre_length f1]
  have bool_false : ∀ b : Bool, ¬ b = true → b = false := by
    intro b hb
    cases b
    · rfl
    · exact (hb rfl).elim
  apply live_values_swap h h1 f.pre f1.pre (well_formed_nodup h t f hwf)
    (well_formed_nodup h1 t1 f1 hw1)
  · intro a ha
    exact (valued_nodes h t f hwf a (pre_sub_nodes t f a ha)).2 ha
  · intro a ha
    exact (valued_nodes h1 t1 f1 hw1 a (pre_sub_nodes t1 f1 a ha)).2 ha
  · intro a ha hn1
    by_cases hm : a ∈ t1.nodes f1
    · exact bool_false _ (fun hv => hn1 ((valued_nodes h1 t1 f1 hw1 a hm).1 hv))
    · exact valued_deleted h1 a (hr a (pre_sub_nodes t f a ha) hm)
  · intro a ha hn0
    rcases hn a (pre_sub_nodes t1 f1 a ha) with hm | hm
    · exact bool_false _ (fun hv => hn0 ((valued_nodes h t f hwf a hm).1 hv))
    · exact valued_unallocated h a hm
  · intro a hn0 hn1
    by_cases hm : a ∈ t.nodes f
    · have e0 : valued h a = false :=
        bool_false _ (fun hv => hn0 ((valued_nodes h t f hwf a hm).1 hv))
      rw [e0]
      by_cases hm1 : a ∈ t1.nodes f1
      · exact bool_false _ (fun hv => hn1 ((valued_nodes h1 t1 f1 hw1 a hm1).1 hv))
      · exact valued_deleted h1 a (hr a hm hm1)
    · by_cases hm1 : a ∈ t1.nodes f1
      · have e1 : valued h1 a = false :=
          bool_false _ (fun hv => hn1 ((valued_nodes h1 t1 f1 hw1 a hm1).1 hv))
        rw [e1]
        rcases hn a hm1 with hm2 | hm2
        · exact (hm hm2).elim
        · exact (valued_unallocated h a hm2).symm
      · rcases hfr a hm hm1 with e | ⟨e0, e1⟩
        · simp [valued, e]
        · rw [valued_unallocated h a e0, valued_deleted h1 a e1]

/-! ## Construction, copy, move and destruction as calls on one tree -/

theorem set_root_null (h : Heap α) (t : tree) (v : α) (hr : t.root = none) :
    ∃ e, set_root h t v = .error e := by
  obtain ⟨root, foot⟩ := t
  simp only at hr
  subst hr
  cases foot with
  | none =>
    exact ⟨.null_deref, by simp [set_root, p_node_allocate, wr, rd, bind, Except.bind]⟩
  | some e =>
    exact ⟨.null_deref, by simp [set_root, wr, rd, bind, Except.bind, pure, Except.pure]⟩

theorem p_transfer_null (fuel : Nat) (h : Heap α) (this rhs : tree) (hr : this.root = none)
    (hemp : rhs.empty = false) : ∃ e, p_transfer fuel h this rhs = .error e := by
  simp only [p_transfer, hemp, Bool.false_eq_true, if_false, bind, Except.bind]
  cases df_dec fuel h rhs.end_ with
  | error e => exact ⟨e, rfl⟩
  | ok it =>
    simp only
    cases depth_between fuel h it rhs.begin with
    | error e => exact ⟨e, rfl⟩
    | ok pd =>
      simp only
      cases p_transfer_loop fuel rhs fuel h it pd [] with
      | error e => exact ⟨e, rfl⟩
      | ok r =>
        obtain ⟨h1, it1, Q⟩ := r
        simp only
        cases deref h1 it1 with
        | error e => exact ⟨e, rfl⟩
        | ok v =>
          obtain ⟨e, he⟩ := set_root_null h1 this v hr
          simp only [he]
          exact ⟨e, rfl⟩

theorem well_formed_empty_nil (h : Heap α) (t : tree) (f : Forest α) (hwf : well_formed h t f)
    (he : t.root = t.foot) : f = .nil := by
  cases f with
  | nil => rfl
  | cons r v kids rest =>
    cases rest with
    | cons _ _ _ _ => exact hwf.elim
    | nil =>
      obtain ⟨e, hroot, hf, _, _, hnd⟩ := well_formed_cons hwf
      rw [hroot, hf] at he
      cases he
      simp [Forest.pre] at hnd

theorem well_formed_cons_ne (h : Heap α) (t : tree) (r : Nat) (v : α) (kids : Forest α)
    (hwf : well_formed h t (.cons r v kids .nil)) : t.empty = false := by
  obtain ⟨e, hroot, hf, _, _, hnd⟩ := well_formed_cons hwf
  simp only [tree.empty, hroot, hf]
  simp only [Forest.pre, List.nodup_cons, List.mem_cons, not_or] at hnd
  simp [Ne.symm hnd.1.1]

theorem well_formed_null (h : Heap α) : well_formed h ⟨none, none⟩ (.nil : Forest α) :=
  ⟨rfl, trivial⟩

theorem ctor_step (h0 h : Heap α) (t : tree) (v : α) (hc : tree.ctor h0 v = .ok (h, t)) :
    t = ⟨some h0.length, some (h0.length + 1)⟩ ∧
      local_step h0 ⟨none, none⟩ (.nil : Forest α) h t (.cons h0.length v .nil .nil) := by
  obtain ⟨h1, hev, hw, hfr⟩ := ctor_spec h0 v
  rw [hev] at hc
  simp only [Except.ok.injEq, Prod.mk.injEq] at hc
  obtain ⟨rfl, rfl⟩ := hc
  refine ⟨rfl, hw, fun hh => (hh rfl).elim, ?_, ?_, ?_⟩
  · intro a ha
    right
    simp only [tree.nodes, Option.toList, Forest.pre, List.append_nil, List.singleton_append,
      List.mem_cons, List.mem_singleton, List.not_mem_nil, or_false] at ha
    exact List.getElem?_eq_none (by omega)
  · intro a ha
    simp [tree.nodes, Forest.pre] at ha
  · intro a _ ha
    simp only [tree.nodes, Option.toList, Forest.pre, List.append_nil, List.singleton_append,
      List.mem_cons, List.mem_singleton, List.not_mem_nil, or_false, not_or] at ha
    exact Or.inl (hfr a ha.2 ha.1)

/-- A call of `p_transfer` that returns, into a destination that is empty or
has only a root: the destination then holds a copy of the source, or is
unchanged when the source is empty. -/
theorem p_transfer_step (h h5 : Heap α) (this rhs t2 : tree) (fS fD : Forest α)
    (hrhs : well_formed h rhs fS) (hthis : well_formed h this fD)
    (hfD : fD = .nil ∨ ∃ rD vD, fD = .cons rD vD .nil .nil) (fuel : Nat)
    (hop : p_transfer fuel h this rhs = .ok (h5, t2)) :
    ∃ f1, local_step h this fD h5 t2 f1 ∧ (fS = .nil → f1 = fD) ∧
      (fS ≠ .nil → f1.shape = fS.shape) := by
  cases fS with
  | nil =>
    have hemp : rhs.empty = true := by simp [tree.empty, hrhs.1]
    simp only [p_transfer, hemp, if_true, pure, Except.pure, Except.ok.injEq,
      Prod.mk.injEq] at hop
    obtain ⟨rfl, rfl⟩ := hop
    exact ⟨fD, local_step_refl h this fD hthis, fun _ => rfl, fun hh => (hh rfl).elim⟩
  | cons r v0 kids rest =>
    cases rest with
    | cons _ _ _ _ => exact hrhs.elim
    | nil =>
      obtain ⟨hk, htr⟩ := p_transfer_domain h this rhs r v0 kids hrhs fuel _ hop
      have hfD1 : (fD = .nil ∧ this.foot ≠ none) ∨ ∃ rD vD, fD = .cons rD vD .nil .nil := by
        rcases hfD with rfl | hh
        · left
          refine ⟨rfl, fun hf => ?_⟩
          have hroot : this.root = none := by rw [hthis.1, hf]
          obtain ⟨e, he⟩ := p_transfer_null fuel h this rhs hroot
            (well_formed_cons_ne h rhs r v0 kids hrhs)
          rw [he] at hop
          cases hop
        · exact Or.inr hh
      obtain ⟨h6, t3, R0, hev, hst⟩ := p_transfer_spec h this rhs r v0 kids fD hrhs hthis hfD1
        hk htr (max fuel (kids.size + 2)) (le_max_right _ _)
      have hm := p_transfer_mono fuel (max fuel (kids.size + 2)) h this rhs _ hop
        (le_max_left _ _)
      rw [hev] at hm
      simp only [Except.ok.injEq, Prod.mk.injEq] at hm
      obtain ⟨rfl, rfl⟩ := hm
      refine ⟨_, hst, fun hh => (by cases hh), fun _ => ?_⟩
      simp [Forest.shape, copy_shape]

theorem copy_ctor_step (h h1 : Heap α) (s c : tree) (fS : Forest α) (dflt : α)
    (hs : well_formed h s fS) (F : Nat) (hop : tree.copy_ctor F h dflt s = .ok (h1, c)) :
    ∃ fC, local_step h ⟨none, none⟩ (.nil : Forest α) h1 c fC ∧
      (fS ≠ .nil → fC.shape = fS.shape) := by
  obtain ⟨ha, hev, _, _⟩ := ctor_spec h dflt
  obtain ⟨_, hst0⟩ := ctor_step h ha _ dflt hev
  simp only [tree.copy_ctor, hev, bind, Except.bind] at hop
  obtain ⟨_, hsa, _⟩ := local_step_other h ha _ _ s _ _ fS hst0 hs
    (by intro a _ hh; simp [tree.nodes, Forest.pre] at hh)
  obtain ⟨f1, hst1, _, hsh⟩ := p_transfer_step ha h1 _ s c fS _ hsa hst0.1
    (Or.inr ⟨_, _, rfl⟩) F hop
  exact ⟨f1, local_step_trans _ _ _ _ _ _ _ _ _ hst0 hst1, hsh⟩

theorem clear_step_nil (h h1 : Heap α) (t t1 : tree) (F : Nat) (f : Forest α)
    (hwf : well_formed h t f) (hop : clear F h t = .ok (h1, t1)) :
    local_step h t f h1 t1 .nil := by
  obtain ⟨f1, hst⟩ := clear_step h h1 t t1 F f hwf hop
  have hnil : f1 = .nil := by
    apply well_formed_empty_nil h1 t1 f1 hst.1
    by_cases hrf : t.root = t.foot
    · simp only [clear, hrf, if_true, Except.ok.injEq, Prod.mk.injEq] at hop
      obtain ⟨rfl, rfl⟩ := hop
      exact hrf
    · cases f with
      | nil => exact (hrf hwf.1).elim
      | cons r v0 kids rest =>
        cases rest with
        | cons _ _ _ _ => exact hwf.elim
        | nil =>
          obtain ⟨h2, e, hf, hev, _⟩ := erase_root_spec h t r v0 kids hwf
            (max F (kids.size + 1)) (le_max_right _ _)
          have hm := clear_mono F (max F (kids.size + 1)) h t _ hop (le_max_left _ _)
          obtain ⟨_, hroot, _⟩ := well_formed_cons hwf
          rw [hroot] at hrf
          simp only [clear, hroot, hrf, if_false, hev, Except.ok.injEq, Prod.mk.injEq] at hm
          obtain ⟨_, rfl⟩ := hm
          rfl
  rw [hnil] at hst
  exact hst

theorem copy_assign_step (h h1 : Heap α) (t s t1 : tree) (fD fS : Forest α)
    (ht : well_formed h t fD) (hs : well_formed h s fS)
    (hdis : ∀ a ∈ s.nodes fS, a ∉ t.nodes fD) (F : Nat)
    (hop : tree.copy_assign F h t s = .ok (h1, t1)) :
    ∃ f1, local_step h t fD h1 t1 f1 ∧ (fS = .nil → f1 = .nil) ∧
      (fS ≠ .nil → f1.shape = fS.shape) := by
  simp only [tree.copy_assign, bind, Except.bind] at hop
  cases hc : clear F h t with
  | error e => simp [hc] at hop
  | ok r =>
    obtain ⟨ha, ta⟩ := r
    simp only [hc] at hop
    have hst0 := clear_step_nil h ha t ta F fD ht hc
    obtain ⟨_, hsa, _⟩ := local_step_other h ha _ _ s _ _ fS hst0 hs hdis
    obtain ⟨f1, hst1, hn, hsh⟩ := p_transfer_step ha h1 ta s t1 fS _ hsa hst0.1
      (Or.inl rfl) F hop
    exact ⟨f1, local_step_trans _ _ _ _ _ _ _ _ _ hst0 hst1, hn, hsh⟩

/-- The destructor, when it returns, has deleted exactly the nodes of the
tree. -/
theorem dtor_spec (h h1 : Heap α) (t : tree) (f : Forest α) (hwf : well_formed h t f)
    (F : Nat) (hop : tree.dtor F h t = .ok h1) : freed h h1 (t.nodes f) := by
  obtain ⟨h2, hev, hfr⟩ := p_erase_children_tree h t f hwf (max F (f.size + 1))
    (le_max_right _ _)
  have hm := p_erase_children_mono F (max F (f.size + 1)) h t.root t.foot h1 hop
    (le_max_left _ _)
  rw [hev] at hm
  cases hm
  exact hfr

theorem freed_count (h h1 : Heap α) (t : tree) (f : Forest α) (hwf : well_formed h t f)
    (hfr : freed h h1 (t.nodes f)) : live_values h1 + f.size = live_values h := by
  have hsw := live_values_swap h h1 f.pre [] (well_formed_nodup h t f hwf) List.nodup_nil
    (fun a ha => (valued_nodes h t f hwf a (pre_sub_nodes t f a ha)).2 ha)
    (fun a ha => by cases ha)
    (fun a ha _ => valued_deleted h1 a (hfr.2.1 a (pre_sub_nodes t f a ha)))
    (fun a ha => by cases ha)
    (fun a hn _ => by
      by_cases hm : a ∈ t.nodes f
      · rw [valued_deleted h1 a (hfr.2.1 a hm)]
        cases hv : valued h a
        · rfl
        · exact (hn ((valued_nodes h t f hwf a hm).1 hv)).elim
      · simp [valued, hfr.2.2 a hm])
  rw [pre_length] at hsw
  simpa using hsw

theorem move_assign_spec (h h1 : Heap α) (t s t1 s1 : tree) (f : Forest α)
    (hwf : well_formed h t f) (F : Nat)
    (hop : tree.move_assign F h t s = .ok (h1, t1, s1)) :
    freed h h1 (t.nodes f) ∧ t1 = s ∧ s1 = ⟨none, none⟩ := by
  simp only [tree.move_assign] at hop
  cases hc : p_erase_children F h t.root t.foot with
  | error e => simp [hc] at hop
  | ok h2 =>
    simp only [hc, Except.ok.injEq, Prod.mk.injEq] at hop
    obtain ⟨rfl, rfl, rfl⟩ := hop
    exact ⟨dtor_spec h h2 t f hwf F hc, rfl, rfl⟩

/-! ## Several trees in one heap -/

theorem states_nil (h : Heap α) : states h [] ([] : List (tree × Forest α)) :=
  ⟨rfl, fun p hp => (by cases hp), List.Pairwise.nil⟩

theorem states_cons (h : Heap α) (t : tree) (f : Forest α) (ts : List tree)
    (W : List (tree × Forest α)) (hwf : well_formed h t f) (hW : states h ts W)
    (hdis : ∀ q ∈ W, ∀ a ∈ t.nodes f, a ∉ q.1.nodes q.2) :
    states h (t :: ts) ((t, f) :: W) := by
  obtain ⟨hm, hw, hp⟩ := hW
  refine ⟨by simp [hm], ?_, List.pairwise_cons.2 ⟨hdis, hp⟩⟩
  intro p hp
  rcases List.mem_cons.1 hp with rfl | hp
  · exact hwf
  · exact hw p hp

theorem states_cons_inv (h : Heap α) (t : tree) (ts : List tree) (W : List (tree × Forest α))
    (hW : states h (t :: ts) W) :
    ∃ f W1, W = (t, f) :: W1 ∧ well_formed h t f ∧ states h ts W1 ∧
      (∀ q ∈ W1, ∀ a ∈ t.nodes f, a ∉ q.1.nodes q.2) := by
  obtain ⟨hm, hw, hp⟩ := hW
  cases W with
  | nil => simp at hm
  | cons p W1 =>
    obtain ⟨t0, f⟩ := p
    simp only [List.map_cons, List.cons.injEq] at hm
    obtain ⟨rfl, hm⟩ := hm
    rw [List.pairwise_cons] at hp
    exact ⟨f, W1, rfl, hw _ (List.mem_cons_self _ _),
      ⟨hm, fun p hp1 => hw p (List.mem_cons_of_mem _ hp1), hp.2⟩, hp.1⟩

theorem states_frame (h h1 : Heap α) (ts : List tree) (W : List (tree × Forest α))
    (hW : states h ts W) (hsame : ∀ p ∈ W, ∀ a ∈ p.1.nodes p.2, h1[a]? = h[a]?) :
    states h1 ts W :=
  ⟨hW.1, fun p hp => well_formed_frame h h1 p.1 p.2 (hsame p hp) (hW.2.1 p hp), hW.2.2⟩

theorem perm_map_lift {β γ : Type} (g : β → γ) : ∀ {l1 l2 : List γ}, l1.Perm l2 →
    ∀ W : List β, W.map g = l1 → ∃ W1, W.Perm W1 ∧ W1.map g = l2 := by
  intro l1 l2 hp
  induction hp with
  | nil =>
    intro W hW
    exact ⟨W, List.Perm.refl _, hW⟩
  | cons x _ ih =>
    intro W hW
    cases W with
    | nil => simp at hW
    | cons w W0 =>
      simp only [List.map_cons, List.cons.injEq] at hW
      obtain ⟨W1, hp1, hm1⟩ := ih W0 hW.2
      exact ⟨w :: W1, List.Perm.cons w hp1, by simp [hW.1, hm1]⟩
  | swap x y l =>
    intro W hW
    cases W with
    | nil => simp at hW
    | cons w W0 =>
      cases W0 with
      | nil => simp at hW
      | cons w1 W1 =>
        simp only [List.map_cons, List.cons.injEq] at hW
        exact ⟨w1 :: w :: W1, List.Perm.swap w1 w W1, by simp [hW.1, hW.2.1, hW.2.2]⟩
  | trans _ _ ih1 ih2 =>
    intro W hW
    obtain ⟨W1, hp1, hm1⟩ := ih1 W hW
    obtain ⟨W2, hp2, hm2⟩ := ih2 W1 hm1
    exact ⟨W2, hp1.trans hp2, hm2⟩

theorem states_perm (h : Heap α) (ts ts1 : List tree) (W : List (tree × Forest α))
    (hW : states h ts W) (hp : ts.Perm ts1) :
    ∃ W1, states h ts1 W1 ∧
      (W1.map (fun p => p.2.size)).sum = (W.map (fun p => p.2.size)).sum := by
  obtain ⟨W1, hp1, hm1⟩ := perm_map_lift Prod.fst hp W hW.1
  refine ⟨W1, ⟨hm1, fun p hq => hW.2.1 p (hp1.mem_iff.2 hq), ?_⟩,
    ((hp1.map _).sum_eq).symm⟩
  refine (List.Perm.pairwise_iff ?_ hp1).1 hW.2.2
  intro p q hpq a ha hb
  exact hpq a hb ha

/-- A call on the tree object at the front keeps the other objects as they
are and adds the change of its node count to the number of live values. -/
theorem states_step (h h1 : Heap α) (t t1 : tree) (f f1 : Forest α) (ts : List tree)
    (W : List (tree × Forest α)) (hwf : well_formed h t f) (hW : states h ts W)
    (hdis : ∀ q ∈ W, ∀ a ∈ t.nodes f, a ∉ q.1.nodes q.2)
    (hst : local_step h t f h1 t1 f1) :
    states h1 (t1 :: ts) ((t1, f1) :: W) ∧
      live_values h1 + f.size = live_values h + f1.size := by
  have hoth : ∀ q ∈ W, (∀ a ∈ q.1.nodes q.2, h1[a]? = h[a]?) ∧
      (∀ a ∈ q.1.nodes q.2, a ∉ t1.nodes f1) := by
    intro q hq
    obtain ⟨e1, _, e3⟩ := local_step_other h h1 t t1 q.1 f f1 q.2 hst (hW.2.1 q hq)
      (fun a ha hb => hdis q hq a hb ha)
    exact ⟨e1, e3⟩
  refine ⟨states_cons h1 t1 f1 ts W hst.1
    (states_frame h h1 ts W hW (fun p hp => (hoth p hp).1))
    (fun q hq a ha hb => (hoth q hq).2 a hb ha), local_step_count h h1 t t1 f f1 hwf hst⟩

/-- Invariant of `worlds`: the live tree objects are well-formed and share no
node, and the live values are those of the start plus one per value-holding
node of a live tree. -/
theorem worlds_balance (h0 h : Heap α) (ts : List tree) (hw : worlds h0 h ts) :
    ∃ W, states h ts W ∧
      live_values h = live_values h0 + (W.map (fun p => p.2.size)).sum := by
  induction hw with
  | start => exact ⟨[], states_nil h0, by simp⟩
  | perm h ts ts1 _ hp ih =>
    obtain ⟨W, hW, hc⟩ := ih
    obtain ⟨W1, hW1, hs⟩ := states_perm h ts ts1 W hW hp
    exact ⟨W1, hW1, by rw [hs]; exact hc⟩
  | ctor h h1 ts t v _ hop ih =>
    obtain ⟨W, hW, hc⟩ := ih
    obtain ⟨_, hst⟩ := ctor_step h h1 t v hop
    obtain ⟨hW1, hc1⟩ := states_step h h1 _ t _ _ ts W (well_formed_null h) hW
      (fun q _ a ha => by simp [tree.nodes, Forest.pre] at ha) hst
    refine ⟨_, hW1, ?_⟩
    simp only [Forest.size, List.map_cons, List.sum_cons] at hc1 ⊢
    omega
  | mutate h h1 ts t t1 _ hev ih =>
    obtain ⟨W, hW, hc⟩ := ih
    obtain ⟨f, W1, rfl, hwf, hW1, hdis⟩ := states_cons_inv h t ts W hW
    obtain ⟨f1, hst⟩ := evolves_local_step h h1 t t1 f hwf hev
    obtain ⟨hW2, hc2⟩ := states_step h h1 t t1 f f1 ts W1 hwf hW1 hdis hst
    refine ⟨_, hW2, ?_⟩
    simp only [List.map_cons, List.sum_cons] at hc ⊢
    omega
  | copy_ctor h h1 ts s c F dflt _ hop ih =>
    obtain ⟨W, hW, hc⟩ := ih
    obtain ⟨f, W1, rfl, hwf, _, _⟩ := states_cons_inv h s ts _ hW
    obtain ⟨fC, hst, _⟩ := copy_ctor_step h h1 s c f dflt hwf F hop
    obtain ⟨hW2, hc2⟩ := states_step h h1 _ c _ fC (s :: ts) _ (well_formed_null h) hW
      (fun q _ a ha => by simp [tree.nodes, Forest.pre] at ha) hst
    refine ⟨_, hW2, ?_⟩
    simp only [Forest.size, List.map_cons, List.sum_cons] at hc hc2 ⊢
    omega
  | copy_assign h h1 ts t s t1 F _ hop ih =>
    obtain ⟨W, hW, hc⟩ := ih
    obtain ⟨f, W1, rfl, hwf, hW1, hdis⟩ := states_cons_inv h t (s :: ts) W hW
    obtain ⟨g, W2, rfl, hwg, _, _⟩ := states_cons_inv h s ts W1 hW1
    obtain ⟨f1, hst, _⟩ := copy_assign_step h h1 t s t1 f g hwf hwg
      (fun a ha hb => hdis _ (List.mem_cons_self _ _) a hb ha) F hop
    obtain ⟨hW2, hc2⟩ := states_step h h1 t t1 f f1 (s :: ts) _ hwf hW1 hdis hst
    refine ⟨_, hW2, ?_⟩
    simp only [List.map_cons, List.sum_cons] at hc ⊢
    omega
  | move_ctor h ts s _ ih =>
    obtain ⟨W, hW, hc⟩ := ih
    obtain ⟨f, W1, rfl, hwf, hW1, hdis⟩ := states_cons_inv h s ts W hW
    have hW2 : states h ((⟨none, none⟩ : tree) :: ts) ((⟨none, none⟩, .nil) :: W1) :=
      states_cons h _ _ ts W1 (well_formed_null h) hW1
        (fun q _ a ha => by simp [tree.nodes, Forest.pre] at ha)
    have hW3 : states h (s :: (⟨none, none⟩ : tree) :: ts)
        ((s, f) :: (⟨none, none⟩, .nil) :: W1) := by
      refine states_cons h s f _ _ hwf hW2 ?_
      intro q hq a ha
      rcases List.mem_cons.1 hq with rfl | hq
      · simp [tree.nodes, Forest.pre]
      · exact hdis q hq a ha
    refine ⟨_, hW3, ?_⟩
    simp only [Forest.size, List.map_cons, List.sum_cons] at hc ⊢
    omega
  | move_assign h h1 ts t s t1 s1 F _ hop ih =>
    obtain ⟨W, hW, hc⟩ := ih
    obtain ⟨f, W1, rfl, hwf, hW1, hdis⟩ := states_cons_inv h t (s :: ts) W hW
    obtain ⟨hfr, rfl, rfl⟩ := move_assign_spec h h1 t s t1 s1 f hwf F hop
    have hW1f : states h1 (t1 :: ts) W1 :=
      states_frame h h1 _ W1 hW1
        (fun p hp a ha => hfr.2.2 a (fun hb => hdis p hp a hb ha))
    obtain ⟨g, W2, rfl, hwg, hW2, hdis2⟩ := states_cons_inv h1 t1 ts W1 hW1f
    have hW3 : states h1 ((⟨none, none⟩ : tree) :: ts) ((⟨none, none⟩, .nil) :: W2) :=
      states_cons h1 _ _ ts W2 (well_formed_null h1) hW2
        (fun q _ a ha => by simp [tree.nodes, Forest.pre] at ha)
    have hW4 : states h1 (t1 :: (⟨none, none⟩ : tree) :: ts)
        ((t1, g) :: (⟨none, none⟩, .nil) :: W2) := by
      refine states_cons h1 t1 g _ _ hwg hW3 ?_
      intro q hq a ha
      rcases List.mem_cons.1 hq with rfl | hq
      · simp [tree.nodes, Forest.pre]
      · exact hdis2 q hq a ha
    have hcount := freed_count h h1 t f hwf hfr
    refine ⟨_, hW4, ?_⟩
    simp only [Forest.size, List.map_cons, List.sum_cons] at hc ⊢
    omega
  | dtor h h1 ts t F _ hop ih =>
    obtain ⟨W, hW, hc⟩ := ih
    obtain ⟨f, W1, rfl, hwf, hW1, hdis⟩ := states_cons_inv h t ts W hW
    have hfr := dtor_spec h h1 t f hwf F hop
    have hcount := freed_count h h1 t f hwf hfr
    refine ⟨W1, states_frame h h1 _ W1 hW1
      (fun p hp a ha => hfr.2.2 a (fun hb => hdis p hp a hb ha)), ?_⟩
    simp only [List.map_cons, List.sum_cons] at hc
    omega

/-! ## Values destroyed by `erase` and by the destructor -/

theorem valued_congr_cell (h h1 : Heap α) (a : Nat) (nd nd1 : node α)
    (hc : h[a]? = some (some nd)) (hc1 : h1[a]? = some (some nd1))
    (hv : nd1.value = nd.value) : valued h1 a = valued h a := by
  simp [valued, hc, hc1, hv]

theorem erase_cells (h : Heap α) (t : tree) (f : Forest α) (x : Nat)
    (hwf : well_formed h t f) (hx : x ∈ f.pre) (F : Nat) (hF : f.size + 1 ≤ F) :
    ∃ h1 t1 bak C v kx rx, erase F h t (some x) = .ok (h1, t1, bak) ∧
      f = plug C (.cons x v kx rx) ∧
      (∀ a ∈ x :: kx.pre, h1[a]? = some none) ∧
      (∀ a, a ∉ x :: kx.pre → valued h1 a = valued h a) := by
  cases f with
  | nil => simp [Forest.pre] at hx
  | cons r v0 kids rest =>
    cases rest with
    | cons _ _ _ _ => exact hwf.elim
    | nil =>
      simp only [Forest.size] at hF
      by_cases hxr : x = r
      · subst hxr
        obtain ⟨h1, e, hf, hev, hw1, hdel, hfr⟩ := erase_root_spec h t x v0 kids hwf F
          (by omega)
        obtain ⟨e1, _, hf1, _, _, hnd⟩ := well_formed_cons hwf
        rw [hf] at hf1
        cases hf1
        refine ⟨h1, _, _, [], v0, kids, .nil, hev, rfl, ?_, ?_⟩
        · intro a ha
          exact hdel a (by simpa [Forest.pre] using ha)
        · intro a ha
          by_cases hae : a = e
          · subst hae
            have e0 : valued h a = false := by
              cases hv : valued h a
              · rfl
              · have := (valued_nodes h t _ hwf a (by simp [tree.nodes, hf])).1 hv
                exact ((List.nodup_cons.1 hnd).1 this).elim
            have hb := hw1.2
            simp only at hb
            rw [e0]
            simp [valued, hb]
          · have := hfr a (by simpa [Forest.pre] using ha) hae
            simp [valued, this]
      · obtain ⟨h1, C0, P, vp, restP, R, v, kx, rx, nd, _, hT, _, _, _, _, hev, _, hdel, hkeep,
          hfr⟩ := erase_spec_ext h t r v0 kids x hwf hx hxr F (by omega)
        refine ⟨h1, t, _, C0 ++ Frame.down P vp restP :: R, v, kx, rx, hev, ?_, hdel, ?_⟩
        · rw [hT, plug_append]
          rfl
        · intro a ha
          cases hc : h[a]? with
          | none =>
            have hn : a ∉ t.nodes (Forest.cons r v0 kids .nil) := by
              intro hm
              obtain ⟨nd0, hc0, _⟩ := nodes_cell h t _ hwf a hm
              rw [hc] at hc0
              cases hc0
            simp [valued, hfr a hn, hc]
          | some c =>
            cases c with
            | none =>
              have hn : a ∉ t.nodes (Forest.cons r v0 kids .nil) := by
                intro hm
                obtain ⟨nd0, hc0, _⟩ := nodes_cell h t _ hwf a hm
                rw [hc] at hc0
                cases hc0
              simp [valued, hfr a hn, hc]
            | some nd0 =>
              obtain ⟨nd1, hc1, hv, _⟩ := hkeep a nd0 ha hc
              exact valued_congr_cell h h1 a nd0 nd1 hc hc1 hv

/-- Source `erase(x)` on a node of the tree: the call returns, the cells of
`x` and of its descendants held values and are deleted, no other cell gains or
loses a value, and the number of live values drops by the size of the
subtree. -/
theorem erase_count (h : Heap α) (t : tree) (f : Forest α) (x : Nat)
    (hwf : well_formed h t f) (hx : x ∈ f.pre) (F : Nat) (hF : f.size + 1 ≤ F) :
    ∃ h1 t1 bak C v kx rx, erase F h t (some x) = .ok (h1, t1, bak) ∧
      f = plug C (.cons x v kx rx) ∧ (x :: kx.pre).Nodup ∧
      (∀ a ∈ x :: kx.pre, valued h a = true ∧ h1[a]? = some none) ∧
      (∀ a, a ∉ x :: kx.pre → valued h1 a = valued h a) ∧
      live_values h1 + (1 + kx.size) = live_values h := by
  obtain ⟨h1, t1, bak, C, v, kx, rx, hev, hpl, hdel, hout⟩ := erase_cells h t f x hwf hx F hF
  have hpre : f.pre = path_before C ++ (x :: (kx.pre ++ rx.pre)) ++ path_after C := by
    rw [hpl, pre_plug]
    rfl
  have hnd := well_formed_nodup h t f hwf
  have hsub : ∀ a ∈ x :: kx.pre, a ∈ f.pre := by
    intro a ha
    rw [hpre]
    simp only [List.mem_cons] at ha
    simp only [List.mem_append, List.mem_cons]
    tauto
  have hnd1 : (x :: kx.pre).Nodup := by
    rw [hpre] at hnd
    have h2 := (List.nodup_append.1 (List.nodup_append.1 hnd).1).2.1
    rw [List.nodup_cons] at h2 ⊢
    refine ⟨fun hh => h2.1 (List.mem_append_left _ hh), (List.nodup_append.1 h2.2).1⟩
  have hval : ∀ a ∈ x :: kx.pre, valued h a = true := fun a ha =>
    (valued_nodes h t f hwf a (pre_sub_nodes t f a (hsub a ha))).2 (hsub a ha)
  have hsw := live_values_swap h h1 (x :: kx.pre) [] hnd1 List.nodup_nil hval
    (fun a ha => by cases ha)
    (fun a ha _ => valued_deleted h1 a (hdel a ha))
    (fun a ha => by cases ha)
    (fun a hn _ => hout a hn)
  refine ⟨h1, t1, bak, C, v, kx, rx, hev, hpl, hnd1, fun a ha => ⟨hval a ha, hdel a ha⟩, hout,
    ?_⟩
  simp only [List.length_cons, pre_length, List.length_nil] at hsw
  omega

/-- Source `~tree()` on a well-formed tree: the call returns, every node of
the tree is deleted, no other cell changes, and the number of live values
drops by the number of value-holding nodes. -/
theorem dtor_count (h : Heap α) (t : tree) (f : Forest α) (hwf : well_formed h t f)
    (F : Nat) (hF : f.size + 1 ≤ F) :
    ∃ h1, tree.dtor F h t = .ok h1 ∧ freed h h1 (t.nodes f) ∧
      live_values h1 + f.size = live_values h := by
  obtain ⟨h1, hev, hfr⟩ := p_erase_children_tree h t f hwf F hF
  exact ⟨h1, hev, hfr, freed_count h h1 t f hwf hfr⟩

/-! ## Copies are trees of their own -/

theorem copy_independent (h h1 : Heap α) (T C D : tree) (fT fD fC : Forest α)
    (hT : well_formed h T fT) (hdis : ∀ a ∈ T.nodes fT, a ∉ D.nodes fD)
    (hst : local_step h D fD h1 C fC) :
    well_formed h1 C fC ∧ (∀ a ∈ T.nodes fT, a ∉ C.nodes fC) ∧
      (∀ a ∈ T.nodes fT, h1[a]? = h[a]?) ∧
      ∀ h2 C2, evolves h1 C h2 C2 →
        (∀ a ∈ T.nodes fT, h2[a]? = h[a]?) ∧ well_formed h2 T fT := by
  obtain ⟨e1, _, e3⟩ := local_step_other h h1 D C T fD fC fT hst hT hdis
  refine ⟨hst.1, e3, e1, ?_⟩
  intro h2 C2 hev
  obtain ⟨f2, hst2⟩ := evolves_local_step h1 h2 C C2 fC hst.1 hev
  obtain ⟨d1, d2, _⟩ := local_step_other h h2 D C2 T fD f2 fT
    (local_step_trans _ _ _ _ _ _ _ _ _ hst hst2) hT hdis
  exact ⟨d1, d2⟩

theorem copy_ctor_returns (h : Heap α) (T : tree) (r : Nat) (v0 : α) (kids : Forest α)
    (hT : well_formed h T (.cons r v0 kids .nil)) (hk : kids ≠ .nil)
    (htr : kids.transferable) (F : Nat) (hF : kids.size + 2 ≤ F) (dflt : α) :
    ∃ h1 C, tree.copy_ctor F h dflt T = .ok (h1, C) := by
  obtain ⟨ha, hev, _, _⟩ := ctor_spec h dflt
  obtain ⟨_, hst0⟩ := ctor_step h ha _ dflt hev
  obtain ⟨_, hsa, _⟩ := local_step_other h ha _ _ T _ _ _ hst0 hT
    (by intro a _ hh; simp [tree.nodes, Forest.pre] at hh)
  obtain ⟨h5, t2, _, hp, _⟩ := p_transfer_spec ha _ T r v0 kids _ hsa hst0.1
    (Or.inr ⟨_, _, rfl⟩) hk htr F hF
  exact ⟨h5, t2, by simp only [tree.copy_ctor, hev, bind, Except.bind]; exact hp⟩

/-- C25: the copy of the scenario tree (`tree_ copy = tree`) lies on fresh
nodes, `copy == tree` is true and the forest of the copy has the shape and
values of the source; erasing the node holding 2 in the copy leaves the copy
with the depth-first values 0,1,5,7, while every cell of the source is as
before, the source is well-formed for the same forest and `operator++` visits
0,1,2,6,3,4,5,7 in it. In general, when `p_transfer` returns, called with a
destination that is empty or has only a root (the states in which the copy
constructor and the copy assignment call it), no cell of a source node has
changed; and when a copy construction or a copy assignment into another tree
returns, the result is a well-formed tree that shares no node with the source
and, for a non-empty source, has its shape and values, no cell of the source
has changed, and after every sequence of mutator calls on the copy the cells
of the source are still as before and the source is well-formed for the same
forest. Copy construction returns for every source whose root has a child and
in which every other node with children has a right sibling. -/
theorem copy_independent_of_source :
    (tree.copy_ctor 10 scenario_heap (-1) scenario_tree = .ok (copied_heap, copied_tree) ∧
      op_eq 10 copied_heap copied_tree scenario_tree = .ok true ∧
      well_formed copied_heap copied_tree (.cons 9 0 (scenario_kids.copy 11) .nil) ∧
      (Forest.cons 9 0 (scenario_kids.copy 11) .nil).shape
        = (Forest.cons 0 0 scenario_kids .nil).shape ∧
      (∀ a ∈ copied_tree.nodes (.cons 9 0 (scenario_kids.copy 11) .nil),
        a ∉ scenario_tree.nodes (.cons 0 0 scenario_kids .nil)) ∧
      deref copied_heap (some 16) = .ok 2 ∧
      erase 10 copied_heap copied_tree (some 16)
        = .ok (copy_erased_heap, copied_tree, some 12) ∧
      run (df_inc 10 copy_erased_heap) 4 copied_tree.begin
        = .ok ([some 9, some 17, some 12, some 11] ++ [copied_tree.end_]) ∧
      [some 9, some 17, some 12, some 11].map (fun a => deref copy_erased_heap a)
        = [0, 1, 5, 7].map .ok ∧
      run (df_inc 10 copy_erased_heap) 8 scenario_tree.begin
        = .ok ([some 0, some 2, some 3, some 7, some 4, some 5, some 6, some 8]
            ++ [scenario_tree.end_]) ∧
      [some 0, some 2, some 3, some 7, some 4, some 5, some 6, some 8].map
          (fun a => deref copy_erased_heap a)
        = [0, 1, 2, 6, 3, 4, 5, 7].map .ok ∧
      well_formed copy_erased_heap scenario_tree (.cons 0 0 scenario_kids .nil) ∧
      (∀ a ∈ scenario_tree.nodes (.cons 0 0 scenario_kids .nil),
        copy_erased_heap[a]? = scenario_heap[a]?)) ∧
    (∀ (h h1 : Heap α) (this rhs t1 : tree) (fS fD : Forest α) (F : Nat),
      well_formed h rhs fS → well_formed h this fD →
      (fD = .nil ∨ ∃ rD vD, fD = .cons rD vD .nil .nil) →
      (∀ a ∈ rhs.nodes fS, a ∉ this.nodes fD) →
      p_transfer F h this rhs = .ok (h1, t1) →
      ∀ a ∈ rhs.nodes fS, h1[a]? = h[a]?) ∧
    (∀ (h h1 : Heap α) (T C : tree) (fT : Forest α) (F : Nat),
      well_formed h T fT →
      ((∃ dflt, tree.copy_ctor F h dflt T = .ok (h1, C)) ∨
        (∃ D fD, well_formed h D fD ∧ (∀ a ∈ T.nodes fT, a ∉ D.nodes fD) ∧
          tree.copy_assign F h D T = .ok (h1, C))) →
      ∃ fC, well_formed h1 C fC ∧ (fT ≠ .nil → fC.shape = fT.shape) ∧
        (∀ a ∈ T.nodes fT, a ∉ C.nodes fC) ∧
        (∀ a ∈ T.nodes fT, h1[a]? = h[a]?) ∧
        ∀ h2 C2, evolves h1 C h2 C2 →
          (∀ a ∈ T.nodes fT, h2[a]? = h[a]?) ∧ well_formed h2 T fT) ∧
    (∀ (h : Heap α) (T : tree) (r : Nat) (v0 : α) (kids : Forest α) (F : Nat) (dflt : α),
      well_formed h T (.cons r v0 kids .nil) → kids ≠ .nil → kids.transferable →
      kids.size + 2 ≤ F → ∃ h1 C, tree.copy_ctor F h dflt T = .ok (h1, C)) := by
  refine ⟨⟨rfl, rfl, by decide, rfl, by decide, rfl, rfl, rfl, rfl, rfl, rfl, by decide,
    by decide⟩, ?_, ?_, ?_⟩
  · intro h h1 this rhs t1 fS fD F hrhs hthis hfD hdis hop
    obtain ⟨f1, hst, _⟩ := p_transfer_step h h1 this rhs t1 fS fD hrhs hthis hfD F hop
    exact (local_step_other h h1 this t1 rhs fD f1 fS hst hrhs hdis).1
  · intro h h1 T C fT F hT hop
    rcases hop with ⟨dflt, hop⟩ | ⟨D, fD, hD, hdis, hop⟩
    · obtain ⟨fC, hst, hsh⟩ := copy_ctor_step h h1 T C fT dflt hT F hop
      obtain ⟨e1, e2, e3, e4⟩ := copy_independent h h1 T C _ fT _ fC hT
        (by intro a _ hh; simp [tree.nodes, Forest.pre] at hh) hst
      exact ⟨fC, e1, hsh, e2, e3, e4⟩
    · obtain ⟨fC, hst, _, hsh⟩ := copy_assign_step h h1 D T C fD fT hD hT hdis F hop
      obtain ⟨e1, e2, e3, e4⟩ := copy_independent h h1 T C D fT fD fC hT hdis hst
      exact ⟨fC, e1, hsh, e2, e3, e4⟩
  · intro h T r v0 kids F dflt hT hk htr hF
    exact copy_ctor_returns h T r v0 kids hT hk htr F hF dflt

theorem copy_independent_of_source_witness :
    well_formed scenario_heap scenario_tree (.cons 0 0 scenario_kids .nil) ∧
    tree.copy_ctor 10 scenario_heap (-1) scenario_tree = .ok (copied_heap, copied_tree) ∧
    (∃ fC, well_formed copied_heap copied_tree fC ∧
      (Forest.cons 0 0 scenario_kids .nil ≠ .nil →
        fC.shape = (Forest.cons 0 0 scenario_kids .nil).shape) ∧
      (∀ a ∈ scenario_tree.nodes (.cons 0 0 scenario_kids .nil), a ∉ copied_tree.nodes fC) ∧
      (∀ a ∈ scenario_tree.nodes (.cons 0 0 scenario_kids .nil),
        copied_heap[a]? = scenario_heap[a]?) ∧
      ∀ h2 C2, evolves copied_heap copied_tree h2 C2 →
        (∀ a ∈ scenario_tree.nodes (.cons 0 0 scenario_kids .nil),
          h2[a]? = scenario_heap[a]?) ∧
        well_formed h2 scenario_tree (.cons 0 0 scenario_kids .nil)) ∧
    well_formed (scenario_heap ++ [some ⟨none, none, some 10, none, none, some (-1)⟩,
        some ⟨none, some 9, none, none, none, none⟩]) scenario_tree
      (.cons 0 0 scenario_kids .nil) ∧
    well_formed (scenario_heap ++ [some ⟨none, none, some 10, none, none, some (-1)⟩,
        some ⟨none, some 9, none, none, none, none⟩]) copied_tree (.cons 9 (-1) .nil .nil) ∧
    p_transfer 10 (scenario_heap ++ [some ⟨none, none, some 10, none, none, some (-1)⟩,
        some ⟨none, some 9, none, none, none, none⟩]) copied_tree scenario_tree
      = .ok (copied_heap, copied_tree) ∧
    (∀ a ∈ scenario_tree.nodes (.cons 0 0 scenario_kids .nil),
      copied_heap[a]? = (scenario_heap ++ [some ⟨none, none, some 10, none, none, some (-1)⟩,
        some ⟨none, some 9, none, none, none, none⟩])[a]?) ∧
    scenario_kids ≠ .nil ∧ scenario_kids.transferable ∧ scenario_kids.size + 2 ≤ 10 ∧
    (∃ h1 C, tree.copy_ctor 10 scenario_heap (-1) scenario_tree = .ok (h1, C)) :=
  ⟨by decide, rfl,
    (@copy_independent_of_source Int).2.2.1 scenario_heap copied_heap scenario_tree
      copied_tree (.cons 0 0 scenario_kids .nil) 10 (by decide) (Or.inl ⟨-1, (@copy_independent_of_source Int).1.1⟩),
    by decide, by decide, rfl,
    (@copy_independent_of_source Int).2.1 _ copied_heap copied_tree scenario_tree copied_tree
      (.cons 0 0 scenario_kids .nil) (.cons 9 (-1) .nil .nil) 10 (by decide) (by decide)
      (Or.inr ⟨_, _, rfl⟩) (by decide) rfl,
    by decide, by decide, by decide,
    (@copy_independent_of_source Int).2.2.2 scenario_heap scenario_tree 0 0 scenario_kids 10
      (-1) (by decide) (by decide) (by decide) (by decide)⟩

/-- C26: in every state that calls of the constructor, the mutators
(`set_root`, `insert_left`, `insert_right`, `append_child`, `prepend_child`,
`erase`, `clear`), copy construction and assignment, move construction and
assignment and the destructor lead to from a heap `h0` with no tree alive,
the live trees are well-formed and share no node, and the number of live
values is that of `h0` plus the number of value-holding nodes of the live
trees, which is the sum of what `size()` returns for them; with no tree left
the number is back at that of `h0`. `erase(x)` on a node of a well-formed tree
returns, the cells of `x` and of its descendants are distinct, held a value
each and are deleted, no other cell gains or loses a value, and the number of
live values drops by the size of the subtree. The destructor of a well-formed
tree returns, deletes exactly the nodes of the tree and lowers the number of
live values by the number of value-holding nodes. -/
theorem value_balance :
    (∀ (h0 h : Heap α) (ts : List tree), worlds h0 h ts →
      ∃ W, states h ts W ∧
        live_values h = live_values h0 + (W.map (fun p => p.2.size)).sum ∧
        ∀ p ∈ W, ∀ F, p.2.size + 1 ≤ F → size F h p.1 = .ok p.2.size) ∧
    (∀ (h0 h : Heap α), worlds h0 h [] → live_values h = live_values h0) ∧
    (∀ (h : Heap α) (t : tree) (f : Forest α) (x F : Nat),
      well_formed h t f → x ∈ f.pre → f.size + 1 ≤ F →
      ∃ h1 t1 bak C v kx rx, erase F h t (some x) = .ok (h1, t1, bak) ∧
        f = plug C (.cons x v kx rx) ∧ (x :: kx.pre).Nodup ∧
        (∀ a ∈ x :: kx.pre, valued h a = true ∧ h1[a]? = some none) ∧
        (∀ a, a ∉ x :: kx.pre → valued h1 a = valued h a) ∧
        live_values h1 + (1 + kx.size) = live_values h) ∧
    (∀ (h : Heap α) (t : tree) (f : Forest α) (F : Nat),
      well_formed h t f → f.size + 1 ≤ F →
      ∃ h1, tree.dtor F h t = .ok h1 ∧ freed h h1 (t.nodes f) ∧
        live_values h1 + f.size = live_values h) := by
  refine ⟨?_, ?_, ?_, ?_⟩
  · intro h0 h ts hw
    obtain ⟨W, hW, hc⟩ := worlds_balance h0 h ts hw
    exact ⟨W, hW, hc, fun p hp F hF => size_spec h p.1 p.2 (hW.2.1 p hp) F hF⟩
  · intro h0 h hw
    obtain ⟨W, hW, hc⟩ := worlds_balance h0 h [] hw
    have : W = [] := by simpa using hW.1
    subst this
    simpa using hc
  · intro h t f x F hwf hx hF
    exact erase_count h t f x hwf hx F hF
  · intro h t f F hwf hF
    exact dtor_count h t f hwf F hF

theorem value_balance_witness :
    worlds ([] : Heap Int) root_only_heap [root_only_tree] ∧
    (∃ W, states root_only_heap [root_only_tree] W ∧
      live_values root_only_heap
        = live_values ([] : Heap Int) + (W.map (fun p => p.2.size)).sum ∧
      ∀ p ∈ W, ∀ F, p.2.size + 1 ≤ F → size F root_only_heap p.1 = .ok p.2.size) ∧
    worlds ([] : Heap Int) [none, none] [] ∧
    live_values ([none, none] : Heap Int) = live_values ([] : Heap Int) ∧
    well_formed scenario_heap scenario_tree (.cons 0 0 scenario_kids .nil) ∧
    3 ∈ (Forest.cons 0 0 scenario_kids .nil).pre ∧
    (Forest.cons 0 0 scenario_kids .nil).size + 1 ≤ 9 ∧
    (∃ h1 t1 bak C v kx rx, erase 9 scenario_heap scenario_tree (some 3) = .ok (h1, t1, bak) ∧
      Forest.cons 0 0 scenario_kids .nil = plug C (.cons 3 v kx rx) ∧ (3 :: kx.pre).Nodup ∧
      (∀ a ∈ 3 :: kx.pre, valued scenario_heap a = true ∧ h1[a]? = some none) ∧
      (∀ a, a ∉ 3 :: kx.pre → valued h1 a = valued scenario_heap a) ∧
      live_values h1 + (1 + kx.size) = live_values scenario_heap) ∧
    (∃ h1, tree.dtor 9 scenario_heap scenario_tree = .ok h1 ∧
      freed scenario_heap h1 (scenario_tree.nodes (.cons 0 0 scenario_kids .nil)) ∧
      live_values h1 + (Forest.cons 0 0 scenario_kids .nil).size
        = live_values scenario_heap) :=
  ⟨worlds.ctor [] root_only_heap [] root_only_tree 0 worlds.start rfl,
    (@value_balance Int).1 [] root_only_heap [root_only_tree]
      (worlds.ctor [] root_only_heap [] root_only_tree 0 worlds.start rfl),
    worlds.dtor root_only_heap [none, none] [] root_only_tree 3
      (worlds.ctor [] root_only_heap [] root_only_tree 0 worlds.start rfl) rfl,
    (@value_balance Int).2.1 [] [none, none]
      (worlds.dtor root_only_heap [none, none] [] root_only_tree 3
        (worlds.ctor [] root_only_heap [] root_only_tree 0 worlds.start rfl) rfl),
    by decide, by decide, by decide,
    (@value_balance Int).2.2.1 scenario_heap scenario_tree (.cons 0 0 scenario_kids .nil) 3 9
      (by decide) (by decide) (by decide),
    (@value_balance Int).2.2.2 scenario_heap scenario_tree (.cons 0 0 scenario_kids .nil) 9
      (by decide) (by decide)⟩

/-! ## Constructed trees and copies of empty trees -/

theorem root_only_facts (h : Heap α) (t : tree) (r : Nat) (v : α)
    (hwf : well_formed h t (.cons r v .nil .nil)) (F : Nat) (hF : 2 ≤ F) :
    t.empty = false ∧ size F h t = .ok 1 ∧ t.begin ≠ t.end_ ∧ t.begin = some r ∧
      deref h t.begin = .ok v ∧
      ∃ nd, rd h t.begin = .ok nd ∧ nd.parent = none ∧ nd.child_begin = none ∧
        nd.child_end = none ∧ nd.right = t.end_ := by
  obtain ⟨e, hroot, hf, ⟨hcr, _, _⟩, _, hnd⟩ := well_formed_cons hwf
  have hne : r ≠ e := by
    intro hh
    subst hh
    simp [Forest.pre] at hnd
  have hs := size_spec h t _ hwf F (by simp [Forest.size]; omega)
  refine ⟨?_, by simpa [Forest.size] using hs, ?_, hroot, ?_, ?_⟩
  · simp [tree.empty, hroot, hf, hne]
  · simp [tree.begin, tree.end_, hroot, hf, hne]
  · simp [deref, rd, tree.begin, hroot, hcr]
  · exact ⟨_, by simp [rd, tree.begin, hroot, hcr]; rfl, rfl, rfl, rfl,
      by simp [Forest.firstOr, Forest.first, tree.end_, hf]⟩

theorem ctor_facts (h0 : Heap α) (v : α) (F : Nat) (hF : 2 ≤ F) :
    ∃ h t r, tree.ctor h0 v = .ok (h, t) ∧ well_formed h t (.cons r v .nil .nil) ∧
      t.empty = false ∧ size F h t = .ok 1 ∧ t.begin ≠ t.end_ ∧ t.begin = some r ∧
      deref h t.begin = .ok v ∧
      ∃ nd, rd h t.begin = .ok nd ∧ nd.parent = none ∧ nd.child_begin = none ∧
        nd.child_end = none ∧ nd.right = t.end_ := by
  obtain ⟨h, hev, hwf, _⟩ := ctor_spec h0 v
  obtain ⟨e1, e2, e3, e4, e5, e6⟩ := root_only_facts h _ _ v hwf F hF
  exact ⟨h, _, _, hev, hwf, e1, e2, e3, e4, e5, e6⟩

theorem well_formed_nil_empty (h : Heap α) (t : tree) (hwf : well_formed h t .nil) :
    t.empty = true := by
  simp [tree.empty, hwf.1]

theorem p_transfer_empty_source (h : Heap α) (this s : tree) (hs : s.empty = true) (F : Nat) :
    p_transfer F h this s = .ok (h, this) := by
  simp [p_transfer, hs, pure, Except.pure]

theorem clear_returns (h : Heap α) (t : tree) (f : Forest α) (hwf : well_formed h t f)
    (F : Nat) (hF : f.size ≤ F) :
    ∃ h1 t1, clear F h t = .ok (h1, t1) ∧ well_formed h1 t1 .nil := by
  cases f with
  | nil => exact ⟨h, t, by simp [clear, hwf.1], hwf⟩
  | cons r v0 kids rest =>
    cases rest with
    | cons _ _ _ _ => exact hwf.elim
    | nil =>
      simp only [Forest.size] at hF
      obtain ⟨h1, e, hf, hev, hw1, _⟩ := erase_root_spec h t r v0 kids hwf F (by omega)
      obtain ⟨e1, hroot, hf1, _, _, hnd⟩ := well_formed_cons hwf
      have hne : (some r : nodeptr) ≠ t.foot := by
        rw [hf1]
        intro hh
        cases hh
        simp [Forest.pre] at hnd
      refine ⟨h1, _, ?_, hw1⟩
      simp [clear, hroot, hne, hev]

theorem copy_assign_empty_source (h : Heap α) (s D : tree) (fD : Forest α)
    (hs : well_formed h s .nil) (hD : well_formed h D fD) (F : Nat) (hF : fD.size + 1 ≤ F) :
    ∃ h1 D1, tree.copy_assign F h D s = .ok (h1, D1) ∧ well_formed h1 D1 .nil ∧
      D1.empty = true ∧ D1.begin = D1.end_ ∧ size F h1 D1 = .ok 0 := by
  obtain ⟨h1, t1, hc, hw1⟩ := clear_returns h D fD hD F (by omega)
  refine ⟨h1, t1, ?_, hw1, well_formed_nil_empty h1 t1 hw1, hw1.1, ?_⟩
  · simp only [tree.copy_assign, hc, bind, Except.bind]
    exact p_transfer_empty_source h1 t1 s (well_formed_nil_empty h s hs) F
  · exact size_spec h1 t1 .nil hw1 F (by simp [Forest.size]; omega)

theorem copy_ctor_empty_source (h : Heap α) (s : tree) (hs : well_formed h s .nil)
    (dflt : α) (F : Nat) (hF : 2 ≤ F) :
    ∃ h1 C r, tree.copy_ctor F h dflt s = .ok (h1, C) ∧
      well_formed h1 C (.cons r dflt .nil .nil) ∧ C.empty = false ∧ size F h1 C = .ok 1 ∧
      deref h1 C.begin = .ok dflt := by
  obtain ⟨h1, t, r, hev, hwf, e1, e2, _, _, e5, _⟩ := ctor_facts h dflt F hF
  refine ⟨h1, t, r, ?_, hwf, e1, e2, e5⟩
  simp only [tree.copy_ctor, hev, bind, Except.bind]
  exact p_transfer_empty_source h1 t s (well_formed_nil_empty h s hs) F

/-- C36: the constructor `tree(alloc, args...)` (`v` is the value the arguments
construct, `T()` for none) returns a tree that is not empty: `empty()` is
false, `size()` is 1, `begin() != end()`, and the root holds `v`, has no parent
and no children and is followed by the sentinel. -/
theorem constructed_tree_has_root (h0 : Heap α) (v : α) (F : Nat) (hF : 2 ≤ F) :
    ∃ h t r, tree.ctor h0 v = .ok (h, t) ∧ well_formed h t (.cons r v .nil .nil) ∧
      t.empty = false ∧ size F h t = .ok 1 ∧ t.begin ≠ t.end_ ∧ t.begin = some r ∧
      deref h t.begin = .ok v ∧
      ∃ nd, rd h t.begin = .ok nd ∧ nd.parent = none ∧ nd.child_begin = none ∧
        nd.child_end = none ∧ nd.right = t.end_ :=
  ctor_facts h0 v F hF

theorem constructed_tree_has_root_witness :
    2 ≤ 2 ∧
    ∃ h t r, tree.ctor ([] : Heap Int) (-1) = .ok (h, t) ∧
      well_formed h t (.cons r (-1) .nil .nil) ∧
      t.empty = false ∧ size 2 h t = .ok 1 ∧ t.begin ≠ t.end_ ∧ t.begin = some r ∧
      deref h t.begin = .ok (-1) ∧
      ∃ nd, rd h t.begin = .ok nd ∧ nd.parent = none ∧ nd.child_begin = none ∧
        nd.child_end = none ∧ nd.right = t.end_ :=
  ⟨by decide, constructed_tree_has_root [] (-1) 2 (by decide)⟩

/-- C37: for an empty source (`empty()` true: cleared or moved from), copy
assignment into any well-formed destination returns and leaves the
destination empty, with `size()` 0, whatever it held; copy construction
returns a tree with `size()` 1 whose root holds the default-constructed value
`dflt`: the delegated constructor has set that root and `p_transfer` returns
at once. -/
theorem empty_source_assign_vs_construct (h : Heap α) (s : tree)
    (hs : well_formed h s .nil) :
    (∀ (F : Nat) (this : tree), p_transfer F h this s = .ok (h, this)) ∧
    (∀ (D : tree) (fD : Forest α) (F : Nat), well_formed h D fD → fD.size + 1 ≤ F →
      ∃ h1 D1, tree.copy_assign F h D s = .ok (h1, D1) ∧ well_formed h1 D1 .nil ∧
        D1.empty = true ∧ D1.begin = D1.end_ ∧ size F h1 D1 = .ok 0) ∧
    (∀ (dflt : α) (F : Nat), 2 ≤ F →
      ∃ h1 C r, tree.copy_ctor F h dflt s = .ok (h1, C) ∧
        well_formed h1 C (.cons r dflt .nil .nil) ∧ C.empty = false ∧
        size F h1 C = .ok 1 ∧ deref h1 C.begin = .ok dflt) :=
  ⟨fun F this => p_transfer_empty_source h this s (well_formed_nil_empty h s hs) F,
    fun D fD F hD hF => copy_assign_empty_source h s D fD hs hD F hF,
    fun dflt F hF => copy_ctor_empty_source h s hs dflt F hF⟩

theorem empty_source_assign_vs_construct_witness :
    well_formed cleared_heap cleared_tree (.nil : Forest Int) ∧
    well_formed cleared_heap (⟨none, none⟩ : tree) (.nil : Forest Int) ∧
    (∃ h1 D1, tree.copy_assign 1 cleared_heap (⟨none, none⟩ : tree) cleared_tree
        = .ok (h1, D1) ∧ well_formed h1 D1 .nil ∧
      D1.empty = true ∧ D1.begin = D1.end_ ∧ size 1 h1 D1 = .ok 0) ∧
    (∃ h1 C r, tree.copy_ctor 2 cleared_heap (-1) cleared_tree = .ok (h1, C) ∧
      well_formed h1 C (.cons r (-1) .nil .nil) ∧ C.empty = false ∧
      size 2 h1 C = .ok 1 ∧ deref h1 C.begin = .ok (-1)) ∧
    well_formed scenario_heap (⟨none, none⟩ : tree) (.nil : Forest Int) ∧
    well_formed scenario_heap scenario_tree (.cons 0 0 scenario_kids .nil) ∧
    (∃ h1 D1, tree.copy_assign 9 scenario_heap scenario_tree (⟨none, none⟩ : tree)
        = .ok (h1, D1) ∧ well_formed h1 D1 .nil ∧
      D1.empty = true ∧ D1.begin = D1.end_ ∧ size 9 h1 D1 = .ok 0) :=
  ⟨by decide, by decide,
    (empty_source_assign_vs_construct cleared_heap cleared_tree (by decide)).2.1
      (⟨none, none⟩ : tree) .nil 1 (by decide) (by decide),
    (empty_source_assign_vs_construct cleared_heap cleared_tree (by decide)).2.2 (-1) 2
      (by decide),
    by decide, by decide,
    (empty_source_assign_vs_construct scenario_heap (⟨none, none⟩ : tree)
      (by decide)).2.1 scenario_tree (.cons 0 0 scenario_kids .nil) 9 (by decide) (by decide)⟩

/-! ## Depths along the pre-order -/

theorem items_depth_ge : ∀ (f : Forest α) (d : Nat), ∀ x ∈ f.items d, d ≤ x.2.2
  | .nil, _, x, hx => by simp [Forest.items] at hx
  | .cons a v k r, d, x, hx => by
    simp only [Forest.items, List.mem_cons, List.mem_append] at hx
    rcases hx with rfl | hx | hx
    · exact le_refl _
    · exact le_trans (Nat.le_succ d) (items_depth_ge k (d + 1) x hx)
    · exact items_depth_ge r d x hx

theorem items_head_depth : ∀ (f : Forest α) (d : Nat), ∀ x ∈ (f.items d).head?, x.2.2 = d
  | .nil, _, x, hx => by simp [Forest.items] at hx
  | .cons a v k r, d, x, hx => by
    simp only [Forest.items, List.head?_cons, Option.mem_def, Option.some.injEq] at hx
    subst hx
    rfl

/-- Along the pre-order the depth grows by at most one from a node to the
next. -/
theorem items_depth_chain : ∀ (f : Forest α) (d : Nat),
    List.Chain' (fun a b : Nat × α × Nat => b.2.2 ≤ a.2.2 + 1) (f.items d)
  | .nil, _ => by simp [Forest.items]
  | .cons a v k r, d => by
    have hk := items_depth_chain k (d + 1)
    have hr := items_depth_chain r d
    have hkr : List.Chain' (fun a b : Nat × α × Nat => b.2.2 ≤ a.2.2 + 1)
        (k.items (d + 1) ++ r.items d) := by
      refine List.Chain'.append hk hr ?_
      intro x hx y hy
      have h1 := items_depth_ge k (d + 1) x (List.mem_of_mem_getLast? hx)
      have h2 := items_head_depth r d y hy
      omega
    simp only [Forest.items]
    refine List.Chain'.cons' hkr ?_
    intro y hy
    show y.2.2 ≤ d + 1
    cases hki : k.items (d + 1) with
    | nil =>
      rw [hki] at hy
      have := items_head_depth r d y (by simpa using hy)
      omega
    | cons z zs =>
      rw [hki] at hy
      simp only [List.cons_append, List.head?_cons, Option.mem_def, Option.some.injEq] at hy
      subst hy
      have := items_head_depth k (d + 1) z (by simp [hki])
      omega

/-- Source `depth_between(n, begin())` for a node `n` of a well-formed tree:
the depth of `n`. -/
theorem depth_between_node (h : Heap α) (t : tree) (r : Nat) (v0 : α) (kids : Forest α)
    (hwf : well_formed h t (.cons r v0 kids .nil)) (F : Nat) (hF : kids.size + 2 ≤ F)
    (x : Nat × α × Nat) (hx : x ∈ (Forest.cons r v0 kids .nil).items 0) :
    depth_between F h (some x.1) t.begin = .ok x.2.2 := by
  obtain ⟨e, hroot, hf, ⟨hcr, _, _⟩, _, _⟩ := well_formed_cons hwf
  simp only [Forest.items, List.append_nil, List.mem_cons] at hx
  rcases hx with rfl | hx
  · obtain ⟨n, rfl⟩ : ∃ n, F = n + 1 := ⟨F - 1, by omega⟩
    simp [depth_between, depth_between_loop, rd, hcr, tree.begin, hroot]
  · obtain ⟨A, B, hAB⟩ := List.append_of_mem hx
    exact (source_reads h t r v0 kids hwf F hF A x B hAB).2.2.1

theorem depth_loop_node (h : Heap α) (t : tree) (r : Nat) (v0 : α) (kids : Forest α)
    (hwf : well_formed h t (.cons r v0 kids .nil))
    (x : Nat × α × Nat) (hx : x ∈ (Forest.cons r v0 kids .nil).items 0) (fuel i : Nat)
    (hfuel : x.2.2 + 1 ≤ fuel) :
    depth_between_loop fuel h (some x.1) i = .ok (some r, i + x.2.2) := by
  obtain ⟨e, hroot, hf, ⟨hcr, hok, _⟩, _, _⟩ := well_formed_cons hwf
  have hr : ∀ fuel i, 0 + 1 ≤ fuel → depth_between_loop fuel h (some r) i = .ok (some r, i + 0) := by
    intro fuel i hfu
    obtain ⟨n, rfl⟩ : ∃ n, fuel = n + 1 := ⟨fuel - 1, by omega⟩
    simp [depth_between_loop, rd, hcr]
  simp only [Forest.items, List.append_nil, List.mem_cons] at hx
  rcases hx with rfl | hx
  · exact hr fuel i hfuel
  · exact items_depth h (some r) kids r none none 0 hok hr x hx fuel i hfuel

/-- The depth of a node is the number of parent links above it: a node of a
chain with parent `p` at depth `d` has parent `p` and depth `d`, or its parent
is a node of the chain's forest of depth one less. -/
theorem items_parent (h : Heap α) : ∀ (f : Forest α) (p l stop : nodeptr) (d : Nat),
    owns h p l f stop → ∀ x ∈ f.items d, ∃ nd, rd h (some x.1) = .ok nd ∧
      ((nd.parent = p ∧ x.2.2 = d) ∨
        ∃ y ∈ f.items d, nd.parent = some y.1 ∧ x.2.2 = y.2.2 + 1) := by
  intro f
  induction f with
  | nil => intro p l stop d _ x hx; simp [Forest.items] at hx
  | cons a v k r ihk ihr =>
    intro p l stop d ho x hx
    obtain ⟨hc, hk, hr⟩ := ho
    simp only [Forest.items, List.mem_cons, List.mem_append] at hx
    rcases hx with rfl | hx | hx
    · exact ⟨_, by simp [rd, hc]; rfl, Or.inl ⟨rfl, rfl⟩⟩
    · obtain ⟨nd, hnd, hcase⟩ := ihk (some a) none none (d + 1) hk x hx
      refine ⟨nd, hnd, Or.inr ?_⟩
      rcases hcase with ⟨hp, hd⟩ | ⟨y, hy, hp, hd⟩
      · exact ⟨(a, v, d), by simp [Forest.items], hp, hd⟩
      · exact ⟨y, by simp [Forest.items, hy], hp, hd⟩
    · obtain ⟨nd, hnd, hcase⟩ := ihr p (some a) stop d hr x hx
      refine ⟨nd, hnd, ?_⟩
      rcases hcase with ⟨hp, hd⟩ | ⟨y, hy, hp, hd⟩
      · exact Or.inl ⟨hp, hd⟩
      · exact Or.inr ⟨y, by simp [Forest.items, hy], hp, hd⟩

theorem items_depth_lt : ∀ (f : Forest α) (d : Nat), ∀ x ∈ f.items d, x.2.2 < d + f.size
  | .nil, _, x, hx => by simp [Forest.items] at hx
  | .cons a v k r, d, x, hx => by
    simp only [Forest.items, List.mem_cons, List.mem_append] at hx
    simp only [Forest.size]
    rcases hx with rfl | hx | hx
    · show d < _
      omega
    · have := items_depth_lt k (d + 1) x hx
      omega
    · have := items_depth_lt r d x hx
      omega

theorem depth_between_other (h : Heap α) (t : tree) (r : Nat) (v0 : α) (kids : Forest α)
    (hwf : well_formed h t (.cons r v0 kids .nil)) (F : Nat) (hF : kids.size + 2 ≤ F)
    (n : Nat) (hn : n ∈ t.nodes (Forest.cons r v0 kids .nil)) (rhs : nodeptr)
    (hrhs : rhs ≠ t.begin) : depth_between F h (some n) rhs = .ok 0 := by
  obtain ⟨e, hroot, hf, _, he, _⟩ := well_formed_cons hwf
  simp only [tree.nodes, hf, Option.toList, List.singleton_append, List.mem_cons] at hn
  rcases hn with rfl | hn
  · obtain ⟨m, rfl⟩ : ∃ m, F = m + 1 := ⟨F - 1, by omega⟩
    simp [depth_between, depth_between_loop, rd, he]
  · rw [← items_pre _ 0] at hn
    obtain ⟨x, hx, rfl⟩ := List.mem_map.1 hn
    have hd : x.2.2 + 1 ≤ F := by
      have h1 := items_depth_lt (Forest.cons r v0 kids .nil) 0 x hx
      simp only [Forest.size] at h1
      omega
    rw [depth_between, depth_loop_node h t r v0 kids hwf x hx F 0 hd]
    have : (some r : nodeptr) ≠ rhs := by
      rw [tree.begin, hroot] at hrhs
      exact Ne.symm hrhs
    simp [this]

/-- C39: in a well-formed non-empty tree, `depth_between(n, begin())` returns
the depth of the node `n`: 0 for the root, and for every other node one more
than for its parent, so it is the number of parent links from `n` to the root
(the root has no parent). For the sentinel it returns 0. With a second
argument other than the root it returns 0 for every node and for the
sentinel. -/
theorem depth_between_counts_parent_links (h : Heap α) (t : tree) (r : Nat) (v0 : α)
    (kids : Forest α) (hwf : well_formed h t (.cons r v0 kids .nil)) (F : Nat)
    (hF : kids.size + 2 ≤ F) :
    (Forest.cons r v0 kids .nil).pre = ((Forest.cons r v0 kids .nil).items 0).map (fun x => x.1) ∧
    (∀ x ∈ (Forest.cons r v0 kids .nil).items 0,
      depth_between F h (some x.1) t.begin = .ok x.2.2 ∧
      ∃ nd, rd h (some x.1) = .ok nd ∧
        ((nd.parent = none ∧ x.1 = r ∧ x.2.2 = 0) ∨
          ∃ y ∈ (Forest.cons r v0 kids .nil).items 0,
            nd.parent = some y.1 ∧ x.2.2 = y.2.2 + 1)) ∧
    depth_between F h t.begin t.begin = .ok 0 ∧
    depth_between F h t.end_ t.begin = .ok 0 ∧
    (∀ (n : Nat) (rhs : nodeptr), n ∈ t.nodes (Forest.cons r v0 kids .nil) →
      rhs ≠ t.begin → depth_between F h (some n) rhs = .ok 0) := by
  obtain ⟨e, hroot, hf, hown, he, hnd⟩ := well_formed_cons hwf
  refine ⟨(items_pre _ 0).symm, ?_, ?_, ?_, ?_⟩
  · intro x hx
    refine ⟨depth_between_node h t r v0 kids hwf F hF x hx, ?_⟩
    obtain ⟨nd, hnd1, hcase⟩ := items_parent h _ none none (some e) 0 hown x hx
    refine ⟨nd, hnd1, ?_⟩
    rcases hcase with ⟨hp, hd⟩ | hc
    · left
      refine ⟨hp, ?_, hd⟩
      simp only [Forest.items, List.append_nil, List.mem_cons] at hx
      rcases hx with rfl | hx
      · rfl
      · have := items_depth_ge kids 1 x hx
        omega
    · exact Or.inr hc
  · have := depth_between_node h t r v0 kids hwf F hF (r, v0, 0) (by simp [Forest.items])
    simpa [tree.begin, hroot] using this
  · have hne : t.end_ ≠ t.begin := by
      simp only [tree.end_, tree.begin, hroot, hf]
      intro hh
      cases hh
      simp [Forest.pre] at hnd
    have := depth_between_other h t r v0 kids hwf F hF e (by simp [tree.nodes, hf]) t.end_ hne
    obtain ⟨m, rfl⟩ : ∃ m, F = m + 1 := ⟨F - 1, by omega⟩
    simp [depth_between, depth_between_loop, rd, he, tree.end_, hf]
  · intro n rhs hn hrhs
    exact depth_between_other h t r v0 kids hwf F hF n hn rhs hrhs

theorem depth_between_counts_parent_links_witness :
    well_formed scenario_heap scenario_tree (.cons 0 0 scenario_kids .nil) ∧
    scenario_kids.size + 2 ≤ 9 ∧
    (Forest.cons 0 (0 : Int) scenario_kids .nil).items 0
      = [(0, 0, 0), (2, 1, 1), (3, 2, 1), (7, 6, 2), (4, 3, 2), (5, 4, 2), (6, 5, 1),
          (8, 7, 1)] ∧
    ((Forest.cons 0 0 scenario_kids .nil).pre
        = ((Forest.cons 0 0 scenario_kids .nil).items 0).map (fun x => x.1) ∧
      (∀ x ∈ (Forest.cons 0 0 scenario_kids .nil).items 0,
        depth_between 9 scenario_heap (some x.1) scenario_tree.begin = .ok x.2.2 ∧
        ∃ nd, rd scenario_heap (some x.1) = .ok nd ∧
          ((nd.parent = none ∧ x.1 = 0 ∧ x.2.2 = 0) ∨
            ∃ y ∈ (Forest.cons 0 0 scenario_kids .nil).items 0,
              nd.parent = some y.1 ∧ x.2.2 = y.2.2 + 1)) ∧
      depth_between 9 scenario_heap scenario_tree.begin scenario_tree.begin = .ok 0 ∧
      depth_between 9 scenario_heap scenario_tree.end_ scenario_tree.begin = .ok 0 ∧
      (∀ (n : Nat) (rhs : nodeptr),
        n ∈ scenario_tree.nodes (Forest.cons 0 0 scenario_kids .nil) →
        rhs ≠ scenario_tree.begin → depth_between 9 scenario_heap (some n) rhs = .ok 0)) :=
  ⟨by decide, by decide, rfl,
    depth_between_counts_parent_links scenario_heap scenario_tree 0 0 scenario_kids (by decide)
      9 (by decide)⟩

/-! ## The walk and the stack of the transfer -/

theorem walk_step (h : Heap α) (rhs : tree) (r : Nat) (v0 : α) (kids : Forest α)
    (hwf : well_formed h rhs (.cons r v0 kids .nil)) (F : Nat) (hF : kids.size + 2 ≤ F)
    (A : List (Nat × α × Nat)) (a b : Nat × α × Nat) (B : List (Nat × α × Nat))
    (hK : (Forest.cons r v0 kids .nil).items 0 = A ++ a :: b :: B) :
    df_dec F h (some b.1) = .ok (some a.1) ∧
      depth_between F h (some b.1) rhs.begin = .ok b.2.2 ∧
      depth_between F h (some a.1) rhs.begin = .ok a.2.2 ∧
      b.2.2 ≤ a.2.2 + 1 := by
  have hmem : ∀ x, x ∈ a :: b :: B → x ∈ (Forest.cons r v0 kids .nil).items 0 := by
    intro x hx
    rw [hK]
    exact List.mem_append_right _ hx
  have hch := items_depth_chain (Forest.cons r v0 kids .nil) 0
  rw [hK] at hch
  refine ⟨?_, depth_between_node h rhs r v0 kids hwf F hF b (hmem b (by simp)),
    depth_between_node h rhs r v0 kids hwf F hF a (hmem a (by simp)),
    chain_adjacent A a b B hch⟩
  simp only [Forest.items, List.append_nil] at hK
  cases A with
  | nil =>
    simp only [List.nil_append, List.cons.injEq] at hK
    obtain ⟨rfl, hK⟩ := hK
    have := (source_reads h rhs r v0 kids hwf F hF [] b B hK).2.2.2
    simpa using this
  | cons z A2 =>
    simp only [List.cons_append, List.cons.injEq] at hK
    obtain ⟨_, hK⟩ := hK
    have := (source_reads h rhs r v0 kids hwf F hF (A2 ++ [a]) b B (by simp [hK])).2.2.2
    simpa using this

theorem walk_start (h : Heap α) (rhs : tree) (r : Nat) (v0 : α) (kids : Forest α)
    (hwf : well_formed h rhs (.cons r v0 kids .nil)) (F : Nat) (hF : kids.size + 2 ≤ F) :
    df_dec F h rhs.end_ = .ok (((Forest.cons r v0 kids .nil).items 0).map (fun x => x.1)).getLast? := by
  obtain ⟨e1, e2, _⟩ := df_dec_from_end h rhs r v0 kids hwf F hF
  rw [items_pre, e2, e1]

/-- C33: the depth does increase along the walk of `p_transfer`. In the
scenario tree the walk (`it = end(); it--; ... it--`) goes from the sentinel
to the node holding 7, then to the node holding 5, at depth 1, and from there
to the node holding 4, at depth 2; the loop takes neither of its two branches
for that node and pushes it, and the copy of the scenario tree is built. -/
theorem transfer_walk_depth_increases :
    well_formed scenario_heap scenario_tree (.cons 0 0 scenario_kids .nil) ∧
    df_dec 9 scenario_heap scenario_tree.end_ = .ok (some 8) ∧
    df_dec 9 scenario_heap (some 8) = .ok (some 6) ∧
    df_dec 9 scenario_heap (some 6) = .ok (some 5) ∧
    deref scenario_heap (some 8) = .ok 7 ∧
    deref scenario_heap (some 6) = .ok 5 ∧
    deref scenario_heap (some 5) = .ok 4 ∧
    depth_between 9 scenario_heap (some 6) scenario_tree.begin = .ok 1 ∧
    depth_between 9 scenario_heap (some 5) scenario_tree.begin = .ok 2 ∧
    tree.copy_ctor 10 scenario_heap (-1) scenario_tree = .ok (copied_heap, copied_tree) :=
  ⟨by decide, rfl, rfl, rfl, rfl, rfl, rfl, rfl, rfl, rfl⟩

/-- C33, as it holds: the walk of `p_transfer` over a well-formed source starts
at the last node of the pre-order and steps from each node `b` to the node `a`
before it in the pre-order; `depth_between(it, rhs.begin())` returns the depths
of both, and the depth of `a` is at least the depth of `b` minus one: the depth
drops by at most one per step and may increase. -/
theorem transfer_walk_depth_drops_at_most_one (h : Heap α) (rhs : tree) (r : Nat) (v0 : α)
    (kids : Forest α) (hwf : well_formed h rhs (.cons r v0 kids .nil)) (F : Nat)
    (hF : kids.size + 2 ≤ F)
    (A : List (Nat × α × Nat)) (a b : Nat × α × Nat) (B : List (Nat × α × Nat))
    (hK : (Forest.cons r v0 kids .nil).items 0 = A ++ a :: b :: B) :
    df_dec F h rhs.end_
        = .ok (((Forest.cons r v0 kids .nil).items 0).map (fun x => x.1)).getLast? ∧
      df_dec F h (some b.1) = .ok (some a.1) ∧
      depth_between F h (some b.1) rhs.begin = .ok b.2.2 ∧
      depth_between F h (some a.1) rhs.begin = .ok a.2.2 ∧
      b.2.2 ≤ a.2.2 + 1 :=
  ⟨walk_start h rhs r v0 kids hwf F hF, walk_step h rhs r v0 kids hwf F hF A a b B hK⟩

theorem transfer_walk_depth_drops_at_most_one_witness :
    well_formed scenario_heap scenario_tree (.cons 0 0 scenario_kids .nil) ∧
    scenario_kids.size + 2 ≤ 9 ∧
    (Forest.cons 0 (0 : Int) scenario_kids .nil).items 0
      = [(0, 0, 0), (2, 1, 1), (3, 2, 1), (7, 6, 2), (4, 3, 2)] ++ (5, 4, 2) :: (6, 5, 1)
          :: [(8, 7, 1)] ∧
    (df_dec 9 scenario_heap scenario_tree.end_
        = .ok (((Forest.cons 0 (0 : Int) scenario_kids .nil).items 0).map
            (fun x => x.1)).getLast? ∧
      df_dec 9 scenario_heap (some 6) = .ok (some 5) ∧
      depth_between 9 scenario_heap (some 6) scenario_tree.begin = .ok 1 ∧
      depth_between 9 scenario_heap (some 5) scenario_tree.begin = .ok 2 ∧
      1 ≤ 2 + 1) :=
  ⟨by decide, by decide, rfl,
    transfer_walk_depth_drops_at_most_one scenario_heap scenario_tree 0 0 scenario_kids
      (by decide) 9 (by decide) [(0, 0, 0), (2, 1, 1), (3, 2, 1), (7, 6, 2), (4, 3, 2)]
      (5, 4, 2) (6, 5, 1) [(8, 7, 1)] rfl⟩

/-- C34: `p_transfer` reads `queue.back()` of an empty deque. From the
root-only tree the loop is not entered and `root->child_begin =
queue.back().first` is read on the empty deque; from the chain 0 - 1 - 2
(the last child of the root has a child) and from the tree in which the node 3
below the first child has a child and no right sibling, the moved-up branch
pops the whole deque and then reads `queue.back().first`. -/
theorem p_transfer_reads_back_of_empty_deque :
    well_formed pair_heap root_only_tree (.cons 0 0 .nil .nil) ∧
    well_formed pair_heap pair_tree (.cons 2 (-1) .nil .nil) ∧
    (∀ n, p_transfer (n + 1) pair_heap pair_tree root_only_tree
      = .error .empty_container) ∧
    chain3 = .ok (chain3_heap, chain3_tree) ∧
    well_formed chain3_heap chain3_tree (.cons 0 0 (.cons 2 1 (.cons 3 2 .nil .nil) .nil) .nil) ∧
    (∀ n, tree.copy_ctor (n + 4) chain3_heap (-1) chain3_tree = .error .empty_container) ∧
    deep5 = .ok (deep5_heap, deep5_tree) ∧
    well_formed deep5_heap deep5_tree
      (.cons 0 0 (.cons 2 1 (.cons 4 3 (.cons 5 4 .nil .nil) .nil) (.cons 3 2 .nil .nil)) .nil) ∧
    (∀ n, tree.copy_ctor (n + 6) deep5_heap (-1) deep5_tree = .error .empty_container) :=
  ⟨by decide, by decide, fun _ => rfl, rfl, by decide, fun _ => rfl, rfl, by decide,
    fun _ => rfl⟩

/-- The transfer algorithm on the destinations that have a sentinel: for a
well-formed source whose root has a child and in which every other node with
children has a right sibling, `p_transfer` into a destination that is empty
with its sentinel (as `clear()` leaves it) or has only a root returns, and the
destination is then a well-formed tree whose forest has the shape and the
values of the source: in the heap every copied node has the copy of its parent
as parent, its left and right neighbours are the copies of its siblings,
`child_begin` and `child_end` are the copies of its first and last child, and
the link invariants hold at every node. Every node of the result is a former
node of the destination or a cell that was not allocated before. -/
theorem p_transfer_copies_tree (h : Heap α) (this rhs : tree) (r : Nat) (v0 : α)
    (kids fD : Forest α) (hrhs : well_formed h rhs (.cons r v0 kids .nil))
    (hthis : well_formed h this fD)
    (hfD : (fD = .nil ∧ this.foot ≠ none) ∨ ∃ rD vD, fD = .cons rD vD .nil .nil)
    (hk : kids ≠ .nil) (htr : kids.transferable) (fuel : Nat) (hfuel : kids.size + 2 ≤ fuel) :
    ∃ h5 t2 fC, p_transfer fuel h this rhs = .ok (h5, t2) ∧ well_formed h5 t2 fC ∧
      fC.shape = (Forest.cons r v0 kids .nil).shape ∧
      fC.vals = (Forest.cons r v0 kids .nil).vals ∧ fC.size = kids.size + 1 ∧
      (∀ a ∈ t2.nodes fC, links_ok h5 a ∧ children_ok h5 a) ∧
      (∀ a ∈ t2.nodes fC, a ∈ this.nodes fD ∨ h[a]? = none) := by
  obtain ⟨h5, t2, R0, hev, hst⟩ := p_transfer_spec h this rhs r v0 kids fD hrhs hthis hfD hk htr
    fuel hfuel
  refine ⟨h5, t2, _, hev, hst.1, ?_, ?_, ?_, well_formed_links h5 t2 _ hst.1, hst.2.2.1⟩
  · simp [Forest.shape, copy_shape]
  · simp [Forest.vals, copy_vals]
  · simp [Forest.size, copy_size]
    omega

theorem p_transfer_copies_tree_witness :
    well_formed (scenario_heap ++ [some ⟨none, none, some 10, none, none, some (-1)⟩,
        some ⟨none, some 9, none, none, none, none⟩]) scenario_tree
      (.cons 0 0 scenario_kids .nil) ∧
    well_formed (scenario_heap ++ [some ⟨none, none, some 10, none, none, some (-1)⟩,
        some ⟨none, some 9, none, none, none, none⟩]) copied_tree (.cons 9 (-1) .nil .nil) ∧
    scenario_kids ≠ .nil ∧ scenario_kids.transferable ∧ scenario_kids.size + 2 ≤ 10 ∧
    ∃ h5 t2 fC, p_transfer 10 (scenario_heap ++ [some ⟨none, none, some 10, none, none,
          some (-1)⟩, some ⟨none, some 9, none, none, none, none⟩]) copied_tree scenario_tree
        = .ok (h5, t2) ∧ well_formed h5 t2 fC ∧
      fC.shape = (Forest.cons 0 0 scenario_kids .nil).shape ∧
      fC.vals = (Forest.cons 0 0 scenario_kids .nil).vals ∧ fC.size = scenario_kids.size + 1 ∧
      (∀ a ∈ t2.nodes fC, links_ok h5 a ∧ children_ok h5 a) ∧
      (∀ a ∈ t2.nodes fC, a ∈ copied_tree.nodes (.cons 9 (-1) .nil .nil) ∨
        (scenario_heap ++ [some ⟨none, none, some 10, none, none, some (-1)⟩,
          some ⟨none, some 9, none, none, none, none⟩])[a]? = none) :=
  ⟨by decide, by decide, by decide, by decide, by decide,
    p_transfer_copies_tree _ copied_tree scenario_tree 0 0 scenario_kids
      (.cons 9 (-1) .nil .nil) (by decide) (by decide) (Or.inr ⟨_, _, rfl⟩) (by decide)
      (by decide) 10 (by decide)⟩

/-- On a tree object whose root is null `set_root` takes the branch
`root == foot` or the branch of the non-empty tree and in both writes through
the null root. -/
theorem set_root_null_deref (h : Heap α) (t : tree) (v : α) (hr : t.root = none) :
    set_root h t v = .error .null_deref := by
  obtain ⟨root, foot⟩ := t
  simp only at hr
  subst hr
  cases foot with
  | none => simp [set_root, p_node_allocate, wr, rd, bind, Except.bind]
  | some e => simp [set_root, wr, rd, bind, Except.bind, pure, Except.pure]

/-- The transfer algorithm into a tree object with a null root, for a source
of its domain: the walk over the source and the building of the children
succeed, and the call ends in the null dereference of `set_root`. -/
theorem p_transfer_null_deref (h : Heap α) (this rhs : tree) (r : Nat) (v0 : α)
    (kids : Forest α) (hrhs : well_formed h rhs (.cons r v0 kids .nil))
    (hnull : this.root = none) (hk : kids ≠ .nil) (htr : kids.transferable) (fuel : Nat)
    (hfuel : kids.size + 2 ≤ fuel) :
    p_transfer fuel h this rhs = .error .null_deref := by
  obtain ⟨e, hroot, hf, ho, hce, hnd⟩ := well_formed_cons hrhs
  have hre : r ≠ e := fun hh => (List.nodup_cons.mp hnd).1 (by simp [Forest.pre, hh])
  have hemp : rhs.empty = false := by simp [tree.empty, hroot, hf, hre]
  obtain ⟨A, x, hA, hxd⟩ := items_last kids 1 hk
  have hdl : df_dec fuel h rhs.end_ = .ok (some (Forest.deepest_last r kids)) := by
    simp only [tree.end_, hf, df_dec, rd_cell hce]
    exact descend_last h kids r _ none (rd_cell ho.1) rfl ho.2.1 fuel (by omega)
  have hx1 : Forest.deepest_last r kids = x.1 := by
    have h1 := deepest_last_getLast? kids r
    rw [← items_pre kids 1, hA] at h1
    simp only [List.map_append, List.map_cons, List.map_nil] at h1
    rw [← List.cons_append, List.getLast?_append, List.getLast?_singleton] at h1
    simpa using h1.symm
  obtain ⟨_, _, hdep, _⟩ := source_reads h rhs r v0 kids hrhs fuel hfuel A x [] hA
  have hlt := nodes_lt h rhs _ hrhs
  have hloop := loop_steps fuel rhs r v0 kids h.length hfuel (kids.items 1).reverse []
    (by simp) h x.2.2 [] (fuel - kids.size - 1) hrhs hlt (le_refl _)
    (by intro q hq; simp at hq)
  have hlen : (kids.items 1).reverse.length = kids.size := by
    rw [List.length_reverse, ← List.length_map, items_pre, pre_length]
  have hhead : (kids.items 1).reverse.head? = some x := by
    rw [hA]; simp
  rw [hlen, hhead, show fuel - kids.size - 1 + kids.size + 1 = fuel by omega,
    ← rev_items_eq kids 1] at hloop
  obtain ⟨h1, hev1, hlen1, hfr1, ho1⟩ := transfer_chain kids 1 h x.2.2 [] htr
    (fun _ => Or.inr ⟨rfl, hxd⟩)
  rw [hev1] at hloop
  simp only [List.append_nil] at hloop
  have hv1 : deref h1 (some r) = .ok v0 := by
    simp [deref, rd, hfr1 r (hlt r (by simp [tree.nodes, Forest.pre])), ho.1]
  have hsr := set_root_null_deref h1 this v0 hnull
  simp only [p_transfer, hemp, Bool.false_eq_true, if_false, hdl, hx1, hdep, hloop,
    bind, Except.bind, pure, Except.pure, hv1, hsr]

theorem copy_assign_null_deref (h : Heap α) (rhs : tree) (r : Nat) (v0 : α)
    (kids : Forest α) (hrhs : well_formed h rhs (.cons r v0 kids .nil))
    (hk : kids ≠ .nil) (htr : kids.transferable) (fuel : Nat)
    (hfuel : kids.size + 2 ≤ fuel) :
    tree.copy_assign fuel h ⟨none, none⟩ rhs = .error .null_deref := by
  have := p_transfer_null_deref h ⟨none, none⟩ rhs r v0 kids hrhs rfl hk htr fuel hfuel
  simp only [tree.copy_assign, clear, if_true, bind, Except.bind, this]

/-- C35: `p_transfer` into the empty tree object a move leaves behind fails.
For every well-formed source whose root has a child and in which every other
node with children has a right sibling, the moved-from destination (`root`
and `foot` null) is a well-formed empty tree, `empty()` is true on it and
`clear()` returns on it at once, and yet `p_transfer` into it, and with it
copy assignment, ends in a null dereference: the children are built, then
`set_root` takes the branch `root == foot` and writes `root->right` with
`root == nullptr`. No tree with the shape and values of the source is
produced. -/
theorem p_transfer_fails_on_moved_from (h : Heap α) (T rhs : tree) (r : Nat) (v0 : α)
    (kids : Forest α) (hrhs : well_formed h rhs (.cons r v0 kids .nil))
    (hk : kids ≠ .nil) (htr : kids.transferable) (fuel : Nat) (hfuel : kids.size + 2 ≤ fuel) :
    well_formed h (tree.move_ctor T).2 (.nil : Forest α) ∧
      (tree.move_ctor T).2.empty = true ∧
      clear fuel h (tree.move_ctor T).2 = .ok (h, (tree.move_ctor T).2) ∧
      p_transfer fuel h (tree.move_ctor T).2 rhs = .error .null_deref ∧
      tree.copy_assign fuel h (tree.move_ctor T).2 rhs = .error .null_deref :=
  ⟨well_formed_null h, rfl, by simp [clear, tree.move_ctor],
    p_transfer_null_deref h _ rhs r v0 kids hrhs rfl hk htr fuel hfuel,
    copy_assign_null_deref h rhs r v0 kids hrhs hk htr fuel hfuel⟩

theorem p_transfer_fails_on_moved_from_witness :
    well_formed scenario_heap scenario_tree (.cons 0 0 scenario_kids .nil) ∧
      scenario_kids ≠ .nil ∧ scenario_kids.transferable ∧
      well_formed scenario_heap (tree.move_ctor pair_tree).2 (.nil : Forest Int) ∧
      p_transfer 10 scenario_heap (tree.move_ctor pair_tree).2 scenario_tree
        = .error .null_deref ∧
      tree.copy_assign 10 scenario_heap (tree.move_ctor pair_tree).2 scenario_tree
        = .error .null_deref :=
  ⟨scenario_well_formed, by decide, by decide,
    (p_transfer_fails_on_moved_from scenario_heap pair_tree scenario_tree 0 0 scenario_kids
      scenario_well_formed (by decide) (by decide) 10 (by decide)).1,
    (p_transfer_fails_on_moved_from scenario_heap pair_tree scenario_tree 0 0 scenario_kids
      scenario_well_formed (by decide) (by decide) 10 (by decide)).2.2.2.1,
    (p_transfer_fails_on_moved_from scenario_heap pair_tree scenario_tree 0 0 scenario_kids
      scenario_well_formed (by decide) (by decide) 10 (by decide)).2.2.2.2⟩

/-! ## `operator==` returns on all well-formed trees -/

theorem breadth_loop_total (h : Heap α) : ∀ (f : Forest α) (p l stop : nodeptr),
    owns h p l f stop →
    (stop = none ∨ ∃ e nd, stop = some e ∧ h[e]? = some (some nd) ∧ nd.right = none) →
    ∀ x ∈ f.pre, ∀ (F i : Nat), f.size + 2 ≤ F →
      ∃ r, breadth_between_loop F h (some x) i = .ok r := by
  intro f
  induction f with
  | nil => intro p l stop _ _ x hx; simp [Forest.pre] at hx
  | cons a v k r ihk ihr =>
    intro p l stop ho hstop x hx F i hF
    obtain ⟨hc, hk, hr⟩ := ho
    simp only [Forest.size] at hF
    simp only [Forest.pre, List.mem_cons, List.mem_append] at hx
    rcases hx with rfl | hx | hx
    · obtain ⟨n, rfl⟩ : ∃ n, F = n + 1 := ⟨F - 1, by omega⟩
      cases r with
      | nil =>
        rcases hstop with rfl | ⟨e, nd, rfl, hce, hre⟩
        · exact ⟨_, by simp [breadth_between_loop, rd, hc, Forest.firstOr, Forest.first]; rfl⟩
        · obtain ⟨m, rfl⟩ : ∃ m, n = m + 1 := ⟨n - 1, by omega⟩
          exact ⟨_, by
            simp [breadth_between_loop, rd, hc, hce, hre, Forest.firstOr, Forest.first]; rfl⟩
      | cons b w kb rb =>
        obtain ⟨res, hres⟩ := ihr p (some x) stop hr hstop b (by simp [Forest.pre]) n (i + 1)
          (by omega)
        exact ⟨res, by
          simpa [breadth_between_loop, rd, hc, Forest.firstOr, Forest.first] using hres⟩
    · exact ihk (some a) none none hk (Or.inl rfl) x hx F i (by omega)
    · exact ihr p (some a) stop hr hstop x hx F i (by omega)

theorem climbs_node (h : Heap α) (t : tree) (f : Forest α) (hwf : well_formed h t f)
    (F : Nat) (hF : f.size + 2 ≤ F) (x : Nat) (hx : x ∈ f.pre) : climbs F h (some x) := by
  cases f with
  | nil => simp [Forest.pre] at hx
  | cons r v0 kids rest =>
    cases rest with
    | cons _ _ _ _ => exact hwf.elim
    | nil =>
      obtain ⟨e, hroot, hf, hown, he, hnd⟩ := well_formed_cons hwf
      constructor
      · rw [← items_pre _ 0] at hx
        obtain ⟨y, hy, rfl⟩ := List.mem_map.1 hx
        have hlt := items_depth_lt _ 0 y hy
        exact ⟨_, depth_loop_node h t r v0 kids hwf y hy F 0 (by omega)⟩
      · exact breadth_loop_total h _ none none (some e) hown
          (Or.inr ⟨e, _, rfl, he, rfl⟩) x hx F 0 hF

theorem rel_differs_total (F : Nat) (h : Heap α) (it it_bak this_it this_it_bak : nodeptr)
    (h1 : climbs F h it) (h2 : climbs F h it_bak) (h3 : climbs F h this_it)
    (h4 : climbs F h this_it_bak) :
    ∃ d, rel_differs F h it it_bak this_it this_it_bak = .ok d := by
  obtain ⟨⟨⟨a1, b1⟩, e1⟩, ⟨⟨c1, d1⟩, g1⟩⟩ := h1
  obtain ⟨_, ⟨⟨c2, d2⟩, g2⟩⟩ := h2
  obtain ⟨⟨⟨a3, b3⟩, e3⟩, ⟨⟨c3, d3⟩, g3⟩⟩ := h3
  obtain ⟨_, ⟨⟨c4, d4⟩, g4⟩⟩ := h4
  simp only [rel_differs, is_parent_to, is_left_to, is_right_to, depth_between,
    breadth_between, e1, e3, g1, g2, g3, g4, bind, Except.bind, pure, Except.pure]
  split_ifs <;> exact ⟨_, rfl⟩

theorem rel_differs_same (F : Nat) (h : Heap α) (x y : nodeptr)
    (h1 : climbs F h x) (h2 : climbs F h y) : rel_differs F h x y x y = .ok false := by
  obtain ⟨⟨⟨a1, b1⟩, e1⟩, ⟨⟨c1, d1⟩, g1⟩⟩ := h1
  obtain ⟨_, ⟨⟨c2, d2⟩, g2⟩⟩ := h2
  simp [rel_differs, is_parent_to, is_left_to, is_right_to, depth_between,
    breadth_between, e1, g1, g2, bind, Except.bind, pure, Except.pure]

theorem eq_loop_total [DecidableEq α] (F : Nat) (h : Heap α) (A B : tree) :
    ∀ (n : Nat) (sa : List Nat) (va : List α) (sb : List Nat) (vb : List α)
      (this_bak it_bak : nodeptr),
      List.Chain' (fun x y => df_inc F h x = .ok y) (sa.map some ++ [A.end_]) →
      List.Chain' (fun x y => df_inc F h x = .ok y) (sb.map some ++ [B.end_]) →
      A.end_ ∉ sa.map some → B.end_ ∉ sb.map some →
      sa.map (fun a => deref h (some a)) = va.map .ok →
      sb.map (fun a => deref h (some a)) = vb.map .ok →
      (∀ x ∈ sa, climbs F h (some x)) → (∀ x ∈ sb, climbs F h (some x)) →
      (sa ≠ [] → sb ≠ [] → climbs F h this_bak ∧ climbs F h it_bak) →
      sb.length + 1 ≤ n →
      ∃ r, eq_loop F h A B n ((sa.map some ++ [A.end_]).head (by simp)) this_bak
        ((sb.map some ++ [B.end_]).head (by simp)) it_bak = .ok r := by
  intro n
  induction n with
  | zero => intro sa va sb vb tb ib _ _ _ _ _ _ _ _ _ hn; omega
  | succ n ih =>
    intro sa va sb vb tb ib hca hcb hea heb hva hvb hga hgb hbak hn
    cases sb with
    | nil => exact ⟨_, by simp [eq_loop]; rfl⟩
    | cons b sb' =>
      have hb : some b ≠ B.end_ := by
        intro hbe; exact heb (by simp [← hbe])
      cases sa with
      | nil => exact ⟨false, by simp [eq_loop, hb]⟩
      | cons a sa' =>
        have ha : some a ≠ A.end_ := by
          intro hae; exact hea (by simp [← hae])
        cases va with
        | nil => simp at hva
        | cons x va' =>
          cases vb with
          | nil => simp at hvb
          | cons y vb' =>
            simp only [List.map_cons, List.cons.injEq] at hva hvb
            simp only [List.map_cons, List.cons_append, List.head_cons, eq_loop, ne_eq, hb,
              not_false_eq_true, if_true, ha, if_false, hva.1, hvb.1, bind, Except.bind]
            by_cases hxy : y = x
            · subst hxy
              simp only [not_true_eq_false, if_false]
              obtain ⟨hgt, hgi⟩ := hbak (by simp) (by simp)
              obtain ⟨d, hd⟩ := rel_differs_total F h (some b) ib (some a) tb
                (hgb b (by simp)) hgi (hga a (by simp)) hgt
              cases d with
              | true => exact ⟨false, by simp [hd, pure, Except.pure]⟩
              | false =>
                rw [List.map_cons, List.cons_append] at hca hcb
                have hca' := List.chain'_cons'.mp hca
                have hcb' := List.chain'_cons'.mp hcb
                have hia := hca'.1 ((sa'.map some ++ [A.end_]).head (by simp))
                  (by cases sa' <;> simp)
                have hib := hcb'.1 ((sb'.map some ++ [B.end_]).head (by simp))
                  (by cases sb' <;> simp)
                obtain ⟨r, hr⟩ := ih sa' va' sb' vb' (some a) (some b) hca'.2 hcb'.2
                  (fun hm => hea (by simp at hm ⊢; exact Or.inr hm))
                  (fun hm => heb (by simp at hm ⊢; exact Or.inr hm))
                  hva.2 hvb.2 (fun x hx => hga x (List.mem_cons_of_mem _ hx))
                  (fun x hx => hgb x (List.mem_cons_of_mem _ hx))
                  (fun _ _ => ⟨hga a (by simp), hgb b (by simp)⟩)
                  (by simp only [List.length_cons] at hn; omega)
                exact ⟨r, by simpa [hd, hia, hib] using hr⟩
            · exact ⟨false, by simp [hxy, pure, Except.pure]⟩

theorem eq_loop_refl [DecidableEq α] (F : Nat) (h : Heap α) (A : tree) :
    ∀ (n : Nat) (s : List Nat) (va : List α) (bak : nodeptr),
      List.Chain' (fun x y => df_inc F h x = .ok y) (s.map some ++ [A.end_]) →
      A.end_ ∉ s.map some →
      s.map (fun a => deref h (some a)) = va.map .ok →
      (∀ x ∈ s, climbs F h (some x)) → (s ≠ [] → climbs F h bak) →
      s.length + 1 ≤ n →
      eq_loop F h A A n ((s.map some ++ [A.end_]).head (by simp)) bak
        ((s.map some ++ [A.end_]).head (by simp)) bak = .ok true := by
  intro n
  induction n with
  | zero => intro s va bak _ _ _ _ _ hn; omega
  | succ n ih =>
    intro s va bak hc he hv hg hbak hn
    cases s with
    | nil => simp [eq_loop]
    | cons a s' =>
      have ha : some a ≠ A.end_ := by
        intro hae; exact he (by simp [← hae])
      cases va with
      | nil => simp at hv
      | cons x va' =>
        simp only [List.map_cons, List.cons.injEq] at hv
        have hd := rel_differs_same F h (some a) bak (hg a (by simp)) (hbak (by simp))
        rw [List.map_cons, List.cons_append] at hc
        have hc' := List.chain'_cons'.mp hc
        have hi := hc'.1 ((s'.map some ++ [A.end_]).head (by simp)) (by cases s' <;> simp)
        have hr := ih s' va' (some a) hc'.2
          (fun hm => he (by simp at hm ⊢; exact Or.inr hm)) hv.2
          (fun x hx => hg x (List.mem_cons_of_mem _ hx)) (fun _ => hg a (by simp))
          (by simp only [List.length_cons] at hn; omega)
        simp only [List.map_cons, List.cons_append, List.head_cons, eq_loop, ne_eq, ha,
          not_false_eq_true, if_true, if_false, hv.1, bind, Except.bind, not_true_eq_false,
          hd, hi, pure, Except.pure]
        simpa using hr

theorem op_eq_returns [DecidableEq α] (h : Heap α) (A B : tree) (fa fb : Forest α)
    (hA : well_formed h A fa) (hB : well_formed h B fb) (fuel : Nat)
    (hfuel : fa.size + fb.size + 2 ≤ fuel) : ∃ r, op_eq fuel h A B = .ok r := by
  obtain ⟨ha0, ha1, ha2, ha3⟩ := traversal_of_well_formed hA fuel (by omega)
  obtain ⟨hb0, hb1, hb2, hb3⟩ := traversal_of_well_formed hB fuel (by omega)
  have hga : ∀ x ∈ fa.pre, climbs fuel h (some x) :=
    fun x hx => climbs_node h A fa hA fuel (by omega) x hx
  have hgb : ∀ x ∈ fb.pre, climbs fuel h (some x) :=
    fun x hx => climbs_node h B fb hB fuel (by omega) x hx
  have hbak : fa.pre ≠ [] → fb.pre ≠ [] → climbs fuel h A.begin ∧ climbs fuel h B.begin := by
    intro h1 h2
    rw [ha0, hb0]
    obtain ⟨a, sa, hsa⟩ := List.exists_cons_of_ne_nil h1
    obtain ⟨b, sb, hsb⟩ := List.exists_cons_of_ne_nil h2
    simp only [hsa, hsb, List.map_cons, List.cons_append, List.head_cons]
    exact ⟨hga a (by simp [hsa]), hgb b (by simp [hsb])⟩
  have := eq_loop_total fuel h A B fuel fa.pre fa.vals fb.pre fb.vals A.begin B.begin
    ha1 hb1 ha2 hb2 ha3 hb3 hga hgb hbak (by rw [pre_length]; omega)
  rw [← ha0, ← hb0] at this
  exact this

theorem op_eq_self [DecidableEq α] (h : Heap α) (A : tree) (fa : Forest α)
    (hA : well_formed h A fa) (fuel : Nat) (hfuel : fa.size + 2 ≤ fuel) :
    op_eq fuel h A A = .ok true := by
  obtain ⟨ha0, ha1, ha2, ha3⟩ := traversal_of_well_formed hA fuel (by omega)
  have hga : ∀ x ∈ fa.pre, climbs fuel h (some x) :=
    fun x hx => climbs_node h A fa hA fuel (by omega) x hx
  have hbak : fa.pre ≠ [] → climbs fuel h A.begin := by
    intro h1
    rw [ha0]
    obtain ⟨a, sa, hsa⟩ := List.exists_cons_of_ne_nil h1
    simp only [hsa, List.map_cons, List.cons_append, List.head_cons]
    exact hga a (by simp [hsa])
  have := eq_loop_refl fuel h A fuel fa.pre fa.vals A.begin ha1 ha2 ha3 hga hbak
    (by rw [pre_length]; omega)
  rw [← ha0] at this
  exact this

theorem deref_end (h : Heap α) (t : tree) (f : Forest α) (hwf : well_formed h t f) :
    deref h t.end_ = .error .null_deref := by
  cases hf : t.foot with
  | none => simp [deref, rd, tree.end_, hf]
  | some e =>
    cases f with
    | nil =>
      have hc := hwf.2
      simp only [hf] at hc
      simp [deref, rd, tree.end_, hf, hc]
    | cons r v kids rest =>
      cases rest with
      | cons _ _ _ _ => exact hwf.elim
      | nil =>
        obtain ⟨e1, _, hf1, _, hc, _⟩ := well_formed_cons hwf
        rw [hf] at hf1
        cases hf1
        simp [deref, rd, tree.end_, hf, hc]

/-- C38: for well-formed trees `A` and `B` in one heap (empty, moved from or
not), `A == A` and `B == B` return true and `A == B` returns a result. A read
of the value at `end()` is a fault in the model (`deref` at the sentinel or at
null fails), so in these calls no value is read at a sentinel: once `it` is at
`rhs.end()` the loop is left, and with `this_it` at `end()` it returns false,
in both cases without reading the heap; the values are read only after both
tests. -/
theorem op_eq_reflexive_without_sentinel_read [DecidableEq α] (h : Heap α) (A B : tree)
    (fa fb : Forest α) (hA : well_formed h A fa) (hB : well_formed h B fb) (fuel : Nat)
    (hfuel : fa.size + fb.size + 2 ≤ fuel) :
    op_eq fuel h A A = .ok true ∧ op_eq fuel h B B = .ok true ∧
    (∃ r, op_eq fuel h A B = .ok r) ∧
    deref h A.end_ = .error .null_deref ∧ deref h B.end_ = .error .null_deref ∧
    (∀ (h1 : Heap α) (F n : Nat) (this_it this_it_bak it_bak : nodeptr),
      eq_loop F h1 A B (n + 1) this_it this_it_bak B.end_ it_bak
        = .ok (if this_it ≠ A.end_ then false else true)) ∧
    (∀ (h1 : Heap α) (F n : Nat) (it this_it_bak it_bak : nodeptr), it ≠ B.end_ →
      eq_loop F h1 A B (n + 1) A.end_ this_it_bak it it_bak = .ok false) := by
  refine ⟨op_eq_self h A fa hA fuel (by omega), op_eq_self h B fb hB fuel (by omega),
    op_eq_returns h A B fa fb hA hB fuel hfuel, deref_end h A fa hA, deref_end h B fb hB,
    ?_, ?_⟩
  · intro h1 F n this_it tb ib
    simp [eq_loop]
  · intro h1 F n it tb ib hne
    simp [eq_loop, hne]

theorem op_eq_reflexive_without_sentinel_read_witness :
    well_formed twin_heap twin_a twin_a_forest ∧ well_formed twin_heap twin_b twin_b_forest ∧
    twin_a_forest.size + twin_b_forest.size + 2 ≤ 12 ∧
    (op_eq 12 twin_heap twin_a twin_a = .ok true ∧ op_eq 12 twin_heap twin_b twin_b = .ok true ∧
      (∃ r, op_eq 12 twin_heap twin_a twin_b = .ok r) ∧
      deref twin_heap twin_a.end_ = .error .null_deref ∧
      deref twin_heap twin_b.end_ = .error .null_deref ∧
      (∀ (h1 : Heap Int) (F n : Nat) (this_it this_it_bak it_bak : nodeptr),
        eq_loop F h1 twin_a twin_b (n + 1) this_it this_it_bak twin_b.end_ it_bak
          = .ok (if this_it ≠ twin_a.end_ then false else true)) ∧
      (∀ (h1 : Heap Int) (F n : Nat) (it this_it_bak it_bak : nodeptr), it ≠ twin_b.end_ →
        eq_loop F h1 twin_a twin_b (n + 1) twin_a.end_ this_it_bak it it_bak = .ok false)) :=
  ⟨by decide, by decide, by decide,
    op_eq_reflexive_without_sentinel_read twin_heap twin_a twin_b twin_a_forest twin_b_forest
      (by decide) (by decide) 12 (by decide)⟩

/-! ## Positions inside a list -/

theorem list.rd_at {h : list.Heap α} {a : Nat} {nd : list.node α}
    (hc : h[a]? = some (some nd)) : list.rd h (some a) = .ok nd := by
  simp [list.rd, hc]

theorem list.wr_at {h : list.Heap α} {a : Nat} {nd : list.node α}
    (hc : h[a]? = some (some nd)) (f : list.node α → list.node α) :
    list.wr h (some a) f = .ok (h.set a (some (f nd))) := by
  simp [list.wr, list.rd, hc]

theorem list.dealloc_at {h : list.Heap α} {a : Nat} {nd : list.node α}
    (hc : h[a]? = some (some nd)) : list.p_node_deallocate h (some a) = .ok (h.set a none) := by
  simp [list.p_node_deallocate, hc]

theorem list.set_same {h : list.Heap α} {a : Nat} {c : Option (list.node α)}
    (hlt : a < h.length) : (h.set a c)[a]? = some c := by
  simp [List.getElem?_set, hlt]

theorem list.set_ne {h : list.Heap α} {a b : Nat} {c : Option (list.node α)} (hne : a ≠ b) :
    (h.set a c)[b]? = h[b]? := by
  simp [List.getElem?_set, hne]

theorem list.first_app (stop : nodeptr) : ∀ (A B : List (Nat × α)),
    list.first stop (A ++ B) = list.first (list.first stop B) A
  | [], _ => rfl
  | (_, _) :: _, _ => rfl

theorem list.last_app : ∀ (A B : List (Nat × α)) (l : nodeptr),
    list.last l (A ++ B) = list.last (list.last l A) B
  | [], _, _ => rfl
  | (a, _) :: A, B, _ => list.last_app A B (some a)

theorem list.last_cons_any (l l1 : nodeptr) (a : Nat) (v : α) (B : List (Nat × α)) :
    list.last l ((a, v) :: B) = list.last l1 ((a, v) :: B) := rfl

theorem list.owns_app (h : list.Heap α) : ∀ (A B : List (Nat × α)) (l stop : nodeptr),
    list.owns h l (A ++ B) stop ↔
      list.owns h l A (list.first stop B) ∧ list.owns h (list.last l A) B stop
  | [], B, l, stop => by simp [list.owns, list.last]
  | (a, v) :: A, B, l, stop => by
    have ih := list.owns_app h A B (some a) stop
    show (h[a]? = some (some ⟨l, list.first stop (A ++ B), some v⟩) ∧
        list.owns h (some a) (A ++ B) stop) ↔
      (h[a]? = some (some ⟨l, list.first (list.first stop B) A, some v⟩) ∧
        list.owns h (some a) A (list.first stop B)) ∧
      list.owns h (list.last (some a) A) B stop
    rw [ih, list.first_app]
    tauto

theorem list.first_in (e : Nat) : ∀ B : List (Nat × α),
    ∃ ρ, list.first (some e) B = some ρ ∧ ρ ∈ e :: B.map Prod.fst
  | [] => ⟨e, rfl, by simp⟩
  | (b, _) :: _ => ⟨b, rfl, by simp⟩

/-- Changing the right link of the last cell of a chain changes the right end
of the chain. -/
theorem list.chain_set_right (h h1 : list.Heap α) (stop1 : nodeptr) :
    ∀ (A : List (Nat × α)) (l stop : nodeptr),
      list.owns h l A stop → (A.map Prod.fst).Nodup →
      (∀ z nd, list.last l A = some z → z ∈ A.map Prod.fst → h[z]? = some (some nd) →
        h1[z]? = some (some { nd with right := stop1 })) →
      (∀ x ∈ A.map Prod.fst, some x ≠ list.last l A → h1[x]? = h[x]?) →
      list.owns h1 l A stop1 := by
  intro A
  induction A with
  | nil => intro l stop _ _ _ _; trivial
  | cons p A ih =>
    obtain ⟨a, v⟩ := p
    intro l stop ho hnd hz hfr
    obtain ⟨hc, hr⟩ := ho
    simp only [List.map_cons, List.nodup_cons] at hnd
    cases A with
    | nil =>
      refine ⟨?_, trivial⟩
      have := hz a _ rfl (by simp) hc
      simpa [list.first] using this
    | cons q A2 =>
      obtain ⟨b, w⟩ := q
      have hlast : list.last l ((a, v) :: (b, w) :: A2) = list.last (some a) ((b, w) :: A2) := rfl
      obtain ⟨z, hzl⟩ := list.last_some ((b, w) :: A2) (some a) (by simp)
      have hzm := list.list_last_mem _ (some a) z (by simp) hzl
      have haz : a ≠ z := fun hh => hnd.1 (hh ▸ hzm)
      refine ⟨?_, ih (some a) stop hr hnd.2 ?_ ?_⟩
      · rw [hfr a (by simp) (by rw [hlast, hzl]; intro hh; cases hh; exact haz rfl)]
        exact hc
      · intro z1 nd hz1 hm hcz
        exact hz z1 nd (by rw [hlast]; exact hz1) (List.mem_cons_of_mem _ hm) hcz
      · intro x hx hne
        exact hfr x (List.mem_cons_of_mem _ hx) (by rw [hlast]; exact hne)

/-- Changing the left link of the cell that follows a position (the first
cell of the chain up to the tail node, or the tail node itself) changes the
left neighbour of that chain. -/
theorem list.chain_set_left (h h1 : list.Heap α) (l1 : nodeptr) (e : Nat) :
    ∀ (B : List (Nat × α)) (l : nodeptr),
      list.owns h l B (some e) → h[e]? = some (some ⟨list.last l B, none, none⟩) →
      (e :: B.map Prod.fst).Nodup →
      (∀ ρ nd, list.first (some e) B = some ρ → h[ρ]? = some (some nd) →
        h1[ρ]? = some (some { nd with left := l1 })) →
      (∀ x ∈ e :: B.map Prod.fst, some x ≠ list.first (some e) B → h1[x]? = h[x]?) →
      list.owns h1 l1 B (some e) ∧ h1[e]? = some (some ⟨list.last l1 B, none, none⟩) := by
  intro B l ho hce hnd hρ hfr
  cases B with
  | nil =>
    refine ⟨trivial, ?_⟩
    have := hρ e _ rfl hce
    simpa [list.last] using this
  | cons p B2 =>
    obtain ⟨b, u⟩ := p
    obtain ⟨hc, hr⟩ := ho
    simp only [List.map_cons, List.nodup_cons, List.mem_cons, not_or] at hnd
    obtain ⟨⟨heb, heB⟩, hbB, hBn⟩ := hnd
    have hfrB : ∀ x ∈ B2.map Prod.fst, h1[x]? = h[x]? := by
      intro x hx
      refine hfr x (by simp [hx]) ?_
      simp only [list.first]
      intro hh
      cases hh
      exact hbB hx
    refine ⟨⟨?_, list.list_owns_frame h h1 B2 (some b) (some e) hfrB hr⟩, ?_⟩
    · have := hρ b _ rfl hc
      simpa using this
    · rw [hfr e (by simp) (by simp only [list.first]; intro hh; cases hh; exact heb rfl)]
      exact hce

theorem list.well_formed_of_parts {h : list.Heap α} {l : list} (c : List (Nat × α)) (e : Nat)
    (hf : l.tail = some e) (hh : l.head = list.first (some e) c)
    (ho : list.owns h none c (some e))
    (hce : h[e]? = some (some ⟨list.last none c, none, none⟩))
    (hnd : (e :: c.map Prod.fst).Nodup) : list.well_formed h l c := by
  cases c with
  | nil => exact list.well_formed_nil_mk _ hh hf hce
  | cons p rest =>
    obtain ⟨a, v⟩ := p
    exact list.well_formed_cons_mk e hh hf ho hce hnd

/-- What a well-formed list says at the position of the cell `a`. -/
theorem list.at_position {h : list.Heap α} {l : list} (A : List (Nat × α)) (a : Nat) (v : α)
    (B : List (Nat × α)) (hwf : list.well_formed h l (A ++ (a, v) :: B)) :
    ∃ e, l.tail = some e ∧ l.head = list.first (some a) A ∧
      list.owns h none A (some a) ∧
      h[a]? = some (some ⟨list.last none A, list.first (some e) B, some v⟩) ∧
      list.owns h (some a) B (some e) ∧
      h[e]? = some (some ⟨list.last (some a) B, none, none⟩) ∧
      (e :: (A.map Prod.fst ++ a :: B.map Prod.fst)).Nodup := by
  have key : ∀ e, list.owns h none (A ++ (a, v) :: B) (some e) →
      h[e]? = some (some ⟨list.last none (A ++ (a, v) :: B), none, none⟩) →
      list.owns h none A (some a) ∧
      h[a]? = some (some ⟨list.last none A, list.first (some e) B, some v⟩) ∧
      list.owns h (some a) B (some e) ∧
      h[e]? = some (some ⟨list.last (some a) B, none, none⟩) := by
    intro e ho hce
    rw [list.owns_app] at ho
    obtain ⟨h1, h2, h3⟩ := ho
    rw [list.last_app] at hce
    exact ⟨h1, h2, h3, hce⟩
  cases A with
  | nil =>
    obtain ⟨e, hh, hf, ho, hce, hnd⟩ := list.list_well_formed_cons hwf
    obtain ⟨k1, k2, k3, k4⟩ := key e ho hce
    exact ⟨e, hf, hh, k1, k2, k3, k4, by simpa using hnd⟩
  | cons p A2 =>
    obtain ⟨a0, v0⟩ := p
    obtain ⟨e, hh, hf, ho, hce, hnd⟩ := list.list_well_formed_cons hwf
    obtain ⟨k1, k2, k3, k4⟩ := key e ho hce
    exact ⟨e, hf, hh, k1, k2, k3, k4, by simpa using hnd⟩

theorem list.right_cell {h : list.Heap α} (a e : Nat) (B : List (Nat × α))
    (ho : list.owns h (some a) B (some e))
    (hce : h[e]? = some (some ⟨list.last (some a) B, none, none⟩)) :
    ∃ ρ nd, list.first (some e) B = some ρ ∧ ρ ∈ e :: B.map Prod.fst ∧
      h[ρ]? = some (some nd) ∧ nd.left = some a := by
  cases B with
  | nil => exact ⟨e, _, rfl, by simp, hce, rfl⟩
  | cons p B2 =>
    obtain ⟨b, u⟩ := p
    exact ⟨b, _, rfl, by simp, ho.1, rfl⟩

theorem list.left_cell {h : list.Heap α} (a : Nat) : ∀ (A : List (Nat × α)) (l : nodeptr),
    A ≠ [] → list.owns h l A (some a) →
    ∃ z nd, list.last l A = some z ∧ z ∈ A.map Prod.fst ∧ h[z]? = some (some nd) ∧
      nd.right = some a := by
  intro A
  induction A with
  | nil => intro l hne; exact (hne rfl).elim
  | cons p A ih =>
    obtain ⟨b, u⟩ := p
    intro l _ ho
    cases A with
    | nil => exact ⟨b, _, rfl, by simp, ho.1, rfl⟩
    | cons q A2 =>
      obtain ⟨z, nd, h1, h2, h3, h4⟩ := ih (some b) (by simp) ho.2
      exact ⟨z, nd, h1, List.mem_cons_of_mem _ h2, h3, h4⟩

/-! ## `list::erase` at a position -/

theorem list.last_in (A : List (Nat × α)) (z : Nat) (hz : list.last none A = some z) :
    z ∈ A.map Prod.fst := by
  cases A with
  | nil => cases hz
  | cons p A2 => exact list.list_last_mem _ none z (by simp) hz

theorem list.join_parts (h h1 : list.Heap α) (l1 : list) (A B : List (Nat × α)) (a e : Nat)
    (hoA : list.owns h none A (some a)) (hoB : list.owns h (some a) B (some e))
    (hce : h[e]? = some (some ⟨list.last (some a) B, none, none⟩))
    (hnd : (e :: (A.map Prod.fst ++ a :: B.map Prod.fst)).Nodup)
    (hf : l1.tail = some e) (hh : l1.head = list.first (list.first (some e) B) A)
    (c1 : ∀ ρ nd, list.first (some e) B = some ρ → h[ρ]? = some (some nd) →
      h1[ρ]? = some (some { nd with left := list.last none A }))
    (c2 : ∀ z nd, list.last none A = some z → z ∈ A.map Prod.fst → h[z]? = some (some nd) →
      h1[z]? = some (some { nd with right := list.first (some e) B }))
    (c3 : ∀ x, x ≠ a → some x ≠ list.first (some e) B → some x ≠ list.last none A →
      h1[x]? = h[x]?) :
    list.well_formed h1 l1 (A ++ B) := by
  simp only [List.nodup_cons, List.nodup_append, List.mem_append, List.mem_cons, not_or,
    List.disjoint_cons_right] at hnd
  obtain ⟨⟨heA, hea, heB⟩, hAn, ⟨haB, hBn⟩, haA, hAB⟩ := hnd
  obtain ⟨ρ, hρ, hρm⟩ := list.first_in e B
  have hρA : ρ ∉ A.map Prod.fst := by
    intro hm
    rcases List.mem_cons.1 hρm with rfl | hb
    · exact heA hm
    · exact hAB hm hb
  refine list.well_formed_of_parts (A ++ B) e hf (by rw [list.first_app]; exact hh) ?_ ?_ ?_
  · rw [list.owns_app]
    constructor
    · refine list.chain_set_right h h1 _ A none (some a) hoA hAn c2 ?_
      intro x hx hne
      refine c3 x (fun hh2 => haA (hh2 ▸ hx)) ?_ hne
      rw [hρ]
      intro hh2
      cases hh2
      exact hρA hx
    · refine (list.chain_set_left h h1 (list.last none A) e B (some a) hoB hce
        (List.nodup_cons.2 ⟨heB, hBn⟩) c1 ?_).1
      intro x hx hne
      refine c3 x ?_ hne ?_
      · rintro rfl
        rcases List.mem_cons.1 hx with hh2 | hb
        · exact hea hh2.symm
        · exact haB hb
      · intro hh2
        have hzA := list.last_in A x hh2.symm
        rcases List.mem_cons.1 hx with rfl | hb
        · exact heA hzA
        · exact hAB hzA hb
  · rw [list.last_app]
    refine (list.chain_set_left h h1 (list.last none A) e B (some a) hoB hce
      (List.nodup_cons.2 ⟨heB, hBn⟩) c1 ?_).2
    intro x hx hne
    refine c3 x ?_ hne ?_
    · rintro rfl
      rcases List.mem_cons.1 hx with hh2 | hb
      · exact hea hh2.symm
      · exact haB hb
    · intro hh2
      have hzA := list.last_in A x hh2.symm
      rcases List.mem_cons.1 hx with rfl | hb
      · exact heA hzA
      · exact hAB hzA hb
  · simp only [List.map_append, List.nodup_cons, List.nodup_append, List.mem_append, not_or]
    exact ⟨⟨heA, heB⟩, hAn, hBn, hAB⟩

/-- Source `list::erase(it)` at the cell `a` of a well-formed list: the cell is
deleted, its neighbours are linked to each other, and the iterator to the next
cell (`end()` after the last cell) is returned. -/
theorem list.erase_at (h : list.Heap α) (l : list) (A : List (Nat × α)) (a : Nat) (v : α)
    (B : List (Nat × α)) (hwf : list.well_formed h l (A ++ (a, v) :: B)) :
    ∃ h1 l1, list.erase h l (some a) = .ok (h1, l1, list.first l.end_ B) ∧
      list.well_formed h1 l1 (A ++ B) ∧ l1.tail = l.tail ∧ h1[a]? = some none ∧
      h1.length = h.length ∧
      (∀ x, x ∉ l.nodes (A ++ (a, v) :: B) → h1[x]? = h[x]?) := by
  obtain ⟨e, hf, hh, hoA, hca, hoB, hce, hnd⟩ := list.at_position A a v B hwf
  obtain ⟨ρ, ndR, hR, hρm, hcρ, hRl⟩ := list.right_cell a e B hoB hce
  have hnd0 := hnd
  simp only [List.nodup_cons, List.nodup_append, List.mem_append, List.mem_cons, not_or,
    List.disjoint_cons_right] at hnd
  obtain ⟨⟨heA, hea, heB⟩, hAn, ⟨haB, hBn⟩, haA, hAB⟩ := hnd
  have hρa : ρ ≠ a := by
    rintro rfl
    rcases List.mem_cons.1 hρm with hh2 | hb
    · exact hea hh2.symm
    · exact haB hb
  have hρA : ρ ∉ A.map Prod.fst := by
    intro hm
    rcases List.mem_cons.1 hρm with rfl | hb
    · exact heA hm
    · exact hAB hm hb
  have hae : (some a : nodeptr) ≠ some e := by
    intro hh2
    cases hh2
    exact hea rfl
  have hlta := list.list_cell_lt hca
  have hltρ := list.list_cell_lt hcρ
  have hnodes : ∀ x, x ∉ l.nodes (A ++ (a, v) :: B) →
      x ≠ a ∧ x ≠ ρ ∧ x ∉ A.map Prod.fst := by
    intro x hx
    simp only [list.nodes, hf, Option.toList, List.singleton_append, List.map_append,
      List.map_cons, List.mem_cons, List.mem_append, not_or] at hx
    refine ⟨hx.2.2.1, ?_, hx.2.1⟩
    rintro rfl
    rcases List.mem_cons.1 hρm with hh2 | hb
    · exact hx.1 hh2
    · exact hx.2.2.2 hb
  rw [hR] at hca
  cases A with
  | nil =>
    replace hh : l.head = some a := hh
    replace hca : h[a]? = some (some ⟨none, some ρ, some v⟩) := hca
    refine ⟨(h.set ρ (some { ndR with left := none })).set a none, ⟨some ρ, l.tail⟩, ?_, ?_,
      rfl, ?_, by simp, ?_⟩
    · have hc1 : (h.set ρ (some { ndR with left := none }))[a]? = some (some
          ⟨none, some ρ, some v⟩) := by
        rw [list.set_ne hρa]; exact hca
      simp only [list.erase, list.end_, list.begin, hf, hh, hae, if_false, if_true,
        list.rd_at hca, hR, list.wr_at hcρ, list.dealloc_at hc1, bind, Except.bind, pure,
        Except.pure]
    · refine list.join_parts h _ ⟨some ρ, l.tail⟩ [] B a e hoA hoB hce hnd0 hf
        hR.symm ?_ ?_ ?_
      · intro ρ1 nd h1 h2
        rw [hR] at h1
        cases h1
        rw [hcρ] at h2
        cases h2
        rw [list.set_ne (Ne.symm hρa), list.set_same hltρ]
        rfl
      · intro z nd hz
        cases hz
      · intro x hxa hxρ _
        rw [hR] at hxρ
        rw [list.set_ne (Ne.symm hxa), list.set_ne (fun hh2 => hxρ (by rw [hh2]))]
    · exact list.set_same (by simp; exact hlta)
    · intro x hx
      obtain ⟨h1, h2, _⟩ := hnodes x hx
      rw [list.set_ne (Ne.symm h1), list.set_ne (Ne.symm h2)]
  | cons p A2 =>
    obtain ⟨a0, v0⟩ := p
    obtain ⟨z, ndz, hz, hzm, hcz, hzr⟩ := list.left_cell a ((a0, v0) :: A2) none (by simp) hoA
    have hza : z ≠ a := fun hh2 => haA (hh2 ▸ hzm)
    have hzρ : z ≠ ρ := fun hh2 => hρA (hh2 ▸ hzm)
    have hltz := list.list_cell_lt hcz
    have ha0 : (some a : nodeptr) ≠ some a0 := by
      intro hh2
      cases hh2
      exact haA (by simp)
    rw [hz] at hca
    replace hh : l.head = some a0 := hh
    refine ⟨((h.set ρ (some { ndR with left := some z })).set z
        (some { ndz with right := some ρ })).set a none, l, ?_, ?_, rfl, ?_, by simp, ?_⟩
    · have hc1 : (h.set ρ (some { ndR with left := some z }))[a]? = some (some
          ⟨some z, some ρ, some v⟩) := by
        rw [list.set_ne hρa]; exact hca
      have hc2 : (h.set ρ (some { ndR with left := some z }))[z]? = some (some ndz) := by
        rw [list.set_ne (Ne.symm hzρ)]; exact hcz
      have hc3 : ((h.set ρ (some { ndR with left := some z })).set z
          (some { ndz with right := some ρ }))[a]? = some (some
          ⟨some z, some ρ, some v⟩) := by
        rw [list.set_ne hza]; exact hc1
      simp only [list.erase, list.end_, list.begin, hf, hh, hae, ha0, if_false,
        list.rd_at hca, hR, list.wr_at hcρ, list.rd_at hc1, list.wr_at hc2,
        list.dealloc_at hc3, bind, Except.bind, pure, Except.pure]
    · refine list.join_parts h _ l ((a0, v0) :: A2) B a e hoA hoB hce hnd0 hf
        hh ?_ ?_ ?_
      · intro ρ1 nd h1 h2
        rw [hR] at h1
        cases h1
        rw [hcρ] at h2
        cases h2
        rw [list.set_ne (Ne.symm hρa), list.set_ne hzρ, list.set_same hltρ, hz]
      · intro z1 nd hz1 _ h2
        rw [hz] at hz1
        cases hz1
        rw [hcz] at h2
        cases h2
        rw [list.set_ne (Ne.symm hza), list.set_same (by simp; exact hltz), hR]
      · intro x hxa hxρ hxz
        rw [hR] at hxρ
        rw [hz] at hxz
        rw [list.set_ne (Ne.symm hxa), list.set_ne (fun hh2 => hxz (by rw [hh2])),
          list.set_ne (fun hh2 => hxρ (by rw [hh2]))]
    · exact list.set_same (by simp; exact hlta)
    · intro x hx
      obtain ⟨h1, h2, h3⟩ := hnodes x hx
      have hxz : x ≠ z := fun hh2 => h3 (hh2 ▸ hzm)
      rw [list.set_ne (Ne.symm h1), list.set_ne (Ne.symm hxz), list.set_ne (Ne.symm h2)]

/-! ## `list::insert`, `list::insert_before` and `*it = v` at a position -/

theorem list.app_lt {h : list.Heap α} {c : Option (list.node α)} {a : Nat} (hlt : a < h.length) :
    (h ++ [c])[a]? = h[a]? := by
  simp [List.getElem?_append_left hlt]

theorem list.app_len {h : list.Heap α} {c : Option (list.node α)} :
    (h ++ [c])[h.length]? = some c := by
  simp

theorem list.position_lt {h : list.Heap α} {l : list} (A : List (Nat × α)) (a : Nat) (v : α)
    (B : List (Nat × α)) (e : Nat) (hf : l.tail = some e)
    (hwf : list.well_formed h l (A ++ (a, v) :: B)) :
    e < h.length ∧ a < h.length ∧ (∀ x ∈ A.map Prod.fst, x < h.length) ∧
      (∀ x ∈ B.map Prod.fst, x < h.length) := by
  have hlt := list.list_nodes_lt h l _ hwf
  simp only [list.nodes, hf, Option.toList, List.singleton_append, List.map_append,
    List.map_cons, List.mem_cons, List.mem_append] at hlt
  exact ⟨hlt e (Or.inl rfl), hlt a (Or.inr (Or.inr (Or.inl rfl))),
    fun x hx => hlt x (Or.inr (Or.inl hx)), fun x hx => hlt x (Or.inr (Or.inr (Or.inr hx)))⟩

/-- Source `list::insert(it, w)` at the cell `a` of a well-formed list: the
new cell holds `w` and stands right after `a`. -/
theorem list.insert_at (h : list.Heap α) (l : list) (A : List (Nat × α)) (a : Nat) (v : α)
    (B : List (Nat × α)) (w : α) (hwf : list.well_formed h l (A ++ (a, v) :: B)) :
    ∃ h1, list.insert h l (some a) w = .ok (h1, l, some h.length) ∧
      list.well_formed h1 l (A ++ (a, v) :: (h.length, w) :: B) ∧
      h1.length = h.length + 1 ∧
      (∀ x, x ∉ l.nodes (A ++ (a, v) :: B) → x ≠ h.length → h1[x]? = h[x]?) := by
  obtain ⟨e, hf, hh, hoA, hca, hoB, hce, hnd⟩ := list.at_position A a v B hwf
  obtain ⟨ρ, ndR, hR, hρm, hcρ, hRl⟩ := list.right_cell a e B hoB hce
  obtain ⟨hlte, hlta, hltA, hltB⟩ := list.position_lt A a v B e hf hwf
  have hnd0 := hnd
  simp only [List.nodup_cons, List.nodup_append, List.mem_append, List.mem_cons, not_or,
    List.disjoint_cons_right] at hnd
  obtain ⟨⟨heA, hea, heB⟩, hAn, ⟨haB, hBn⟩, haA, hAB⟩ := hnd
  have hρa : ρ ≠ a := by
    rintro rfl
    rcases List.mem_cons.1 hρm with hh2 | hb
    · exact hea hh2.symm
    · exact haB hb
  have hρA : ρ ∉ A.map Prod.fst := by
    intro hm
    rcases List.mem_cons.1 hρm with rfl | hb
    · exact heA hm
    · exact hAB hm hb
  have hltρ := list.list_cell_lt hcρ
  have hae : (some a : nodeptr) ≠ some e := by
    intro hh2
    cases hh2
    exact hea rfl
  have hhead : ¬ l.head = some e := by
    rw [hh]
    cases A with
    | nil => exact hae
    | cons p A2 =>
      intro hh2
      cases hh2
      exact heA (by simp)
  rw [hR] at hca
  have hna : h.length ≠ a := Nat.ne_of_gt hlta
  have hnρ : h.length ≠ ρ := Nat.ne_of_gt hltρ
  have g1 : (h ++ [some (⟨none, none, some w⟩ : list.node α)])[a]?
      = some (some ⟨list.last none A, some ρ, some v⟩) := by
    rw [list.app_lt hlta]; exact hca
  have g2 : (h ++ [some (⟨none, none, some w⟩ : list.node α)])[ρ]? = some (some ndR) := by
    rw [list.app_lt hltρ]; exact hcρ
  have g3 : ((h ++ [some (⟨none, none, some w⟩ : list.node α)]).set ρ
      (some { ndR with left := some h.length }))[a]?
      = some (some ⟨list.last none A, some ρ, some v⟩) := by
    rw [list.set_ne hρa]; exact g1
  have g4 : ((h ++ [some (⟨none, none, some w⟩ : list.node α)]).set ρ
      (some { ndR with left := some h.length }))[h.length]?
      = some (some ⟨none, none, some w⟩) := by
    rw [list.set_ne (Ne.symm hnρ)]; exact list.app_len
  have g5 : (((h ++ [some (⟨none, none, some w⟩ : list.node α)]).set ρ
      (some { ndR with left := some h.length })).set h.length
      (some ⟨none, some ρ, some w⟩))[a]?
      = some (some ⟨list.last none A, some ρ, some v⟩) := by
    rw [list.set_ne hna]; exact g3
  have g6 : ((((h ++ [some (⟨none, none, some w⟩ : list.node α)]).set ρ
      (some { ndR with left := some h.length })).set h.length
      (some ⟨none, some ρ, some w⟩)).set a
      (some ⟨list.last none A, some h.length, some v⟩))[h.length]?
      = some (some ⟨none, some ρ, some w⟩) := by
    rw [list.set_ne (Ne.symm hna), list.set_same (by simp)]
  refine ⟨((((h ++ [some (⟨none, none, some w⟩ : list.node α)]).set ρ
      (some { ndR with left := some h.length })).set h.length
      (some ⟨none, some ρ, some w⟩)).set a
      (some ⟨list.last none A, some h.length, some v⟩)).set h.length
      (some ⟨some a, some ρ, some w⟩), ?_, ?_, by simp, ?_⟩
  · simp only [list.insert, list.p_node_allocate, hhead, if_false, list.end_, hf, hae,
      list.rd_at g1, list.wr_at g2, list.rd_at g3, list.wr_at g4, list.wr_at g5, list.wr_at g6,
      bind, Except.bind, pure, Except.pure]
  · have hfr : ∀ x, x < h.length → x ≠ a → x ≠ ρ →
        (((((h ++ [some (⟨none, none, some w⟩ : list.node α)]).set ρ
        (some { ndR with left := some h.length })).set h.length
        (some ⟨none, some ρ, some w⟩)).set a
        (some ⟨list.last none A, some h.length, some v⟩)).set h.length
        (some ⟨some a, some ρ, some w⟩))[x]? = h[x]? := by
      intro x hx hxa hxρ
      rw [list.set_ne (Ne.symm (Nat.ne_of_lt hx)), list.set_ne (Ne.symm hxa),
        list.set_ne (Ne.symm (Nat.ne_of_lt hx)), list.set_ne (Ne.symm hxρ), list.app_lt hx]
    have hcn : (((((h ++ [some (⟨none, none, some w⟩ : list.node α)]).set ρ
        (some { ndR with left := some h.length })).set h.length
        (some ⟨none, some ρ, some w⟩)).set a
        (some ⟨list.last none A, some h.length, some v⟩)).set h.length
        (some ⟨some a, some ρ, some w⟩))[h.length]? = some (some ⟨some a, some ρ, some w⟩) :=
      list.set_same (by simp)
    have hcA : (((((h ++ [some (⟨none, none, some w⟩ : list.node α)]).set ρ
        (some { ndR with left := some h.length })).set h.length
        (some ⟨none, some ρ, some w⟩)).set a
        (some ⟨list.last none A, some h.length, some v⟩)).set h.length
        (some ⟨some a, some ρ, some w⟩))[a]?
        = some (some ⟨list.last none A, some h.length, some v⟩) := by
      rw [list.set_ne hna, list.set_same (by simp; omega)]
    have hcR : (((((h ++ [some (⟨none, none, some w⟩ : list.node α)]).set ρ
        (some { ndR with left := some h.length })).set h.length
        (some ⟨none, some ρ, some w⟩)).set a
        (some ⟨list.last none A, some h.length, some v⟩)).set h.length
        (some ⟨some a, some ρ, some w⟩))[ρ]?
        = some (some { ndR with left := some h.length }) := by
      rw [list.set_ne hnρ, list.set_ne (Ne.symm hρa), list.set_ne hnρ,
        list.set_same (by simp; omega)]
    generalize (((((h ++ [some (⟨none, none, some w⟩ : list.node α)]).set ρ
        (some { ndR with left := some h.length })).set h.length
        (some ⟨none, some ρ, some w⟩)).set a
        (some ⟨list.last none A, some h.length, some v⟩)).set h.length
        (some ⟨some a, some ρ, some w⟩)) = h5 at hfr hcn hcA hcR ⊢
    obtain ⟨hoB5, hce5⟩ := list.chain_set_left h h5 (some h.length) e B (some a) hoB hce
      (List.nodup_cons.2 ⟨heB, hBn⟩)
      (by
        intro ρ1 nd h1 h2
        rw [hR] at h1
        cases h1
        rw [hcρ] at h2
        cases h2
        exact hcR)
      (by
        intro x hx hne
        rw [hR] at hne
        have hxl : x < h.length := by
          rcases List.mem_cons.1 hx with rfl | hb
          · exact hlte
          · exact hltB x hb
        refine hfr x hxl ?_ (fun hh2 => hne (by rw [hh2]))
        rintro rfl
        rcases List.mem_cons.1 hx with hh2 | hb
        · exact hea hh2.symm
        · exact haB hb)
    refine list.well_formed_of_parts _ e hf ?_ ?_ ?_ ?_
    · rw [list.first_app]
      exact hh
    · rw [list.owns_app]
      refine ⟨list.list_owns_frame h h5 A none (some a)
        (fun x hx => hfr x (hltA x hx) (fun hh2 => haA (hh2 ▸ hx))
          (fun hh2 => hρA (hh2 ▸ hx))) hoA, ?_, ?_, hoB5⟩
      · exact hcA
      · rw [hR]
        exact hcn
    · rw [list.last_app]
      exact hce5
    · simp only [List.map_append, List.map_cons, List.nodup_cons, List.nodup_append,
        List.mem_append, List.mem_cons, not_or, List.disjoint_cons_right]
      have hnA : h.length ∉ A.map Prod.fst := fun hm => Nat.lt_irrefl _ (hltA _ hm)
      have hnB : h.length ∉ B.map Prod.fst := fun hm => Nat.lt_irrefl _ (hltB _ hm)
      exact ⟨⟨heA, hea, Nat.ne_of_lt hlte, heB⟩, hAn,
        ⟨⟨Ne.symm hna, haB⟩, hnB, hBn⟩, haA, hnA, hAB⟩
  · intro x hx hxn
    simp only [list.nodes, hf, Option.toList, List.singleton_append, List.map_append,
      List.map_cons, List.mem_cons, List.mem_append, not_or] at hx
    have hxρ : x ≠ ρ := by
      rintro rfl
      rcases List.mem_cons.1 hρm with hh2 | hb
      · exact hx.1 hh2
      · exact hx.2.2.2 hb
    rw [list.set_ne (Ne.symm hxn), list.set_ne (Ne.symm hx.2.2.1),
      list.set_ne (Ne.symm hxn), list.set_ne (Ne.symm hxρ)]
    by_cases hxl : x < h.length
    · exact list.app_lt hxl
    · rw [List.getElem?_eq_none (by simp; omega), List.getElem?_eq_none (by omega)]

theorem list.join_before (h h1 : list.Heap α) (l l1 : list) (A B : List (Nat × α)) (a e : Nat)
    (v w : α) (hwf : list.well_formed h l (A ++ (a, v) :: B)) (hf : l.tail = some e)
    (hf1 : l1.tail = some e) (hh1 : l1.head = list.first (some h.length) A)
    (cn : h1[h.length]? = some (some ⟨list.last none A, some a, some w⟩))
    (ca : h1[a]? = some (some ⟨some h.length, list.first (some e) B, some v⟩))
    (cz : ∀ z nd, list.last none A = some z → z ∈ A.map Prod.fst → h[z]? = some (some nd) →
      h1[z]? = some (some { nd with right := some h.length }))
    (hfr : ∀ x, x < h.length → x ≠ a → some x ≠ list.last none A → h1[x]? = h[x]?) :
    list.well_formed h1 l1 (A ++ (h.length, w) :: (a, v) :: B) := by
  obtain ⟨e1, hf2, hh, hoA, hca, hoB, hce, hnd⟩ := list.at_position A a v B hwf
  rw [hf] at hf2
  cases hf2
  obtain ⟨hlte, hlta, hltA, hltB⟩ := list.position_lt A a v B e hf hwf
  simp only [List.nodup_cons, List.nodup_append, List.mem_append, List.mem_cons, not_or,
    List.disjoint_cons_right] at hnd
  obtain ⟨⟨heA, hea, heB⟩, hAn, ⟨haB, hBn⟩, haA, hAB⟩ := hnd
  have hnotlast : ∀ x, x ∉ A.map Prod.fst → some x ≠ list.last none A := by
    intro x hx hh2
    exact hx (list.last_in A x hh2.symm)
  refine list.well_formed_of_parts _ e hf1 ?_ ?_ ?_ ?_
  · rw [list.first_app]
    exact hh1
  · rw [list.owns_app]
    refine ⟨list.chain_set_right h h1 (some h.length) A none (some a) hoA hAn cz ?_, cn, ca, ?_⟩
    · intro x hx hne
      exact hfr x (hltA x hx) (fun hh2 => haA (hh2 ▸ hx)) hne
    · refine list.list_owns_frame h h1 B (some a) (some e) ?_ hoB
      intro x hx
      exact hfr x (hltB x hx) (fun hh2 => haB (hh2 ▸ hx))
        (hnotlast x (fun hm => hAB hm hx))
  · rw [list.last_app]
    show h1[e]? = some (some ⟨list.last (some a) B, none, none⟩)
    rw [hfr e hlte hea (hnotlast e heA)]
    exact hce
  · simp only [List.map_append, List.map_cons, List.nodup_cons, List.nodup_append,
      List.mem_append, List.mem_cons, not_or, List.disjoint_cons_right]
    have hnA : h.length ∉ A.map Prod.fst := fun hm => Nat.lt_irrefl _ (hltA _ hm)
    have hnB : h.length ∉ B.map Prod.fst := fun hm => Nat.lt_irrefl _ (hltB _ hm)
    exact ⟨⟨heA, Nat.ne_of_lt hlte, hea, heB⟩, hAn,
      ⟨⟨Nat.ne_of_gt hlta, hnB⟩, haB, hBn⟩, hnA, haA, hAB⟩

/-- Source `list::insert_before(it, w)` at the cell `a` of a well-formed list:
the new cell holds `w` and stands right before `a`. -/
theorem list.insert_before_at (h : list.Heap α) (l : list) (A : List (Nat × α)) (a : Nat)
    (v : α) (B : List (Nat × α)) (w : α) (hwf : list.well_formed h l (A ++ (a, v) :: B)) :
    ∃ h1 l1, list.insert_before h l (some a) w = .ok (h1, l1, some h.length) ∧
      list.well_formed h1 l1 (A ++ (h.length, w) :: (a, v) :: B) ∧ l1.tail = l.tail ∧
      h1.length = h.length + 1 ∧
      (∀ x, x ∉ l.nodes (A ++ (a, v) :: B) → x ≠ h.length → h1[x]? = h[x]?) := by
  obtain ⟨e, hf, hh, hoA, hca, hoB, hce, hnd⟩ := list.at_position A a v B hwf
  obtain ⟨hlte, hlta, hltA, hltB⟩ := list.position_lt A a v B e hf hwf
  have hnd0 := hnd
  simp only [List.nodup_cons, List.nodup_append, List.mem_append, List.mem_cons, not_or,
    List.disjoint_cons_right] at hnd
  obtain ⟨⟨heA, hea, heB⟩, hAn, ⟨haB, hBn⟩, haA, hAB⟩ := hnd
  have hae : (some a : nodeptr) ≠ some e := by
    intro hh2
    cases hh2
    exact hea rfl
  have hhead : ¬ l.head = some e := by
    rw [hh]
    cases A with
    | nil => exact hae
    | cons p A2 =>
      intro hh2
      cases hh2
      exact heA (by simp)
  have hna : h.length ≠ a := Nat.ne_of_gt hlta
  have hframe : ∀ (h5 : list.Heap α), (∀ x, x < h.length → x ≠ a →
      some x ≠ list.last none A → h5[x]? = h[x]?) → h5.length = h.length + 1 →
      ∀ x, x ∉ l.nodes (A ++ (a, v) :: B) → x ≠ h.length → h5[x]? = h[x]? := by
    intro h5 hfr hlen x hx hxn
    simp only [list.nodes, hf, Option.toList, List.singleton_append, List.map_append,
      List.map_cons, List.mem_cons, List.mem_append, not_or] at hx
    by_cases hxl : x < h.length
    · exact hfr x hxl hx.2.2.1 (fun hh2 => hx.2.1 (list.last_in A x hh2.symm))
    · rw [List.getElem?_eq_none (by omega), List.getElem?_eq_none (by omega)]
  cases A with
  | nil =>
    replace hh : l.head = some a := hh
    replace hca : h[a]? = some (some ⟨none, list.first (some e) B, some v⟩) := hca
    have g1 : (h ++ [some (⟨none, none, some w⟩ : list.node α)])[h.length]?
        = some (some ⟨none, none, some w⟩) := list.app_len
    have g2 : ((h ++ [some (⟨none, none, some w⟩ : list.node α)]).set h.length
        (some ⟨none, some a, some w⟩))[a]?
        = some (some ⟨none, list.first (some e) B, some v⟩) := by
      rw [list.set_ne hna, list.app_lt hlta]; exact hca
    have hfr : ∀ x, x < h.length → x ≠ a → some x ≠ list.last none ([] : List (Nat × α)) →
        (((h ++ [some (⟨none, none, some w⟩ : list.node α)]).set h.length
        (some ⟨none, some a, some w⟩)).set a
        (some ⟨some h.length, list.first (some e) B, some v⟩))[x]? = h[x]? := by
      intro x hx hxa _
      rw [list.set_ne (Ne.symm hxa), list.set_ne (Ne.symm (Nat.ne_of_lt hx)), list.app_lt hx]
    refine ⟨((h ++ [some (⟨none, none, some w⟩ : list.node α)]).set h.length
        (some ⟨none, some a, some w⟩)).set a
        (some ⟨some h.length, list.first (some e) B, some v⟩), ⟨some h.length, l.tail⟩,
        ?_, ?_, rfl, by simp, hframe _ hfr (by simp)⟩
    · simp only [list.insert_before, list.p_node_allocate, hf, hae, if_false, list.begin, hh,
        if_true, list.wr_at g1, list.wr_at g2, bind, Except.bind, pure, Except.pure]
    · refine list.join_before h _ l ⟨some h.length, l.tail⟩ [] B a e v w hwf hf hf rfl ?_ ?_
        ?_ hfr
      · rw [list.set_ne (Ne.symm hna), list.set_same (by simp)]
        rfl
      · exact list.set_same (by simp; omega)
      · intro z nd hz
        cases hz
  | cons p A2 =>
    obtain ⟨a0, v0⟩ := p
    obtain ⟨z, ndz, hz, hzm, hcz, hzr⟩ := list.left_cell a ((a0, v0) :: A2) none (by simp) hoA
    have hza : z ≠ a := fun hh2 => haA (hh2 ▸ hzm)
    have hltz := list.list_cell_lt hcz
    have hnz : h.length ≠ z := Nat.ne_of_gt hltz
    have ha0 : (some a : nodeptr) ≠ some a0 := by
      intro hh2
      cases hh2
      exact haA (by simp)
    rw [hz] at hca
    replace hh : l.head = some a0 := hh
    have g0 : (h ++ [some (⟨none, none, some w⟩ : list.node α)])[a]?
        = some (some ⟨some z, list.first (some e) B, some v⟩) := by
      rw [list.app_lt hlta]; exact hca
    have g1 : (h ++ [some (⟨none, none, some w⟩ : list.node α)])[h.length]?
        = some (some ⟨none, none, some w⟩) := list.app_len
    have g2 : ((h ++ [some (⟨none, none, some w⟩ : list.node α)]).set h.length
        (some ⟨some z, none, some w⟩))[h.length]? = some (some ⟨some z, none, some w⟩) :=
      list.set_same (by simp)
    have g3 : (((h ++ [some (⟨none, none, some w⟩ : list.node α)]).set h.length
        (some ⟨some z, none, some w⟩)).set h.length (some ⟨some z, some a, some w⟩))[a]?
        = some (some ⟨some z, list.first (some e) B, some v⟩) := by
      rw [list.set_ne hna, list.set_ne hna]; exact g0
    have g4 : (((h ++ [some (⟨none, none, some w⟩ : list.node α)]).set h.length
        (some ⟨some z, none, some w⟩)).set h.length (some ⟨some z, some a, some w⟩))[z]?
        = some (some ndz) := by
      rw [list.set_ne hnz, list.set_ne hnz, list.app_lt hltz]; exact hcz
    have g5 : ((((h ++ [some (⟨none, none, some w⟩ : list.node α)]).set h.length
        (some ⟨some z, none, some w⟩)).set h.length (some ⟨some z, some a, some w⟩)).set z
        (some { ndz with right := some h.length }))[a]?
        = some (some ⟨some z, list.first (some e) B, some v⟩) := by
      rw [list.set_ne hza]; exact g3
    have hfr : ∀ x, x < h.length → x ≠ a → some x ≠ list.last none ((a0, v0) :: A2) →
        (((((h ++ [some (⟨none, none, some w⟩ : list.node α)]).set h.length
        (some ⟨some z, none, some w⟩)).set h.length (some ⟨some z, some a, some w⟩)).set z
        (some { ndz with right := some h.length })).set a
        (some ⟨some h.length, list.first (some e) B, some v⟩))[x]? = h[x]? := by
      intro x hx hxa hxz
      rw [hz] at hxz
      rw [list.set_ne (Ne.symm hxa), list.set_ne (fun hh2 => hxz (by rw [hh2])),
        list.set_ne (Ne.symm (Nat.ne_of_lt hx)), list.set_ne (Ne.symm (Nat.ne_of_lt hx)),
        list.app_lt hx]
    refine ⟨((((h ++ [some (⟨none, none, some w⟩ : list.node α)]).set h.length
        (some ⟨some z, none, some w⟩)).set h.length (some ⟨some z, some a, some w⟩)).set z
        (some { ndz with right := some h.length })).set a
        (some ⟨some h.length, list.first (some e) B, some v⟩), l, ?_, ?_, rfl, by simp,
        hframe _ hfr (by simp)⟩
    · have h0e : (some a0 : nodeptr) ≠ some e := fun hh2 => hhead (hh.trans hh2)
      simp only [list.insert_before, list.p_node_allocate, hf, h0e, if_false, list.begin, hh,
        ha0, list.rd_at g0, list.wr_at g1, list.wr_at g2, list.rd_at g3, list.wr_at g4,
        list.wr_at g5, bind, Except.bind, pure, Except.pure]
    · refine list.join_before h _ l l ((a0, v0) :: A2) B a e v w hwf hf hf hh ?_ ?_ ?_ hfr
      · rw [list.set_ne (Ne.symm hna), list.set_ne (Ne.symm hnz), list.set_same (by simp), hz]
      · exact list.set_same (by simp; omega)
      · intro z1 nd hz1 _ h2
        rw [hz] at hz1
        cases hz1
        rw [hcz] at h2
        cases h2
        rw [list.set_ne (Ne.symm hza), list.set_same (by simp; omega)]

/-- The assignment `*it = w` at the cell `a` of a well-formed list: only the
value of that cell changes. -/
theorem list.assign_at (h : list.Heap α) (l : list) (A : List (Nat × α)) (a : Nat)
    (v : α) (B : List (Nat × α)) (w : α) (hwf : list.well_formed h l (A ++ (a, v) :: B)) :
    ∃ h1, list.deref_assign h (some a) w = .ok h1 ∧
      list.well_formed h1 l (A ++ (a, w) :: B) ∧ h1.length = h.length ∧
      (∀ x, x ≠ a → h1[x]? = h[x]?) := by
  obtain ⟨e, hf, hh, hoA, hca, hoB, hce, hnd⟩ := list.at_position A a v B hwf
  obtain ⟨hlte, hlta, hltA, hltB⟩ := list.position_lt A a v B e hf hwf
  have hnd0 := hnd
  simp only [List.nodup_cons, List.nodup_append, List.mem_append, List.mem_cons, not_or,
    List.disjoint_cons_right] at hnd
  obtain ⟨⟨heA, hea, heB⟩, hAn, ⟨haB, hBn⟩, haA, hAB⟩ := hnd
  have hfr : ∀ x, x ≠ a → (h.set a (some ⟨list.last none A, list.first (some e) B,
      some w⟩))[x]? = h[x]? := fun x hx => list.set_ne (Ne.symm hx)
  refine ⟨h.set a (some ⟨list.last none A, list.first (some e) B, some w⟩), ?_, ?_, by simp,
    hfr⟩
  · simp [list.deref_assign, list.rd_at hca, list.wr_at hca]
  · refine list.well_formed_of_parts _ e hf ?_ ?_ ?_ ?_
    · rw [list.first_app]
      exact hh
    · rw [list.owns_app]
      refine ⟨list.list_owns_frame h _ A none (some a)
        (fun x hx => hfr x (fun hh2 => haA (hh2 ▸ hx))) hoA, list.set_same hlta,
        list.list_owns_frame h _ B (some a) (some e)
          (fun x hx => hfr x (fun hh2 => haB (hh2 ▸ hx))) hoB⟩
    · rw [list.last_app]
      show _ = some (some ⟨list.last (some a) B, none, none⟩)
      rw [hfr e hea]
      exact hce
    · simpa using hnd0

/-! ## The list claims -/

theorem list.ctor_one (h0 : list.Heap α) (v : α) :
    ∃ h1 l1, list.ctor h0 1 v = .ok (h1, l1) ∧
      list.well_formed h1 l1 [(h0.length + 1, v)] ∧ list.size 2 h1 l1 = .ok 1 := by
  have hw0 : list.well_formed (h0 ++ [some (⟨none, none, none⟩ : list.node α)])
      ⟨some h0.length, some h0.length⟩ [] :=
    list.well_formed_nil_mk none rfl rfl (by simp)
  obtain ⟨h1, l1, hev, hwf, _⟩ := list.push_back_spec _ _ [] v h0.length hw0 rfl
  refine ⟨h1, l1, ?_, ?_, ?_⟩
  · simp only [list.ctor, list.p_init, list.p_node_allocate, list.ctor_loop, hev]
  · simpa using hwf
  · have := list.list_size_spec h1 l1 _ hwf 2 (by simp)
    simpa using this

theorem list.vals_erase (A : List (Nat × α)) (a : Nat) (v : α) (B : List (Nat × α)) :
    (A ++ B).map Prod.snd = ((A ++ (a, v) :: B).map Prod.snd).eraseIdx A.length := by
  induction A with
  | nil => simp
  | cons p A ih => simpa using ih

theorem list.erase_end (h : list.Heap α) (l : list) :
    list.erase h l l.end_ = .ok (h, l, l.end_) := by
  simp [list.erase, pure, Except.pure]

theorem list.next_value (h : list.Heap α) (l : list) (c : List (Nat × α))
    (hwf : list.well_formed h l c) (A : List (Nat × α)) (b : Nat) (u : α)
    (B : List (Nat × α)) (hc : c = A ++ (b, u) :: B) : list.deref h (some b) = .ok u := by
  subst hc
  obtain ⟨e, _, _, _, hcb, _⟩ := list.at_position A b u B hwf
  simp [list.deref, list.rd_at hcb]

/-- C31: `list::erase(it)` at an element of a well-formed list returns; the
cells of the list are then the former cells without that one (the element
sequence is the former one with that position deleted), the erased node is
deleted and no node outside the list changes, `size()` is one less, and the
iterator returned is the one to the element that followed, `end()` if there
was none. `erase(end())` returns `end()` and changes neither the heap nor the
list object. -/
theorem list_erase_removes_one (h : list.Heap α) (l : list) (A : List (Nat × α)) (a : Nat)
    (v : α) (B : List (Nat × α)) (hwf : list.well_formed h l (A ++ (a, v) :: B)) (F : Nat)
    (hF : (A ++ B).length + 1 ≤ F) :
    (∃ h1 l1 it, list.erase h l (some a) = .ok (h1, l1, it) ∧
      list.well_formed h1 l1 (A ++ B) ∧
      (A ++ B).map Prod.snd = ((A ++ (a, v) :: B).map Prod.snd).eraseIdx A.length ∧
      l1.end_ = l.end_ ∧ h1[a]? = some none ∧
      (∀ x, x ∉ l.nodes (A ++ (a, v) :: B) → h1[x]? = h[x]?) ∧
      list.size F h1 l1 = .ok (A ++ B).length ∧
      it = list.first l.end_ B ∧ (B = [] → it = l1.end_) ∧
      (∀ b u B2, B = (b, u) :: B2 → it = some b ∧ list.deref h1 it = .ok u)) ∧
    list.erase h l l.end_ = .ok (h, l, l.end_) := by
  obtain ⟨h1, l1, hev, hw1, hf1, hdel, _, hfr⟩ := list.erase_at h l A a v B hwf
  refine ⟨⟨h1, l1, _, hev, hw1, list.vals_erase A a v B, hf1, hdel, hfr,
    list.list_size_spec h1 l1 _ hw1 F hF, rfl, ?_, ?_⟩, list.erase_end h l⟩
  · rintro rfl
    simp [list.first, list.end_, hf1]
  · rintro b u B2 rfl
    exact ⟨rfl, list.next_value h1 l1 _ hw1 A b u B2 rfl⟩

theorem list_erase_removes_one_witness :
    (∃ h l it3, list_scenario = .ok (h, l, it3, it3)) ∧
    list_scenario = .ok (list_four_heap, list_obj, some 4, some 4) ∧
    list.well_formed list_five_heap list_obj ([(1, 0), (3, 1), (2, 2)] ++ (5, 4) :: [(4, 3)]) ∧
    ([(1, (0 : Int)), (3, 1), (2, 2)] ++ [(4, 3)]).length + 1 ≤ 5 ∧
    list.erase list_five_heap list_obj (some 5) = .ok (list_four_heap, list_obj, some 4) ∧
    ((∃ h1 l1 it, list.erase list_five_heap list_obj (some 5) = .ok (h1, l1, it) ∧
      list.well_formed h1 l1 ([(1, 0), (3, 1), (2, 2)] ++ [(4, 3)]) ∧
      ([(1, (0 : Int)), (3, 1), (2, 2)] ++ [(4, 3)]).map Prod.snd
        = (([(1, (0 : Int)), (3, 1), (2, 2)] ++ (5, 4) :: [(4, 3)]).map Prod.snd).eraseIdx
            [(1, (0 : Int)), (3, 1), (2, 2)].length ∧
      l1.end_ = list_obj.end_ ∧ h1[5]? = some none ∧
      (∀ x, x ∉ list_obj.nodes ([(1, (0 : Int)), (3, 1), (2, 2)] ++ (5, 4) :: [(4, 3)]) →
        h1[x]? = list_five_heap[x]?) ∧
      list.size 5 h1 l1 = .ok ([(1, (0 : Int)), (3, 1), (2, 2)] ++ [(4, 3)]).length ∧
      it = list.first list_obj.end_ [(4, (3 : Int))] ∧
      ([(4, (3 : Int))] = [] → it = l1.end_) ∧
      (∀ b u B2, [(4, (3 : Int))] = (b, u) :: B2 → it = some b ∧ list.deref h1 it = .ok u)) ∧
    list.erase list_five_heap list_obj list_obj.end_
      = .ok (list_five_heap, list_obj, list_obj.end_)) :=
  ⟨⟨_, _, _, rfl⟩, rfl, by decide, by decide, rfl,
    list_erase_removes_one list_five_heap list_obj [(1, 0), (3, 1), (2, 2)] 5 4 [(4, 3)]
      (by decide) 5 (by decide)⟩

/-- C32: `list(1, v)` is a well-formed list with one element and `size()` 1.
For every well-formed list, `size()` returns the number of its elements. At an
element `a` of a well-formed list, `insert(it, w)` returns and puts `w` right
after it, `insert_before(it, w)` returns and puts `w` right before it, and
`size()` then returns one more; `erase(it)` returns and takes the element out,
and `size()` returns one less; `*it = w` overwrites the value of the element,
and `size()` returns the same. Every result is a well-formed list again. -/
theorem list_size_counts_elements (h : list.Heap α) (l : list) (A : List (Nat × α)) (a : Nat)
    (v : α) (B : List (Nat × α)) (w : α) (hwf : list.well_formed h l (A ++ (a, v) :: B))
    (F : Nat) (hF : (A ++ (a, v) :: B).length + 2 ≤ F) :
    (∀ (h0 : list.Heap α) (v0 : α), ∃ h1 l1 a1, list.ctor h0 1 v0 = .ok (h1, l1) ∧
      list.well_formed h1 l1 [(a1, v0)] ∧ list.size 2 h1 l1 = .ok 1) ∧
    (∀ (h0 : list.Heap α) (l0 : list) (c : List (Nat × α)) (F0 : Nat),
      list.well_formed h0 l0 c → c.length + 1 ≤ F0 → list.size F0 h0 l0 = .ok c.length) ∧
    list.size F h l = .ok (A.length + B.length + 1) ∧
    (∃ h1 n, list.insert h l (some a) w = .ok (h1, l, some n) ∧
      list.well_formed h1 l (A ++ (a, v) :: (n, w) :: B) ∧
      list.size F h1 l = .ok (A.length + B.length + 2)) ∧
    (∃ h1 l1 n, list.insert_before h l (some a) w = .ok (h1, l1, some n) ∧
      list.well_formed h1 l1 (A ++ (n, w) :: (a, v) :: B) ∧
      list.size F h1 l1 = .ok (A.length + B.length + 2)) ∧
    (∃ h1 l1 it, list.erase h l (some a) = .ok (h1, l1, it) ∧
      list.well_formed h1 l1 (A ++ B) ∧ list.size F h1 l1 = .ok (A.length + B.length)) ∧
    (∃ h1, list.deref_assign h (some a) w = .ok h1 ∧
      list.well_formed h1 l (A ++ (a, w) :: B) ∧ list.deref h1 (some a) = .ok w ∧
      list.size F h1 l = .ok (A.length + B.length + 1)) := by
  simp only [List.length_append, List.length_cons] at hF
  refine ⟨?_, ?_, ?_, ?_, ?_, ?_, ?_⟩
  · intro h0 v0
    obtain ⟨h1, l1, h1e, h1w, h1s⟩ := list.ctor_one h0 v0
    exact ⟨h1, l1, _, h1e, h1w, h1s⟩
  · intro h0 l0 c F0 hw0 hF0
    exact list.list_size_spec h0 l0 c hw0 F0 hF0
  · have := list.list_size_spec h l _ hwf F (by simp; omega)
    simpa [Nat.add_assoc] using this
  · obtain ⟨h1, hev, hw1, _⟩ := list.insert_at h l A a v B w hwf
    refine ⟨h1, _, hev, hw1, ?_⟩
    have := list.list_size_spec h1 l _ hw1 F (by simp; omega)
    simpa [Nat.add_assoc] using this
  · obtain ⟨h1, l1, hev, hw1, _⟩ := list.insert_before_at h l A a v B w hwf
    refine ⟨h1, l1, _, hev, hw1, ?_⟩
    have := list.list_size_spec h1 l1 _ hw1 F (by simp; omega)
    simpa [Nat.add_assoc] using this
  · obtain ⟨h1, l1, hev, hw1, _⟩ := list.erase_at h l A a v B hwf
    refine ⟨h1, l1, _, hev, hw1, ?_⟩
    have := list.list_size_spec h1 l1 _ hw1 F (by simp; omega)
    simpa using this
  · obtain ⟨h1, hev, hw1, _⟩ := list.assign_at h l A a v B w hwf
    refine ⟨h1, hev, hw1, list.next_value h1 l _ hw1 A a w B rfl, ?_⟩
    have := list.list_size_spec h1 l _ hw1 F (by simp; omega)
    simpa [Nat.add_assoc] using this

theorem list_size_counts_elements_witness :
    list.well_formed list_pair_heap list_obj ([(1, 0)] ++ (3, 1) :: [(2, 2), (4, 3)]) ∧
    ([(1, (0 : Int))] ++ (3, 1) :: [(2, 2), (4, 3)]).length + 2 ≤ 7 ∧
    ((∀ (h0 : list.Heap Int) (v0 : Int), ∃ h1 l1 a1, list.ctor h0 1 v0 = .ok (h1, l1) ∧
      list.well_formed h1 l1 [(a1, v0)] ∧ list.size 2 h1 l1 = .ok 1) ∧
    (∀ (h0 : list.Heap Int) (l0 : list) (c : List (Nat × Int)) (F0 : Nat),
      list.well_formed h0 l0 c → c.length + 1 ≤ F0 → list.size F0 h0 l0 = .ok c.length) ∧
    list.size 7 list_pair_heap list_obj = .ok ([(1, (0 : Int))].length + [(2, (2 : Int)), (4, 3)].length + 1) ∧
    (∃ h1 n, list.insert list_pair_heap list_obj (some 3) 9 = .ok (h1, list_obj, some n) ∧
      list.well_formed h1 list_obj ([(1, 0)] ++ (3, 1) :: (n, 9) :: [(2, 2), (4, 3)]) ∧
      list.size 7 h1 list_obj = .ok ([(1, (0 : Int))].length + [(2, (2 : Int)), (4, 3)].length + 2)) ∧
    (∃ h1 l1 n, list.insert_before list_pair_heap list_obj (some 3) 9 = .ok (h1, l1, some n) ∧
      list.well_formed h1 l1 ([(1, 0)] ++ (n, 9) :: (3, 1) :: [(2, 2), (4, 3)]) ∧
      list.size 7 h1 l1 = .ok ([(1, (0 : Int))].length + [(2, (2 : Int)), (4, 3)].length + 2)) ∧
    (∃ h1 l1 it, list.erase list_pair_heap list_obj (some 3) = .ok (h1, l1, it) ∧
      list.well_formed h1 l1 ([(1, 0)] ++ [(2, 2), (4, 3)]) ∧
      list.size 7 h1 l1 = .ok ([(1, (0 : Int))].length + [(2, (2 : Int)), (4, 3)].length)) ∧
    (∃ h1, list.deref_assign list_pair_heap (some 3) 9 = .ok h1 ∧
      list.well_formed h1 list_obj ([(1, 0)] ++ (3, 9) :: [(2, 2), (4, 3)]) ∧
      list.deref h1 (some 3) = .ok 9 ∧
      list.size 7 h1 list_obj = .ok ([(1, (0 : Int))].length + [(2, (2 : Int)), (4, 3)].length + 1))) :=
  ⟨by decide, by decide,
    list_size_counts_elements list_pair_heap list_obj [(1, 0)] 3 1 [(2, 2), (4, 3)] 9
      (by decide) 7 (by decide)⟩

end cont
